import Mathlib

/-!
# Code-graph layout core: Graph and Physics

Shallow embedding of `cg_Graph.{h,cpp}`, `cg_Physics.{h,cpp}` and the pass
sequence of `App::Frame` (`cg_App.cpp`).

Conventions of the embedding
* `int` is `Int`. The only arithmetic on ints is `size()` and `+= 1` on counters
  bounded by the number of nodes, so 32-bit wrap-around is not modelled.
* `float` is `ℚ` (exact arithmetic: no rounding, no NaN, no infinities). A division by
  zero gives `0` here and an infinity or NaN in C++; statements that depend on a divisor
  say that it is not zero. `static_cast<int>` of a float truncates toward zero.
  `std::sqrt`, `std::sin`, `std::cos`, `std::atan2` are not code of the repository
  and are taken as a parameter (`Libm`); `std::sort` is taken to be a stable sort.
* `std::vector<T>` is `List T`; `v[i]` outside the vector is the fault
  `Fault.outOfRange` (undefined behaviour in C++).
* `std::unordered_map<std::string,int>` is an association list; `m[k] = v` puts the
  binding in front, `m.find(k)` returns the first binding of `k`.
* `while` loops whose termination depends on the data take a `fuel` argument and
  report `Fault.outOfFuel` when it is used up.
-/

namespace cg

/-! ## Data model (`cg_Graph.h`) -/

inductive NodeKind where
  | Directory
  | File
  deriving DecidableEq, Repr

structure Node where
  id : Int := -1
  kind : NodeKind := NodeKind.File
  name : String := ""
  path : String := ""
  parent_dir : Int := -1
  children : List Int := []
  subtreeDirCount : Int := 0
  px : ℚ := 0
  py : ℚ := 0
  ppx : ℚ := 0
  ppy : ℚ := 0
  mass : ℚ := 1
  fixed : Bool := false
  color_rgba : Int := 0xFF7FB2FF - 2 ^ 32
  deriving DecidableEq

structure Link where
  a : Int := -1
  b : Int := -1
  restLength : ℚ := 80
  stiffness : ℚ := 1
  deriving DecidableEq

structure Graph where
  nodes : List Node := []
  links : List Link := []
  pathToNode : List (String × Int) := []
  deriving DecidableEq

/-- Faults of the embedding: an index outside a vector, or a loop that used up its fuel. -/
inductive Fault where
  | outOfRange
  | outOfFuel
  deriving DecidableEq, Repr

/-- Lookup `pathToNode.find(path)`: `none` stands for `end()`. -/
def mapFind (m : List (String × Int)) (k : String) : Option Int :=
  match m with
  | [] => none
  | (k1, v) :: rest => if k1 = k then some v else mapFind rest k

/-- Assignment `pathToNode[path] = id`. -/
def mapAssign (m : List (String × Int)) (k : String) (v : Int) : List (String × Int) :=
  (k, v) :: m

/-- Element access `nodes[i]` for an `int` index that the code has not checked. -/
def nodeAt (nodes : List Node) (i : Int) : Except Fault Node :=
  if i < 0 then Except.error Fault.outOfRange
  else match nodes[i.toNat]? with
    | some n => Except.ok n
    | none => Except.error Fault.outOfRange

/-! ## Graph operations (`cg_Graph.cpp`) -/

/-- The statement `node.subtreeDirCount += 1`. -/
def Node.incSubtreeDirCount (n : Node) : Node :=
  { n with subtreeDirCount := n.subtreeDirCount + 1 }

/-- The statement `node.children.push_back(id)`. -/
def Node.pushChild (n : Node) (id : Int) : Node :=
  { n with children := n.children ++ [id] }

/-- The loop `while (cur >= 0) { nodes[cur].subtreeDirCount += 1; cur = nodes[cur].parent_dir; }`
of `Graph::AddDirectory`. -/
def bumpSubtreeDirCount : Nat → List Node → Int → Except Fault (List Node)
  | fuel, nodes, cur =>
    if cur < 0 then Except.ok nodes
    else match fuel with
      | 0 => Except.error Fault.outOfFuel
      | fuel + 1 =>
        match nodes[cur.toNat]? with
        | none => Except.error Fault.outOfRange
        | some n =>
          bumpSubtreeDirCount fuel (nodes.set cur.toNat n.incSubtreeDirCount) n.parent_dir

/-- The node `n` filled in by `Graph::AddDirectory` before `nodes.push_back(n)`. -/
def newDirectoryNode (id : Int) (path name : String) (parentDir : Int) : Node :=
  { id := id, kind := NodeKind.Directory, name := name, path := path, parent_dir := parentDir,
    subtreeDirCount := 0, color_rgba := 0xFF7FE07F - 2 ^ 32 }

/-- The node `n` filled in by `Graph::AddFile` before `nodes.push_back(n)`. -/
def newFileNode (id : Int) (path name : String) (parentDir : Int) : Node :=
  { id := id, kind := NodeKind.File, name := name, path := path, parent_dir := parentDir,
    color_rgba := 0xFF7FB2FF - 2 ^ 32 }

/-- The statement `nodes[parentDir].children.push_back(id)` (for `parentDir >= 0`). -/
def pushChild (nodes : List Node) (parentDir : Int) (id : Int) : Except Fault (List Node) :=
  match nodes[parentDir.toNat]? with
  | none => Except.error Fault.outOfRange
  | some p => Except.ok (nodes.set parentDir.toNat (p.pushChild id))

/-- Embedding of `Graph::AddDirectory`: the new graph and the returned id. -/
def AddDirectory (fuel : Nat) (g : Graph) (path name : String) (parentDir : Int) :
    Except Fault (Graph × Int) :=
  match mapFind g.pathToNode path with
  | some id => Except.ok (g, id)
  | none =>
    let n : Node := newDirectoryNode (g.nodes.length : Int) path name parentDir
    let nodes1 := g.nodes ++ [n]
    let index1 := mapAssign g.pathToNode path n.id
    if parentDir ≥ 0 then
      match pushChild nodes1 parentDir n.id with
      | Except.error e => Except.error e
      | Except.ok nodes2 =>
        match bumpSubtreeDirCount fuel nodes2 parentDir with
        | Except.error e => Except.error e
        | Except.ok nodes3 =>
          Except.ok ({ g with nodes := nodes3, pathToNode := index1 }, n.id)
    else Except.ok ({ g with nodes := nodes1, pathToNode := index1 }, n.id)

/-- Embedding of `Graph::AddFile`. -/
def AddFile (g : Graph) (path name : String) (parentDir : Int) : Except Fault (Graph × Int) :=
  match mapFind g.pathToNode path with
  | some id => Except.ok (g, id)
  | none =>
    let n : Node := newFileNode (g.nodes.length : Int) path name parentDir
    let nodes1 := g.nodes ++ [n]
    let index1 := mapAssign g.pathToNode path n.id
    if parentDir ≥ 0 then
      match pushChild nodes1 parentDir n.id with
      | Except.error e => Except.error e
      | Except.ok nodes2 => Except.ok ({ g with nodes := nodes2, pathToNode := index1 }, n.id)
    else Except.ok ({ g with nodes := nodes1, pathToNode := index1 }, n.id)

/-- Embedding of `Graph::AddChild`. -/
def AddChild (g : Graph) (dirId childId : Int) : Graph :=
  if dirId ≥ 0 ∧ dirId < (g.nodes.length : Int) then
    match g.nodes[dirId.toNat]? with
    | some p => { g with nodes := g.nodes.set dirId.toNat (p.pushChild childId) }
    | none => g
  else g

/-- Embedding of `Graph::AddLink`. -/
def AddLink (g : Graph) (a b : Int) (restLength stiffness : ℚ) : Graph :=
  if a < 0 ∨ b < 0 ∨ a = b then g
  else
    { g with links := g.links ++
        [{ a := a, b := b, restLength := restLength, stiffness := stiffness }] }

/-- The call `s.find_last_of(chars)`: the largest position of `s` holding one of `chars`;
`none` stands for `npos`. -/
def find_last_of (s : List Char) (chars : List Char) : Option Nat :=
  match s with
  | [] => none
  | c :: rest =>
    match find_last_of rest chars with
    | some pos => some (pos + 1)
    | none => if c ∈ chars then some 0 else none

/-- The call `s.substr(pos)` for `pos <= s.size()`. -/
def substr (s : List Char) (pos : Nat) : List Char :=
  s.drop pos

/-- The `name` computed by `FindOrAddDirectory` / `FindOrAddFile`:
`name = path; pos = path.find_last_of("/\\"); if (pos != npos) name = path.substr(pos + 1)`. -/
def lastSegment (path : String) : String :=
  match find_last_of path.data ['/', '\\'] with
  | some pos => String.mk (substr path.data (pos + 1))
  | none => path

/-- Embedding of `Graph::FindOrAddDirectory`. -/
def FindOrAddDirectory (fuel : Nat) (g : Graph) (path : String) (parentDir : Int) :
    Except Fault (Graph × Int) :=
  match mapFind g.pathToNode path with
  | some id => Except.ok (g, id)
  | none => AddDirectory fuel g path (lastSegment path) parentDir

/-- Embedding of `Graph::FindOrAddFile`. -/
def FindOrAddFile (g : Graph) (path : String) (parentDir : Int) : Except Fault (Graph × Int) :=
  match mapFind g.pathToNode path with
  | some id => Except.ok (g, id)
  | none => AddFile g path (lastSegment path) parentDir

/-- Embedding of `Graph::FindNodeByPath`. -/
def FindNodeByPath (g : Graph) (path : String) : Int :=
  match mapFind g.pathToNode path with
  | some id => id
  | none => -1

/-! ## Configuration (`cg_Config.h`) -/

structure PhysicsParams where
  time_step : ℚ := 16 / 1000
  solver_iterations : Int := 8
  link_rest_length : ℚ := 80
  link_stiffness : ℚ := 1
  repulsion_radius : ℚ := 30
  repulsion_strength : ℚ := 200
  damping : ℚ := 2 / 100
  max_displacement : ℚ := 50
  dir_children_angle_strength : ℚ := 1 / 10
  deriving DecidableEq

structure RenderParams where
  circle_radius : ℚ := 6
  zoom_speed : ℚ := 11 / 10
  pan_speed : ℚ := 1
  deriving DecidableEq

structure GraphParams where
  enable_directory_links : Bool := true
  enable_include_links : Bool := false
  dir_dir_length_coef : ℚ := 1
  dir_file_length_coef : ℚ := 1
  deriving DecidableEq

structure Config where
  source_roots : List String := []
  physics : PhysicsParams := {}
  render : RenderParams := {}
  graph : GraphParams := {}
  deriving DecidableEq

/-- The functions of `<cmath>` used by `cg_Physics.cpp`; they are not code of the
repository and every definition below takes them as a parameter. -/
structure Libm where
  sqrt : ℚ → ℚ
  sin : ℚ → ℚ
  cos : ℚ → ℚ
  atan2 : ℚ → ℚ → ℚ

/-! ## Physics passes (`cg_Physics.cpp`) -/

/-- Body of the loop of `Physics::Integrate` for one node. -/
def integrateNode (cfg : Config) (node : Node) : Node :=
  if node.fixed then node
  else
    let velocityDamping : ℚ := 1 - cfg.physics.damping
    let maxAllowedDisplacement : ℚ := cfg.physics.max_displacement
    let velocityX0 := (node.px - node.ppx) * velocityDamping
    let velocityY0 := (node.py - node.ppy) * velocityDamping
    let velocityX1 := if velocityX0 > maxAllowedDisplacement then maxAllowedDisplacement else velocityX0
    let velocityX := if velocityX1 < -maxAllowedDisplacement then -maxAllowedDisplacement else velocityX1
    let velocityY1 := if velocityY0 > maxAllowedDisplacement then maxAllowedDisplacement else velocityY0
    let velocityY := if velocityY1 < -maxAllowedDisplacement then -maxAllowedDisplacement else velocityY1
    let nextX := node.px + velocityX
    let nextY := node.py + velocityY
    { node with ppx := node.px, ppy := node.py, px := nextX, py := nextY }

/-- Embedding of `Physics::Integrate`. -/
def Integrate (cfg : Config) (g : Graph) : Graph :=
  { g with nodes := g.nodes.map (integrateNode cfg) }

/-- Body of the loop of `Physics::SatisfyConstraints` for one link. -/
def satisfyLink (m : Libm) (cfg : Config) (nodes : List Node) (link : Link) :
    Except Fault (List Node) := do
  let nodeA ← nodeAt nodes link.a
  let nodeB ← nodeAt nodes link.b
  let nodeAIsDirectory : Bool := decide (nodeA.kind = NodeKind.Directory)
  let nodeBIsDirectory : Bool := decide (nodeB.kind = NodeKind.Directory)
  let isDirectoryToDirectory : Bool := nodeAIsDirectory && nodeBIsDirectory
  let isDirectoryToFile : Bool := nodeAIsDirectory != nodeBIsDirectory
  let isFileToFile : Bool := !nodeAIsDirectory && !nodeBIsDirectory
  if (isDirectoryToDirectory || isDirectoryToFile) && !cfg.graph.enable_directory_links then
    Except.ok nodes
  else if !(isDirectoryToDirectory || isDirectoryToFile) && isFileToFile
      && !cfg.graph.enable_include_links then
    Except.ok nodes
  else
    let desiredRestLength : ℚ :=
      if isDirectoryToDirectory then
        let sizeA : Int := nodeA.subtreeDirCount + 1
        let sizeB : Int := nodeB.subtreeDirCount + 1
        let base : ℚ := 40 + ((sizeA + sizeB : Int) : ℚ) * 2
        base * cfg.graph.dir_dir_length_coef
      else if isDirectoryToFile then
        let dirNode : Node := if nodeA.kind = NodeKind.Directory then nodeA else nodeB
        let base : ℚ := 30 + (dirNode.children.length : ℚ) * 1
        base * cfg.graph.dir_file_length_coef
      else cfg.physics.link_rest_length
    let deltaX := nodeB.px - nodeA.px
    let deltaY := nodeB.py - nodeA.py
    let distanceSquared := deltaX * deltaX + deltaY * deltaY + 1 / 1000000
    let currentDistance := m.sqrt distanceSquared
    let distanceError := (currentDistance - desiredRestLength) / currentDistance
    let correctionFactor := link.stiffness * (1 / 2)
    let offsetX := deltaX * distanceError * correctionFactor
    let offsetY := deltaY * distanceError * correctionFactor
    let massA := max (1 / 10000) nodeA.mass
    let massB := max (1 / 10000) nodeB.mass
    let invA := 1 / massA
    let invB := 1 / massB
    let invSum := invA + invB
    let wA := if invSum > 0 then invA / invSum else 1 / 2
    let wB := if invSum > 0 then invB / invSum else 1 / 2
    let nodes1 :=
      if nodeA.fixed then nodes
      else nodes.set link.a.toNat
        { nodeA with px := nodeA.px + offsetX * wA, py := nodeA.py + offsetY * wA }
    -- `nodeB` is a reference: it is read again after the update of `nodeA`
    let nodeB1 ← nodeAt nodes1 link.b
    let nodes2 :=
      if nodeB1.fixed then nodes1
      else nodes1.set link.b.toNat
        { nodeB1 with px := nodeB1.px - offsetX * wB, py := nodeB1.py - offsetY * wB }
    Except.ok nodes2

/-- The loop of `Physics::SatisfyConstraints` over a sequence of links. -/
def satisfyLinks (m : Libm) (cfg : Config) : List Node → List Link → Except Fault (List Node)
  | nodes, [] => Except.ok nodes
  | nodes, link :: rest =>
    match satisfyLink m cfg nodes link with
    | Except.error e => Except.error e
    | Except.ok nodes1 => satisfyLinks m cfg nodes1 rest

/-- Embedding of `Physics::SatisfyConstraints`. -/
def SatisfyConstraints (m : Libm) (cfg : Config) (g : Graph) : Except Fault Graph :=
  match satisfyLinks m cfg g.nodes g.links with
  | Except.error e => Except.error e
  | Except.ok nodes1 => Except.ok { g with nodes := nodes1 }

/-- The conversion `static_cast<int>(x)` of a float: truncation toward zero. -/
def truncToInt (x : ℚ) : Int :=
  Int.tdiv x.num (x.den : Int)

/-- Bounding box and count of the directories, as accumulated by the first loop of
`Physics::ApplyRepulsion`: `(minX, minY, maxX, maxY, numDirectories)`. -/
def dirBounds : List Node → ℚ × ℚ × ℚ × ℚ × Int → ℚ × ℚ × ℚ × ℚ × Int
  | [], acc => acc
  | node :: rest, (minX, minY, maxX, maxY, numDirectories) =>
    if node.kind ≠ NodeKind.Directory then dirBounds rest (minX, minY, maxX, maxY, numDirectories)
    else
      dirBounds rest
        (if node.px < minX then node.px else minX,
         if node.py < minY then node.py else minY,
         if node.px > maxX then node.px else maxX,
         if node.py > maxY then node.py else maxY,
         numDirectories + 1)

/-- The lambda `get_cell_index` of `Physics::ApplyRepulsion`. -/
def get_cell_index (minX minY cellSize : ℚ) (gridSizeX gridSizeY : Int) (x y : ℚ) : Int :=
  let cellX0 := truncToInt ((x - minX) / cellSize)
  let cellX1 := if cellX0 < 0 then 0 else cellX0
  let cellX := if cellX1 ≥ gridSizeX then gridSizeX - 1 else cellX1
  let cellY0 := truncToInt ((y - minY) / cellSize)
  let cellY1 := if cellY0 < 0 then 0 else cellY0
  let cellY := if cellY1 ≥ gridSizeY then gridSizeY - 1 else cellY1
  cellY * gridSizeX + cellX

/-- The loop of `Physics::ApplyRepulsion` that fills the grid: directory `nodeIndex` is
pushed at the back of the cell of its position. -/
def fillGrid (minX minY cellSize : ℚ) (gridSizeX gridSizeY : Int) :
    List Node → Int → List (List Int) → Except Fault (List (List Int))
  | [], _, grid => Except.ok grid
  | node :: rest, nodeIndex, grid =>
    if node.kind ≠ NodeKind.Directory then
      fillGrid minX minY cellSize gridSizeX gridSizeY rest (nodeIndex + 1) grid
    else
      let index := get_cell_index minX minY cellSize gridSizeX gridSizeY node.px node.py
      if index < 0 then Except.error Fault.outOfRange
      else match grid[index.toNat]? with
        | none => Except.error Fault.outOfRange
        | some cell =>
          fillGrid minX minY cellSize gridSizeX gridSizeY rest (nodeIndex + 1)
            (grid.set index.toNat (cell ++ [nodeIndex]))

/-- The lambda `process_pair` of `Physics::ApplyRepulsion`. -/
def process_pair (m : Libm) (cfg : Config) (nodes : List Node) (indexA indexB : Int) :
    Except Fault (List Node) := do
  let repulsionRadius : ℚ := cfg.physics.repulsion_radius
  let repulsionStrength : ℚ := cfg.physics.repulsion_strength
  let repulsionRadiusSquared : ℚ := repulsionRadius * repulsionRadius
  let nodeA ← nodeAt nodes indexA
  let nodeB ← nodeAt nodes indexB
  if nodeA.kind ≠ NodeKind.Directory ∨ nodeB.kind ≠ NodeKind.Directory then
    Except.ok nodes
  else
    let deltaX := nodeB.px - nodeA.px
    let deltaY := nodeB.py - nodeA.py
    let distanceSquared := deltaX * deltaX + deltaY * deltaY + 1 / 1000000
    if distanceSquared > repulsionRadiusSquared then Except.ok nodes
    else
      let distance := m.sqrt distanceSquared
      let inverseDistance := 1 / distance
      let force := repulsionStrength * (1 - distance / repulsionRadius)
      let offsetX := deltaX * inverseDistance * force * (1 / 2)
      let offsetY := deltaY * inverseDistance * force * (1 / 2)
      let nodes1 :=
        if nodeA.fixed then nodes
        else nodes.set indexA.toNat { nodeA with px := nodeA.px - offsetX, py := nodeA.py - offsetY }
      -- `nodeB` is a reference: it is read again after the update of `nodeA`
      let nodeB1 ← nodeAt nodes1 indexB
      let nodes2 :=
        if nodeB1.fixed then nodes1
        else nodes1.set indexB.toNat
          { nodeB1 with px := nodeB1.px + offsetX, py := nodeB1.py + offsetY }
      Except.ok nodes2

/-- The pairs `(cellNodes[aIndex], cellNodes[bIndex])` with `aIndex < bIndex`, in the order of
the two nested loops over one cell. -/
def cellPairs : List Int → List (Int × Int)
  | [] => []
  | a :: rest => rest.map (fun b => (a, b)) ++ cellPairs rest

/-- The pairs handed to `process_pair` for the cells `cellNodes` and `neighborNodes`:
`for indexA in cellNodes, for indexB in neighborNodes, if (indexA < indexB)`. -/
def crossPairs (cellNodes neighborNodes : List Int) : List (Int × Int) :=
  cellNodes.flatMap (fun indexA =>
    (neighborNodes.filter (fun indexB => decide (indexA < indexB))).map (fun indexB => (indexA, indexB)))

/-- Cell `grid[index]`; the indices used by the main loop are inside the grid. -/
def gridCell (grid : List (List Int)) (index : Int) : List Int :=
  if index < 0 then [] else (grid[index.toNat]?).getD []

/-- The pairs handed to `process_pair` while the main loop of `Physics::ApplyRepulsion` is at
cell `(gridX, gridY)`. -/
def pairsAtCell (grid : List (List Int)) (gridSizeX gridSizeY gridX gridY : Int) :
    List (Int × Int) :=
  let selfIndex := gridY * gridSizeX + gridX
  let cellNodes := gridCell grid selfIndex
  cellPairs cellNodes ++
    ([-1, 0, 1] : List Int).flatMap (fun offsetY =>
      ([-1, 0, 1] : List Int).flatMap (fun offsetX =>
        if offsetX = 0 ∧ offsetY = 0 then []
        else
          let neighborX := gridX + offsetX
          let neighborY := gridY + offsetY
          if neighborX < 0 ∨ neighborY < 0 ∨ neighborX ≥ gridSizeX ∨ neighborY ≥ gridSizeY then []
          else crossPairs cellNodes (gridCell grid (neighborY * gridSizeX + neighborX))))

/-- All pairs handed to `process_pair` in one pass, in call order. -/
def repulsionPairs (grid : List (List Int)) (gridSizeX gridSizeY : Int) : List (Int × Int) :=
  (List.range gridSizeY.toNat).flatMap (fun gridY =>
    (List.range gridSizeX.toNat).flatMap (fun gridX =>
      pairsAtCell grid gridSizeX gridSizeY (gridX : Int) (gridY : Int)))

/-- Successive calls of `process_pair` on a sequence of pairs. -/
def processPairs (m : Libm) (cfg : Config) :
    List Node → List (Int × Int) → Except Fault (List Node)
  | nodes, [] => Except.ok nodes
  | nodes, (indexA, indexB) :: rest =>
    match process_pair m cfg nodes indexA indexB with
    | Except.error e => Except.error e
    | Except.ok nodes1 => processPairs m cfg nodes1 rest

/-- Embedding of `Physics::ApplyRepulsion`. The grid is not changed once filled, so the
calls of `process_pair` are those of `repulsionPairs`, in that order. -/
def ApplyRepulsion (m : Libm) (cfg : Config) (g : Graph) : Except Fault Graph :=
  let cellSize : ℚ := cfg.physics.repulsion_radius
  match dirBounds g.nodes (1000000000, 1000000000, -1000000000, -1000000000, 0) with
  | (minX, minY, maxX, maxY, numDirectories) =>
    if numDirectories ≤ 1 then Except.ok g
    else
      let gridSizeX : Int := max 1 (truncToInt ((maxX - minX) / cellSize) + 1)
      let gridSizeY : Int := max 1 (truncToInt ((maxY - minY) / cellSize) + 1)
      let grid0 : List (List Int) := List.replicate (gridSizeX.toNat * gridSizeY.toNat) []
      match fillGrid minX minY cellSize gridSizeX gridSizeY g.nodes 0 grid0 with
      | Except.error e => Except.error e
      | Except.ok grid =>
        match processPairs m cfg g.nodes (repulsionPairs grid gridSizeX gridSizeY) with
        | Except.error e => Except.error e
        | Except.ok nodes1 => Except.ok { g with nodes := nodes1 }

/-- The local `struct ChildData { int index; float angle; float radius; }`. -/
structure ChildData where
  index : Int := 0
  angle : ℚ := 0
  radius : ℚ := 0
  deriving DecidableEq, Inhabited

/-- The constant `6.28318530718f`. -/
def twoPi : ℚ := 628318530718 / 100000000000

/-- The constant `3.14159265359f`. -/
def onePi : ℚ := 314159265359 / 100000000000

/-- The loop `while (d > bound) d -= step`, at most `fuel` iterations. -/
def subWhileGt : Nat → ℚ → ℚ → ℚ → ℚ
  | 0, _, _, d => d
  | fuel + 1, bound, step, d => if d > bound then subWhileGt fuel bound step (d - step) else d

/-- The loop `while (d <= bound) d += step`, at most `fuel` iterations. -/
def addWhileLe : Nat → ℚ → ℚ → ℚ → ℚ
  | 0, _, _, d => d
  | fuel + 1, bound, step, d => if d ≤ bound then addWhileLe fuel bound step (d + step) else d

/-- The loop `while (d < bound) d += step`, at most `fuel` iterations. -/
def addWhileLt : Nat → ℚ → ℚ → ℚ → ℚ
  | 0, _, _, d => d
  | fuel + 1, bound, step, d => if d < bound then addWhileLt fuel bound step (d + step) else d

/-- A number of iterations that the wrapping loops below never exceed: each iteration moves
`d` by `twoPi` toward the target interval. -/
def wrapFuel (d : ℚ) : Nat :=
  (Rat.floor (|d| / twoPi) + 2).toNat

/-- The lambda `wrapDiffPos` of `Physics::EqualizeChildAngles`. -/
def wrapDiffPos (d : ℚ) : ℚ :=
  let d1 := addWhileLe (wrapFuel d) 0 twoPi d
  subWhileGt (wrapFuel d1) twoPi twoPi d1

/-- The two loops that wrap `angleDelta` in the single-child branch. -/
def wrapDelta (angleDelta : ℚ) : ℚ :=
  let d1 := subWhileGt (wrapFuel angleDelta) onePi twoPi angleDelta
  addWhileLt (wrapFuel d1) (-onePi) twoPi d1

/-- The loop of `Physics::EqualizeChildAngles` that collects the directory children of
`parent` lying at a distance of at least `1e-5`. -/
def collectDirChildren (m : Libm) (nodes : List Node) (parent : Node) :
    List Int → Except Fault (List ChildData)
  | [] => Except.ok []
  | childIndex :: rest =>
    match nodeAt nodes childIndex with
    | Except.error e => Except.error e
    | Except.ok node =>
      match collectDirChildren m nodes parent rest with
      | Except.error e => Except.error e
      | Except.ok tail =>
        if node.kind ≠ NodeKind.Directory then Except.ok tail
        else
          let dx := node.px - parent.px
          let dy := node.py - parent.py
          let r := m.sqrt (dx * dx + dy * dy)
          if r < 1 / 100000 then Except.ok tail
          else
            let a := m.atan2 dy dx
            Except.ok ({ index := childIndex, angle := a, radius := r } :: tail)

/-- The branch `n == 1` of `Physics::EqualizeChildAngles`. -/
def alignSingleChild (m : Libm) (strength : ℚ) (nodes : List Node) (parent : Node)
    (cd : ChildData) : Except Fault (List Node) := do
  let childIndex := cd.index
  let child ← nodeAt nodes childIndex
  let grandparentId := parent.parent_dir
  if grandparentId ≥ 0 then
    let gp ← nodeAt nodes grandparentId
    let dxgp := parent.px - gp.px
    let dygp := parent.py - gp.py
    let desiredAngle := m.atan2 dygp dxgp
    let dx := child.px - parent.px
    let dy := child.py - parent.py
    let r := m.sqrt (dx * dx + dy * dy)
    if r > 1 / 100000 then
      let currentAngle := m.atan2 dy dx
      let angleDelta := wrapDelta (desiredAngle - currentAngle)
      let tx := -(m.sin currentAngle)
      let ty := m.cos currentAngle
      let stepMag := r * angleDelta * strength
      if child.fixed then Except.ok nodes
      else
        Except.ok (nodes.set childIndex.toNat
          { child with px := child.px + tx * stepMag, py := child.py + ty * stepMag })
    else Except.ok nodes
  else Except.ok nodes

/-- The loop that accumulates `angleDelta[i] += adj; angleDelta[j] -= adj` for the indices
`i` of the list, with `j = (i + 1) % n`. -/
def accumulateAngleDelta (strength targetGap : ℚ) (dirChildren : List ChildData) (n : Nat) :
    List Nat → List ℚ → List ℚ
  | [], angleDelta => angleDelta
  | i :: rest, angleDelta =>
    let j := (i + 1) % n
    let diff := wrapDiffPos ((dirChildren.getD j default).angle - (dirChildren.getD i default).angle)
    let error := diff - targetGap
    let adj := (1 / 2) * error * strength
    let angleDelta1 := angleDelta.set i (angleDelta.getD i 0 + adj)
    let angleDelta2 := angleDelta1.set j (angleDelta1.getD j 0 - adj)
    accumulateAngleDelta strength targetGap dirChildren n rest angleDelta2

/-- The last loop of `Physics::EqualizeChildAngles`: every child is moved along its tangent by
its radius times its `angleDelta`. -/
def moveChildren (m : Libm) : List Node → List (ChildData × ℚ) → Except Fault (List Node)
  | nodes, [] => Except.ok nodes
  | nodes, (cd, delta) :: rest =>
    match nodeAt nodes cd.index with
    | Except.error e => Except.error e
    | Except.ok child =>
      let a := cd.angle
      let tx := -(m.sin a)
      let ty := m.cos a
      let stepMag := cd.radius * delta
      let moveX := tx * stepMag
      let moveY := ty * stepMag
      let nodes1 :=
        if child.fixed then nodes
        else nodes.set cd.index.toNat { child with px := child.px + moveX, py := child.py + moveY }
      moveChildren m nodes1 rest

/-- Body of the loop of `Physics::EqualizeChildAngles` for one `parentIndex`. `std::sort` is
taken to be the stable insertion sort. -/
def equalizeParent (m : Libm) (strength : ℚ) (nodes : List Node) (parentIndex : Nat) :
    Except Fault (List Node) :=
  match nodes[parentIndex]? with
  | none => Except.error Fault.outOfRange
  | some parent =>
    if parent.kind ≠ NodeKind.Directory then Except.ok nodes
    else
      match collectDirChildren m nodes parent parent.children with
      | Except.error e => Except.error e
      | Except.ok dirChildren =>
        match dirChildren with
        | [] => Except.ok nodes
        | [cd] => alignSingleChild m strength nodes parent cd
        | _ =>
          let n := dirChildren.length
          let sorted := dirChildren.insertionSort (fun a b => a.angle ≤ b.angle)
          let targetGap := twoPi / (n : ℚ)
          let angleDelta :=
            accumulateAngleDelta strength targetGap sorted n (List.range n) (List.replicate n 0)
          moveChildren m nodes (sorted.zip angleDelta)

/-- The loop of `Physics::EqualizeChildAngles` over the given parent indices. -/
def equalizeParents (m : Libm) (strength : ℚ) : List Node → List Nat → Except Fault (List Node)
  | nodes, [] => Except.ok nodes
  | nodes, parentIndex :: rest =>
    match equalizeParent m strength nodes parentIndex with
    | Except.error e => Except.error e
    | Except.ok nodes1 => equalizeParents m strength nodes1 rest

/-- Embedding of `Physics::EqualizeChildAngles`. -/
def EqualizeChildAngles (m : Libm) (cfg : Config) (g : Graph) : Except Fault Graph :=
  let strength := cfg.physics.dir_children_angle_strength
  if strength ≤ 0 then Except.ok g
  else if g.nodes.length < 2 then Except.ok g
  else
    match equalizeParents m strength g.nodes (List.range g.nodes.length) with
    | Except.error e => Except.error e
    | Except.ok nodes1 => Except.ok { g with nodes := nodes1 }

/-- The loop of `Physics::Step`: `iterations` times `SatisfyConstraints(); ApplyRepulsion();`. -/
def stepLoop (m : Libm) (cfg : Config) : Nat → Graph → Except Fault Graph
  | 0, g => Except.ok g
  | iterations + 1, g =>
    match SatisfyConstraints m cfg g with
    | Except.error e => Except.error e
    | Except.ok g1 =>
      match ApplyRepulsion m cfg g1 with
      | Except.error e => Except.error e
      | Except.ok g2 => stepLoop m cfg iterations g2

/-- Embedding of `Physics::Step`. -/
def Step (m : Libm) (cfg : Config) (g : Graph) : Except Fault Graph :=
  stepLoop m cfg cfg.physics.solver_iterations.toNat (Integrate cfg g)

/-- Embedding of `Physics::IntegrateOnly`. -/
def IntegrateOnly (cfg : Config) (g : Graph) : Graph := Integrate cfg g

/-- Embedding of `Physics::ConstraintsOnly`. -/
def ConstraintsOnly (m : Libm) (cfg : Config) (g : Graph) : Except Fault Graph :=
  SatisfyConstraints m cfg g

/-- Embedding of `Physics::RepulsionOnly`. -/
def RepulsionOnly (m : Libm) (cfg : Config) (g : Graph) : Except Fault Graph :=
  ApplyRepulsion m cfg g

/-- Embedding of `Physics::AngleEqualizationOnly`. -/
def AngleEqualizationOnly (m : Libm) (cfg : Config) (g : Graph) : Except Fault Graph :=
  EqualizeChildAngles m cfg g

/-! ## The physics part of `App::Frame` (`cg_App.cpp`) -/

/-- The pause flags of `App`. -/
structure PauseFlags where
  paused : Bool := false
  pauseIntegrate : Bool := false
  pauseConstraints : Bool := false
  pauseRepulsion : Bool := false
  deriving DecidableEq

/-- The loop of `App::Frame` over the solver iterations. -/
def frameLoop (m : Libm) (cfg : Config) (flags : PauseFlags) : Nat → Graph → Except Fault Graph
  | 0, g => Except.ok g
  | iterations + 1, g =>
    match (if flags.pauseConstraints then Except.ok g else ConstraintsOnly m cfg g) with
    | Except.error e => Except.error e
    | Except.ok g1 =>
      match AngleEqualizationOnly m cfg g1 with
      | Except.error e => Except.error e
      | Except.ok g2 =>
        match (if flags.pauseRepulsion then Except.ok g2 else RepulsionOnly m cfg g2) with
        | Except.error e => Except.error e
        | Except.ok g3 => frameLoop m cfg flags iterations g3

/-- The block `if (!_paused) { ... }` of `App::Frame`. -/
def FramePhysics (m : Libm) (cfg : Config) (flags : PauseFlags) (g : Graph) :
    Except Fault Graph :=
  if flags.paused then Except.ok g
  else
    let g1 := if flags.pauseIntegrate then g else IntegrateOnly cfg g
    frameLoop m cfg flags cfg.physics.solver_iterations.toNat g1

/-! ## Sequences of graph operations -/

/-- One call of a public operation of `Graph` that adds to the graph. -/
inductive GraphOp where
  | addDirectory (path name : String) (parentDir : Int)
  | addFile (path name : String) (parentDir : Int)
  | findOrAddDirectory (path : String) (parentDir : Int)
  | findOrAddFile (path : String) (parentDir : Int)
  | addLink (a b : Int) (restLength stiffness : ℚ)
  deriving DecidableEq

/-- Run one call, dropping the returned id. -/
def applyOp (fuel : Nat) (g : Graph) : GraphOp → Except Fault Graph
  | GraphOp.addDirectory path name parentDir =>
    (AddDirectory fuel g path name parentDir).map Prod.fst
  | GraphOp.addFile path name parentDir => (AddFile g path name parentDir).map Prod.fst
  | GraphOp.findOrAddDirectory path parentDir =>
    (FindOrAddDirectory fuel g path parentDir).map Prod.fst
  | GraphOp.findOrAddFile path parentDir => (FindOrAddFile g path parentDir).map Prod.fst
  | GraphOp.addLink a b restLength stiffness => Except.ok (AddLink g a b restLength stiffness)

/-- Run a sequence of calls, first to last. -/
def runOps (fuel : Nat) : Graph → List GraphOp → Except Fault Graph
  | g, [] => Except.ok g
  | g, op :: rest =>
    match applyOp fuel g op with
    | Except.error e => Except.error e
    | Except.ok g1 => runOps fuel g1 rest

/-- A `parentDir` argument is valid in `g`: it is `-1` or the id of a node of `g`. -/
def validParent (g : Graph) (parentDir : Int) : Bool :=
  parentDir == -1 || g.nodes.any (fun n => n.id == parentDir)

/-- The `parentDir` argument of a call is valid in `g` (nothing is asked of `AddLink`). -/
def opParentValid (g : Graph) : GraphOp → Bool
  | GraphOp.addDirectory _ _ parentDir => validParent g parentDir
  | GraphOp.addFile _ _ parentDir => validParent g parentDir
  | GraphOp.findOrAddDirectory _ parentDir => validParent g parentDir
  | GraphOp.findOrAddFile _ parentDir => validParent g parentDir
  | GraphOp.addLink _ _ _ _ => true

/-- Every call of the sequence has a `parentDir` valid in the graph it is applied to. Nothing is
asked of the calls that follow a faulting call. -/
def opsValid (fuel : Nat) : Graph → List GraphOp → Bool
  | _, [] => true
  | g, op :: rest =>
    opParentValid g op &&
      (match applyOp fuel g op with
       | Except.error _ => true
       | Except.ok g1 => opsValid fuel g1 rest)

/-! ## Well-formedness of the node sequence -/

/-- Every node has a `parent_dir` smaller than its index. -/
def ParentsBelow (nodes : List Node) : Prop :=
  ∀ (i : Nat) (n : Node), nodes[i]? = some n → n.parent_dir < (i : Int)

/-- Every node has its index as `id`. -/
def IdsAreIndices (nodes : List Node) : Prop :=
  ∀ (i : Nat) (n : Node), nodes[i]? = some n → n.id = (i : Int)

/-! ## Independent recomputation of `subtreeDirCount` -/

/-- The parent chain that starts at node `cur`: `cur`, its `parent_dir`, and so on while the
id is a node of the graph; at most `fuel` ids. -/
def parentChain (nodes : List Node) : Nat → Int → List Int
  | 0, _ => []
  | fuel + 1, cur =>
    if cur < 0 then []
    else match nodes[cur.toNat]? with
      | none => []
      | some n => cur :: parentChain nodes fuel n.parent_dir

/-- Node `x` lies below `d`: the chain `x.parent_dir, parent_dir of that, ...` passes through
`d`. A chain of more than `nodes.length` ids repeats an id, so this fuel loses nothing. -/
def isBelow (nodes : List Node) (d : Int) (x : Node) : Bool :=
  decide (d ∈ parentChain nodes nodes.length x.parent_dir)

/-- Full-tree recomputation: the number of Directory nodes other than `d` below `d`. -/
def countDirsBelow (nodes : List Node) (d : Int) : Nat :=
  nodes.countP (fun x => decide (x.kind = NodeKind.Directory) && decide (x.id ≠ d) && isBelow nodes d x)

/-- Every stored `subtreeDirCount` agrees with the recomputation. -/
def CountsOk (nodes : List Node) : Prop :=
  ∀ (i : Nat) (n : Node), nodes[i]? = some n → n.subtreeDirCount = (countDirsBelow nodes i : Int)

/-- The path index holds exactly the pairs `(path of node i, i)`. -/
def IndexOk (g : Graph) : Prop :=
  ∀ (p : String) (i : Int),
    mapFind g.pathToNode p = some i ↔ (0 ≤ i ∧ ∃ n, g.nodes[i.toNat]? = some n ∧ n.path = p)

/-- The invariant kept by the adding operations when called with valid parents. -/
structure GraphInv (g : Graph) : Prop where
  ids : IdsAreIndices g.nodes
  parents : ParentsBelow g.nodes
  counts : CountsOk g.nodes
  index : IndexOk g

/-- The nodes of `g` are still in `g1`, with the same `id` and `path`. -/
def KeepsNodes (g g1 : Graph) : Prop :=
  ∀ (i : Nat) (n : Node), g.nodes[i]? = some n →
    ∃ n1, g1.nodes[i]? = some n1 ∧ n1.id = n.id ∧ n1.path = n.path

/-- How the node sequence grows when one node is added by `AddDirectory` or `AddFile`: the old
nodes keep `id`, `kind` and `parent_dir`, and the new node `nd` comes last. -/
structure Grows (nodes nodes1 : List Node) (nd : Node) : Prop where
  length_eq : nodes1.length = nodes.length + 1
  old : ∀ (i : Nat) (n : Node), nodes[i]? = some n →
    ∃ n1, nodes1[i]? = some n1 ∧ n1.id = n.id ∧ n1.kind = n.kind ∧ n1.parent_dir = n.parent_dir
  last : nodes1[nodes.length]? = some nd
  parent_lt : nd.parent_dir < nodes.length

/-! ## Last path segment, in the words of the specification -/

/-- The two characters that separate path segments for `FindOrAddDirectory` / `FindOrAddFile`. -/
def isSeparator (c : Char) : Bool :=
  c = '/' || c = '\\'

/-- The string `name` is the part of `path` after its last separator, or the whole of `path`
when `path` holds no separator. -/
def IsLastSegment (path name : List Char) : Prop :=
  (∀ c ∈ name, isSeparator c = false) ∧
    (name = path ∨ ∃ (pre : List Char) (c : Char), isSeparator c = true ∧ path = pre ++ c :: name)

/-! ## Clamping, in the words of the specification -/

/-- The value `v` clamped to `[lo, hi]`. -/
def clamp (lo hi v : ℚ) : ℚ :=
  max lo (min v hi)

/-! ## A concrete chain of three directories -/

/-- Directories `r` at `(0, 0)`, `r/a` at `(0, 100)` and `r/a/b` at `(100, 100)`, at rest, as
`AddDirectory` links them (no links). -/
def chainGraph : Graph :=
  { nodes :=
      [{ id := 0, kind := NodeKind.Directory, name := "r", path := "r", parent_dir := -1,
         children := [1], subtreeDirCount := 2, color_rgba := 0xFF7FE07F - 2 ^ 32 },
       { id := 1, kind := NodeKind.Directory, name := "a", path := "r/a", parent_dir := 0,
         children := [2], subtreeDirCount := 1, py := 100, ppy := 100,
         color_rgba := 0xFF7FE07F - 2 ^ 32 },
       { id := 2, kind := NodeKind.Directory, name := "b", path := "r/a/b", parent_dir := 1,
         px := 100, py := 100, ppx := 100, ppy := 100, color_rgba := 0xFF7FE07F - 2 ^ 32 }],
    links := [],
    pathToNode := [("r/a/b", 2), ("r/a", 1), ("r", 0)] }

/-- The default configuration with a single solver iteration. -/
def oneIterationConfig : Config :=
  { physics := { solver_iterations := 1 } }

/-! ## A rational `Libm` for evaluating the passes on concrete graphs -/

/-- Bisection for the integer square root: `lo * lo <= n < hi * hi` is kept. -/
def isqrtLoop : Nat → Nat → Nat → Nat → Nat
  | 0, _, lo, _ => lo
  | fuel + 1, n, lo, hi =>
    if hi ≤ lo + 1 then lo
    else
      let mid := (lo + hi) / 2
      if mid * mid ≤ n then isqrtLoop fuel n mid hi else isqrtLoop fuel n lo mid

/-- Square root rounded down to six decimals (`0` for a negative argument). -/
def sqrtQ (x : ℚ) : ℚ :=
  let k := (Rat.floor (x * 1000000000000)).toNat
  (isqrtLoop (k + 1) k 0 (k + 1) : ℚ) / 1000000

/-- Arc tangent on `[-1, 1]`: `t * (pi/4 + 0.273 * (1 - |t|))`, within `0.004` of `atan t`. -/
def atanUnitQ (t : ℚ) : ℚ :=
  t * (onePi / 4 + (273 / 1000) * (1 - |t|))

/-- Approximation of `atan2 y x` by octant reduction to `atanUnitQ`. -/
def atan2Q (y x : ℚ) : ℚ :=
  if x = 0 ∧ y = 0 then 0
  else if |y| ≤ |x| then
    let a := atanUnitQ (y / x)
    if x > 0 then a else if y ≥ 0 then a + onePi else a - onePi
  else
    let a := atanUnitQ (x / y)
    if y > 0 then onePi / 2 - a else -(onePi / 2) - a

/-- Sine on `[0, pi]` by the formula of Bhaskara, `16 x (pi - x) / (5 pi^2 - 4 x (pi - x))`. -/
def sinHalfTurnQ (x : ℚ) : ℚ :=
  16 * x * (onePi - x) / (5 * onePi * onePi - 4 * x * (onePi - x))

/-- Approximation of `sin x`: reduction of `x` to `[0, 2 pi)`, then `sinHalfTurnQ`. -/
def sinQ (x : ℚ) : ℚ :=
  let r := x - twoPi * (Rat.floor (x / twoPi) : ℚ)
  if r ≤ onePi then sinHalfTurnQ r else -(sinHalfTurnQ (r - onePi))

/-- Approximation of `cos x` as `sin (x + pi/2)`. -/
def cosQ (x : ℚ) : ℚ :=
  sinQ (x + onePi / 2)

/-- The rational approximations above as a `Libm`. -/
def libmQ : Libm :=
  { sqrt := sqrtQ, sin := sinQ, cos := cosQ, atan2 := atan2Q }

/-! ## The scanner's graph updates (`cg_SourceParser.cpp`) -/

/-- Embedding of `SourceParser::NormalizePath`: every backslash becomes `/`. -/
def NormalizePath (p : List Char) : List Char :=
  p.map (fun c => if c = '\\' then '/' else c)

/-- The call `s.find(ch, pos)`: the first position at or after `pos` that holds `ch`;
`none` stands for `npos`. -/
def find_char (s : List Char) (ch : Char) (pos : Nat) : Option Nat :=
  let i := (s.drop pos).indexOf ch
  if i < (s.drop pos).length then some (pos + i) else none

/-- The call `s.substr(pos, count)`. -/
def substrCount (s : List Char) (pos count : Nat) : List Char :=
  (s.drop pos).take count

/-- The loop `while (charIndex <= normalizedPath.size())` of `ensure_directory`; `steps` bounds
the number of iterations. The result is the graph and `parentNodeId`. -/
def ensureLoop (fuel : Nat) (normalizedPath : List Char) :
    Nat → Graph → Int → List Char → Nat → Except Fault (Graph × Int)
  | 0, _, _, _, _ => Except.error Fault.outOfFuel
  | steps + 1, graph, parentNodeId, accumulatedPath, charIndex =>
    if charIndex ≤ normalizedPath.length then
      let nextSlash := find_char normalizedPath '/' charIndex
      let pathSegment : List Char :=
        match nextSlash with
        | none => substr normalizedPath charIndex
        | some pos => substrCount normalizedPath charIndex (pos - charIndex)
      let body : Except Fault (Graph × Int × List Char) :=
        if pathSegment = [] then Except.ok (graph, parentNodeId, accumulatedPath)
        else
          let accumulatedPath1 : List Char :=
            if accumulatedPath = [] then pathSegment else accumulatedPath ++ ['/'] ++ pathSegment
          let nodeId := FindNodeByPath graph (String.mk accumulatedPath1)
          if nodeId < 0 then
            match AddDirectory fuel graph (String.mk accumulatedPath1) (String.mk pathSegment)
                parentNodeId with
            | Except.error e => Except.error e
            | Except.ok (graph1, nodeId1) => Except.ok (graph1, nodeId1, accumulatedPath1)
          else Except.ok (graph, nodeId, accumulatedPath1)
      match body with
      | Except.error e => Except.error e
      | Except.ok (graph1, parentNodeId1, accumulatedPath1) =>
        match nextSlash with
        | none => Except.ok (graph1, parentNodeId1)
        | some pos => ensureLoop fuel normalizedPath steps graph1 parentNodeId1 accumulatedPath1 (pos + 1)
    else Except.ok (graph, parentNodeId)

/-- Embedding of `ensure_directory`. Every iteration of its loop moves `charIndex` past one
more `/`, so `normalizedPath.size() + 1` iterations are never exceeded. -/
def ensure_directory (fuel : Nat) (graph : Graph) (directoryPath : String) :
    Except Fault (Graph × Int) :=
  let normalizedPath := NormalizePath directoryPath.data
  if normalizedPath = [] then Except.ok (graph, -1)
  else ensureLoop fuel normalizedPath (normalizedPath.length + 1) graph (-1) [] 0

/-- The loop `while (true)` of `SourceParser::ScanRoot` that links the chain of directories
from `currentDirId` up to the root. -/
def linkChain (cfg : Config) : Nat → Graph → Int → Except Fault Graph
  | 0, _, _ => Except.error Fault.outOfFuel
  | fuel + 1, graph, currentDirId =>
    match nodeAt graph.nodes currentDirId with
    | Except.error e => Except.error e
    | Except.ok current =>
      let parentId := current.parent_dir
      if parentId < 0 then Except.ok graph
      else
        match nodeAt graph.nodes parentId with
        | Except.error e => Except.error e
        | Except.ok parent =>
          let sizeA : Int := parent.subtreeDirCount + 1
          let sizeB : Int := current.subtreeDirCount + 1
          let base : ℚ := 40 + ((sizeA + sizeB : Int) : ℚ) * 2
          linkChain cfg fuel
            (AddLink graph parentId currentDirId (base * cfg.graph.dir_dir_length_coef) (1 / 2))
            parentId

/-- The block of `SourceParser::ScanRoot` that adds the directory-to-file link. -/
def linkFile (cfg : Config) (graph : Graph) (dir_id file_id : Int) : Except Fault Graph :=
  if cfg.graph.enable_directory_links ∧ dir_id ≥ 0 then
    match nodeAt graph.nodes dir_id with
    | Except.error e => Except.error e
    | Except.ok dir =>
      let baseCount : Int := (dir.children.length : Int)
      let baseLength : ℚ := 30 + (baseCount : ℚ) * 1
      Except.ok (AddLink graph dir_id file_id (baseLength * cfg.graph.dir_file_length_coef) (3 / 5))
  else Except.ok graph

/-- The first block of `SourceParser::ScanRoot` under `_graphMutex`: `ensure_directory`, then
the links of the whole chain when directory links are enabled. The result is the graph and
`dir_id`. -/
def ensureChain (fuel : Nat) (cfg : Config) (graph : Graph) (dir_path : String) :
    Except Fault (Graph × Int) :=
  match ensure_directory fuel graph dir_path with
  | Except.error e => Except.error e
  | Except.ok (graph1, dir_id) =>
    if cfg.graph.enable_directory_links ∧ dir_id ≥ 0 then
      match linkChain cfg fuel graph1 dir_id with
      | Except.error e => Except.error e
      | Except.ok graph2 => Except.ok (graph2, dir_id)
    else Except.ok (graph1, dir_id)

/-- The second block of `SourceParser::ScanRoot` under `_graphMutex`: `FindOrAddFile`, then the
directory-to-file link when directory links are enabled. The result is the graph and
`file_id`. -/
def registerFile (cfg : Config) (graph : Graph) (file_path : String) (dir_id : Int) :
    Except Fault (Graph × Int) :=
  match FindOrAddFile graph file_path dir_id with
  | Except.error e => Except.error e
  | Except.ok (graph1, file_id) =>
    match linkFile cfg graph1 dir_id file_id with
    | Except.error e => Except.error e
    | Except.ok graph2 => Except.ok (graph2, file_id)

/-- The graph update of `SourceParser::ScanRoot` for one source file, from the path of the file
and the path of its directory (`path.string()` and `path.parent_path().string()`): the two
blocks under `_graphMutex`. The result is the graph and `file_id`. -/
def scanFile (fuel : Nat) (cfg : Config) (graph : Graph) (file_path dir_path : String) :
    Except Fault (Graph × Int) :=
  let file_path1 := String.mk (NormalizePath file_path.data)
  let dir_path1 := String.mk (NormalizePath dir_path.data)
  match ensureChain fuel cfg graph dir_path1 with
  | Except.error e => Except.error e
  | Except.ok (graph1, dir_id) => registerFile cfg graph1 file_path1 dir_id

/-- The update `scanFile` for a sequence of files `(file_path, dir_path)`, first to last. -/
def scanFiles (fuel : Nat) (cfg : Config) : Graph → List (String × String) → Except Fault Graph
  | graph, [] => Except.ok graph
  | graph, (file_path, dir_path) :: rest =>
    match scanFile fuel cfg graph file_path dir_path with
    | Except.error e => Except.error e
    | Except.ok (graph1, _) => scanFiles fuel cfg graph1 rest

/-! ## What a physics pass may change -/

/-- Node `n1` is node `n` moved: all fields but `px` and `py` are those of `n`, and a fixed `n`
is not moved at all. -/
def Node.MovedTo (n n1 : Node) : Prop :=
  n1 = { n with px := n1.px, py := n1.py } ∧ (n.fixed = true → n1 = n)

/-- Node `n1` is node `n` after an integration step: all fields but `px`, `py`, `ppx` and `ppy`
are those of `n`, and a fixed `n` is not changed at all. -/
def Node.SteppedTo (n n1 : Node) : Prop :=
  n1 = { n with px := n1.px, py := n1.py, ppx := n1.ppx, ppy := n1.ppy } ∧
    (n.fixed = true → n1 = n)

/-- The node sequence `nodes1` is `nodes` with some nodes moved. -/
def NodesMoved (nodes nodes1 : List Node) : Prop :=
  nodes1.length = nodes.length ∧
    ∀ (i : Nat) (n : Node), nodes[i]? = some n → ∃ n1, nodes1[i]? = some n1 ∧ n.MovedTo n1

/-- The node sequence `nodes1` is `nodes` with some nodes stepped. -/
def NodesStepped (nodes nodes1 : List Node) : Prop :=
  nodes1.length = nodes.length ∧
    ∀ (i : Nat) (n : Node), nodes[i]? = some n → ∃ n1, nodes1[i]? = some n1 ∧ n.SteppedTo n1

/-- The fields of a node that no physics pass writes are the same in `n` and `n1`. -/
def Node.SameTopology (n n1 : Node) : Prop :=
  n1.id = n.id ∧ n1.kind = n.kind ∧ n1.name = n.name ∧ n1.path = n.path ∧
    n1.parent_dir = n.parent_dir ∧ n1.children = n.children ∧
    n1.subtreeDirCount = n.subtreeDirCount ∧ n1.mass = n.mass ∧ n1.fixed = n.fixed ∧
    n1.color_rgba = n.color_rgba

/-- Every link joins two indices of the node sequence. -/
def LinksInRange (g : Graph) : Prop :=
  ∀ l ∈ g.links, 0 ≤ l.a ∧ l.a < (g.nodes.length : Int) ∧ 0 ≤ l.b ∧ l.b < (g.nodes.length : Int)

/-- Every `parent_dir` is below the node count and every child id is an index of the node
sequence. -/
def TreeInRange (nodes : List Node) : Prop :=
  ∀ n ∈ nodes, n.parent_dir < (nodes.length : Int) ∧
    ∀ c ∈ n.children, 0 ≤ c ∧ c < (nodes.length : Int)

/-! ## Rest lengths -/

/-- The rest length of a directory-to-directory link as the code computes it, from the
`subtreeDirCount` of the two ends: `(40 + ((P + 1) + (C + 1)) * 2) * coef`. -/
def dirDirRestLength (P C : Int) (coef : ℚ) : ℚ :=
  (40 + (((P + 1) + (C + 1) : Int) : ℚ) * 2) * coef

/-- The rest length of a directory-to-directory link in the words of the specification:
`(40 + (P + 1) + (C + 1) * 2) * coef`. -/
def specDirDirRestLength (P C : Int) (coef : ℚ) : ℚ :=
  (40 + ((P + 1 : Int) : ℚ) + ((C + 1 : Int) : ℚ) * 2) * coef

/-- The rest length of a directory-to-file link for a directory with `n` children, in the
words of the specification: `(30 + n) * coef`. -/
def dirFileRestLength (n : Nat) (coef : ℚ) : ℚ :=
  (30 + (n : ℚ)) * coef

/-- The correction that `SatisfyConstraints` applies to the ends `nodeA`, `nodeB` of a link
once the desired rest length is known: error `(dist - desired) / dist`, correction
`stiffness * 0.5`, displacement `(B - A) * error * correction` shared by inverse mass, a fixed
end left where it is. -/
def constrainPair (m : Libm) (desired : ℚ) (nodes : List Node) (link : Link)
    (nodeA nodeB : Node) : Except Fault (List Node) := do
  let deltaX := nodeB.px - nodeA.px
  let deltaY := nodeB.py - nodeA.py
  let dist := m.sqrt (deltaX * deltaX + deltaY * deltaY + 1 / 1000000)
  let error := (dist - desired) / dist
  let correction := link.stiffness * (1 / 2)
  let offsetX := deltaX * error * correction
  let offsetY := deltaY * error * correction
  let invA := 1 / max (1 / 10000) nodeA.mass
  let invB := 1 / max (1 / 10000) nodeB.mass
  let wA := if invA + invB > 0 then invA / (invA + invB) else 1 / 2
  let wB := if invA + invB > 0 then invB / (invA + invB) else 1 / 2
  let nodes1 :=
    if nodeA.fixed then nodes
    else nodes.set link.a.toNat
      { nodeA with px := nodeA.px + offsetX * wA, py := nodeA.py + offsetY * wA }
  let nodeB1 ← nodeAt nodes1 link.b
  let nodes2 :=
    if nodeB1.fixed then nodes1
    else nodes1.set link.b.toNat
      { nodeB1 with px := nodeB1.px - offsetX * wB, py := nodeB1.py - offsetY * wB }
  Except.ok nodes2

/-- The configuration `cfg` with `physics.time_step` replaced by `t` and nothing else changed. -/
def Config.withTimeStep (cfg : Config) (t : ℚ) : Config :=
  { cfg with physics := { cfg.physics with time_step := t } }

/-! ## Summaries of a graph -/

/-- The kind and the path of every node, in id order. -/
def kindsAndPaths (g : Graph) : List (NodeKind × String) :=
  g.nodes.map (fun n => (n.kind, n.path))

/-- The path of node `i` (empty when there is no such node). -/
def pathOf (g : Graph) (i : Int) : String :=
  match nodeAt g.nodes i with
  | Except.ok n => n.path
  | Except.error _ => ""

/-- The paths of the two ends of every link, in link order. -/
def linkedPaths (g : Graph) : List (String × String) :=
  g.links.map (fun l => (pathOf g l.a, pathOf g l.b))

/-! ## The content of the repulsion grid -/

/-- The directories of `nodes`, numbered from `nodeIndex` on, whose cell is `k`, in node
order: what the filling loop of `Physics::ApplyRepulsion` pushes into cell `k`. -/
def cellMembers (cellOf : Node → Int) : List Node → Int → Int → List Int
  | [], _, _ => []
  | node :: rest, nodeIndex, k =>
    if node.kind = NodeKind.Directory ∧ cellOf node = k then
      nodeIndex :: cellMembers cellOf rest (nodeIndex + 1) k
    else cellMembers cellOf rest (nodeIndex + 1) k

/-- Graph `g1` has the nodes of `g`, each with the fields that no physics pass writes
unchanged, and the links and the path index of `g`. -/
def KeepsTopology (g g1 : Graph) : Prop :=
  g1.nodes.length = g.nodes.length ∧ g1.links = g.links ∧ g1.pathToNode = g.pathToNode ∧
    ∀ (i : Nat) (n : Node), g.nodes[i]? = some n →
      ∃ n1, g1.nodes[i]? = some n1 ∧ n.SameTopology n1

/-- Every node of `g` has the same previous position `(ppx, ppy)` in `g1`. -/
def KeepsPrevious (g g1 : Graph) : Prop :=
  ∀ (i : Nat) (n : Node), g.nodes[i]? = some n →
    ∃ n1, g1.nodes[i]? = some n1 ∧ n1.ppx = n.ppx ∧ n1.ppy = n.ppy

/-- One coordinate of `get_cell_index`: the truncated quotient clamped to `[0, gridSize - 1]`. -/
def cellCoord (lo cellSize : ℚ) (gridSize : Int) (x : ℚ) : Int :=
  let cell0 := truncToInt ((x - lo) / cellSize)
  let cell1 := if cell0 < 0 then 0 else cell0
  if cell1 ≥ gridSize then gridSize - 1 else cell1

/-- The pairs handed to `process_pair` for the neighbour at offset `(offsetX, offsetY)` of
cell `(gridX, gridY)`: the body of the two offset loops of `Physics::ApplyRepulsion`. -/
def neighborPairs (grid : List (List Int)) (gridSizeX gridSizeY gridX gridY offsetX offsetY : Int) :
    List (Int × Int) :=
  if offsetX = 0 ∧ offsetY = 0 then []
  else
    let neighborX := gridX + offsetX
    let neighborY := gridY + offsetY
    if neighborX < 0 ∨ neighborY < 0 ∨ neighborX ≥ gridSizeX ∨ neighborY ≥ gridSizeY then []
    else crossPairs (gridCell grid (gridY * gridSizeX + gridX))
      (gridCell grid (neighborY * gridSizeX + neighborX))

/-- The node `n` with its position overwritten: the two assignments `node.px = x; node.py = y`. -/
def Node.placeAt (n : Node) (x y : ℚ) : Node := { n with px := x, py := y }

/-- A directory of mass 1 at `(0, 0)`, used to evaluate the repulsion pass. -/
def lightDirectory : Node :=
  { id := 0, kind := NodeKind.Directory, name := "r", path := "r", color_rgba := 0xFF7FE07F - 2 ^ 32 }

/-- A file at `(1, 0)` whose parent is `lightDirectory`. -/
def fileBetween : Node :=
  { id := 1, kind := NodeKind.File, name := "f.h", path := "r/f.h", parent_dir := 0, px := 1,
    ppx := 1 }

/-- A directory of mass 5 at `(3, 4)`: at distance 5 of `lightDirectory`. -/
def heavyDirectory : Node :=
  { id := 2, kind := NodeKind.Directory, name := "s", path := "s", px := 3, py := 4, ppx := 3,
    ppy := 4, mass := 5, color_rgba := 0xFF7FE07F - 2 ^ 32 }

/-- The graph of `lightDirectory`, `fileBetween` and `heavyDirectory`, in that order. -/
def twoDirectoryGraph : Graph :=
  { nodes := [lightDirectory, fileBetween, heavyDirectory] }

/-! ## The divisors of the constraint and repulsion steps -/

/-- The divisors of the divisions that the body of the loop of `Physics::SatisfyConstraints`
evaluates for `link`, in source order: `currentDistance` (for `distanceError`), `massA` and
`massB` (for `invA`, `invB`), and `invSum` (for `wA`, `wB`, divided by only when
`invSum > 0`). No division is evaluated when the link is skipped. -/
def satisfyLinkDivisors (m : Libm) (cfg : Config) (nodes : List Node) (link : Link) : List ℚ :=
  match nodeAt nodes link.a, nodeAt nodes link.b with
  | Except.ok nodeA, Except.ok nodeB =>
    let nodeAIsDirectory : Bool := decide (nodeA.kind = NodeKind.Directory)
    let nodeBIsDirectory : Bool := decide (nodeB.kind = NodeKind.Directory)
    let isDirectoryToDirectory : Bool := nodeAIsDirectory && nodeBIsDirectory
    let isDirectoryToFile : Bool := nodeAIsDirectory != nodeBIsDirectory
    let isFileToFile : Bool := !nodeAIsDirectory && !nodeBIsDirectory
    if (isDirectoryToDirectory || isDirectoryToFile) && !cfg.graph.enable_directory_links then []
    else if !(isDirectoryToDirectory || isDirectoryToFile) && isFileToFile
        && !cfg.graph.enable_include_links then []
    else
      let deltaX := nodeB.px - nodeA.px
      let deltaY := nodeB.py - nodeA.py
      let distanceSquared := deltaX * deltaX + deltaY * deltaY + 1 / 1000000
      let currentDistance := m.sqrt distanceSquared
      let massA := max (1 / 10000) nodeA.mass
      let massB := max (1 / 10000) nodeB.mass
      let invA := 1 / massA
      let invB := 1 / massB
      let invSum := invA + invB
      [currentDistance, massA, massB] ++ (if invSum > 0 then [invSum, invSum] else [])
  | _, _ => []

/-- The divisors of the divisions that the lambda `process_pair` of `Physics::ApplyRepulsion`
evaluates, in source order: `distance` (for `inverseDistance`) and `repulsionRadius` (for
`force`). No division is evaluated when the pair is left alone. -/
def process_pair_divisors (m : Libm) (cfg : Config) (nodes : List Node) (indexA indexB : Int) :
    List ℚ :=
  let repulsionRadius : ℚ := cfg.physics.repulsion_radius
  let repulsionRadiusSquared : ℚ := repulsionRadius * repulsionRadius
  match nodeAt nodes indexA, nodeAt nodes indexB with
  | Except.ok nodeA, Except.ok nodeB =>
    if nodeA.kind ≠ NodeKind.Directory ∨ nodeB.kind ≠ NodeKind.Directory then []
    else
      let deltaX := nodeB.px - nodeA.px
      let deltaY := nodeB.py - nodeA.py
      let distanceSquared := deltaX * deltaX + deltaY * deltaY + 1 / 1000000
      if distanceSquared > repulsionRadiusSquared then []
      else
        let distance := m.sqrt distanceSquared
        [distance, repulsionRadius]
  | _, _ => []

/-! ## The category of a link -/

/-- The test of `Physics::SatisfyConstraints` that decides whether a link between `nodeA` and
`nodeB` is processed (`true`) or skipped by `continue` (`false`). -/
def linkEnabled (cfg : Config) (nodeA nodeB : Node) : Bool :=
  let nodeAIsDirectory : Bool := decide (nodeA.kind = NodeKind.Directory)
  let nodeBIsDirectory : Bool := decide (nodeB.kind = NodeKind.Directory)
  let isDirectoryToDirectory : Bool := nodeAIsDirectory && nodeBIsDirectory
  let isDirectoryToFile : Bool := nodeAIsDirectory != nodeBIsDirectory
  let isFileToFile : Bool := !nodeAIsDirectory && !nodeBIsDirectory
  if isDirectoryToDirectory || isDirectoryToFile then cfg.graph.enable_directory_links
  else if isFileToFile then cfg.graph.enable_include_links
  else true

/-- The value of `desiredRestLength` that `Physics::SatisfyConstraints` uses for a link between
`nodeA` and `nodeB` (the stored `link.restLength` is overwritten in every branch). -/
def desiredRestLength (cfg : Config) (nodeA nodeB : Node) : ℚ :=
  let nodeAIsDirectory : Bool := decide (nodeA.kind = NodeKind.Directory)
  let nodeBIsDirectory : Bool := decide (nodeB.kind = NodeKind.Directory)
  let isDirectoryToDirectory : Bool := nodeAIsDirectory && nodeBIsDirectory
  let isDirectoryToFile : Bool := nodeAIsDirectory != nodeBIsDirectory
  if isDirectoryToDirectory then
    let sizeA : Int := nodeA.subtreeDirCount + 1
    let sizeB : Int := nodeB.subtreeDirCount + 1
    let base : ℚ := 40 + ((sizeA + sizeB : Int) : ℚ) * 2
    base * cfg.graph.dir_dir_length_coef
  else if isDirectoryToFile then
    let dirNode : Node := if nodeA.kind = NodeKind.Directory then nodeA else nodeB
    let base : ℚ := 30 + (dirNode.children.length : ℚ) * 1
    base * cfg.graph.dir_file_length_coef
  else cfg.physics.link_rest_length

/-- Every node of `nodes` that is not a directory is the same node, at the same index, in
`nodes1`. -/
def KeepsFiles (nodes nodes1 : List Node) : Prop :=
  ∀ (i : Nat) (n : Node), nodes[i]? = some n → n.kind ≠ NodeKind.Directory → nodes1[i]? = some n

/-- The pairs `(indexA, indexB)` handed to `process_pair` by one pass of
`Physics::ApplyRepulsion` on `g`, in call order: none when there are fewer than 2 directories,
else those of the main loop over the grid filled from the positions at the start of the pass. -/
def repulsionCalls (cfg : Config) (g : Graph) : List (Int × Int) :=
  let cellSize : ℚ := cfg.physics.repulsion_radius
  match dirBounds g.nodes (1000000000, 1000000000, -1000000000, -1000000000, 0) with
  | (minX, minY, maxX, maxY, numDirectories) =>
    if numDirectories ≤ 1 then []
    else
      let gridSizeX : Int := max 1 (truncToInt ((maxX - minX) / cellSize) + 1)
      let gridSizeY : Int := max 1 (truncToInt ((maxY - minY) / cellSize) + 1)
      let grid0 : List (List Int) := List.replicate (gridSizeX.toNat * gridSizeY.toNat) []
      match fillGrid minX minY cellSize gridSizeX gridSizeY g.nodes 0 grid0 with
      | Except.error _ => []
      | Except.ok grid => repulsionPairs grid gridSizeX gridSizeY

/-- The value `force` of the lambda `process_pair` for two directories at the regularised
distance `distance`: `repulsionStrength * (1 - distance / repulsionRadius)`. -/
def repulsionForce (cfg : Config) (distance : ℚ) : ℚ :=
  cfg.physics.repulsion_strength * (1 - distance / cfg.physics.repulsion_radius)

/-- Embedding of `struct JsonValue`: the `type` tag together with the payload that the tag
selects. An object is the sequence of its entries, with distinct keys when it is built by
`jsonEmplace`. -/
inductive JsonValue where
  | null
  | bool (b : Bool)
  | number (d : ℚ)
  | string (s : String)
  | array (a : List JsonValue)
  | object (o : List (String × JsonValue))

/-- Embedding of `JsonValue::is_bool`. -/
def JsonValue.is_bool : JsonValue → Bool
  | JsonValue.bool _ => true
  | _ => false

/-- Embedding of `JsonValue::is_number`. -/
def JsonValue.is_number : JsonValue → Bool
  | JsonValue.number _ => true
  | _ => false

/-- Embedding of `JsonValue::is_string`. -/
def JsonValue.is_string : JsonValue → Bool
  | JsonValue.string _ => true
  | _ => false

/-- Embedding of `JsonValue::is_array`. -/
def JsonValue.is_array : JsonValue → Bool
  | JsonValue.array _ => true
  | _ => false

/-- Embedding of `JsonValue::is_object`. -/
def JsonValue.is_object : JsonValue → Bool
  | JsonValue.object _ => true
  | _ => false

/-- The call `o.find(key)` on a `JsonObject`: `none` stands for `o.end()`. -/
def jsonFind : List (String × JsonValue) → String → Option JsonValue
  | [], _ => none
  | (k, v) :: rest, key => if k = key then some v else jsonFind rest key

/-- The call `obj.emplace(key, val)`: an entry already stored under `key` is kept. -/
def jsonEmplace (obj : List (String × JsonValue)) (key : String) (val : JsonValue) :
    List (String × JsonValue) :=
  match jsonFind obj key with
  | some _ => obj
  | none => obj ++ [(key, val)]

/-- Outcome of a function of `JsonParser`: `ok a i` is `return true` with the output `a` and the
index moved to `i`; `fail err` is `return false`, with `err` the content of `*err` at that
point (the content it had at the call unless the function assigned a message). -/
inductive Parsed (α : Type) where
  | ok (a : α) (i : Nat)
  | fail (err : String)
  | outOfFuel

/-- Embedding of `JsonParser::eof`. -/
def JsonParser.eof (s : List Char) (i : Nat) : Bool :=
  decide (i ≥ s.length)

/-- Embedding of `JsonParser::peek`. -/
def JsonParser.peek (s : List Char) (i : Nat) (c : Char) : Bool :=
  !JsonParser.eof s i && s[i]? == some c

/-- Embedding of `JsonParser::consume`: the result and the index after the call. -/
def JsonParser.consume (s : List Char) (i : Nat) (c : Char) : Bool × Nat :=
  if !JsonParser.eof s i && s[i]? == some c then (true, i + 1) else (false, i)

/-- The test `c == ' ' || c == '\t' || c == '\n' || c == '\r'` of `JsonParser::skip_ws`. -/
def JsonParser.isSpace (c : Char) : Bool :=
  c == ' ' || c == Char.ofNat 9 || c == Char.ofNat 10 || c == Char.ofNat 13

/-- Embedding of `JsonParser::skip_ws`: the index after the white space that starts at `i`. -/
def JsonParser.skip_ws (s : List Char) (i : Nat) : Nat :=
  i + ((s.drop i).takeWhile JsonParser.isSpace).length

/-- The loop of `JsonParser::parse_string` on the characters from index `i` on: the string read
and the index after its closing quote, or `none` for `return false`. -/
def JsonParser.parseStringChars : List Char → List Char → Nat → Option (String × Nat)
  | [], _, _ => none
  | c :: rest, res, i =>
    if c = '"' then some (String.mk res, i + 1)
    else if c = '\\' then
      match rest with
      | [] => none
      | e :: rest1 =>
        if e = '"' then JsonParser.parseStringChars rest1 (res ++ ['"']) (i + 2)
        else if e = '\\' then JsonParser.parseStringChars rest1 (res ++ ['\\']) (i + 2)
        else if e = '/' then JsonParser.parseStringChars rest1 (res ++ ['/']) (i + 2)
        else if e = 'b' then JsonParser.parseStringChars rest1 (res ++ [Char.ofNat 8]) (i + 2)
        else if e = 'f' then JsonParser.parseStringChars rest1 (res ++ [Char.ofNat 12]) (i + 2)
        else if e = 'n' then JsonParser.parseStringChars rest1 (res ++ [Char.ofNat 10]) (i + 2)
        else if e = 'r' then JsonParser.parseStringChars rest1 (res ++ [Char.ofNat 13]) (i + 2)
        else if e = 't' then JsonParser.parseStringChars rest1 (res ++ [Char.ofNat 9]) (i + 2)
        else none
    else JsonParser.parseStringChars rest (res ++ [c]) (i + 1)

/-- Embedding of `JsonParser::parse_string`; it never assigns `*err`. -/
def JsonParser.parse_string (s : List Char) (i : Nat) : Option (String × Nat) :=
  match JsonParser.consume s i '"' with
  | (false, _) => none
  | (true, i1) => JsonParser.parseStringChars (s.drop i1) [] i1

/-- The loop `for (k...) if (eof() || s[i++] != t[k]) return false;` of `parse_true`,
`parse_false` and `parse_null`: the index after the literal, or `none` for `return false`. -/
def JsonParser.parseLiteral (s : List Char) (i : Nat) (literal : List Char) : Option Nat :=
  if (s.drop i).take literal.length = literal then some (i + literal.length) else none

/-- Embedding of `JsonParser::parse_true`. -/
def JsonParser.parse_true (s : List Char) (i : Nat) : Option Nat :=
  JsonParser.parseLiteral s i ['t', 'r', 'u', 'e']

/-- Embedding of `JsonParser::parse_false`. -/
def JsonParser.parse_false (s : List Char) (i : Nat) : Option Nat :=
  JsonParser.parseLiteral s i ['f', 'a', 'l', 's', 'e']

/-- Embedding of `JsonParser::parse_null`. -/
def JsonParser.parse_null (s : List Char) (i : Nat) : Option Nat :=
  JsonParser.parseLiteral s i ['n', 'u', 'l', 'l']

/-- The test `std::isdigit` on an ASCII character. -/
def JsonParser.isDigit (c : Char) : Bool :=
  decide ('0' ≤ c ∧ c ≤ '9')

/-- The test `std::isdigit(s[i])`, false at the end of the input. -/
def JsonParser.isDigitAt (s : List Char) (i : Nat) : Bool :=
  match s[i]? with
  | some c => JsonParser.isDigit c
  | none => false

/-- The loop `while (!eof() && std::isdigit(s[i])) i++;`. -/
def JsonParser.skipDigits (s : List Char) (i : Nat) : Nat :=
  i + ((s.drop i).takeWhile JsonParser.isDigit).length

/-- Embedding of `JsonParser::parse_number`. The conversion `std::stod` is the parameter `stod`,
`none` standing for a thrown exception. The function never assigns `*err`. -/
def JsonParser.parse_number (stod : List Char → Option ℚ) (s : List Char) (i : Nat) :
    Option (ℚ × Nat) :=
  let start := i
  let i1 := if JsonParser.peek s i '-' then i + 1 else i
  if JsonParser.eof s i1 then none
  else
    let afterInt : Option Nat :=
      if s[i1]? = some '0' then some (i1 + 1)
      else if JsonParser.isDigitAt s i1 then some (JsonParser.skipDigits s i1)
      else none
    match afterInt with
    | none => none
    | some i2 =>
      let afterFraction : Option Nat :=
        if !JsonParser.eof s i2 && s[i2]? == some '.' then
          if JsonParser.eof s (i2 + 1) || !JsonParser.isDigitAt s (i2 + 1) then none
          else some (JsonParser.skipDigits s (i2 + 1))
        else some i2
      match afterFraction with
      | none => none
      | some i3 =>
        let afterExponent : Option Nat :=
          if !JsonParser.eof s i3 && (s[i3]? == some 'e' || s[i3]? == some 'E') then
            let i4 := i3 + 1
            let i5 :=
              if !JsonParser.eof s i4 && (s[i4]? == some '+' || s[i4]? == some '-') then i4 + 1
              else i4
            if JsonParser.eof s i5 || !JsonParser.isDigitAt s i5 then none
            else some (JsonParser.skipDigits s i5)
          else some i3
        match afterExponent with
        | none => none
        | some i6 =>
          match stod (substrCount s start (i6 - start)) with
          | none => none
          | some value => some (value, i6)

mutual

/-- Embedding of `JsonParser::parse_value`; `fuel` bounds the depth of the calls. -/
def JsonParser.parse_value (stod : List Char → Option ℚ) (s : List Char) :
    Nat → Nat → String → Parsed JsonValue
  | 0, _, _ => Parsed.outOfFuel
  | fuel + 1, i0, err =>
    let i := JsonParser.skip_ws s i0
    if JsonParser.eof s i then Parsed.fail err
    else
      let c := s.getD i ' '
      if c = '"' then
        match JsonParser.parse_string s i with
        | none => Parsed.fail err
        | some (str, j) => Parsed.ok (JsonValue.string str) j
      else if c = Char.ofNat 123 then JsonParser.parse_object stod s fuel i err
      else if c = '[' then JsonParser.parse_array stod s fuel i err
      else if c = 't' then
        match JsonParser.parse_true s i with
        | none => Parsed.fail err
        | some j => Parsed.ok (JsonValue.bool true) j
      else if c = 'f' then
        match JsonParser.parse_false s i with
        | none => Parsed.fail err
        | some j => Parsed.ok (JsonValue.bool false) j
      else if c = 'n' then
        match JsonParser.parse_null s i with
        | none => Parsed.fail err
        | some j => Parsed.ok JsonValue.null j
      else
        match JsonParser.parse_number stod s i with
        | some (num, j) => Parsed.ok (JsonValue.number num) j
        | none => Parsed.fail "Invalid JSON value"

/-- Embedding of `JsonParser::parse_object` up to its loop. -/
def JsonParser.parse_object (stod : List Char → Option ℚ) (s : List Char) :
    Nat → Nat → String → Parsed JsonValue
  | 0, _, _ => Parsed.outOfFuel
  | fuel + 1, i0, err =>
    match JsonParser.consume s i0 (Char.ofNat 123) with
    | (false, _) => Parsed.fail err
    | (true, i1) =>
      let i2 := JsonParser.skip_ws s i1
      if JsonParser.peek s i2 (Char.ofNat 125) then Parsed.ok (JsonValue.object []) (i2 + 1)
      else JsonParser.parseObjectLoop stod s fuel i2 err []

/-- The loop `while (true)` of `JsonParser::parse_object`, one call for each iteration. -/
def JsonParser.parseObjectLoop (stod : List Char → Option ℚ) (s : List Char) :
    Nat → Nat → String → List (String × JsonValue) → Parsed JsonValue
  | 0, _, _, _ => Parsed.outOfFuel
  | fuel + 1, i0, err, obj =>
    let i1 := JsonParser.skip_ws s i0
    match JsonParser.parse_string s i1 with
    | none => Parsed.fail err
    | some (key, i2) =>
      let i3 := JsonParser.skip_ws s i2
      match JsonParser.consume s i3 ':' with
      | (false, _) => Parsed.fail "Expected ':' in object"
      | (true, i4) =>
        let i5 := JsonParser.skip_ws s i4
        match JsonParser.parse_value stod s fuel i5 err with
        | Parsed.outOfFuel => Parsed.outOfFuel
        | Parsed.fail e => Parsed.fail e
        | Parsed.ok val i6 =>
          let obj1 := jsonEmplace obj key val
          let i7 := JsonParser.skip_ws s i6
          match JsonParser.consume s i7 (Char.ofNat 125) with
          | (true, i8) => Parsed.ok (JsonValue.object obj1) i8
          | (false, _) =>
            match JsonParser.consume s i7 ',' with
            | (false, _) => Parsed.fail "Expected ',' in object"
            | (true, i9) => JsonParser.parseObjectLoop stod s fuel i9 err obj1

/-- Embedding of `JsonParser::parse_array` up to its loop. -/
def JsonParser.parse_array (stod : List Char → Option ℚ) (s : List Char) :
    Nat → Nat → String → Parsed JsonValue
  | 0, _, _ => Parsed.outOfFuel
  | fuel + 1, i0, err =>
    match JsonParser.consume s i0 '[' with
    | (false, _) => Parsed.fail err
    | (true, i1) =>
      let i2 := JsonParser.skip_ws s i1
      if JsonParser.peek s i2 ']' then Parsed.ok (JsonValue.array []) (i2 + 1)
      else JsonParser.parseArrayLoop stod s fuel i2 err []

/-- The loop `while (true)` of `JsonParser::parse_array`, one call for each iteration. -/
def JsonParser.parseArrayLoop (stod : List Char → Option ℚ) (s : List Char) :
    Nat → Nat → String → List JsonValue → Parsed JsonValue
  | 0, _, _, _ => Parsed.outOfFuel
  | fuel + 1, i0, err, arr =>
    match JsonParser.parse_value stod s fuel i0 err with
    | Parsed.outOfFuel => Parsed.outOfFuel
    | Parsed.fail e => Parsed.fail e
    | Parsed.ok val i1 =>
      let arr1 := arr ++ [val]
      let i2 := JsonParser.skip_ws s i1
      match JsonParser.consume s i2 ']' with
      | (true, i3) => Parsed.ok (JsonValue.array arr1) i3
      | (false, _) =>
        match JsonParser.consume s i2 ',' with
        | (false, _) => Parsed.fail "Expected ',' in array"
        | (true, i4) => JsonParser.parseArrayLoop stod s fuel i4 err arr1

end

/-- Embedding of `JsonParser::Parse`: `ok root i` for `true` with `out_value = root`, `fail err`
for `false` with `out_error = err`. -/
def JsonParser.Parse (stod : List Char → Option ℚ) (fuel : Nat) (input : String)
    (out_error : String) : Parsed JsonValue :=
  let s := input.data
  let i0 := JsonParser.skip_ws s 0
  match JsonParser.parse_value stod s fuel i0 out_error with
  | Parsed.outOfFuel => Parsed.outOfFuel
  | Parsed.fail e => Parsed.fail e
  | Parsed.ok root i1 =>
    let i2 := JsonParser.skip_ws s i1
    if !JsonParser.eof s i2 then Parsed.fail "Trailing characters after JSON value"
    else Parsed.ok root i2

/-- Embedding of `get_number_or`. -/
def get_number_or (v : JsonValue) (dflt : ℚ) : ℚ :=
  match v with
  | JsonValue.number d => d
  | _ => dflt

/-- Embedding of `get_numberf_or`. -/
def get_numberf_or (v : JsonValue) (dflt : ℚ) : ℚ :=
  match v with
  | JsonValue.number d => d
  | _ => dflt

/-- Embedding of `parse_array_of_strings`: the value of `out` after the call. -/
def parse_array_of_strings (v : JsonValue) (out : List String) : List String :=
  match v with
  | JsonValue.array a =>
    out ++ a.filterMap (fun it =>
      match it with
      | JsonValue.string str => some str
      | _ => none)
  | _ => out

/-- The statement `if (auto it = p.find(key); it != p.end()) x = get_number_or(it->second, x);`
of `Config::Parse`: the value of `x` after it, from its value `current` before it. -/
def numberField (p : List (String × JsonValue)) (key : String) (current : ℚ) : ℚ :=
  match jsonFind p key with
  | some v => get_number_or v current
  | none => current

/-- The statement `if (it != p.end()) x = get_numberf_or(it->second, x);` of `Config::Parse`. -/
def numberfField (p : List (String × JsonValue)) (key : String) (current : ℚ) : ℚ :=
  match jsonFind p key with
  | some v => get_numberf_or v current
  | none => current

/-- The statement
`if (it != p.end()) x = static_cast<int>(get_number_or(it->second, x));` of `Config::Parse`, for
the `int` field `x`. -/
def intField (p : List (String × JsonValue)) (key : String) (current : Int) : Int :=
  match jsonFind p key with
  | some v => truncToInt (get_number_or v (current : ℚ))
  | none => current

/-- The statement `if (it != g.end() && it->second.is_bool()) x = it->second.as_bool();` of
`Config::Parse`. -/
def boolField (g : List (String × JsonValue)) (key : String) (current : Bool) : Bool :=
  match jsonFind g key with
  | some (JsonValue.bool b) => b
  | _ => current

/-- Embedding of `Config::Parse`: the result, the value of `out` and the value of `error` after
the call. Every statement of the three blocks assigns one field from the value of that same
field, so the blocks are written field by field (`time_step` is assigned twice, as in the
source). -/
def Config.Parse (root : JsonValue) (out : Config) (error : String) : Bool × Config × String :=
  match root with
  | JsonValue.object o =>
    let source_roots : List String :=
      match jsonFind o "source_roots" with
      | some v => parse_array_of_strings v out.source_roots
      | none => out.source_roots
    let physics : PhysicsParams :=
      match jsonFind o "physics" with
      | some (JsonValue.object p) =>
        { time_step := numberField p "time_step" (numberField p "time_step" out.physics.time_step),
          solver_iterations := intField p "solver_iterations" out.physics.solver_iterations,
          link_rest_length := numberField p "link_rest_length" out.physics.link_rest_length,
          link_stiffness := numberField p "link_stiffness" out.physics.link_stiffness,
          repulsion_radius := numberField p "repulsion_radius" out.physics.repulsion_radius,
          repulsion_strength := numberField p "repulsion_strength" out.physics.repulsion_strength,
          damping := numberField p "damping" out.physics.damping,
          max_displacement := numberField p "max_displacement" out.physics.max_displacement,
          dir_children_angle_strength :=
            numberfField p "dir_children_angle_strength" out.physics.dir_children_angle_strength }
      | _ => out.physics
    let render : RenderParams :=
      match jsonFind o "render" with
      | some (JsonValue.object r) =>
        { circle_radius := numberfField r "circle_radius" out.render.circle_radius,
          zoom_speed := numberfField r "zoom_speed" out.render.zoom_speed,
          pan_speed := numberfField r "pan_speed" out.render.pan_speed }
      | _ => out.render
    let graph : GraphParams :=
      match jsonFind o "graph" with
      | some (JsonValue.object g) =>
        { enable_directory_links :=
            boolField g "enable_directory_links" out.graph.enable_directory_links,
          enable_include_links := boolField g "enable_include_links" out.graph.enable_include_links,
          dir_dir_length_coef := numberfField g "dir_dir_length_coef" out.graph.dir_dir_length_coef,
          dir_file_length_coef :=
            numberfField g "dir_file_length_coef" out.graph.dir_file_length_coef }
      | _ => out.graph
    (true, { source_roots := source_roots, physics := physics, render := render, graph := graph },
      error)
  | _ => (false, out, "Config root must be object")

/-- Embedding of `Config::LoadFromJson`: the result, the value of `out` and the value of
`error` after the call. -/
def Config.LoadFromJson (stod : List Char → Option ℚ) (fuel : Nat) (json_text : String)
    (out : Config) (error : String) : Except Fault (Bool × Config × String) :=
  match JsonParser.Parse stod fuel json_text error with
  | Parsed.outOfFuel => Except.error Fault.outOfFuel
  | Parsed.fail e => Except.ok (false, out, e)
  | Parsed.ok root _ => Except.ok (Config.Parse root out error)

/-- The value stored under `key` in the section `sect` of the object `o`, when `sect` is present
and is itself an object that holds `key`. -/
def valueAt (o : List (String × JsonValue)) (sect key : String) : Option JsonValue :=
  match jsonFind o sect with
  | some (JsonValue.object p) => jsonFind p key
  | _ => none

/-- The value of a decimal digit. -/
def digitValue (c : Char) : Nat :=
  c.toNat - '0'.toNat

/-- The number written by a sequence of decimal digits. -/
def digitsValue (cs : List Char) : Nat :=
  cs.foldl (fun acc c => acc * 10 + digitValue c) 0

/-- An exact `stod` for the texts that `parse_number` accepts: the rational number that the
decimal literal denotes, with no rounding and no range error. -/
def stodQ (text : List Char) : Option ℚ :=
  let negative : Bool := text.head? == some '-'
  let rest := if negative then text.drop 1 else text
  let intPart := rest.takeWhile JsonParser.isDigit
  let rest1 := rest.dropWhile JsonParser.isDigit
  let fracPart := if rest1.head? == some '.' then (rest1.drop 1).takeWhile JsonParser.isDigit else []
  let rest2 := if rest1.head? == some '.' then (rest1.drop 1).dropWhile JsonParser.isDigit else rest1
  let expDigits := (rest2.drop 1).dropWhile (fun c => c == '+' || c == '-')
  let expNegative : Bool := (rest2.drop 1).head? == some '-'
  let mantissa : ℚ := (digitsValue intPart : ℚ) + (digitsValue fracPart : ℚ) / 10 ^ fracPart.length
  let scaled : ℚ :=
    if expNegative then mantissa / 10 ^ digitsValue expDigits
    else mantissa * 10 ^ digitsValue expDigits
  some (if negative then -scaled else scaled)

/-- The field `key` of the section `sect` is not supplied as a number by the object `o`: the
section is absent or is not an object, or the key is absent from it, or its value is not a
number. -/
def lacksNumber (o : List (String × JsonValue)) (sect key : String) : Bool :=
  match valueAt o sect key with
  | some v => !v.is_number
  | none => true

/-- The field `key` of the section `sect` is not supplied as a boolean by the object `o`. -/
def lacksBool (o : List (String × JsonValue)) (sect key : String) : Bool :=
  match valueAt o sect key with
  | some v => !v.is_bool
  | none => true

/-- The strings among the elements of a JSON array, in order. -/
def stringElements : List JsonValue → List String
  | [] => []
  | JsonValue.string str :: rest => str :: stringElements rest
  | _ :: rest => stringElements rest

/-- A configuration object with a field of the wrong type, a section of the wrong type and
mixed `source_roots`. -/
def sampleConfigObject : List (String × JsonValue) :=
  [("physics", JsonValue.object
      [("time_step", JsonValue.string "fast"), ("damping", JsonValue.number (1 / 2)),
       ("solver_iterations", JsonValue.bool true)]),
   ("graph", JsonValue.number 3),
   ("source_roots", JsonValue.array [JsonValue.string "a", JsonValue.number 1,
      JsonValue.string "b"])]

/-! ## The worker threads of `SourceParser::Run` (`cg_SourceParser.cpp`) -/

/-- The local variables that a worker thread carries from one block to the next: `dir_id` and
`file_id` of `ScanRoot` (the latter is `file_node_id` in `ParseIncludesForFile`), and `dir_id`
and `inc_id` of `ParseIncludesForFile`. -/
structure ThreadLocals where
  dir_id : Int := -1
  file_id : Int := -1
  inc_dir_id : Int := -1
  inc_id : Int := -1
  deriving DecidableEq

/-- A statement of a worker thread, as far as the shared graph and `_graphMutex` are concerned:
`lock` is the construction of a `std::lock_guard<std::mutex>` on `_graphMutex`, `unlock` the end
of its scope, and `access f` a statement that reads or writes the shared graph. -/
inductive Stmt where
  | lock
  | unlock
  | access (f : Graph → ThreadLocals → Except Fault (Graph × ThreadLocals))

/-- An `#include` line of a source file that `ParseIncludesForFile` resolves: `found` is
`candidatePath.string()` and `dir_path` the `parent_path()` of it. -/
structure IncludeHit where
  found : String
  dir_path : String
  deriving DecidableEq

/-- A regular file with a source extension met by the directory iterator of `ScanRoot`:
`path.string()`, `path.parent_path().string()` and the resolved `#include` lines of the file,
in order. They are read from the file system, not from the graph. -/
structure SourceFile where
  file_path : String
  dir_path : String
  includes : List IncludeHit
  deriving DecidableEq

/-- The statements of `ParseIncludesForFile` for one resolved `#include` line: one block under
`_graphMutex`. -/
def includeBlock (fuel : Nat) (cfg : Config) (inc : IncludeHit) : List Stmt :=
  let found := String.mk (NormalizePath inc.found.data)
  let dir_path := String.mk (NormalizePath inc.dir_path.data)
  [Stmt.lock,
   Stmt.access (fun graph l =>
     match ensure_directory fuel graph dir_path with
     | Except.error e => Except.error e
     | Except.ok (graph1, dir_id) => Except.ok (graph1, { l with inc_dir_id := dir_id })),
   Stmt.access (fun graph l =>
     if cfg.graph.enable_directory_links ∧ l.inc_dir_id ≥ 0 then
       match linkChain cfg fuel graph l.inc_dir_id with
       | Except.error e => Except.error e
       | Except.ok graph1 => Except.ok (graph1, l)
     else Except.ok (graph, l)),
   Stmt.access (fun graph l =>
     match FindOrAddFile graph found l.inc_dir_id with
     | Except.error e => Except.error e
     | Except.ok (graph1, inc_id) => Except.ok (graph1, { l with inc_id := inc_id })),
   Stmt.access (fun graph l =>
     match linkFile cfg graph l.inc_dir_id l.inc_id with
     | Except.error e => Except.error e
     | Except.ok graph1 => Except.ok (graph1, l)),
   Stmt.access (fun graph l =>
     if cfg.graph.enable_include_links then
       Except.ok (AddLink graph l.file_id l.inc_id cfg.physics.link_rest_length
         cfg.physics.link_stiffness, l)
     else Except.ok (graph, l)),
   Stmt.unlock]

/-- The statements of one iteration of the loop of `ScanRoot`, for the file `f`: the two blocks
under `_graphMutex`, then `ParseIncludesForFile(file_path, file_id)`. -/
def fileBlocks (fuel : Nat) (cfg : Config) (f : SourceFile) : List Stmt :=
  let file_path := String.mk (NormalizePath f.file_path.data)
  let dir_path := String.mk (NormalizePath f.dir_path.data)
  [Stmt.lock,
   Stmt.access (fun graph l =>
     match ensure_directory fuel graph dir_path with
     | Except.error e => Except.error e
     | Except.ok (graph1, dir_id) => Except.ok (graph1, { l with dir_id := dir_id })),
   Stmt.access (fun graph l =>
     if cfg.graph.enable_directory_links ∧ l.dir_id ≥ 0 then
       match linkChain cfg fuel graph l.dir_id with
       | Except.error e => Except.error e
       | Except.ok graph1 => Except.ok (graph1, l)
     else Except.ok (graph, l)),
   Stmt.unlock,
   Stmt.lock,
   Stmt.access (fun graph l =>
     match FindOrAddFile graph file_path l.dir_id with
     | Except.error e => Except.error e
     | Except.ok (graph1, file_id) => Except.ok (graph1, { l with file_id := file_id })),
   Stmt.access (fun graph l =>
     match linkFile cfg graph l.dir_id l.file_id with
     | Except.error e => Except.error e
     | Except.ok graph1 => Except.ok (graph1, l)),
   Stmt.unlock] ++
  f.includes.flatMap (includeBlock fuel cfg)

/-- The statements of `SourceParser::ScanRoot` for a root whose iteration meets `files`. -/
def scanRootProgram (fuel : Nat) (cfg : Config) (files : List SourceFile) : List Stmt :=
  files.flatMap (fileBlocks fuel cfg)

/-- A worker thread: the statements it still has to execute and its local variables. -/
structure Worker where
  rest : List Stmt := []
  locals : ThreadLocals := {}

/-- The state of `SourceParser::Run` while the worker threads run: the shared graph (or the
fault that an access ran into), the thread that holds `_graphMutex` if any, the workers, and the
number of threads started. -/
structure ScanState where
  graph : Except Fault Graph
  owner : Option Nat
  workers : Nat → Worker
  threads : Nat

/-- The state `st` with worker `t` replaced by `w`. -/
def ScanState.setWorker (st : ScanState) (t : Nat) (w : Worker) : ScanState :=
  { st with workers := fun i => if i = t then w else st.workers i }

/-- One step of thread `t`: it executes its next statement. `none` when it cannot: the thread
has finished, or it waits for `_graphMutex`, or it would unlock a mutex it does not hold. An
access is executed whether or not the thread holds the mutex, unless `checked` is set: then an
access without the mutex is refused. -/
def step (checked : Bool) (t : Nat) (st : ScanState) : Option ScanState :=
  match (st.workers t).rest with
  | [] => none
  | Stmt.lock :: rest =>
    match st.owner with
    | none =>
      some { st.setWorker t { rest := rest, locals := (st.workers t).locals } with
             owner := some t }
    | some _ => none
  | Stmt.unlock :: rest =>
    if st.owner = some t then
      some { st.setWorker t { rest := rest, locals := (st.workers t).locals } with
             owner := none }
    else none
  | Stmt.access f :: rest =>
    if checked = true ∧ st.owner ≠ some t then none
    else
      match st.graph with
      | Except.error _ => some (st.setWorker t { rest := rest, locals := (st.workers t).locals })
      | Except.ok graph =>
        match f graph (st.workers t).locals with
        | Except.error e =>
          some { st.setWorker t { rest := rest, locals := (st.workers t).locals } with
                 graph := Except.error e }
        | Except.ok (graph1, locals1) =>
          some { st.setWorker t { rest := rest, locals := locals1 } with
                 graph := Except.ok graph1 }

/-- The steps of the threads named by `schedule`, one after the other; `none` when one of them
cannot be taken. -/
def runSchedule (checked : Bool) : List Nat → ScanState → Option ScanState
  | [], st => some st
  | t :: rest, st =>
    match step checked t st with
    | none => none
    | some st1 => runSchedule checked rest st1

/-- The number of statements of a thread up to and including its next `unlock`. -/
def sectionLength : List Stmt → Nat
  | [] => 0
  | Stmt.unlock :: _ => 1
  | _ :: rest => sectionLength rest + 1

/-- Thread `t` executes its next block under `_graphMutex`, from `lock` to `unlock`, with no
step of another thread in between; `none` if the mutex is held or `t` has finished. -/
def atomicStep (t : Nat) (st : ScanState) : Option ScanState :=
  match st.owner, (st.workers t).rest with
  | some _, _ => none
  | none, [] => none
  | none, rest => runSchedule false (List.replicate (sectionLength rest) t) st

/-- The blocks of the threads named by `order` executed one after the other, each as a
whole. -/
def runAtomic : List Nat → ScanState → Option ScanState
  | [], st => some st
  | t :: rest, st =>
    match atomicStep t st with
    | none => none
    | some st1 => runAtomic rest st1

/-- The statements `stmts` use the graph only between a `lock` and the `unlock` that follows
it; `holding` tells whether the mutex is held where they start. -/
def guardedFrom : Bool → List Stmt → Bool
  | holding, [] => !holding
  | holding, Stmt.lock :: rest => !holding && guardedFrom true rest
  | holding, Stmt.unlock :: rest => holding && guardedFrom false rest
  | holding, Stmt.access _ :: rest => holding && guardedFrom true rest

/-- The number of `lock` statements, that is of blocks under the mutex. -/
def lockCount : List Stmt → Nat
  | [] => 0
  | Stmt.lock :: rest => lockCount rest + 1
  | _ :: rest => lockCount rest

/-- The state in which `SourceParser::Run` has started one thread for each root, `roots[t]`
being the files that thread `t` meets, on the graph `graph`. -/
def initState (fuel : Nat) (cfg : Config) (roots : List (List SourceFile)) (graph : Graph) :
    ScanState :=
  { graph := Except.ok graph,
    owner := none,
    workers := fun t =>
      match roots[t]? with
      | some files => { rest := scanRootProgram fuel cfg files }
      | none => {},
    threads := roots.length }

/-- Every thread has executed all its statements: the loop `for (auto& t : threads) t.join()` of
`SourceParser::Run` is over. -/
def finished (st : ScanState) : Bool :=
  (List.range st.threads).all (fun t => (st.workers t).rest.isEmpty)

/-- The schedule can be followed from `st` and ends with every thread joined. -/
def completes (schedule : List Nat) (st : ScanState) : Bool :=
  match runSchedule false schedule st with
  | some final => finished final
  | none => false

/-- The graph at the end of a sequence of steps, when they can be taken and no access ran into
a fault. -/
def finalGraph (result : Option ScanState) : Option Graph :=
  match result with
  | some st =>
    match st.graph with
    | Except.ok graph => some graph
    | Except.error _ => none
  | none => none

/-- Two roots with one source file each, both including `r/inc/k.h`. -/
def twoRoots : List (List SourceFile) :=
  [[{ file_path := "r/a/x.cpp", dir_path := "r/a",
      includes := [{ found := "r/inc/k.h", dir_path := "r/inc" }] }],
   [{ file_path := "r/b/y.cpp", dir_path := "r/b",
      includes := [{ found := "r/inc/k.h", dir_path := "r/inc" }] }]]

/-- A schedule of the two threads of `twoRoots` in which the blocks of the threads alternate. -/
def alternatingSchedule : List Nat :=
  [0, 0, 0, 0, 1, 1, 1, 1, 0, 0, 0, 0, 1, 1, 1, 1, 1, 1, 1, 1, 1, 1, 1, 0, 0, 0, 0, 0, 0, 0]

/-! ## The stored rest length of a link -/

/-- Lines 98 to 118 of `Physics::SatisfyConstraints`, with the local variable
`desiredRestLength` kept as a variable: it is initialised from `link.restLength` and then
assigned in the branches of the `if / else if / else` on the kinds of the two ends. -/
def assignDesiredRestLength (cfg : Config) (link : Link) (nodeA nodeB : Node) : ℚ := Id.run do
  let nodeAIsDirectory : Bool := decide (nodeA.kind = NodeKind.Directory)
  let nodeBIsDirectory : Bool := decide (nodeB.kind = NodeKind.Directory)
  let isDirectoryToDirectory : Bool := nodeAIsDirectory && nodeBIsDirectory
  let isDirectoryToFile : Bool := nodeAIsDirectory != nodeBIsDirectory
  let mut desiredRestLength : ℚ := link.restLength
  if isDirectoryToDirectory then
    let sizeA : Int := nodeA.subtreeDirCount + 1
    let sizeB : Int := nodeB.subtreeDirCount + 1
    let base : ℚ := 40 + ((sizeA + sizeB : Int) : ℚ) * 2
    desiredRestLength := base * cfg.graph.dir_dir_length_coef
  else if isDirectoryToFile then
    let dirNode : Node := if nodeA.kind = NodeKind.Directory then nodeA else nodeB
    let base : ℚ := 30 + (dirNode.children.length : ℚ) * 1
    desiredRestLength := base * cfg.graph.dir_file_length_coef
  else
    desiredRestLength := cfg.physics.link_rest_length
  return desiredRestLength

/-- The links `l` and `l1` differ at most in `restLength`. -/
def Link.SameButRestLength (l l1 : Link) : Prop :=
  l1.a = l.a ∧ l1.b = l.b ∧ l1.stiffness = l.stiffness

/-- The graphs `g` and `g1` differ at most in the `restLength` fields of their links. -/
def SameButRestLength (g g1 : Graph) : Prop :=
  g1.nodes = g.nodes ∧ g1.pathToNode = g.pathToNode ∧
    List.Forall₂ Link.SameButRestLength g.links g1.links

/-- The graph `g` with the `restLength` of every link replaced by `r`. -/
def Graph.withRestLength (g : Graph) (r : ℚ) : Graph :=
  { g with links := g.links.map (fun l => { l with restLength := r }) }

/-- The node sequence of a result, or the fault. -/
def resultNodes (r : Except Fault Graph) : Except Fault (List Node) :=
  match r with
  | Except.ok g => Except.ok g.nodes
  | Except.error e => Except.error e

/-! ## The mass-weighted centroid -/

/-- Three nodes of masses `1`, `3` and `1 / 2` joined by two links, none fixed. -/
def threeMassGraph : Graph :=
  { nodes :=
      [{ id := 0, kind := NodeKind.Directory, name := "r", path := "r", children := [1, 2],
         subtreeDirCount := 1, mass := 1 },
       { id := 1, kind := NodeKind.Directory, name := "a", path := "r/a", parent_dir := 0,
         px := 30, py := 40, ppx := 30, ppy := 40, mass := 3 },
       { id := 2, kind := NodeKind.File, name := "x.h", path := "r/x.h", parent_dir := 0,
         px := -60, py := 80, ppx := -60, ppy := 80, mass := 1 / 2 }],
    links := [{ a := 0, b := 1, restLength := 46, stiffness := 1 / 2 },
              { a := 0, b := 2, restLength := 32, stiffness := 3 / 5 }],
    pathToNode := [("r/x.h", 2), ("r/a", 1), ("r", 0)] }

/-- Two directories at the same position `(5, 5)`. -/
def coincidentNodes : List Node :=
  [{ id := 0, kind := NodeKind.Directory, name := "r", path := "r", children := [1],
     subtreeDirCount := 1, px := 5, py := 5, ppx := 5, ppy := 5 },
   { id := 1, kind := NodeKind.Directory, name := "a", path := "r/a", parent_dir := 0,
     px := 5, py := 5, ppx := 5, ppy := 5 }]

/-! ## Angular gaps between the sorted children of a directory -/

/-- The successor of position `i` among `n` children taken round the circle: `(i + 1) % n`. -/
def succIndex (n i : Nat) : Nat := (i + 1) % n

/-- The predecessor of position `i` among `n` children taken round the circle. -/
def predIndex (n i : Nat) : Nat := (i + n - 1) % n

/-- The gap from child `i` to its successor: the difference of the two angles wrapped into
`(0, 2 pi]` by `wrapDiffPos`. -/
def gapAfter (sorted : List ChildData) (i : Nat) : ℚ :=
  wrapDiffPos ((sorted.getD (succIndex sorted.length i) default).angle -
    (sorted.getD i default).angle)

/-- The gap from the predecessor of child `i` to child `i`. -/
def gapBefore (sorted : List ChildData) (i : Nat) : ℚ :=
  wrapDiffPos ((sorted.getD i default).angle -
    (sorted.getD (predIndex sorted.length i) default).angle)

/-- The net angular adjustment of child `i` in the words of the specification:
`0.5 * strength * (gap to the successor - gap from the predecessor)`. -/
def netAdjustment (strength : ℚ) (sorted : List ChildData) (i : Nat) : ℚ :=
  (1 / 2) * strength * (gapAfter sorted i - gapBefore sorted i)

/-- The children of a directory as `Physics::EqualizeChildAngles` sorts them. -/
def sortByAngle (dirChildren : List ChildData) : List ChildData :=
  dirChildren.insertionSort (fun a b => a.angle ≤ b.angle)

/-- A directory node `name` with id `id` under directory `0`, at rest at `(x, y)`. -/
def leafDirectory (id : Int) (name : String) (x y : ℚ) : Node :=
  { id := id, kind := NodeKind.Directory, name := name, path := "r/" ++ name, parent_dir := 0,
    px := x, py := y, ppx := x, ppy := y, color_rgba := 0xFF7FE07F - 2 ^ 32 }

/-- The root directory of the examples below, at the origin, with children `children`. -/
def hubDirectory (children : List Int) : Node :=
  { id := 0, kind := NodeKind.Directory, name := "r", path := "r", children := children,
    subtreeDirCount := children.length, color_rgba := 0xFF7FE07F - 2 ^ 32 }

/-- A directory at the origin with four directory children on the axes, a quarter turn apart. -/
def crossGraph : Graph :=
  { nodes := [hubDirectory [1, 2, 3, 4], leafDirectory 1 "a" 100 0, leafDirectory 2 "b" 0 50,
              leafDirectory 3 "c" (-100) 0, leafDirectory 4 "d" 0 (-200)],
    pathToNode := [("r/d", 4), ("r/c", 3), ("r/b", 2), ("r/a", 1), ("r", 0)] }

/-- A directory at the origin with three directory children at the angles `0`, `pi / 2` and
`pi`: the gaps are a quarter turn, a quarter turn and a half turn. -/
def fanGraph : Graph :=
  { nodes := [hubDirectory [1, 2, 3], leafDirectory 1 "a" 100 0, leafDirectory 2 "b" 0 50,
              leafDirectory 3 "c" (-100) 0],
    pathToNode := [("r/c", 3), ("r/b", 2), ("r/a", 1), ("r", 0)] }

/-- The `dirChildren` that `EqualizeChildAngles` collects for the hub of `fanGraph`. -/
def fanChildren : List ChildData :=
  [{ index := 1, angle := 0, radius := 100 }, { index := 2, angle := onePi / 2, radius := 50 },
   { index := 3, angle := onePi, radius := 100 }]

/-- The `dirChildren` that `EqualizeChildAngles` collects for the hub of `crossGraph`. -/
def crossChildren : List ChildData :=
  [{ index := 1, angle := 0, radius := 100 }, { index := 2, angle := onePi / 2, radius := 50 },
   { index := 3, angle := onePi, radius := 100 },
   { index := 4, angle := -(onePi / 2), radius := 200 }]

/-! ## Directory masses (`Physics::InitializeDirectoryMasses`, `Physics::ComputeDescendantCount`) -/

/-- Element access `memo[static_cast<size_t>(nodeId)]`. -/
def memoAt (memo : List Int) (nodeId : Int) : Except Fault Int :=
  if nodeId < 0 then Except.error Fault.outOfRange
  else match memo[nodeId.toNat]? with
    | some v => Except.ok v
    | none => Except.error Fault.outOfRange

/-- The loop `for (int childId : node.children)` of `Physics::ComputeDescendantCount`, from the
current `count` and `memo`; `recurse` is the recursive call of `ComputeDescendantCount`. -/
def countChildren (nodes : List Node)
    (recurse : Int → List Int → Except Fault (Int × List Int)) :
    List Int → Int → List Int → Except Fault (Int × List Int)
  | [], count, memo => Except.ok (count, memo)
  | childId :: rest, count, memo =>
    match nodeAt nodes childId with
    | Except.error e => Except.error e
    | Except.ok child =>
      if child.kind = NodeKind.File then countChildren nodes recurse rest (count + 1) memo
      else
        match recurse childId memo with
        | Except.error e => Except.error e
        | Except.ok (sub, memo1) => countChildren nodes recurse rest (count + 1 + sub) memo1

/-- Embedding of `Physics::ComputeDescendantCount`: the returned count and the updated `memo`.
The recursion depth is bounded by `fuel`. -/
def ComputeDescendantCount (nodes : List Node) :
    Nat → Int → List Int → Except Fault (Int × List Int)
  | 0, _, _ => Except.error Fault.outOfFuel
  | fuel + 1, nodeId, memo =>
    match memoAt memo nodeId with
    | Except.error e => Except.error e
    | Except.ok cached =>
      if cached ≥ 0 then Except.ok (cached, memo)
      else
        match nodeAt nodes nodeId with
        | Except.error e => Except.error e
        | Except.ok node =>
          if node.kind ≠ NodeKind.Directory then Except.ok (0, memo.set nodeId.toNat 0)
          else
            match countChildren nodes (ComputeDescendantCount nodes fuel) node.children 0 memo with
            | Except.error e => Except.error e
            | Except.ok (count, memo1) => Except.ok (count, memo1.set nodeId.toNat count)

/-- The statement `node.mass = v`. -/
def Node.setMass (n : Node) (v : ℚ) : Node := { n with mass := v }

/-- Body of the loop of `Physics::InitializeDirectoryMasses` for index `i`. -/
def initializeMass (m : Libm) (fuel : Nat) (nodes : List Node) (memo : List Int) (i : Nat) :
    Except Fault (List Node × List Int) :=
  match nodes[i]? with
  | none => Except.error Fault.outOfRange
  | some node =>
    if node.kind = NodeKind.Directory then
      match ComputeDescendantCount nodes fuel (i : Int) memo with
      | Except.error e => Except.error e
      | Except.ok (totalDesc, memo1) =>
        Except.ok (nodes.set i (node.setMass (1 + m.sqrt ((max 0 totalDesc : Int) : ℚ))), memo1)
    else Except.ok (nodes.set i (node.setMass 1), memo)

/-- The loop of `Physics::InitializeDirectoryMasses` over the given indices. -/
def initializeMasses (m : Libm) (fuel : Nat) :
    List Nat → List Node → List Int → Except Fault (List Node)
  | [], nodes, _ => Except.ok nodes
  | i :: rest, nodes, memo =>
    match initializeMass m fuel nodes memo i with
    | Except.error e => Except.error e
    | Except.ok (nodes1, memo1) => initializeMasses m fuel rest nodes1 memo1

/-- Embedding of `Physics::InitializeDirectoryMasses`. -/
def InitializeDirectoryMasses (m : Libm) (fuel : Nat) (g : Graph) : Except Fault Graph :=
  let memo : List Int := List.replicate g.nodes.length (-1)
  match initializeMasses m fuel (List.range g.nodes.length) g.nodes memo with
  | Except.error e => Except.error e
  | Except.ok nodes1 => Except.ok { g with nodes := nodes1 }

/-- Body of the loop of the constructor of `Physics` for `nodeIndex`: the position on the
spiral. -/
def spiralNode (m : Libm) (nodeIndex : Nat) (node : Node) : Node :=
  let angle : ℚ := (nodeIndex : ℚ) * (618 / 1000)
  let radius : ℚ := 5 * m.sqrt (nodeIndex : ℚ)
  let posX := radius * m.cos angle
  let posY := radius * m.sin angle
  { node with px := posX, ppx := posX, py := posY, ppy := posY }

/-- The loop of the constructor of `Physics`, for the nodes from index `nodeIndex` on. -/
def spiralFrom (m : Libm) : Nat → List Node → List Node
  | _, [] => []
  | nodeIndex, node :: rest => spiralNode m nodeIndex node :: spiralFrom m (nodeIndex + 1) rest

/-- Embedding of the constructor `Physics::Physics`: the graph it leaves in `_graph`. -/
def Physics (m : Libm) (fuel : Nat) (graphRef : Graph) : Except Fault Graph :=
  InitializeDirectoryMasses m fuel { graphRef with nodes := spiralFrom m 0 graphRef.nodes }

/-! ## The children tree -/

/-- The ids of the nodes whose `parent_dir` is `p`, in increasing order. -/
def childrenOf (nodes : List Node) (p : Int) : List Int :=
  ((List.range nodes.length).filter
    (fun c => decide ((nodes[c]?).map Node.parent_dir = some p))).map Int.ofNat

/-- Every `children` list is the list of the ids of the nodes that have this node as
`parent_dir`, in increasing order. -/
def ChildrenOk (nodes : List Node) : Prop :=
  ∀ (i : Nat) (n : Node), nodes[i]? = some n → n.children = childrenOf nodes i

/-- Every `parent_dir` is `-1` or not negative. -/
def ParentsExist (nodes : List Node) : Prop :=
  ∀ (i : Nat) (n : Node), nodes[i]? = some n → n.parent_dir = -1 ∨ 0 ≤ n.parent_dir

/-- Every node that has a parent has a Directory for parent. -/
def DirParents (nodes : List Node) : Prop :=
  ∀ (i : Nat) (n : Node), nodes[i]? = some n → 0 ≤ n.parent_dir →
    ∃ q, nodes[n.parent_dir.toNat]? = some q ∧ q.kind = NodeKind.Directory

/-- A `parentDir` argument is `-1` or the id of a Directory node of `g`. -/
def dirParent (g : Graph) (parentDir : Int) : Bool :=
  parentDir == -1 ||
    g.nodes.any (fun n => n.id == parentDir && decide (n.kind = NodeKind.Directory))

/-- The `parentDir` argument of a call is `-1` or the id of a Directory node of `g`. -/
def opDirParent (g : Graph) : GraphOp → Bool
  | GraphOp.addDirectory _ _ parentDir => dirParent g parentDir
  | GraphOp.addFile _ _ parentDir => dirParent g parentDir
  | GraphOp.findOrAddDirectory _ parentDir => dirParent g parentDir
  | GraphOp.findOrAddFile _ parentDir => dirParent g parentDir
  | GraphOp.addLink _ _ _ _ => true

/-- Every call of the sequence has for `parentDir` `-1` or the id of a Directory node of the
graph it is applied to. -/
def opsDirValid (fuel : Nat) : Graph → List GraphOp → Bool
  | _, [] => true
  | g, op :: rest =>
    opDirParent g op &&
      (match applyOp fuel g op with
       | Except.error _ => true
       | Except.ok g1 => opsDirValid fuel g1 rest)

/-- The number of nodes, of either kind, whose parent chain passes through `d`: the strict
descendants of `d`. -/
def descendantCount (nodes : List Node) (d : Int) : Nat :=
  nodes.countP (isBelow nodes d)

/-- The number of File nodes whose parent chain passes through `d`. -/
def countFilesBelow (nodes : List Node) (d : Int) : Nat :=
  nodes.countP (fun x => decide (x.kind = NodeKind.File) && isBelow nodes d x)

/-- The entries of `memo` are `-1` (not yet computed) or the descendant count of their node. -/
def MemoOk (nodes : List Node) (memo : List Int) : Prop :=
  memo.length = nodes.length ∧
    ∀ (i : Nat) (v : Int), memo[i]? = some v → v = -1 ∨ v = (descendantCount nodes i : Int)

/-- The calls that build `src` with the directories `src/a`, `src/a/b`, `src/c` and the files
`src/a/x.h`, `src/a/b/y.h`. -/
def smallTreeOps : List GraphOp :=
  [GraphOp.addDirectory "src" "src" (-1), GraphOp.addDirectory "src/a" "a" 0,
   GraphOp.addFile "src/a/x.h" "x.h" 1, GraphOp.addDirectory "src/a/b" "b" 1,
   GraphOp.addFile "src/a/b/y.h" "y.h" 3, GraphOp.addDirectory "src/c" "c" 0]

/-- How the node sequence changes when `AddDirectory` or `AddFile` adds the node `nd`: `nd`
comes last, with no children, and the old nodes keep `kind` and `parent_dir`; the id of `nd` is
appended to the `children` of its parent and to no other list. -/
structure Adds (nodes nodes1 : List Node) (nd : Node) : Prop where
  length_eq : nodes1.length = nodes.length + 1
  last : nodes1[nodes.length]? = some nd
  children_nil : nd.children = []
  parent_lt : nd.parent_dir < nodes.length
  old : ∀ (i : Nat) (n : Node), nodes[i]? = some n →
    ∃ n1, nodes1[i]? = some n1 ∧ n1.kind = n.kind ∧ n1.parent_dir = n.parent_dir ∧
      n1.children = if (i : Int) = nd.parent_dir then n.children ++ [(nodes.length : Int)]
        else n.children

/-- The `parentDir` argument of a call (`-1` for `AddLink`, which has none). -/
def opParent : GraphOp → Int
  | GraphOp.addDirectory _ _ parentDir => parentDir
  | GraphOp.addFile _ _ parentDir => parentDir
  | GraphOp.findOrAddDirectory _ parentDir => parentDir
  | GraphOp.findOrAddFile _ parentDir => parentDir
  | GraphOp.addLink _ _ _ _ => -1

/-- The graph that `smallTreeOps` builds. -/
def smallTree : Graph :=
  { nodes :=
      [{ newDirectoryNode 0 "src" "src" (-1) with children := [1, 5], subtreeDirCount := 3 },
       { newDirectoryNode 1 "src/a" "a" 0 with children := [2, 3], subtreeDirCount := 1 },
       newFileNode 2 "src/a/x.h" "x.h" 1,
       { newDirectoryNode 3 "src/a/b" "b" 1 with children := [4] },
       newFileNode 4 "src/a/b/y.h" "y.h" 3,
       newDirectoryNode 5 "src/c" "c" 0],
    links := [],
    pathToNode := [("src/c", 5), ("src/a/b/y.h", 4), ("src/a/b", 3), ("src/a/x.h", 2),
                   ("src/a", 1), ("src", 0)] }

/-- The node sequence `nodes1` is `nodes` with the same tree: every node keeps `id`, `kind`,
`parent_dir` and `children`. -/
def SameTree (nodes nodes1 : List Node) : Prop :=
  nodes1.length = nodes.length ∧
    ∀ (i : Nat) (n : Node), nodes[i]? = some n →
      ∃ n1, nodes1[i]? = some n1 ∧ n1.id = n.id ∧ n1.kind = n.kind ∧
        n1.parent_dir = n.parent_dir ∧ n1.children = n.children

/-- The graph after the scanner has registered `r/y` as a file of directory `r`
(`ensure_directory("r")`, then `FindOrAddFile("r/y", 0)` and the directory-to-file link), as
`ParseIncludesForFile` does for an include that resolves to the existing path `r/y`. -/
def fileAsDirectoryGraph : Graph :=
  { nodes := [{ newDirectoryNode 0 "r" "r" (-1) with children := [1] },
              newFileNode 1 "r/y" "y" 0],
    links := [{ a := 0, b := 1, restLength := 31, stiffness := 3 / 5 }],
    pathToNode := [("r/y", 1), ("r", 0)] }

/-! ## The path segments of `ensure_directory` -/

/-- The pieces of `s` between its `/` characters, the empty ones included (a string without
`/` is one piece). -/
def pieces : List Char → List (List Char)
  | [] => [[]]
  | c :: rest =>
    if c = '/' then [] :: pieces rest
    else
      match pieces rest with
      | [] => [[c]]
      | p :: ps => (c :: p) :: ps

/-- The non-empty `/`-separated segments of `s`. -/
def segments (s : List Char) : List (List Char) :=
  (pieces s).filter (fun p => decide (p ≠ []))

/-- The value of `accumulatedPath` after the segment `pathSegment` has been added to it. -/
def joinSegment (accumulatedPath pathSegment : List Char) : List Char :=
  if accumulatedPath = [] then pathSegment else accumulatedPath ++ ['/'] ++ pathSegment

/-- The block `if (!pathSegment.empty()) { ... }` of the loop of `ensure_directory` for a
non-empty `pathSegment`: the graph, `parentNodeId` and `accumulatedPath` after it. -/
def ensureSegment (fuel : Nat) (graph : Graph) (parentNodeId : Int)
    (accumulatedPath pathSegment : List Char) : Except Fault (Graph × Int × List Char) :=
  let accumulatedPath1 := joinSegment accumulatedPath pathSegment
  let nodeId := FindNodeByPath graph (String.mk accumulatedPath1)
  if nodeId < 0 then
    match AddDirectory fuel graph (String.mk accumulatedPath1) (String.mk pathSegment)
        parentNodeId with
    | Except.error e => Except.error e
    | Except.ok (graph1, nodeId1) => Except.ok (graph1, nodeId1, accumulatedPath1)
  else Except.ok (graph, nodeId, accumulatedPath1)

/-- The block `ensureSegment` for a sequence of non-empty segments, first to last: the graph and
`parentNodeId` at the end. -/
def ensureSegments (fuel : Nat) :
    List (List Char) → Graph → Int → List Char → Except Fault (Graph × Int)
  | [], graph, parentNodeId, _ => Except.ok (graph, parentNodeId)
  | pathSegment :: rest, graph, parentNodeId, accumulatedPath =>
    match ensureSegment fuel graph parentNodeId accumulatedPath pathSegment with
    | Except.error e => Except.error e
    | Except.ok (graph1, parentNodeId1, accumulatedPath1) =>
      ensureSegments fuel rest graph1 parentNodeId1 accumulatedPath1

/-- The nodes of `g` are still in `g1`, at the same index, with the same `id`, `kind`, `name`,
`path` and `parent_dir`. -/
def KeepsIdentity (g g1 : Graph) : Prop :=
  ∀ (i : Nat) (n : Node), g.nodes[i]? = some n →
    ∃ n1, g1.nodes[i]? = some n1 ∧ n1.id = n.id ∧ n1.kind = n.kind ∧ n1.name = n.name ∧
      n1.path = n.path ∧ n1.parent_dir = n.parent_dir

/-- What `ensure_directory` has to achieve for the segments `segs` that follow the prefix
`acc`, whose node is `parent` (`-1` for the empty prefix), when it turns `g` into `g1` and
returns `id`: every further prefix is in the path index of `g1`, under the id that `g` had for
it if it had one; a prefix that `g` did not have belongs to a new Directory node named after
its last segment, with the node of the previous prefix for `parent_dir`; the node of a prefix
is a Directory unless `g` had a File node with that path; and `id` is the id of the last
prefix (`parent` when there is no segment). -/
def ChainEnsured (g g1 : Graph) : Int → List Char → List (List Char) → Int → Prop
  | parent, _, [], id => id = parent
  | parent, acc, s :: rest, id =>
    ∃ (idj : Int) (n : Node),
      mapFind g1.pathToNode (String.mk (joinSegment acc s)) = some idj ∧ 0 ≤ idj ∧
      g1.nodes[idj.toNat]? = some n ∧ n.path = String.mk (joinSegment acc s) ∧
      (∀ i, mapFind g.pathToNode (String.mk (joinSegment acc s)) = some i → idj = i) ∧
      (mapFind g.pathToNode (String.mk (joinSegment acc s)) = none →
        (g.nodes.length : Int) ≤ idj ∧ n.kind = NodeKind.Directory ∧ n.name = String.mk s ∧
          n.parent_dir = parent) ∧
      (n.kind = NodeKind.Directory ∨
        ∃ x ∈ g.nodes, x.kind = NodeKind.File ∧ x.path = String.mk (joinSegment acc s)) ∧
      ChainEnsured g g1 idj (joinSegment acc s) rest id

/-! ## The constraint pass in the words of the specification -/

/-- The category test in the words of the specification, read from the node sequence `nodes`:
a link with a Directory end is a directory link, enabled by `enable_directory_links`; a link
between two files is an include link, enabled by `enable_include_links`. -/
def categoryEnabled (cfg : Config) (nodes : List Node) (link : Link) : Bool :=
  match nodeAt nodes link.a, nodeAt nodes link.b with
  | Except.ok nodeA, Except.ok nodeB =>
    if nodeA.kind = NodeKind.Directory ∨ nodeB.kind = NodeKind.Directory then
      cfg.graph.enable_directory_links
    else cfg.graph.enable_include_links
  | _, _ => false

/-- The desired rest length of a link by its category, read from the node sequence `nodes`:
`dirDirRestLength` of the two `subtreeDirCount` between two directories, `dirFileRestLength`
of the number of children of the directory end between a directory and a file, and
`link_rest_length` between two files. -/
def categoryRestLength (cfg : Config) (nodes : List Node) (link : Link) : ℚ :=
  match nodeAt nodes link.a, nodeAt nodes link.b with
  | Except.ok nodeA, Except.ok nodeB =>
    if nodeA.kind = NodeKind.Directory ∧ nodeB.kind = NodeKind.Directory then
      dirDirRestLength nodeA.subtreeDirCount nodeB.subtreeDirCount cfg.graph.dir_dir_length_coef
    else if nodeA.kind = NodeKind.Directory then
      dirFileRestLength nodeA.children.length cfg.graph.dir_file_length_coef
    else if nodeB.kind = NodeKind.Directory then
      dirFileRestLength nodeB.children.length cfg.graph.dir_file_length_coef
    else cfg.physics.link_rest_length
  | _, _ => 0

/-- The constraint pass in the words of the specification: the links are taken in order; the
two ends of a link are looked up in the current node sequence `nodes`; a link of an enabled
category is corrected by `constrainPair` against the rest length of its category, a link of a
disabled category is skipped. Category and rest length are read from `nodes0`, the node
sequence at the start of the pass. -/
def constrainLinks (m : Libm) (cfg : Config) (nodes0 : List Node) :
    List Node → List Link → Except Fault (List Node)
  | nodes, [] => Except.ok nodes
  | nodes, link :: rest =>
    match nodeAt nodes link.a with
    | Except.error e => Except.error e
    | Except.ok nodeA =>
      match nodeAt nodes link.b with
      | Except.error e => Except.error e
      | Except.ok nodeB =>
        if categoryEnabled cfg nodes0 link then
          match constrainPair m (categoryRestLength cfg nodes0 link) nodes link nodeA nodeB with
          | Except.error e => Except.error e
          | Except.ok nodes1 => constrainLinks m cfg nodes0 nodes1 rest
        else constrainLinks m cfg nodes0 nodes rest

/-- The nodes `nodes1` as the result of a pass on graph `g`. -/
def withNodes (g : Graph) (r : Except Fault (List Node)) : Except Fault Graph :=
  match r with
  | Except.error e => Except.error e
  | Except.ok nodes1 => Except.ok { g with nodes := nodes1 }

/-! ## Divisions with a checked divisor -/

/-- The power `2 ^ k` for an integer `k`. -/
def pow2 (k : Int) : ℚ :=
  if 0 ≤ k then ((2 ^ k.toNat : Nat) : ℚ) else 1 / ((2 ^ (-k).toNat : Nat) : ℚ)

/-- The number of halvings that bring `n` below 2 (at most `fuel` of them): for `n >= 1` and
`fuel >= n` the exponent `k` with `2 ^ k <= n < 2 ^ (k + 1)`. -/
def log2Floor : Nat → Nat → Nat
  | 0, _ => 0
  | fuel + 1, n => if n < 2 then 0 else log2Floor fuel (n / 2) + 1

/-- The binary exponent of a positive rational `x`: the integer `e` with
`2 ^ e <= x < 2 ^ (e + 1)`. -/
def binaryExponent (x : ℚ) : Int :=
  let e0 : Int := (log2Floor x.num.natAbs x.num.natAbs : Int) - (log2Floor x.den x.den : Int)
  if pow2 e0 ≤ x then e0 else e0 - 1

/-- The integer nearest to `t`, the even one of the two when `t` lies halfway. -/
def roundHalfEven (t : ℚ) : Int :=
  let f := Rat.floor t
  let r := t - (f : ℚ)
  if r < 1 / 2 then f else if 1 / 2 < r then f + 1 else if f % 2 = 0 then f else f + 1

/-- The value `a >= 0` rounded to nearest, ties to even, in the binary floating-point format
with `p` significant bits and least normal exponent `emin`: the spacing of the format at `a`
is `2 ^ (e - p + 1)` for the binary exponent `e` of `a`, not below `emin` (subnormal numbers).
Overflow to infinity is not modelled. -/
def roundMagnitude (p : Nat) (emin : Int) (a : ℚ) : ℚ :=
  if a = 0 then 0
  else
    let e := max (binaryExponent a) emin
    let q := pow2 (e - (p : Int) + 1)
    (roundHalfEven (a / q) : ℚ) * q

/-- Rounding to nearest, ties to even, in the binary format with `p` significant bits and
least normal exponent `emin`. -/
def roundBinary (p : Nat) (emin : Int) (x : ℚ) : ℚ :=
  if x < 0 then -(roundMagnitude p emin (-x)) else roundMagnitude p emin x

/-- Rounding to `float` (IEEE 754 binary32). -/
def roundF32 (x : ℚ) : ℚ := roundBinary 24 (-126) x

/-- Rounding to `double` (IEEE 754 binary64). -/
def roundF64 (x : ℚ) : ℚ := roundBinary 53 (-1022) x

/-- How the result of a floating-point operation is rounded: `single` for an operation on
`float`, `double` for an operation on `double`. -/
structure Rounding where
  single : ℚ → ℚ
  double : ℚ → ℚ

/-- No rounding: the exact arithmetic of the definitions above. -/
def Rounding.exact : Rounding :=
  { single := fun x => x, double := fun x => x }

/-- The rounding of IEEE 754 arithmetic in the default rounding mode. -/
def Rounding.ieee : Rounding :=
  { single := roundF32, double := roundF64 }

/-- The laws of a rounding that the statements below use: zero is a `float`, a rounded value
is a `float`, and rounding is symmetric about zero. -/
structure Rounding.Lawful (r : Rounding) : Prop where
  zero : r.single 0 = 0
  idem : ∀ x : ℚ, r.single (r.single x) = r.single x
  neg : ∀ x : ℚ, r.single (-x) = -(r.single x)

/-! ## The physics passes with rounded floating-point operations

In the definitions of this section the result of every floating-point operation of the source
is rounded by the given `Rounding`, a configuration value is rounded to `float` where it is
read, and the stored positions are taken to be `float` values. With `Rounding.exact` they are
the definitions of the passes above; with `Rounding.ieee` they follow the arithmetic of the
compiled code as long as no operation overflows. -/

/-- Body of the loop of `Physics::Integrate` for one node, with rounded operations;
`1.0 - damping` is a `double` subtraction, cast to `float`. -/
def integrateNodeR (r : Rounding) (cfg : Config) (node : Node) : Node :=
  if node.fixed then node
  else
    let velocityDamping : ℚ := r.single (r.double (1 - r.single cfg.physics.damping))
    let maxAllowedDisplacement : ℚ := r.single cfg.physics.max_displacement
    let velocityX0 := r.single (r.single (node.px - node.ppx) * velocityDamping)
    let velocityY0 := r.single (r.single (node.py - node.ppy) * velocityDamping)
    let velocityX1 := if velocityX0 > maxAllowedDisplacement then maxAllowedDisplacement else velocityX0
    let velocityX := if velocityX1 < -maxAllowedDisplacement then -maxAllowedDisplacement else velocityX1
    let velocityY1 := if velocityY0 > maxAllowedDisplacement then maxAllowedDisplacement else velocityY0
    let velocityY := if velocityY1 < -maxAllowedDisplacement then -maxAllowedDisplacement else velocityY1
    let nextX := r.single (node.px + velocityX)
    let nextY := r.single (node.py + velocityY)
    { node with ppx := node.px, ppy := node.py, px := nextX, py := nextY }

/-- Embedding of `Physics::Integrate` with rounded operations. -/
def IntegrateR (r : Rounding) (cfg : Config) (g : Graph) : Graph :=
  { g with nodes := g.nodes.map (integrateNodeR r cfg) }

/-- The lambda `get_cell_index` of `Physics::ApplyRepulsion` with rounded operations. -/
def get_cell_indexR (r : Rounding) (minX minY cellSize : ℚ) (gridSizeX gridSizeY : Int)
    (x y : ℚ) : Int :=
  let cellX0 := truncToInt (r.single (r.single (x - minX) / cellSize))
  let cellX1 := if cellX0 < 0 then 0 else cellX0
  let cellX := if cellX1 ≥ gridSizeX then gridSizeX - 1 else cellX1
  let cellY0 := truncToInt (r.single (r.single (y - minY) / cellSize))
  let cellY1 := if cellY0 < 0 then 0 else cellY0
  let cellY := if cellY1 ≥ gridSizeY then gridSizeY - 1 else cellY1
  cellY * gridSizeX + cellX

/-- The loop of `Physics::ApplyRepulsion` that fills the grid, with rounded operations. -/
def fillGridR (r : Rounding) (minX minY cellSize : ℚ) (gridSizeX gridSizeY : Int) :
    List Node → Int → List (List Int) → Except Fault (List (List Int))
  | [], _, grid => Except.ok grid
  | node :: rest, nodeIndex, grid =>
    if node.kind ≠ NodeKind.Directory then
      fillGridR r minX minY cellSize gridSizeX gridSizeY rest (nodeIndex + 1) grid
    else
      let index := get_cell_indexR r minX minY cellSize gridSizeX gridSizeY node.px node.py
      if index < 0 then Except.error Fault.outOfRange
      else match grid[index.toNat]? with
        | none => Except.error Fault.outOfRange
        | some cell =>
          fillGridR r minX minY cellSize gridSizeX gridSizeY rest (nodeIndex + 1)
            (grid.set index.toNat (cell ++ [nodeIndex]))

/-- The value `distanceSquared` of the lambda `process_pair` for the positions of `nodeA` and
`nodeB`, with rounded operations. -/
def distanceSquaredR (r : Rounding) (nodeA nodeB : Node) : ℚ :=
  let deltaX := r.single (nodeB.px - nodeA.px)
  let deltaY := r.single (nodeB.py - nodeA.py)
  r.single (r.single (r.single (deltaX * deltaX) + r.single (deltaY * deltaY)) +
    r.single (1 / 1000000))

/-- The lambda `process_pair` of `Physics::ApplyRepulsion` with rounded operations. -/
def process_pairR (r : Rounding) (m : Libm) (cfg : Config) (nodes : List Node)
    (indexA indexB : Int) : Except Fault (List Node) := do
  let repulsionRadius : ℚ := r.single cfg.physics.repulsion_radius
  let repulsionStrength : ℚ := r.single cfg.physics.repulsion_strength
  let repulsionRadiusSquared : ℚ := r.single (repulsionRadius * repulsionRadius)
  let nodeA ← nodeAt nodes indexA
  let nodeB ← nodeAt nodes indexB
  if nodeA.kind ≠ NodeKind.Directory ∨ nodeB.kind ≠ NodeKind.Directory then
    Except.ok nodes
  else
    let deltaX := r.single (nodeB.px - nodeA.px)
    let deltaY := r.single (nodeB.py - nodeA.py)
    let distanceSquared := distanceSquaredR r nodeA nodeB
    if distanceSquared > repulsionRadiusSquared then Except.ok nodes
    else
      let distance := m.sqrt distanceSquared
      let inverseDistance := r.single (1 / distance)
      let force := r.single (repulsionStrength * r.single (1 - r.single (distance / repulsionRadius)))
      let offsetX := r.single (r.single (r.single (deltaX * inverseDistance) * force) * (1 / 2))
      let offsetY := r.single (r.single (r.single (deltaY * inverseDistance) * force) * (1 / 2))
      let nodes1 :=
        if nodeA.fixed then nodes
        else nodes.set indexA.toNat
          { nodeA with px := r.single (nodeA.px - offsetX), py := r.single (nodeA.py - offsetY) }
      -- `nodeB` is a reference: it is read again after the update of `nodeA`
      let nodeB1 ← nodeAt nodes1 indexB
      let nodes2 :=
        if nodeB1.fixed then nodes1
        else nodes1.set indexB.toNat
          { nodeB1 with px := r.single (nodeB1.px + offsetX),
                        py := r.single (nodeB1.py + offsetY) }
      Except.ok nodes2

/-- Successive calls of `process_pairR` on a sequence of pairs. -/
def processPairsR (r : Rounding) (m : Libm) (cfg : Config) :
    List Node → List (Int × Int) → Except Fault (List Node)
  | nodes, [] => Except.ok nodes
  | nodes, (indexA, indexB) :: rest =>
    match process_pairR r m cfg nodes indexA indexB with
    | Except.error e => Except.error e
    | Except.ok nodes1 => processPairsR r m cfg nodes1 rest

/-- Embedding of `Physics::ApplyRepulsion` with rounded operations. -/
def ApplyRepulsionR (r : Rounding) (m : Libm) (cfg : Config) (g : Graph) : Except Fault Graph :=
  let cellSize : ℚ := r.single cfg.physics.repulsion_radius
  match dirBounds g.nodes (1000000000, 1000000000, -1000000000, -1000000000, 0) with
  | (minX, minY, maxX, maxY, numDirectories) =>
    if numDirectories ≤ 1 then Except.ok g
    else
      let gridSizeX : Int := max 1 (truncToInt (r.single (r.single (maxX - minX) / cellSize)) + 1)
      let gridSizeY : Int := max 1 (truncToInt (r.single (r.single (maxY - minY) / cellSize)) + 1)
      let grid0 : List (List Int) := List.replicate (gridSizeX.toNat * gridSizeY.toNat) []
      match fillGridR r minX minY cellSize gridSizeX gridSizeY g.nodes 0 grid0 with
      | Except.error e => Except.error e
      | Except.ok grid =>
        match processPairsR r m cfg g.nodes (repulsionPairs grid gridSizeX gridSizeY) with
        | Except.error e => Except.error e
        | Except.ok nodes1 => Except.ok { g with nodes := nodes1 }

/-- The grid of one pass of `ApplyRepulsionR` on `g`: `(minX, minY, gridSizeX, gridSizeY)`. -/
def gridOfR (r : Rounding) (cfg : Config) (g : Graph) : ℚ × ℚ × Int × Int :=
  let cellSize : ℚ := r.single cfg.physics.repulsion_radius
  match dirBounds g.nodes (1000000000, 1000000000, -1000000000, -1000000000, 0) with
  | (minX, minY, maxX, maxY, _) =>
    (minX, minY, max 1 (truncToInt (r.single (r.single (maxX - minX) / cellSize)) + 1),
      max 1 (truncToInt (r.single (r.single (maxY - minY) / cellSize)) + 1))

/-- One coordinate of `get_cell_indexR`: the truncated rounded quotient clamped to
`[0, gridSize - 1]`. -/
def cellCoordR (r : Rounding) (lo cellSize : ℚ) (gridSize : Int) (x : ℚ) : Int :=
  let cell0 := truncToInt (r.single (r.single (x - lo) / cellSize))
  let cell1 := if cell0 < 0 then 0 else cell0
  if cell1 ≥ gridSize then gridSize - 1 else cell1

/-- The column of the grid cell of `node` in one pass of `ApplyRepulsionR` on `g`. -/
def cellXOfR (r : Rounding) (cfg : Config) (g : Graph) (node : Node) : Int :=
  match gridOfR r cfg g with
  | (minX, _, gridSizeX, _) =>
    cellCoordR r minX (r.single cfg.physics.repulsion_radius) gridSizeX node.px

/-- The row of the grid cell of `node` in one pass of `ApplyRepulsionR` on `g`. -/
def cellYOfR (r : Rounding) (cfg : Config) (g : Graph) (node : Node) : Int :=
  match gridOfR r cfg g with
  | (_, minY, _, gridSizeY) =>
    cellCoordR r minY (r.single cfg.physics.repulsion_radius) gridSizeY node.py

/-- The pairs `(indexA, indexB)` handed to `process_pair` by one pass of `ApplyRepulsionR` on
`g`, in call order. -/
def repulsionCallsR (r : Rounding) (cfg : Config) (g : Graph) : List (Int × Int) :=
  let cellSize : ℚ := r.single cfg.physics.repulsion_radius
  match dirBounds g.nodes (1000000000, 1000000000, -1000000000, -1000000000, 0) with
  | (minX, minY, maxX, maxY, numDirectories) =>
    if numDirectories ≤ 1 then []
    else
      let gridSizeX : Int := max 1 (truncToInt (r.single (r.single (maxX - minX) / cellSize)) + 1)
      let gridSizeY : Int := max 1 (truncToInt (r.single (r.single (maxY - minY) / cellSize)) + 1)
      let grid0 : List (List Int) := List.replicate (gridSizeX.toNat * gridSizeY.toNat) []
      match fillGridR r minX minY cellSize gridSizeX gridSizeY g.nodes 0 grid0 with
      | Except.error _ => []
      | Except.ok grid => repulsionPairs grid gridSizeX gridSizeY

/-- The node `node` with its position replaced by the rounded quotients that
`get_cell_indexR` truncates. -/
def Node.toCellScale (r : Rounding) (minX minY cellSize : ℚ) (node : Node) : Node :=
  node.placeAt (r.single (r.single (node.px - minX) / cellSize))
    (r.single (r.single (node.py - minY) / cellSize))

/-- A root directory named `name` with id `id`, at rest at `(x, 0)`. -/
def rowDirectory (id : Int) (name : String) (x : ℚ) : Node :=
  { id := id, kind := NodeKind.Directory, name := name, path := name, px := x, ppx := x,
    color_rgba := 0xFF7FE07F - 2 ^ 32 }

/-- Three directories on the x axis, at `-510`, `-9 / 2^19` and `30 - 15 / 2^19` (all three
are `float` values): the last two are `30 - 6 / 2^19` apart. -/
def rowGraph : Graph :=
  { nodes := [rowDirectory 0 "p" (-510), rowDirectory 1 "q" (-9 / 524288),
              rowDirectory 2 "s" (15728625 / 524288)],
    pathToNode := [("s", 2), ("q", 1), ("p", 0)] }

/-- A node at `x = 2^29 + 64` that was at `x = 2^29` one step before (both are `float`
values). -/
def farNode : Node :=
  { id := 0, kind := NodeKind.Directory, name := "p", path := "p", px := 536870976,
    ppx := 536870912, color_rgba := 0xFF7FE07F - 2 ^ 32 }

/-- The default configuration without damping. -/
def noDampingConfig : Config :=
  { physics := { damping := 0 } }

/-! ## The angle pass with rounded floating-point operations -/

/-- The loop `while (d > bound) d -= step` with a rounded subtraction; `outOfFuel` when the
test still holds after `fuel` iterations. -/
def subWhileGtR (r : Rounding) : Nat → ℚ → ℚ → ℚ → Except Fault ℚ
  | 0, bound, _, d => if d > bound then Except.error Fault.outOfFuel else Except.ok d
  | fuel + 1, bound, step, d =>
    if d > bound then subWhileGtR r fuel bound step (r.single (d - step)) else Except.ok d

/-- The loop `while (d <= bound) d += step` with a rounded addition; `outOfFuel` when the
test still holds after `fuel` iterations. -/
def addWhileLeR (r : Rounding) : Nat → ℚ → ℚ → ℚ → Except Fault ℚ
  | 0, bound, _, d => if d ≤ bound then Except.error Fault.outOfFuel else Except.ok d
  | fuel + 1, bound, step, d =>
    if d ≤ bound then addWhileLeR r fuel bound step (r.single (d + step)) else Except.ok d

/-- The loop `while (d < bound) d += step` with a rounded addition; `outOfFuel` when the
test still holds after `fuel` iterations. -/
def addWhileLtR (r : Rounding) : Nat → ℚ → ℚ → ℚ → Except Fault ℚ
  | 0, bound, _, d => if d < bound then Except.error Fault.outOfFuel else Except.ok d
  | fuel + 1, bound, step, d =>
    if d < bound then addWhileLtR r fuel bound step (r.single (d + step)) else Except.ok d

/-- The lambda `wrapDiffPos` of `Physics::EqualizeChildAngles` with rounded operations; each
of its two loops makes at most `fuel` iterations. -/
def wrapDiffPosR (r : Rounding) (fuel : Nat) (d : ℚ) : Except Fault ℚ :=
  match addWhileLeR r fuel 0 (r.single twoPi) d with
  | Except.error e => Except.error e
  | Except.ok d1 => subWhileGtR r fuel (r.single twoPi) (r.single twoPi) d1

/-- The two loops that wrap `angleDelta` in the single-child branch, with rounded
operations. -/
def wrapDeltaR (r : Rounding) (fuel : Nat) (angleDelta : ℚ) : Except Fault ℚ :=
  match subWhileGtR r fuel (r.single onePi) (r.single twoPi) angleDelta with
  | Except.error e => Except.error e
  | Except.ok d1 => addWhileLtR r fuel (-(r.single onePi)) (r.single twoPi) d1

/-- The loop of `Physics::EqualizeChildAngles` that collects the directory children of
`parent`, with rounded operations. -/
def collectDirChildrenR (r : Rounding) (m : Libm) (nodes : List Node) (parent : Node) :
    List Int → Except Fault (List ChildData)
  | [] => Except.ok []
  | childIndex :: rest =>
    match nodeAt nodes childIndex with
    | Except.error e => Except.error e
    | Except.ok node =>
      match collectDirChildrenR r m nodes parent rest with
      | Except.error e => Except.error e
      | Except.ok tail =>
        if node.kind ≠ NodeKind.Directory then Except.ok tail
        else
          let dx := r.single (node.px - parent.px)
          let dy := r.single (node.py - parent.py)
          let radius := m.sqrt (r.single (r.single (dx * dx) + r.single (dy * dy)))
          if radius < r.single (1 / 100000) then Except.ok tail
          else
            let a := m.atan2 dy dx
            Except.ok ({ index := childIndex, angle := a, radius := radius } :: tail)

/-- The branch `n == 1` of `Physics::EqualizeChildAngles` with rounded operations. -/
def alignSingleChildR (r : Rounding) (m : Libm) (fuel : Nat) (strength : ℚ) (nodes : List Node)
    (parent : Node) (cd : ChildData) : Except Fault (List Node) := do
  let childIndex := cd.index
  let child ← nodeAt nodes childIndex
  let grandparentId := parent.parent_dir
  if grandparentId ≥ 0 then
    let gp ← nodeAt nodes grandparentId
    let dxgp := r.single (parent.px - gp.px)
    let dygp := r.single (parent.py - gp.py)
    let desiredAngle := m.atan2 dygp dxgp
    let dx := r.single (child.px - parent.px)
    let dy := r.single (child.py - parent.py)
    let radius := m.sqrt (r.single (r.single (dx * dx) + r.single (dy * dy)))
    if radius > r.single (1 / 100000) then
      let currentAngle := m.atan2 dy dx
      let angleDelta ← wrapDeltaR r fuel (r.single (desiredAngle - currentAngle))
      let tx := -(m.sin currentAngle)
      let ty := m.cos currentAngle
      let stepMag := r.single (r.single (radius * angleDelta) * strength)
      if child.fixed then Except.ok nodes
      else
        Except.ok (nodes.set childIndex.toNat
          { child with px := r.single (child.px + r.single (tx * stepMag)),
                       py := r.single (child.py + r.single (ty * stepMag)) })
    else Except.ok nodes
  else Except.ok nodes

/-- The loop that accumulates `angleDelta[i] += adj; angleDelta[j] -= adj`, with rounded
operations; `0.5f` is a `float` value. -/
def accumulateAngleDeltaR (r : Rounding) (fuel : Nat) (strength targetGap : ℚ)
    (dirChildren : List ChildData) (n : Nat) : List Nat → List ℚ → Except Fault (List ℚ)
  | [], angleDelta => Except.ok angleDelta
  | i :: rest, angleDelta =>
    let j := (i + 1) % n
    match wrapDiffPosR r fuel
        (r.single ((dirChildren.getD j default).angle - (dirChildren.getD i default).angle)) with
    | Except.error e => Except.error e
    | Except.ok diff =>
      let error := r.single (diff - targetGap)
      let adj := r.single (r.single ((1 / 2) * error) * strength)
      let angleDelta1 := angleDelta.set i (r.single (angleDelta.getD i 0 + adj))
      let angleDelta2 := angleDelta1.set j (r.single (angleDelta1.getD j 0 - adj))
      accumulateAngleDeltaR r fuel strength targetGap dirChildren n rest angleDelta2

/-- The last loop of `Physics::EqualizeChildAngles` with rounded operations. -/
def moveChildrenR (r : Rounding) (m : Libm) :
    List Node → List (ChildData × ℚ) → Except Fault (List Node)
  | nodes, [] => Except.ok nodes
  | nodes, (cd, delta) :: rest =>
    match nodeAt nodes cd.index with
    | Except.error e => Except.error e
    | Except.ok child =>
      let a := cd.angle
      let tx := -(m.sin a)
      let ty := m.cos a
      let stepMag := r.single (cd.radius * delta)
      let moveX := r.single (tx * stepMag)
      let moveY := r.single (ty * stepMag)
      let nodes1 :=
        if child.fixed then nodes
        else nodes.set cd.index.toNat
          { child with px := r.single (child.px + moveX), py := r.single (child.py + moveY) }
      moveChildrenR r m nodes1 rest

/-- Body of the loop of `Physics::EqualizeChildAngles` for one `parentIndex`, with rounded
operations. `std::sort` is taken to be the stable insertion sort. -/
def equalizeParentR (r : Rounding) (m : Libm) (fuel : Nat) (strength : ℚ) (nodes : List Node)
    (parentIndex : Nat) : Except Fault (List Node) :=
  match nodes[parentIndex]? with
  | none => Except.error Fault.outOfRange
  | some parent =>
    if parent.kind ≠ NodeKind.Directory then Except.ok nodes
    else
      match collectDirChildrenR r m nodes parent parent.children with
      | Except.error e => Except.error e
      | Except.ok dirChildren =>
        match dirChildren with
        | [] => Except.ok nodes
        | [cd] => alignSingleChildR r m fuel strength nodes parent cd
        | _ =>
          let n := dirChildren.length
          let sorted := dirChildren.insertionSort (fun a b => a.angle ≤ b.angle)
          let targetGap := r.single (r.single twoPi / r.single (n : ℚ))
          match accumulateAngleDeltaR r fuel strength targetGap sorted n (List.range n)
              (List.replicate n 0) with
          | Except.error e => Except.error e
          | Except.ok angleDelta => moveChildrenR r m nodes (sorted.zip angleDelta)

/-- The loop of `Physics::EqualizeChildAngles` over the given parent indices, with rounded
operations. -/
def equalizeParentsR (r : Rounding) (m : Libm) (fuel : Nat) (strength : ℚ) :
    List Node → List Nat → Except Fault (List Node)
  | nodes, [] => Except.ok nodes
  | nodes, parentIndex :: rest =>
    match equalizeParentR r m fuel strength nodes parentIndex with
    | Except.error e => Except.error e
    | Except.ok nodes1 => equalizeParentsR r m fuel strength nodes1 rest

/-- Embedding of `Physics::EqualizeChildAngles` with rounded operations; every wrapping loop
makes at most `fuel` iterations. -/
def EqualizeChildAnglesR (r : Rounding) (m : Libm) (fuel : Nat) (cfg : Config) (g : Graph) :
    Except Fault Graph :=
  let strength := r.single cfg.physics.dir_children_angle_strength
  if strength ≤ 0 then Except.ok g
  else if g.nodes.length < 2 then Except.ok g
  else
    match equalizeParentsR r m fuel strength g.nodes (List.range g.nodes.length) with
    | Except.error e => Except.error e
    | Except.ok nodes1 => Except.ok { g with nodes := nodes1 }

/-- The `float` nearest to `pi`, the value of `3.14159265359f`. -/
def onePiF : ℚ := 13176795 / 4194304

/-- A `Libm` on `float` values. `sqrt` and `atan2` are the rational approximations of
`libmQ` rounded to `float`: exact at a perfect square, and on the axes the `float` nearest
to `0`, `pi / 2`, `pi` and `-pi / 2`. `sin` and `cos` have the correctly rounded values at
the four angles `0`, `onePiF / 2`, `onePiF` and `-(onePiF / 2)` that `atan2` returns on the
axes (`sin onePiF` is `-6151831 / 2^46`, about `-8.74e-8`, and `cos (onePiF / 2)` is
`-6151831 / 2^47`), and the rounded approximations of `libmQ` elsewhere. -/
def libmF32 : Libm :=
  { sqrt := fun x => roundF32 (sqrtQ x),
    atan2 := fun y x => roundF32 (atan2Q y x),
    sin := fun x =>
      if x = 0 then 0
      else if x = onePiF / 2 then 1
      else if x = -(onePiF / 2) then -1
      else if x = onePiF then -6151831 / 70368744177664
      else roundF32 (sinQ x),
    cos := fun x =>
      if x = 0 then 1
      else if x = onePiF / 2 then -6151831 / 140737488355328
      else if x = -(onePiF / 2) then -6151831 / 140737488355328
      else if x = onePiF then -1
      else roundF32 (cosQ x) }

/-- A directory at the origin with two directory children opposite to each other on the x
axis. -/
def oppositeGraph : Graph :=
  { nodes := [hubDirectory [1, 2], leafDirectory 1 "a" 100 0, leafDirectory 2 "b" (-100) 0],
    pathToNode := [("r/b", 2), ("r/a", 1), ("r", 0)] }

/-! ## Lemmas on the node sequence -/

@[simp] theorem Node.incSubtreeDirCount_parent_dir (n : Node) :
    n.incSubtreeDirCount.parent_dir = n.parent_dir := rfl
@[simp] theorem Node.incSubtreeDirCount_id (n : Node) : n.incSubtreeDirCount.id = n.id := rfl
@[simp] theorem Node.incSubtreeDirCount_kind (n : Node) : n.incSubtreeDirCount.kind = n.kind := rfl
@[simp] theorem Node.incSubtreeDirCount_path (n : Node) : n.incSubtreeDirCount.path = n.path := rfl
@[simp] theorem Node.incSubtreeDirCount_children (n : Node) :
    n.incSubtreeDirCount.children = n.children := rfl
@[simp] theorem Node.incSubtreeDirCount_count (n : Node) :
    n.incSubtreeDirCount.subtreeDirCount = n.subtreeDirCount + 1 := rfl
@[simp] theorem Node.pushChild_parent_dir (n : Node) (c : Int) :
    (n.pushChild c).parent_dir = n.parent_dir := rfl
@[simp] theorem Node.pushChild_id (n : Node) (c : Int) : (n.pushChild c).id = n.id := rfl
@[simp] theorem Node.pushChild_kind (n : Node) (c : Int) : (n.pushChild c).kind = n.kind := rfl
@[simp] theorem Node.pushChild_path (n : Node) (c : Int) : (n.pushChild c).path = n.path := rfl
@[simp] theorem Node.pushChild_children (n : Node) (c : Int) :
    (n.pushChild c).children = n.children ++ [c] := rfl
@[simp] theorem Node.pushChild_count (n : Node) (c : Int) :
    (n.pushChild c).subtreeDirCount = n.subtreeDirCount := rfl

theorem parentChain_neg (nodes : List Node) (L : Nat) (cur : Int) (h : cur < 0) :
    parentChain nodes L cur = [] := by
  cases L <;> simp [parentChain, h]

theorem parentChain_mem_le {nodes : List Node} (hpb : ParentsBelow nodes) :
    ∀ (L : Nat) (cur x : Int), x ∈ parentChain nodes L cur → 0 ≤ x ∧ x ≤ cur := by
  intro L
  induction L with
  | zero => intro cur x hx; simp [parentChain] at hx
  | succ L ih =>
    intro cur x hx
    unfold parentChain at hx
    by_cases hc : cur < 0
    · simp [hc] at hx
    · simp only [hc, if_false] at hx
      cases hn : nodes[cur.toNat]? with
      | none => simp [hn] at hx
      | some n =>
        simp only [hn, List.mem_cons] at hx
        rcases hx with rfl | hx
        · omega
        · have := ih _ _ hx
          have := hpb _ _ hn
          omega

theorem parentChain_congr {nodes1 nodes2 : List Node}
    (h : ∀ i : Nat, (nodes1[i]?).map Node.parent_dir = (nodes2[i]?).map Node.parent_dir) :
    ∀ (L : Nat) (cur : Int), parentChain nodes1 L cur = parentChain nodes2 L cur := by
  intro L
  induction L with
  | zero => intro cur; simp [parentChain]
  | succ L ih =>
    intro cur
    unfold parentChain
    by_cases hc : cur < 0
    · simp [hc]
    · simp only [hc, if_false]
      have := h cur.toNat
      cases h1 : nodes1[cur.toNat]? with
      | none =>
        cases h2 : nodes2[cur.toNat]? with
        | none => rfl
        | some n2 => simp [h1, h2] at this
      | some n1 =>
        cases h2 : nodes2[cur.toNat]? with
        | none => simp [h1, h2] at this
        | some n2 =>
          simp [h1, h2] at this
          simp [this, ih]

theorem parentChain_fuel {nodes : List Node} (hpb : ParentsBelow nodes) :
    ∀ (L1 L2 : Nat) (cur : Int), cur < L1 → cur < L2 →
      parentChain nodes L1 cur = parentChain nodes L2 cur := by
  intro L1
  induction L1 with
  | zero =>
    intro L2 cur h1 h2
    rw [parentChain_neg _ _ _ (by omega), parentChain_neg _ _ _ (by omega)]
  | succ L1 ih =>
    intro L2 cur h1 h2
    by_cases hc : cur < 0
    · rw [parentChain_neg _ _ _ hc, parentChain_neg _ _ _ hc]
    · cases L2 with
      | zero => omega
      | succ L2 =>
        unfold parentChain
        simp only [hc, if_false]
        cases hn : nodes[cur.toNat]? with
        | none => rfl
        | some n =>
          have := hpb _ _ hn
          simp only
          rw [ih L2 n.parent_dir (by omega) (by omega)]

theorem bumpSubtreeDirCount_spec :
    ∀ (fuel : Nat) (nodes : List Node) (cur : Int), ParentsBelow nodes →
      cur < nodes.length → cur < fuel →
      ∃ nodes1, bumpSubtreeDirCount fuel nodes cur = Except.ok nodes1 ∧
        nodes1.length = nodes.length ∧
        ∀ (i : Nat) (n : Node), nodes[i]? = some n →
          nodes1[i]? = some (if (i : Int) ∈ parentChain nodes nodes.length cur
            then n.incSubtreeDirCount else n) := by
  intro fuel
  induction fuel with
  | zero =>
    intro nodes cur hpb hlen hf
    have hc : cur < 0 := by omega
    refine ⟨nodes, by simp [bumpSubtreeDirCount, hc], rfl, ?_⟩
    intro i n hi
    simp [parentChain_neg _ _ _ hc, hi]
  | succ fuel ih =>
    intro nodes cur hpb hlen hf
    by_cases hc : cur < 0
    · refine ⟨nodes, by simp [bumpSubtreeDirCount, hc], rfl, ?_⟩
      intro i n hi
      simp [parentChain_neg _ _ _ hc, hi]
    · have hlt : cur.toNat < nodes.length := by omega
      have hn : nodes[cur.toNat]? = some (nodes[cur.toNat]) := List.getElem?_eq_getElem hlt
      generalize nodes[cur.toNat] = n0 at hn
      have hp0 := hpb _ _ hn
      have hpb1 : ParentsBelow
          (nodes.set cur.toNat n0.incSubtreeDirCount) := by
        intro i n hi
        rw [List.getElem?_set] at hi
        by_cases hic : cur.toNat = i
        · subst hic
          simp [hlt] at hi
          subst hi
          exact hp0
        · simp [hic] at hi
          exact hpb _ _ hi
      obtain ⟨nodes1, hrun, hlen1, hspec⟩ := ih _ n0.parent_dir hpb1
        (by simp; omega) (by omega)
      refine ⟨nodes1, ?_, by simpa using hlen1, ?_⟩
      · rw [bumpSubtreeDirCount]
        simp only [hc, if_false, hn]
        exact hrun
      · intro i n hi
        have hcongr : ∀ L c, parentChain
            (nodes.set cur.toNat n0.incSubtreeDirCount) L c =
            parentChain nodes L c := by
          apply parentChain_congr
          intro j
          rw [List.getElem?_set]
          by_cases hjc : cur.toNat = j
          · subst hjc; simp [hlt, hn]
          · simp [hjc]
        have hchain : parentChain nodes nodes.length cur =
            cur :: parentChain nodes nodes.length n0.parent_dir := by
          have hL : nodes.length = (nodes.length - 1) + 1 := by omega
          rw [hL, parentChain]
          simp only [hc, if_false, hn]
          rw [parentChain_fuel hpb (nodes.length - 1) (nodes.length - 1 + 1) n0.parent_dir
            (by omega) (by omega)]
        rw [hchain]
        by_cases hic : cur.toNat = i
        · subst hic
          have hnotin : ¬ ((cur.toNat : Int) ∈ parentChain nodes nodes.length n0.parent_dir) := by
            intro hmem
            have := parentChain_mem_le hpb _ _ _ hmem
            omega
          rw [hn] at hi
          simp at hi
          subst hi
          have h1 := hspec cur.toNat n0.incSubtreeDirCount
            (by simp [List.getElem?_set, hlt])
          rw [h1]
          simp only [List.length_set, hcongr]
          have hcc : (cur.toNat : Int) = cur := by omega
          rw [hcc] at hnotin
          simp [hnotin, hcc, Node.incSubtreeDirCount]
        · have h1 := hspec i n (by rw [List.getElem?_set]; simp [hic, hi])
          rw [h1]
          simp only [List.length_set, hcongr]
          have hne : ¬ ((i : Int) = cur) := by omega
          simp [hne]

theorem pushChild_ok (nodes : List Node) (p : Int) (id : Int) (h0 : 0 ≤ p) (h : p < nodes.length) :
    ∃ nodes1, pushChild nodes p id = Except.ok nodes1 ∧ nodes1.length = nodes.length ∧
      ∀ (i : Nat) (n : Node), nodes[i]? = some n →
        nodes1[i]? = some (if (i : Int) = p then n.pushChild id else n) := by
  have hp : p.toNat < nodes.length := by omega
  unfold pushChild
  rw [List.getElem?_eq_getElem hp]
  refine ⟨_, rfl, by simp, ?_⟩
  intro i n hi
  by_cases hip : (i : Int) = p
  · have : p.toNat = i := by omega
    subst this
    rw [List.getElem?_eq_getElem hp] at hi
    simp at hi
    simp [hip, List.getElem?_set, hi, hp]
  · have : p.toNat ≠ i := by omega
    simp [hip, List.getElem?_set, this, hi]

theorem parentChain_congr_below {nodes1 nodes2 : List Node} (hpb : ParentsBelow nodes1) :
    ∀ (L : Nat) (cur : Int),
      (∀ i : Nat, (i : Int) ≤ cur →
        (nodes1[i]?).map Node.parent_dir = (nodes2[i]?).map Node.parent_dir) →
      parentChain nodes1 L cur = parentChain nodes2 L cur := by
  intro L
  induction L with
  | zero => intro cur _; simp [parentChain]
  | succ L ih =>
    intro cur h
    unfold parentChain
    by_cases hc : cur < 0
    · simp [hc]
    · simp only [hc, if_false]
      have := h cur.toNat (by omega)
      cases h1 : nodes1[cur.toNat]? with
      | none =>
        cases h2 : nodes2[cur.toNat]? with
        | none => rfl
        | some n2 => simp [h1, h2] at this
      | some n1 =>
        cases h2 : nodes2[cur.toNat]? with
        | none => simp [h1, h2] at this
        | some n2 =>
          simp [h1, h2] at this
          have hlt := hpb _ _ h1
          simp only [this]
          rw [ih n2.parent_dir (fun i hi => h i (by omega))]

/-- The node created by `AddDirectory`. -/
theorem getElem?_append_new (nodes : List Node) (n : Node) :
    (nodes ++ [n])[nodes.length]? = some n := by
  simp

theorem getElem?_append_old (nodes : List Node) (n x : Node) (i : Nat)
    (h : nodes[i]? = some x) : (nodes ++ [n])[i]? = some x := by
  have hlt : i < nodes.length := by
    by_contra hge
    rw [List.getElem?_eq_none (by omega)] at h
    cases h
  rw [List.getElem?_append_left hlt]
  exact h

theorem ParentsBelow_append {nodes : List Node} (hpb : ParentsBelow nodes) (n : Node)
    (hn : n.parent_dir < nodes.length) : ParentsBelow (nodes ++ [n]) := by
  intro i x hi
  by_cases hlt : i < nodes.length
  · rw [List.getElem?_append_left hlt] at hi
    exact hpb _ _ hi
  · by_cases heq : i = nodes.length
    · subst heq
      simp at hi
      subst hi
      exact hn
    · rw [List.getElem?_eq_none (by simp; omega)] at hi
      cases hi

theorem AddDirectory_new_spec (fuel : Nat) (g : Graph) (path name : String) (parentDir : Int)
    (hpb : ParentsBelow g.nodes) (hnew : mapFind g.pathToNode path = none)
    (hp : parentDir < g.nodes.length) (hfuel : g.nodes.length ≤ fuel) :
    ∃ nodes1, AddDirectory fuel g path name parentDir =
        Except.ok ({ g with nodes := nodes1,
                            pathToNode := (path, (g.nodes.length : Int)) :: g.pathToNode },
                   (g.nodes.length : Int)) ∧
      nodes1.length = g.nodes.length + 1 ∧
      nodes1[g.nodes.length]? = some
        (newDirectoryNode (g.nodes.length : Int) path name parentDir) ∧
      ∀ (i : Nat) (n : Node), g.nodes[i]? = some n →
        nodes1[i]? = some
          { n with
            children := if (i : Int) = parentDir then n.children ++ [(g.nodes.length : Int)]
              else n.children,
            subtreeDirCount := n.subtreeDirCount +
              (if (i : Int) ∈ parentChain g.nodes g.nodes.length parentDir then 1 else 0) } := by
  unfold AddDirectory
  simp only [hnew, mapAssign]
  by_cases h0 : parentDir ≥ 0
  · simp only [h0, if_true]
    generalize hnd : newDirectoryNode (g.nodes.length : Int) path name parentDir = nd
    have hndp : nd.parent_dir = parentDir := by rw [← hnd]; rfl
    have hndi : nd.id = (g.nodes.length : Int) := by rw [← hnd]; rfl
    rw [hndi]
    obtain ⟨nodes2, hpush, hlen2, hspec2⟩ := pushChild_ok (g.nodes ++ [nd]) parentDir
      (g.nodes.length : Int) h0 (by simp; omega)
    have hpb1 : ParentsBelow (g.nodes ++ [nd]) := ParentsBelow_append hpb nd (by rw [hndp]; exact hp)
    have hpb2 : ParentsBelow nodes2 := by
      intro i x hi
      have hlt : i < (g.nodes ++ [nd]).length := by
        by_contra hge
        rw [List.getElem?_eq_none (by omega)] at hi
        cases hi
      have h1 := hspec2 i _ (List.getElem?_eq_getElem hlt)
      rw [h1] at hi
      simp at hi
      have := hpb1 i _ (List.getElem?_eq_getElem hlt)
      subst hi
      split <;> simpa using this
    obtain ⟨nodes3, hbump, hlen3, hspec3⟩ := bumpSubtreeDirCount_spec fuel nodes2 parentDir hpb2
      (by rw [hlen2]; simp; omega) (by omega)
    rw [hpush]
    simp only [hbump]
    refine ⟨nodes3, rfl, by rw [hlen3, hlen2]; simp, ?_, ?_⟩
    · have h2 := hspec2 g.nodes.length nd (by simp)
      have h3 := hspec3 _ _ h2
      rw [h3]
      have hne : ¬ ((g.nodes.length : Int) = parentDir) := by omega
      have hnotin : ¬ ((g.nodes.length : Int) ∈ parentChain nodes2 nodes2.length parentDir) := by
        intro hmem
        have := parentChain_mem_le hpb2 _ _ _ hmem
        omega
      simp [hne, hnotin]
    · intro i n hi
      have h2 := hspec2 i n (getElem?_append_old _ _ _ _ hi)
      have h3 := hspec3 _ _ h2
      rw [h3]
      have hchain : parentChain nodes2 nodes2.length parentDir =
          parentChain g.nodes g.nodes.length parentDir := by
        rw [parentChain_fuel hpb2 nodes2.length g.nodes.length parentDir
          (by rw [hlen2]; simp; omega) hp]
        apply parentChain_congr_below hpb2
        intro j hj
        have hjlt : j < g.nodes.length := by omega
        have hj1 := hspec2 j _ (getElem?_append_old _ nd _ _ (List.getElem?_eq_getElem hjlt))
        rw [hj1, List.getElem?_eq_getElem hjlt]
        simp
        split <;> simp
      rw [hchain]
      by_cases hin : (i : Int) ∈ parentChain g.nodes g.nodes.length parentDir
      · rw [if_pos hin, if_pos hin]
        by_cases hip : (i : Int) = parentDir <;>
          simp [hip, Node.pushChild, Node.incSubtreeDirCount]
      · rw [if_neg hin, if_neg hin]
        by_cases hip : (i : Int) = parentDir <;>
          simp [hip, Node.pushChild, Node.incSubtreeDirCount]
  · simp only [h0, if_false]
    refine ⟨_, rfl, by simp, by simp, ?_⟩
    intro i n hi
    have hne : ¬ ((i : Int) = parentDir) := by omega
    rw [parentChain_neg _ _ _ (by omega)]
    simp [hne, getElem?_append_old _ _ _ _ hi]

theorem AddFile_new_spec (g : Graph) (path name : String) (parentDir : Int)
    (hnew : mapFind g.pathToNode path = none) (hp : parentDir < g.nodes.length) :
    ∃ nodes1, AddFile g path name parentDir =
        Except.ok ({ g with nodes := nodes1,
                            pathToNode := (path, (g.nodes.length : Int)) :: g.pathToNode },
                   (g.nodes.length : Int)) ∧
      nodes1.length = g.nodes.length + 1 ∧
      nodes1[g.nodes.length]? = some
        (newFileNode (g.nodes.length : Int) path name parentDir) ∧
      ∀ (i : Nat) (n : Node), g.nodes[i]? = some n →
        nodes1[i]? = some
          { n with
            children := if (i : Int) = parentDir then n.children ++ [(g.nodes.length : Int)]
              else n.children } := by
  unfold AddFile
  simp only [hnew, mapAssign]
  by_cases h0 : parentDir ≥ 0
  · simp only [h0, if_true]
    generalize hnd : newFileNode (g.nodes.length : Int) path name parentDir = nd
    have hndi : nd.id = (g.nodes.length : Int) := by rw [← hnd]; rfl
    rw [hndi]
    obtain ⟨nodes2, hpush, hlen2, hspec2⟩ := pushChild_ok (g.nodes ++ [nd]) parentDir
      (g.nodes.length : Int) h0 (by simp; omega)
    rw [hpush]
    refine ⟨nodes2, rfl, by rw [hlen2]; simp, ?_, ?_⟩
    · have h2 := hspec2 g.nodes.length nd (by simp)
      rw [h2]
      have hne : ¬ ((g.nodes.length : Int) = parentDir) := by omega
      simp [hne]
    · intro i n hi
      have h2 := hspec2 i n (getElem?_append_old _ _ _ _ hi)
      rw [h2]
      by_cases hip : (i : Int) = parentDir <;> simp [hip, Node.pushChild]
  · simp only [h0, if_false]
    refine ⟨_, rfl, by simp, by simp, ?_⟩
    intro i n hi
    have hne : ¬ ((i : Int) = parentDir) := by omega
    simp [hne, getElem?_append_old _ _ _ _ hi]

theorem countP_eq_of_pointwise {α : Type} (P Q : α → Bool) :
    ∀ (l1 l2 : List α), l1.length = l2.length →
      (∀ (i : Nat) (a b : α), l1[i]? = some a → l2[i]? = some b → P a = Q b) →
      l1.countP P = l2.countP Q := by
  intro l1
  induction l1 with
  | nil =>
    intro l2 hlen _
    cases l2 with
    | nil => rfl
    | cons b l2 => simp at hlen
  | cons a l1 ih =>
    intro l2 hlen h
    cases l2 with
    | nil => simp at hlen
    | cons b l2 =>
      have h0 : P a = Q b := h 0 a b (by simp) (by simp)
      have ht := ih l2 (by simpa using hlen) (fun i x y hx hy => h (i + 1) x y (by simpa using hx) (by simpa using hy))
      rw [List.countP_cons, List.countP_cons, ht, h0]

theorem eq_take_append_last {α : Type} (l : List α) (n : Nat) (x : α)
    (hlen : l.length = n + 1) (hx : l[n]? = some x) : l = l.take n ++ [x] := by
  apply List.ext_getElem?
  intro i
  by_cases hi : i < n
  · rw [List.getElem?_append_left (by simp; omega), List.getElem?_take_of_lt hi]
  · by_cases hin : i = n
    · subst hin
      rw [List.getElem?_append_right (by simp), hx]
      simp [hlen]
    · rw [List.getElem?_eq_none (by omega), List.getElem?_eq_none (by simp; omega)]

theorem Grows.parentsBelow {nodes nodes1 : List Node} {nd : Node} (hg : Grows nodes nodes1 nd)
    (hpb : ParentsBelow nodes) : ParentsBelow nodes1 := by
  intro i x hi
  by_cases hlt : i < nodes.length
  · obtain ⟨n1, h1, _, _, hp⟩ := hg.old i _ (List.getElem?_eq_getElem hlt)
    rw [h1] at hi
    cases hi
    rw [hp]
    exact hpb _ _ (List.getElem?_eq_getElem hlt)
  · by_cases heq : i = nodes.length
    · subst heq
      rw [hg.last] at hi
      cases hi
      exact hg.parent_lt
    · rw [List.getElem?_eq_none (by rw [hg.length_eq]; omega)] at hi
      cases hi

theorem Grows.chain_eq {nodes nodes1 : List Node} {nd : Node} (hg : Grows nodes nodes1 nd)
    (hpb : ParentsBelow nodes) (cur : Int) (hcur : cur < nodes.length) :
    parentChain nodes1 nodes1.length cur = parentChain nodes nodes.length cur := by
  have hpb1 := hg.parentsBelow hpb
  rw [parentChain_fuel hpb1 nodes1.length nodes.length cur (by rw [hg.length_eq]; simp; omega) hcur]
  apply parentChain_congr_below hpb1
  intro j hj
  have hjlt : j < nodes.length := by omega
  obtain ⟨n1, h1, _, _, hp⟩ := hg.old j _ (List.getElem?_eq_getElem hjlt)
  rw [h1, List.getElem?_eq_getElem hjlt]
  simp [hp]

theorem Grows.count_old {nodes nodes1 : List Node} {nd : Node} (hg : Grows nodes nodes1 nd)
    (hpb : ParentsBelow nodes) (d : Int) :
    countDirsBelow nodes1 d = countDirsBelow nodes d +
      (if nd.kind = NodeKind.Directory ∧ nd.id ≠ d ∧
          d ∈ parentChain nodes nodes.length nd.parent_dir then 1 else 0) := by
  unfold countDirsBelow
  have hsplit := eq_take_append_last nodes1 nodes.length nd hg.length_eq hg.last
  rw [hsplit, List.countP_append, ← hsplit]
  congr 1
  · apply countP_eq_of_pointwise
    · simp [hg.length_eq]
    · intro i a b ha hb
      have hlt : i < nodes.length := by
        by_contra hge
        rw [List.getElem?_eq_none (by omega)] at hb
        cases hb
      rw [List.getElem?_take_of_lt hlt] at ha
      obtain ⟨n1, h1, hid, hk, hp⟩ := hg.old i b hb
      rw [h1] at ha
      cases ha
      have hbp := hpb _ _ hb
      simp only [isBelow, hid, hk, hp]
      rw [hg.chain_eq hpb b.parent_dir (by omega)]
  · simp only [List.countP_cons, List.countP_nil, isBelow]
    rw [hg.chain_eq hpb nd.parent_dir hg.parent_lt]
    by_cases h1 : nd.kind = NodeKind.Directory <;> by_cases h2 : nd.id = d <;>
      by_cases h3 : d ∈ parentChain nodes nodes.length nd.parent_dir <;> simp [h1, h2, h3]

theorem countDirsBelow_top {nodes : List Node} (hpb : ParentsBelow nodes) (d : Int)
    (hd : (nodes.length : Int) ≤ d + 1) : countDirsBelow nodes d = 0 := by
  unfold countDirsBelow
  rw [List.countP_eq_zero]
  intro x hx
  obtain ⟨i, hlt, hi⟩ := List.mem_iff_getElem.mp hx
  have hsome : nodes[i]? = some x := by rw [List.getElem?_eq_getElem hlt, hi]
  have hp := hpb _ _ hsome
  have hnot : ¬ (d ∈ parentChain nodes nodes.length x.parent_dir) := by
    intro hmem
    have := parentChain_mem_le hpb _ _ _ hmem
    omega
  simp [isBelow, hnot]

theorem mapFind_cons (m : List (String × Int)) (k p : String) (v : Int) :
    mapFind ((k, v) :: m) p = if k = p then some v else mapFind m p := by
  simp [mapFind]

theorem GraphInv_empty : GraphInv {} := by
  refine ⟨?_, ?_, ?_, ?_⟩
  · intro i n hi; simp at hi
  · intro i n hi; simp at hi
  · intro i n hi; simp at hi
  · intro p i
    simp [mapFind]

theorem GraphInv_grow {g : Graph} {nodes1 : List Node} {nd : Node} (links1 : List Link)
    (path : String) (hinv : GraphInv g) (hg : Grows g.nodes nodes1 nd)
    (hid : nd.id = (g.nodes.length : Int)) (hpath : nd.path = path)
    (hcount : nd.subtreeDirCount = 0)
    (hnew : mapFind g.pathToNode path = none)
    (hold : ∀ (i : Nat) (n : Node), g.nodes[i]? = some n →
      ∃ n1, nodes1[i]? = some n1 ∧ n1.path = n.path ∧
        n1.subtreeDirCount = n.subtreeDirCount +
          (if nd.kind = NodeKind.Directory ∧
              (i : Int) ∈ parentChain g.nodes g.nodes.length nd.parent_dir then 1 else 0)) :
    GraphInv { nodes := nodes1, links := links1,
               pathToNode := (path, (g.nodes.length : Int)) :: g.pathToNode } := by
  have hpb1 := hg.parentsBelow hinv.parents
  have hrange : ∀ (i : Nat) (x : Node), nodes1[i]? = some x →
      (i < g.nodes.length ∧ ∃ n, g.nodes[i]? = some n) ∨ (i = g.nodes.length ∧ x = nd) := by
    intro i x hi
    by_cases hlt : i < g.nodes.length
    · exact Or.inl ⟨hlt, _, List.getElem?_eq_getElem hlt⟩
    · by_cases heq : i = g.nodes.length
      · subst heq
        rw [hg.last] at hi
        cases hi
        exact Or.inr ⟨rfl, rfl⟩
      · rw [List.getElem?_eq_none (by rw [hg.length_eq]; omega)] at hi
        cases hi
  refine ⟨?_, hpb1, ?_, ?_⟩
  · intro i x hi
    rcases hrange i x hi with ⟨hlt, n, hn⟩ | ⟨heq, hx⟩
    · obtain ⟨n1, h1, hid1, _, _⟩ := hg.old i n hn
      rw [h1] at hi
      cases hi
      rw [hid1]
      exact hinv.ids _ _ hn
    · subst hx; subst heq; exact hid
  · intro i x hi
    show x.subtreeDirCount = (countDirsBelow nodes1 i : Int)
    rcases hrange i x hi with ⟨hlt, n, hn⟩ | ⟨heq, hx⟩
    · obtain ⟨n1, h1, _, hc⟩ := hold i n hn
      rw [h1] at hi
      cases hi
      rw [hc, hg.count_old hinv.parents, hinv.counts _ _ hn]
      have hne : nd.id ≠ (i : Int) := by rw [hid]; omega
      by_cases hk : nd.kind = NodeKind.Directory <;>
        by_cases hin : (i : Int) ∈ parentChain g.nodes g.nodes.length nd.parent_dir <;>
        simp [hk, hin, hne]
    · subst hx
      rw [countDirsBelow_top hpb1 _ (by rw [hg.length_eq, heq]; simp), hcount]
      rfl
  · intro p i
    show mapFind ((path, (g.nodes.length : Int)) :: g.pathToNode) p = some i ↔
      (0 ≤ i ∧ ∃ n, nodes1[i.toNat]? = some n ∧ n.path = p)
    rw [mapFind_cons]
    constructor
    · intro h
      by_cases hpp : path = p
      · rw [if_pos hpp] at h
        cases h
        refine ⟨by omega, nd, ?_, by rw [hpath, hpp]⟩
        simpa using hg.last
      · rw [if_neg hpp] at h
        obtain ⟨h0, n, hn, hnp⟩ := (hinv.index p i).mp h
        obtain ⟨n1, h1, hp1, _⟩ := hold _ n hn
        exact ⟨h0, n1, h1, by rw [hp1, hnp]⟩
    · rintro ⟨h0, x, hx, hxp⟩
      rcases hrange _ x hx with ⟨hlt, n, hn⟩ | ⟨heq, hxnd⟩
      · obtain ⟨n1, h1, hp1, _⟩ := hold _ n hn
        rw [h1] at hx
        cases hx
        have hfind := (hinv.index p i).mpr ⟨h0, n, hn, by rw [← hp1, hxp]⟩
        have hpp : ¬ path = p := by
          intro hpp
          rw [hpp, hfind] at hnew
          cases hnew
        rw [if_neg hpp]
        exact hfind
      · subst hxnd
        have hpp : path = p := by rw [← hpath, hxp]
        rw [if_pos hpp]
        congr 1
        omega

theorem AddLink_nodes (g : Graph) (a b : Int) (r s : ℚ) : (AddLink g a b r s).nodes = g.nodes := by
  unfold AddLink
  split <;> rfl

theorem AddLink_pathToNode (g : Graph) (a b : Int) (r s : ℚ) :
    (AddLink g a b r s).pathToNode = g.pathToNode := by
  unfold AddLink
  split <;> rfl

theorem AddDirectory_of_find (fuel : Nat) (g : Graph) (path name : String) (parentDir id : Int)
    (h : mapFind g.pathToNode path = some id) :
    AddDirectory fuel g path name parentDir = Except.ok (g, id) := by
  simp [AddDirectory, h]

theorem AddFile_of_find (g : Graph) (path name : String) (parentDir id : Int)
    (h : mapFind g.pathToNode path = some id) :
    AddFile g path name parentDir = Except.ok (g, id) := by
  simp [AddFile, h]

theorem validParent_lt {g : Graph} (hids : IdsAreIndices g.nodes) (p : Int)
    (hv : validParent g p = true) : p < g.nodes.length := by
  unfold validParent at hv
  simp only [Bool.or_eq_true, beq_iff_eq, List.any_eq_true] at hv
  rcases hv with h | ⟨n, hn, hid⟩
  · omega
  · obtain ⟨i, hlt, hi⟩ := List.mem_iff_getElem.mp hn
    have := hids i n (by rw [List.getElem?_eq_getElem hlt, hi])
    omega

theorem KeepsNodes_refl (g : Graph) : KeepsNodes g g := by
  intro i n hi
  exact ⟨n, hi, rfl, rfl⟩

theorem KeepsNodes_trans {g1 g2 g3 : Graph} (h12 : KeepsNodes g1 g2) (h23 : KeepsNodes g2 g3) :
    KeepsNodes g1 g3 := by
  intro i n hi
  obtain ⟨n2, h2, hid2, hp2⟩ := h12 i n hi
  obtain ⟨n3, h3, hid3, hp3⟩ := h23 i n2 h2
  exact ⟨n3, h3, by rw [hid3, hid2], by rw [hp3, hp2]⟩

theorem AddDirectory_inv (fuel : Nat) (g : Graph) (path name : String) (parentDir : Int)
    (hinv : GraphInv g) (hv : validParent g parentDir = true) (hf : g.nodes.length ≤ fuel) :
    ∃ g1 id, AddDirectory fuel g path name parentDir = Except.ok (g1, id) ∧ GraphInv g1 ∧
      g1.nodes.length ≤ g.nodes.length + 1 ∧ KeepsNodes g g1 ∧ g1.links = g.links := by
  cases hfind : mapFind g.pathToNode path with
  | some id =>
    exact ⟨g, id, AddDirectory_of_find fuel g path name parentDir id hfind, hinv, by omega,
      KeepsNodes_refl g, rfl⟩
  | none =>
    have hp := validParent_lt hinv.ids parentDir hv
    obtain ⟨nodes1, hrun, hlen, hlast, hold⟩ :=
      AddDirectory_new_spec fuel g path name parentDir hinv.parents hfind hp hf
    have hg : Grows g.nodes nodes1 (newDirectoryNode (g.nodes.length : Int) path name parentDir) :=
      ⟨hlen, fun i n hi => ⟨_, hold i n hi, rfl, rfl, rfl⟩, hlast, hp⟩
    refine ⟨_, _, hrun, ?_, by simp [hlen], ?_, rfl⟩
    · apply GraphInv_grow g.links path hinv hg rfl rfl rfl hfind
      intro i n hi
      refine ⟨_, hold i n hi, rfl, ?_⟩
      simp [newDirectoryNode]
    · intro i n hi
      exact ⟨_, hold i n hi, rfl, rfl⟩

theorem AddFile_inv (g : Graph) (path name : String) (parentDir : Int)
    (hinv : GraphInv g) (hv : validParent g parentDir = true) :
    ∃ g1 id, AddFile g path name parentDir = Except.ok (g1, id) ∧ GraphInv g1 ∧
      g1.nodes.length ≤ g.nodes.length + 1 ∧ KeepsNodes g g1 ∧ g1.links = g.links := by
  cases hfind : mapFind g.pathToNode path with
  | some id =>
    exact ⟨g, id, AddFile_of_find g path name parentDir id hfind, hinv, by omega,
      KeepsNodes_refl g, rfl⟩
  | none =>
    have hp := validParent_lt hinv.ids parentDir hv
    obtain ⟨nodes1, hrun, hlen, hlast, hold⟩ :=
      AddFile_new_spec g path name parentDir hfind hp
    have hg : Grows g.nodes nodes1 (newFileNode (g.nodes.length : Int) path name parentDir) :=
      ⟨hlen, fun i n hi => ⟨_, hold i n hi, rfl, rfl, rfl⟩, hlast, hp⟩
    refine ⟨_, _, hrun, ?_, by simp [hlen], ?_, rfl⟩
    · apply GraphInv_grow g.links path hinv hg rfl rfl rfl hfind
      intro i n hi
      refine ⟨_, hold i n hi, rfl, ?_⟩
      simp [newFileNode]
    · intro i n hi
      exact ⟨_, hold i n hi, rfl, rfl⟩

theorem AddLink_inv (g : Graph) (a b : Int) (r s : ℚ) (hinv : GraphInv g) :
    GraphInv (AddLink g a b r s) := by
  have hn : (AddLink g a b r s).nodes = g.nodes := AddLink_nodes g a b r s
  have hp : (AddLink g a b r s).pathToNode = g.pathToNode := AddLink_pathToNode g a b r s
  refine ⟨by rw [hn]; exact hinv.ids, by rw [hn]; exact hinv.parents,
    by rw [hn]; exact hinv.counts, ?_⟩
  intro p i
  rw [hn, hp]
  exact hinv.index p i

theorem applyOp_inv (fuel : Nat) (g : Graph) (op : GraphOp) (hinv : GraphInv g)
    (hv : opParentValid g op = true) (hf : g.nodes.length ≤ fuel) :
    ∃ g1, applyOp fuel g op = Except.ok g1 ∧ GraphInv g1 ∧
      g1.nodes.length ≤ g.nodes.length + 1 ∧ KeepsNodes g g1 := by
  cases op with
  | addDirectory path name parentDir =>
    obtain ⟨g1, id, hrun, h1, h2, h3, _⟩ := AddDirectory_inv fuel g path name parentDir hinv hv hf
    exact ⟨g1, by simp [applyOp, hrun, Except.map], h1, h2, h3⟩
  | addFile path name parentDir =>
    obtain ⟨g1, id, hrun, h1, h2, h3, _⟩ := AddFile_inv g path name parentDir hinv hv
    exact ⟨g1, by simp [applyOp, hrun, Except.map], h1, h2, h3⟩
  | findOrAddDirectory path parentDir =>
    obtain ⟨g1, id, hrun, h1, h2, h3, _⟩ :=
      AddDirectory_inv fuel g path (lastSegment path) parentDir hinv hv hf
    refine ⟨g1, ?_, h1, h2, h3⟩
    cases hfind : mapFind g.pathToNode path with
    | some id0 =>
      have := AddDirectory_of_find fuel g path (lastSegment path) parentDir id0 hfind
      rw [this] at hrun
      cases hrun
      simp [applyOp, FindOrAddDirectory, hfind, Except.map]
    | none => simp [applyOp, FindOrAddDirectory, hfind, hrun, Except.map]
  | findOrAddFile path parentDir =>
    obtain ⟨g1, id, hrun, h1, h2, h3, _⟩ :=
      AddFile_inv g path (lastSegment path) parentDir hinv hv
    refine ⟨g1, ?_, h1, h2, h3⟩
    cases hfind : mapFind g.pathToNode path with
    | some id0 =>
      have := AddFile_of_find g path (lastSegment path) parentDir id0 hfind
      rw [this] at hrun
      cases hrun
      simp [applyOp, FindOrAddFile, hfind, Except.map]
    | none => simp [applyOp, FindOrAddFile, hfind, hrun, Except.map]
  | addLink a b r s =>
    refine ⟨AddLink g a b r s, rfl, AddLink_inv g a b r s hinv, ?_, ?_⟩
    · rw [AddLink_nodes g a b r s]; omega
    · intro i n hi
      exact ⟨n, by rw [AddLink_nodes g a b r s]; exact hi, rfl, rfl⟩

theorem runOps_inv (fuel : Nat) :
    ∀ (ops : List GraphOp) (g : Graph), GraphInv g → opsValid fuel g ops = true →
      g.nodes.length + ops.length ≤ fuel →
      ∃ g1, runOps fuel g ops = Except.ok g1 ∧ GraphInv g1 ∧ KeepsNodes g g1 ∧
        g1.nodes.length ≤ g.nodes.length + ops.length := by
  intro ops
  induction ops with
  | nil =>
    intro g hinv _ _
    exact ⟨g, rfl, hinv, KeepsNodes_refl g, by simp⟩
  | cons op rest ih =>
    intro g hinv hv hf
    simp only [opsValid, Bool.and_eq_true] at hv
    simp only [List.length_cons] at hf
    obtain ⟨g1, hrun, hinv1, hlen1, hkeep1⟩ := applyOp_inv fuel g op hinv hv.1 (by omega)
    have hv2 := hv.2
    rw [hrun] at hv2
    obtain ⟨g2, hrun2, hinv2, hkeep2, hlen2⟩ := ih g1 hinv1 hv2 (by omega)
    refine ⟨g2, ?_, hinv2, KeepsNodes_trans hkeep1 hkeep2, by simp only [List.length_cons]; omega⟩
    simp only [runOps, hrun]
    exact hrun2

theorem ParentsBelow_of_ids {nodes : List Node} (hids : IdsAreIndices nodes)
    (hpar : ∀ n ∈ nodes, n.parent_dir < n.id) : ParentsBelow nodes := by
  intro i n hi
  obtain ⟨hlt, hget⟩ := List.getElem?_eq_some.mp hi
  have hmem : n ∈ nodes := hget ▸ List.getElem_mem hlt
  have := hpar n hmem
  rw [hids i n hi] at this
  exact this

theorem index_lt_of_id {nodes : List Node} (hids : IdsAreIndices nodes) (p : Int)
    (h : ∃ n ∈ nodes, n.id = p) : 0 ≤ p ∧ p < nodes.length := by
  obtain ⟨n, hn, hid⟩ := h
  obtain ⟨i, hlt, hi⟩ := List.mem_iff_getElem.mp hn
  have := hids i n (by rw [List.getElem?_eq_getElem hlt, hi])
  omega

/-- C1: in every graph built from the empty graph by a sequence of adding calls whose
`parentDir` arguments are `-1` or the id of an existing node, the calls all return, and the
`subtreeDirCount` of every Directory node `d` equals the count of the Directory nodes other
than `d` whose parent chain passes through `d`, recomputed over the whole node sequence (the
chains of the recomputation are whole: more fuel does not lengthen them). -/
theorem subtreeDirCount_eq_recount (fuel : Nat) (ops : List GraphOp)
    (hvalid : opsValid fuel {} ops = true) (hfuel : ops.length ≤ fuel) :
    ∃ g, runOps fuel {} ops = Except.ok g ∧
      (∀ (d : Nat) (n : Node), g.nodes[d]? = some n → n.kind = NodeKind.Directory →
        n.subtreeDirCount = (countDirsBelow g.nodes d : Int)) ∧
      (∀ (L : Nat) (x : Node), x ∈ g.nodes → g.nodes.length ≤ L →
        parentChain g.nodes L x.parent_dir = parentChain g.nodes g.nodes.length x.parent_dir) := by
  obtain ⟨g, hrun, hinv, _, _⟩ := runOps_inv fuel ops {} GraphInv_empty hvalid (by simpa using hfuel)
  refine ⟨g, hrun, fun d n hd _ => hinv.counts d n hd, ?_⟩
  intro L x hx hL
  obtain ⟨i, hlt, hi⟩ := List.mem_iff_getElem.mp hx
  have hp := hinv.parents i x (by rw [List.getElem?_eq_getElem hlt, hi])
  exact parentChain_fuel hinv.parents L g.nodes.length x.parent_dir (by omega) (by omega)

theorem subtreeDirCount_eq_recount_witness :
    ∃ g, runOps 4 {}
        [GraphOp.addDirectory "src" "src" (-1), GraphOp.addDirectory "src/a" "a" 0,
         GraphOp.addFile "src/a/x.h" "x.h" 1, GraphOp.addDirectory "src/a/b" "b" 1] =
        Except.ok g ∧
      ∀ (d : Nat) (n : Node), g.nodes[d]? = some n → n.kind = NodeKind.Directory →
        n.subtreeDirCount = (countDirsBelow g.nodes d : Int) := by
  obtain ⟨g, h1, h2, _⟩ := subtreeDirCount_eq_recount 4
    [GraphOp.addDirectory "src" "src" (-1), GraphOp.addDirectory "src/a" "a" 0,
     GraphOp.addFile "src/a/x.h" "x.h" 1, GraphOp.addDirectory "src/a/b" "b" 1]
    (by decide) (by decide)
  exact ⟨g, h1, h2⟩

/-- C2: when `path` is already in the path index, `AddDirectory` and `AddFile` return the id
registered for it and the graph they were given, unchanged, whatever `name` and `parentDir`
are. -/
theorem add_existing_path_unchanged (fuel : Nat) (g : Graph) (path name : String)
    (parentDir id : Int) (h : mapFind g.pathToNode path = some id) :
    AddDirectory fuel g path name parentDir = Except.ok (g, id) ∧
    AddFile g path name parentDir = Except.ok (g, id) :=
  ⟨AddDirectory_of_find fuel g path name parentDir id h,
   AddFile_of_find g path name parentDir id h⟩

theorem add_existing_path_unchanged_witness :
    AddDirectory 0 { nodes := [newDirectoryNode 0 "src" "src" (-1)], pathToNode := [("src", 0)] }
        "src" "other" 7 =
      Except.ok ({ nodes := [newDirectoryNode 0 "src" "src" (-1)], pathToNode := [("src", 0)] }, 0) ∧
    AddFile { nodes := [newDirectoryNode 0 "src" "src" (-1)], pathToNode := [("src", 0)] }
        "src" "other" 7 =
      Except.ok ({ nodes := [newDirectoryNode 0 "src" "src" (-1)], pathToNode := [("src", 0)] }, 0) :=
  add_existing_path_unchanged 0
    { nodes := [newDirectoryNode 0 "src" "src" (-1)], pathToNode := [("src", 0)] }
    "src" "other" 7 0 (by decide)

/-- C3: on a graph whose nodes have their index as id and a `parent_dir` smaller than their
id, for a path not yet present and a `parentDir` that is the id of an existing node,
`AddDirectory` (with fuel for the walk up the parent chain) returns the old node count, appends
the new Directory node with that id, the given name, path and `parentDir` and count 0, appends
the id to the children of `parentDir`, adds 1 to `subtreeDirCount` exactly on the nodes of the
parent chain that starts at `parentDir`, and changes nothing else. -/
theorem AddDirectory_new_path (fuel : Nat) (g : Graph) (path name : String) (parentDir : Int)
    (hids : IdsAreIndices g.nodes) (hpar : ∀ n ∈ g.nodes, n.parent_dir < n.id)
    (hnew : mapFind g.pathToNode path = none) (hparent : ∃ n ∈ g.nodes, n.id = parentDir)
    (hfuel : g.nodes.length ≤ fuel) :
    ∃ g1, AddDirectory fuel g path name parentDir = Except.ok (g1, (g.nodes.length : Int)) ∧
      g1.nodes.length = g.nodes.length + 1 ∧
      g1.nodes[g.nodes.length]? =
        some { id := (g.nodes.length : Int), kind := NodeKind.Directory, name := name,
               path := path, parent_dir := parentDir, children := [], subtreeDirCount := 0,
               px := 0, py := 0, ppx := 0, ppy := 0, mass := 1, fixed := false,
               color_rgba := 0xFF7FE07F - 2 ^ 32 } ∧
      (∀ (i : Nat) (n : Node), g.nodes[i]? = some n →
        g1.nodes[i]? = some
          { n with
            children := if (i : Int) = parentDir then n.children ++ [(g.nodes.length : Int)]
              else n.children,
            subtreeDirCount := n.subtreeDirCount +
              (if (i : Int) ∈ parentChain g.nodes g.nodes.length parentDir then 1 else 0) }) ∧
      parentDir ∈ parentChain g.nodes g.nodes.length parentDir ∧
      g1.links = g.links ∧
      g1.pathToNode = (path, (g.nodes.length : Int)) :: g.pathToNode := by
  have hpb := ParentsBelow_of_ids hids hpar
  have hp := index_lt_of_id hids parentDir hparent
  obtain ⟨nodes1, hrun, hlen, hlast, hold⟩ :=
    AddDirectory_new_spec fuel g path name parentDir hpb hnew hp.2 hfuel
  refine ⟨_, hrun, hlen, hlast, hold, ?_, rfl, rfl⟩
  have hL : g.nodes.length = (g.nodes.length - 1) + 1 := by omega
  rw [hL, parentChain]
  have hlt : parentDir.toNat < g.nodes.length := by omega
  simp [show ¬ parentDir < 0 by omega, List.getElem?_eq_getElem hlt]

theorem AddDirectory_new_path_witness :
    ∃ g1, AddDirectory 1
        { nodes := [newDirectoryNode 0 "src" "src" (-1)], pathToNode := [("src", 0)] }
        "src/a" "a" 0 = Except.ok (g1, 1) ∧ g1.nodes.length = 2 := by
  obtain ⟨g1, h1, h2, _⟩ := AddDirectory_new_path 1
    { nodes := [newDirectoryNode 0 "src" "src" (-1)], pathToNode := [("src", 0)] }
    "src/a" "a" 0
    (by
      intro i n hi
      cases i with
      | zero => simp at hi; subst hi; rfl
      | succ i => simp at hi)
    (by intro n hn; simp [newDirectoryNode] at hn; subst hn; decide)
    (by decide) ⟨_, List.mem_singleton.mpr rfl, rfl⟩ (by decide)
  exact ⟨g1, h1, h2⟩

/-- C4: for a `parentDir` that is negative (no parent) or the index of an existing node,
`AddFile` returns, and every node that existed before has the same `subtreeDirCount` after;
when the path is new, the returned id is the old node count, the File node with that id and
`parent_dir = parentDir` is appended, the id is appended to the children of `parentDir`, and
every other field of every old node, the links, and the other index entries are unchanged. -/
theorem AddFile_frame (g : Graph) (path name : String) (parentDir : Int)
    (hp : parentDir < g.nodes.length) :
    ∃ g1 id, AddFile g path name parentDir = Except.ok (g1, id) ∧
      (∀ (i : Nat) (n : Node), g.nodes[i]? = some n →
        ∃ n1, g1.nodes[i]? = some n1 ∧ n1.subtreeDirCount = n.subtreeDirCount) ∧
      (mapFind g.pathToNode path = none →
        id = (g.nodes.length : Int) ∧
        g1.nodes.length = g.nodes.length + 1 ∧
        g1.nodes[g.nodes.length]? =
          some { id := (g.nodes.length : Int), kind := NodeKind.File, name := name,
                 path := path, parent_dir := parentDir, children := [], subtreeDirCount := 0,
                 px := 0, py := 0, ppx := 0, ppy := 0, mass := 1, fixed := false,
                 color_rgba := 0xFF7FB2FF - 2 ^ 32 } ∧
        (∀ (i : Nat) (n : Node), g.nodes[i]? = some n →
          g1.nodes[i]? = some
            { n with
              children := if (i : Int) = parentDir then n.children ++ [(g.nodes.length : Int)]
                else n.children }) ∧
        g1.links = g.links ∧
        g1.pathToNode = (path, (g.nodes.length : Int)) :: g.pathToNode) := by
  cases hfind : mapFind g.pathToNode path with
  | some id0 =>
    refine ⟨g, id0, AddFile_of_find g path name parentDir id0 hfind,
      fun i n hi => ⟨n, hi, rfl⟩, ?_⟩
    intro h
    cases h
  | none =>
    obtain ⟨nodes1, hrun, hlen, hlast, hold⟩ := AddFile_new_spec g path name parentDir hfind hp
    refine ⟨_, _, hrun, fun i n hi => ⟨_, hold i n hi, rfl⟩, ?_⟩
    intro _
    exact ⟨rfl, hlen, hlast, hold, rfl, rfl⟩

theorem AddFile_frame_witness :
    ∃ g1 id, AddFile { nodes := [newDirectoryNode 0 "src" "src" (-1)],
                       pathToNode := [("src", 0)] } "src/x.h" "x.h" 0 = Except.ok (g1, id) ∧
      id = 1 ∧ g1.nodes.length = 2 := by
  obtain ⟨g1, id, hrun, _, h⟩ := AddFile_frame
    { nodes := [newDirectoryNode 0 "src" "src" (-1)], pathToNode := [("src", 0)] }
    "src/x.h" "x.h" 0 (by decide)
  have h2 := h (by decide)
  exact ⟨g1, id, hrun, h2.1, h2.2.1⟩

/-- C5: `AddLink` leaves the link sequence as it is exactly when `a < 0`, `b < 0` or `a = b`;
otherwise the sequence is the old one followed by the link `(a, b, restLength, stiffness)`, so
the earlier links are kept even when the pair is already linked; nodes and index are never
touched. -/
theorem AddLink_spec (g : Graph) (a b : Int) (restLength stiffness : ℚ) :
    ((AddLink g a b restLength stiffness).links = g.links ↔ (a < 0 ∨ b < 0 ∨ a = b)) ∧
    (AddLink g a b restLength stiffness).links =
      (if a < 0 ∨ b < 0 ∨ a = b then g.links
       else g.links ++ [{ a := a, b := b, restLength := restLength, stiffness := stiffness }]) ∧
    (AddLink g a b restLength stiffness).nodes = g.nodes ∧
    (AddLink g a b restLength stiffness).pathToNode = g.pathToNode := by
  unfold AddLink
  by_cases h : a < 0 ∨ b < 0 ∨ a = b
  · simp [h]
  · simp [h]

theorem runOps_append (fuel : Nat) :
    ∀ (ops1 ops2 : List GraphOp) (g : Graph),
      runOps fuel g (ops1 ++ ops2) =
        match runOps fuel g ops1 with
        | Except.error e => Except.error e
        | Except.ok g1 => runOps fuel g1 ops2 := by
  intro ops1
  induction ops1 with
  | nil => intro ops2 g; rfl
  | cons op rest ih =>
    intro ops2 g
    simp only [List.cons_append, runOps]
    cases applyOp fuel g op with
    | error e => rfl
    | ok g1 => exact ih ops2 g1

theorem opsValid_append (fuel : Nat) :
    ∀ (ops1 ops2 : List GraphOp) (g : Graph), opsValid fuel g (ops1 ++ ops2) = true →
      opsValid fuel g ops1 = true ∧
        ∀ g1, runOps fuel g ops1 = Except.ok g1 → opsValid fuel g1 ops2 = true := by
  intro ops1
  induction ops1 with
  | nil =>
    intro ops2 g h
    refine ⟨rfl, ?_⟩
    intro g1 hg1
    simp only [runOps] at hg1
    cases hg1
    exact h
  | cons op rest ih =>
    intro ops2 g h
    simp only [List.cons_append, opsValid, Bool.and_eq_true] at h
    simp only [opsValid, runOps, Bool.and_eq_true]
    cases hop : applyOp fuel g op with
    | error e =>
      refine ⟨⟨h.1, rfl⟩, ?_⟩
      intro g1 hg1
      cases hg1
    | ok g0 =>
      have h2 := h.2
      rw [hop] at h2
      have := ih ops2 g0 h2
      exact ⟨⟨h.1, this.1⟩, this.2⟩

theorem FindNodeByPath_spec {g : Graph} (hinv : GraphInv g) (p : String) :
    (∀ i : Nat, FindNodeByPath g p = (i : Int) ↔ ∃ n, g.nodes[i]? = some n ∧ n.path = p) ∧
    (FindNodeByPath g p = -1 ↔ ∀ n ∈ g.nodes, n.path ≠ p) := by
  unfold FindNodeByPath
  cases hfind : mapFind g.pathToNode p with
  | none =>
    have hnone : ∀ (i : Nat) (n : Node), g.nodes[i]? = some n → n.path ≠ p := by
      intro i n hi hp
      have := (hinv.index p i).mpr ⟨by omega, n, by simpa using hi, hp⟩
      rw [hfind] at this
      cases this
    constructor
    · intro i
      constructor
      · intro h
        dsimp only at h
        omega
      · rintro ⟨n, hn, hp⟩
        exact absurd hp (hnone i n hn)
    · constructor
      · intro _ n hn
        obtain ⟨i, hlt, hi⟩ := List.mem_iff_getElem.mp hn
        exact hnone i n (by rw [List.getElem?_eq_getElem hlt, hi])
      · intro _; rfl
  | some id =>
    obtain ⟨h0, n, hn, hp⟩ := (hinv.index p id).mp hfind
    constructor
    · intro i
      constructor
      · intro h
        simp only at h
        subst h
        exact ⟨n, by simpa using hn, hp⟩
      · rintro ⟨n1, hn1, hp1⟩
        have := (hinv.index p i).mpr ⟨by omega, n1, by simpa using hn1, hp1⟩
        rw [hfind] at this
        cases this
        rfl
    · constructor
      · intro h
        simp only at h
        omega
      · intro h
        have hmem : n ∈ g.nodes := by
          obtain ⟨hlt, hget⟩ := List.getElem?_eq_some.mp hn
          exact hget ▸ List.getElem_mem hlt
        exact absurd hp (h n hmem)

theorem paths_distinct {g : Graph} (hinv : GraphInv g) (i j : Nat) (n1 n2 : Node)
    (h1 : g.nodes[i]? = some n1) (h2 : g.nodes[j]? = some n2) (hne : i ≠ j) :
    n1.path ≠ n2.path := by
  intro hp
  have a1 := (hinv.index n1.path i).mpr ⟨by omega, n1, by simpa using h1, rfl⟩
  have a2 := (hinv.index n1.path j).mpr ⟨by omega, n2, by simpa using h2, hp.symm⟩
  rw [a1] at a2
  simp at a2
  exact hne a2

/-- C6: after any sequence `ops1` of adding calls with valid parents on the empty graph, every
node has its index as id, distinct nodes have distinct paths, `FindNodeByPath p` is `i` exactly
when node `i` has path `p` and is `-1` exactly when no node has path `p`; and after any further
calls `ops2` every node is still there with the same id and path. -/
theorem ids_paths_index (fuel : Nat) (ops1 ops2 : List GraphOp)
    (hvalid : opsValid fuel {} (ops1 ++ ops2) = true) (hfuel : (ops1 ++ ops2).length ≤ fuel) :
    ∃ g1 g2, runOps fuel {} ops1 = Except.ok g1 ∧ runOps fuel g1 ops2 = Except.ok g2 ∧
      (∀ (i : Nat) (n : Node), g1.nodes[i]? = some n → n.id = (i : Int)) ∧
      (∀ (i j : Nat) (n1 n2 : Node), g1.nodes[i]? = some n1 → g1.nodes[j]? = some n2 →
        i ≠ j → n1.path ≠ n2.path) ∧
      (∀ (p : String) (i : Nat),
        FindNodeByPath g1 p = (i : Int) ↔ ∃ n, g1.nodes[i]? = some n ∧ n.path = p) ∧
      (∀ p : String, FindNodeByPath g1 p = -1 ↔ ∀ n ∈ g1.nodes, n.path ≠ p) ∧
      (∀ (i : Nat) (n : Node), g1.nodes[i]? = some n →
        ∃ n2, g2.nodes[i]? = some n2 ∧ n2.id = n.id ∧ n2.path = n.path) := by
  have hv := opsValid_append fuel ops1 ops2 {} hvalid
  simp only [List.length_append] at hfuel
  obtain ⟨g1, hrun1, hinv1, _, hlen1⟩ :=
    runOps_inv fuel ops1 {} GraphInv_empty hv.1 (by simp; omega)
  obtain ⟨g2, hrun2, _, hkeep, _⟩ :=
    runOps_inv fuel ops2 g1 hinv1 (hv.2 g1 hrun1) (by simp at hlen1; omega)
  exact ⟨g1, g2, hrun1, hrun2, hinv1.ids, paths_distinct hinv1,
    fun p => (FindNodeByPath_spec hinv1 p).1, fun p => (FindNodeByPath_spec hinv1 p).2, hkeep⟩

theorem ids_paths_index_witness :
    ∃ g1 g2, runOps 3 {}
        [GraphOp.findOrAddDirectory "src" (-1), GraphOp.findOrAddFile "src/x.h" 0] =
        Except.ok g1 ∧
      runOps 3 g1 [GraphOp.addLink 0 1 31 (3 / 5)] = Except.ok g2 ∧
      (∀ (i : Nat) (n : Node), g1.nodes[i]? = some n → n.id = (i : Int)) := by
  obtain ⟨g1, g2, h1, h2, h3, _⟩ := ids_paths_index 3
    [GraphOp.findOrAddDirectory "src" (-1), GraphOp.findOrAddFile "src/x.h" 0]
    [GraphOp.addLink 0 1 31 (3 / 5)] (by decide) (by decide)
  exact ⟨g1, g2, h1, h2, h3⟩

theorem bumpSubtreeDirCount_self_parent :
    ∀ (fuel : Nat) (nodes : List Node) (n : Node), nodes[0]? = some n → n.parent_dir = 0 →
      bumpSubtreeDirCount fuel nodes 0 = Except.error Fault.outOfFuel := by
  intro fuel
  induction fuel with
  | zero => intro nodes n _ _; simp [bumpSubtreeDirCount]
  | succ fuel ih =>
    intro nodes n hn hp
    rw [bumpSubtreeDirCount]
    have h0 : nodes[(0 : Int).toNat]? = some n := by simpa using hn
    simp only [show ¬ ((0 : Int) < 0) by decide, if_false, h0, hp]
    apply ih _ n.incSubtreeDirCount
    · cases nodes with
      | nil => simp at hn
      | cons a rest => simp
    · simpa using hp

/-- C7 (the code at two failing inputs): on the empty graph, `AddDirectory` with `parentDir = 1`
indexes the node sequence outside its range, and with `parentDir = 0`, the id the new node is
about to get, the walk up the parent chain never ends: no amount of fuel makes it return. -/
theorem AddDirectory_invalid_parent :
    (∀ fuel : Nat, AddDirectory fuel {} "a" "a" 1 = Except.error Fault.outOfRange) ∧
    (∀ fuel : Nat, AddDirectory fuel {} "a" "a" 0 = Except.error Fault.outOfFuel) := by
  constructor
  · intro fuel
    simp [AddDirectory, mapFind, pushChild]
  · intro fuel
    have h := bumpSubtreeDirCount_self_parent fuel
      [(newDirectoryNode 0 "a" "a" 0).pushChild 0] ((newDirectoryNode 0 "a" "a" 0).pushChild 0)
      (by simp) rfl
    have hid : (newDirectoryNode 0 "a" "a" 0).id = 0 := rfl
    simp [AddDirectory, mapFind, pushChild, hid, h]

theorem find_last_of_none (chars : List Char) :
    ∀ s : List Char, find_last_of s chars = none → ∀ c ∈ s, c ∉ chars := by
  intro s
  induction s with
  | nil => intro _ c hc; simp at hc
  | cons a rest ih =>
    intro h c hc
    unfold find_last_of at h
    cases hr : find_last_of rest chars with
    | some pos => simp [hr] at h
    | none =>
      simp only [hr] at h
      by_cases ha : a ∈ chars
      · simp [ha] at h
      · rcases List.mem_cons.mp hc with rfl | hc
        · exact ha
        · exact ih hr c hc

theorem find_last_of_some (chars : List Char) :
    ∀ (s : List Char) (pos : Nat), find_last_of s chars = some pos →
      ∃ (pre : List Char) (c : Char), c ∈ chars ∧ s = pre ++ c :: substr s (pos + 1) ∧
        ∀ x ∈ substr s (pos + 1), x ∉ chars := by
  intro s
  induction s with
  | nil => intro pos h; simp [find_last_of] at h
  | cons a rest ih =>
    intro pos h
    unfold find_last_of at h
    cases hr : find_last_of rest chars with
    | some p =>
      simp only [hr, Option.some.injEq] at h
      subst h
      obtain ⟨pre, c, hc, hs, hx⟩ := ih p hr
      refine ⟨a :: pre, c, hc, ?_, ?_⟩
      · simp only [substr, List.drop_succ_cons, List.cons_append] at hs ⊢
        rw [← hs]
      · simpa [substr] using hx
    | none =>
      simp only [hr] at h
      by_cases ha : a ∈ chars
      · simp only [ha, if_true, Option.some.injEq] at h
        subst h
        refine ⟨[], a, ha, by simp [substr], ?_⟩
        simpa [substr] using find_last_of_none chars rest hr
      · simp [ha] at h

theorem lastSegment_spec (path : String) : IsLastSegment path.data (lastSegment path).data := by
  unfold lastSegment
  cases h : find_last_of path.data ['/', '\\'] with
  | none =>
    refine ⟨?_, Or.inl rfl⟩
    intro c hc
    have := find_last_of_none _ _ h c hc
    simp at this
    simp [isSeparator, this]
  | some pos =>
    obtain ⟨pre, c, hc, hs, hx⟩ := find_last_of_some _ _ pos h
    refine ⟨?_, Or.inr ⟨pre, c, ?_, hs⟩⟩
    · intro x hxm
      have := hx x hxm
      simp at this
      simp [isSeparator, this]
    · simp at hc
      rcases hc with rfl | rfl <;> simp [isSeparator]

/-- C8: for a path not yet present (and a parent for which the adding call returns: the
nodes have their `parent_dir` below their index, `parentDir` is negative or the index of a
node), `FindOrAddDirectory` and `FindOrAddFile` return the old node count as id and create
the node with that id, the given path, and as name the part of the path after its last `/` or
backslash, the whole path when it holds neither; for a path already present they return the
registered id and the graph unchanged. -/
theorem FindOrAdd_spec (fuel : Nat) (g : Graph) (path : String) (parentDir : Int)
    (hpb : ParentsBelow g.nodes) (hp : parentDir < g.nodes.length)
    (hfuel : g.nodes.length ≤ fuel) :
    (mapFind g.pathToNode path = none →
      ∃ g1 g2 nd nf,
        FindOrAddDirectory fuel g path parentDir = Except.ok (g1, (g.nodes.length : Int)) ∧
        g1.nodes[g.nodes.length]? = some nd ∧ nd.id = (g.nodes.length : Int) ∧
        nd.kind = NodeKind.Directory ∧ nd.path = path ∧
        IsLastSegment path.data nd.name.data ∧
        FindOrAddFile g path parentDir = Except.ok (g2, (g.nodes.length : Int)) ∧
        g2.nodes[g.nodes.length]? = some nf ∧ nf.id = (g.nodes.length : Int) ∧
        nf.kind = NodeKind.File ∧ nf.path = path ∧
        IsLastSegment path.data nf.name.data) ∧
    (∀ id : Int, mapFind g.pathToNode path = some id →
      FindOrAddDirectory fuel g path parentDir = Except.ok (g, id) ∧
      FindOrAddFile g path parentDir = Except.ok (g, id)) := by
  constructor
  · intro hnew
    obtain ⟨nodes1, hrun1, _, hlast1, _⟩ :=
      AddDirectory_new_spec fuel g path (lastSegment path) parentDir hpb hnew hp hfuel
    obtain ⟨nodes2, hrun2, _, hlast2, _⟩ :=
      AddFile_new_spec g path (lastSegment path) parentDir hnew hp
    refine ⟨{ g with nodes := nodes1,
                     pathToNode := (path, (g.nodes.length : Int)) :: g.pathToNode },
      { g with nodes := nodes2, pathToNode := (path, (g.nodes.length : Int)) :: g.pathToNode },
      newDirectoryNode (g.nodes.length : Int) path (lastSegment path) parentDir,
      newFileNode (g.nodes.length : Int) path (lastSegment path) parentDir,
      ?_, hlast1, rfl, rfl, rfl, lastSegment_spec path,
      ?_, hlast2, rfl, rfl, rfl, lastSegment_spec path⟩
    · simp only [FindOrAddDirectory, hnew]
      exact hrun1
    · simp only [FindOrAddFile, hnew]
      exact hrun2
  · intro id hfind
    simp [FindOrAddDirectory, FindOrAddFile, hfind]

theorem FindOrAdd_spec_witness :
    ∃ g1 nd, FindOrAddDirectory 1
        { nodes := [newDirectoryNode 0 "src" "src" (-1)], pathToNode := [("src", 0)] }
        "src/a\\b" 0 = Except.ok (g1, 1) ∧
      g1.nodes[1]? = some nd ∧ IsLastSegment "src/a\\b".data nd.name.data := by
  obtain ⟨h, _⟩ := FindOrAdd_spec 1
    { nodes := [newDirectoryNode 0 "src" "src" (-1)], pathToNode := [("src", 0)] }
    "src/a\\b" 0
    (by
      intro i n hi
      cases i with
      | zero => simp at hi; subst hi; decide
      | succ i => simp at hi)
    (by decide) (by decide)
  obtain ⟨g1, _, nd, _, h1, h2, _, _, _, h3, _⟩ := h (by decide)
  exact ⟨g1, nd, h1, h2, h3⟩

/-- C9 (the code at the failing input): on the chain of directories `r`, `r/a`, `r/a/b` at
rest, with one solver iteration, `Step` returns the graph as it was, while the passes that
`App::Frame` runs with nothing paused (Integrate, then Constraints, AngleEqualize, Repulsion)
move node 2: `Step` never calls `EqualizeChildAngles`, so the two results differ. -/
theorem Step_omits_angle_equalization :
    Step libmQ oneIterationConfig chainGraph = Except.ok chainGraph ∧
    (FramePhysics libmQ oneIterationConfig {} chainGraph).toOption =
      some { chainGraph with
             nodes := chainGraph.nodes.set 2
               { (chainGraph.nodes.getD 2 {}) with py := 2314159265359 / 20000000000 } } ∧
    (Step libmQ oneIterationConfig chainGraph).toOption ≠
      (FramePhysics libmQ oneIterationConfig {} chainGraph).toOption := by
  refine ⟨?_, ?_, ?_⟩
  · with_unfolding_all rfl
  · decide!
  · decide!

theorem clamp_code_eq (M v : ℚ) (hM : 0 ≤ M) :
    (if (if v > M then M else v) < -M then -M else (if v > M then M else v)) = clamp (-M) M v := by
  unfold clamp
  by_cases h1 : v > M
  · have h2 : ¬ (M < -M) := by linarith
    simp only [h1, if_true, h2, if_false]
    rw [min_eq_right (le_of_lt h1), max_eq_right (by linarith)]
  · simp only [h1, if_false]
    rw [min_eq_left (not_lt.mp h1)]
    by_cases h3 : v < -M
    · simp only [h3, if_true]
      rw [max_eq_left (le_of_lt h3)]
    · simp only [h3, if_false]
      rw [max_eq_right (not_lt.mp h3)]

theorem abs_clamp_le (M v : ℚ) (hM : 0 ≤ M) : |clamp (-M) M v| ≤ M := by
  unfold clamp
  rw [abs_le]
  constructor
  · exact le_max_left _ _
  · exact max_le (by linarith) (min_le_right _ _)

theorem integrateNode_eq (cfg : Config) (hM : 0 ≤ cfg.physics.max_displacement) (n : Node) :
    integrateNode cfg n =
      if n.fixed then n
      else
        { n with
          ppx := n.px, ppy := n.py,
          px := n.px + clamp (-cfg.physics.max_displacement) cfg.physics.max_displacement
            ((n.px - n.ppx) * (1 - cfg.physics.damping)),
          py := n.py + clamp (-cfg.physics.max_displacement) cfg.physics.max_displacement
            ((n.py - n.ppy) * (1 - cfg.physics.damping)) } := by
  unfold integrateNode
  by_cases hf : n.fixed
  · simp [hf]
  · simp only [hf, if_false]
    rw [clamp_code_eq _ _ hM, clamp_code_eq _ _ hM]

/-- In exact arithmetic, for a configuration with `max_displacement >= 0`, `Integrate` leaves a fixed node as
it is and maps every other node to previous position `p` and position
`p + clamp((p - q) * (1 - damping), -max_displacement, max_displacement)` per coordinate
(`p` the position, `q` the previous position before the pass), touching no other field, link
or index entry; so after the pass `|px - ppx|` and `|py - ppy|` are at most
`max_displacement` on every non-fixed node. Floats are exact rationals here. -/
theorem Integrate_spec (cfg : Config) (g : Graph) (hM : 0 ≤ cfg.physics.max_displacement) :
    (Integrate cfg g).nodes = g.nodes.map (fun n =>
      if n.fixed then n
      else
        { n with
          ppx := n.px, ppy := n.py,
          px := n.px + clamp (-cfg.physics.max_displacement) cfg.physics.max_displacement
            ((n.px - n.ppx) * (1 - cfg.physics.damping)),
          py := n.py + clamp (-cfg.physics.max_displacement) cfg.physics.max_displacement
            ((n.py - n.ppy) * (1 - cfg.physics.damping)) }) ∧
    (Integrate cfg g).links = g.links ∧
    (Integrate cfg g).pathToNode = g.pathToNode ∧
    (∀ n ∈ (Integrate cfg g).nodes, n.fixed = false →
      |n.px - n.ppx| ≤ cfg.physics.max_displacement ∧
      |n.py - n.ppy| ≤ cfg.physics.max_displacement) := by
  have hmap : (Integrate cfg g).nodes = g.nodes.map (integrateNode cfg) := rfl
  refine ⟨?_, rfl, rfl, ?_⟩
  · rw [hmap]
    apply List.map_congr_left
    intro n _
    exact integrateNode_eq cfg hM n
  · intro n hn hfix
    rw [hmap, List.mem_map] at hn
    obtain ⟨n0, _, hn0⟩ := hn
    rw [integrateNode_eq cfg hM] at hn0
    by_cases hf : n0.fixed
    · simp only [hf, if_true] at hn0
      subst hn0
      rw [hf] at hfix
      cases hfix
    · simp only [hf, if_false] at hn0
      subst hn0
      constructor
      · show |n0.px + clamp _ _ _ - n0.px| ≤ _
        rw [add_sub_cancel_left]
        exact abs_clamp_le _ _ hM
      · show |n0.py + clamp _ _ _ - n0.py| ≤ _
        rw [add_sub_cancel_left]
        exact abs_clamp_le _ _ hM

theorem Integrate_spec_witness :
    ∃ n ∈ (Integrate {} { nodes := [{ px := 200, ppx := 100, py := 3, ppy := 4 }] }).nodes,
      |n.px - n.ppx| ≤ 50 ∧ |n.py - n.ppy| ≤ 50 :=
  ⟨{ px := 250, ppx := 200, py := 101 / 50, ppy := 3 }, by decide!,
    (Integrate_spec {} { nodes := [{ px := 200, ppx := 100, py := 3, ppy := 4 }] }
      (by decide!)).2.2.2 { px := 250, ppx := 200, py := 101 / 50, ppy := 3 } (by decide!) rfl⟩

theorem integrateNode_at_rest (cfg : Config) (n : Node) (hM : 0 ≤ cfg.physics.max_displacement)
    (hx : n.px = n.ppx) (hy : n.py = n.ppy) : integrateNode cfg n = n := by
  unfold integrateNode
  by_cases hf : n.fixed
  · simp [hf]
  · have h1 : ¬ ((0 : ℚ) > cfg.physics.max_displacement) := by linarith
    have h2 : ¬ ((0 : ℚ) < -cfg.physics.max_displacement) := by linarith
    simp only [hf, hx, hy, sub_self, zero_mul, h1, h2, if_false, add_zero]
    cases n
    simp_all

theorem satisfyLink_eq_constrainPair (m : Libm) (cfg : Config) (nodes : List Node) (link : Link)
    (nodeA nodeB : Node) (hA : nodeAt nodes link.a = Except.ok nodeA)
    (hB : nodeAt nodes link.b = Except.ok nodeB) :
    satisfyLink m cfg nodes link =
      if (nodeA.kind = NodeKind.Directory ∨ nodeB.kind = NodeKind.Directory) then
        (if cfg.graph.enable_directory_links then
          constrainPair m
            (if nodeA.kind = NodeKind.Directory ∧ nodeB.kind = NodeKind.Directory then
              dirDirRestLength nodeA.subtreeDirCount nodeB.subtreeDirCount
                cfg.graph.dir_dir_length_coef
             else if nodeA.kind = NodeKind.Directory then
              dirFileRestLength nodeA.children.length cfg.graph.dir_file_length_coef
             else dirFileRestLength nodeB.children.length cfg.graph.dir_file_length_coef)
            nodes link nodeA nodeB
         else Except.ok nodes)
      else
        (if cfg.graph.enable_include_links then
          constrainPair m cfg.physics.link_rest_length nodes link nodeA nodeB
         else Except.ok nodes) := by
  unfold satisfyLink
  rw [hA, hB]
  simp only [bind, Except.bind]
  by_cases ha : nodeA.kind = NodeKind.Directory <;> by_cases hb : nodeB.kind = NodeKind.Directory <;>
    by_cases hd : cfg.graph.enable_directory_links <;>
    by_cases hi : cfg.graph.enable_include_links <;>
    simp [ha, hb, hd, hi, constrainPair, dirDirRestLength, dirFileRestLength, bind, Except.bind]

theorem Node.MovedTo.node_refl (n : Node) : n.MovedTo n :=
  ⟨rfl, fun _ => rfl⟩

theorem Node.MovedTo.node_trans {n n1 n2 : Node} (h1 : n.MovedTo n1) (h2 : n1.MovedTo n2) :
    n.MovedTo n2 := by
  obtain ⟨e1, f1⟩ := h1
  obtain ⟨e2, f2⟩ := h2
  constructor
  · rw [e2, e1]
  · intro hf
    have := f1 hf
    subst this
    exact f2 hf

theorem Node.MovedTo.set (n : Node) (a b : ℚ) (hf : n.fixed = false) :
    n.MovedTo { n with px := a, py := b } :=
  ⟨rfl, fun h => by rw [hf] at h; cases h⟩

theorem NodesMoved.refl (nodes : List Node) : NodesMoved nodes nodes :=
  ⟨rfl, fun _ n hi => ⟨n, hi, Node.MovedTo.node_refl n⟩⟩

theorem NodesMoved.trans {nodes nodes1 nodes2 : List Node} (h1 : NodesMoved nodes nodes1)
    (h2 : NodesMoved nodes1 nodes2) : NodesMoved nodes nodes2 := by
  refine ⟨by rw [h2.1, h1.1], ?_⟩
  intro i n hi
  obtain ⟨n1, hn1, hm1⟩ := h1.2 i n hi
  obtain ⟨n2, hn2, hm2⟩ := h2.2 i n1 hn1
  exact ⟨n2, hn2, hm1.node_trans hm2⟩

theorem nodeAt_ok {nodes : List Node} {i : Int} {n : Node} (h : nodeAt nodes i = Except.ok n) :
    0 ≤ i ∧ nodes[i.toNat]? = some n := by
  unfold nodeAt at h
  by_cases hi : i < 0
  · simp [hi] at h
  · simp only [hi, if_false] at h
    cases hn : nodes[i.toNat]? with
    | none => simp [hn] at h
    | some x =>
      simp only [hn, Except.ok.injEq] at h
      subst h
      exact ⟨by omega, rfl⟩

theorem nodeAt_of_getElem? {nodes : List Node} {i : Int} {n : Node} (h0 : 0 ≤ i)
    (h : nodes[i.toNat]? = some n) : nodeAt nodes i = Except.ok n := by
  unfold nodeAt
  simp [show ¬ i < 0 by omega, h]

theorem nodeAt_in_range (nodes : List Node) (i : Int) (h0 : 0 ≤ i) (h : i < nodes.length) :
    ∃ n, nodeAt nodes i = Except.ok n := by
  have hlt : i.toNat < nodes.length := by omega
  exact ⟨nodes[i.toNat], nodeAt_of_getElem? h0 (List.getElem?_eq_getElem hlt)⟩

/-- One guarded write `if (!node.fixed) { node.px = a; node.py = b; }` moves the sequence. -/
theorem NodesMoved.step {nodes : List Node} {i : Int} {n : Node}
    (h : nodeAt nodes i = Except.ok n) (a b : ℚ) :
    NodesMoved nodes
      (if n.fixed then nodes else nodes.set i.toNat { n with px := a, py := b }) := by
  obtain ⟨_, hn⟩ := nodeAt_ok h
  by_cases hf : n.fixed
  · simp only [hf, if_true]
    exact NodesMoved.refl nodes
  · rw [if_neg hf]
    refine ⟨by simp, ?_⟩
    intro j x hj
    rw [List.getElem?_set]
    by_cases hij : i.toNat = j
    · subst hij
      rw [hn] at hj
      cases hj
      have hlt : i.toNat < nodes.length := by
        by_contra hge
        rw [List.getElem?_eq_none (by omega)] at hn
        cases hn
      simp only [hlt, if_true]
      exact ⟨_, rfl, Node.MovedTo.set _ a b (by simpa using hf)⟩
    · simp only [hij, if_false]
      exact ⟨x, hj, Node.MovedTo.node_refl x⟩

theorem constrainPair_moved (m : Libm) (desired : ℚ) (nodes nodes1 : List Node) (link : Link)
    (nodeA nodeB : Node) (hA : nodeAt nodes link.a = Except.ok nodeA)
    (h : constrainPair m desired nodes link nodeA nodeB = Except.ok nodes1) :
    NodesMoved nodes nodes1 := by
  unfold constrainPair at h
  simp only [bind, Except.bind] at h
  split at h
  · cases h
  · rename_i nodeB1 hB1
    simp only [Except.ok.injEq] at h
    subst h
    exact (NodesMoved.step hA _ _).trans (NodesMoved.step hB1 _ _)

theorem satisfyLink_moved (m : Libm) (cfg : Config) (nodes nodes1 : List Node) (link : Link)
    (h : satisfyLink m cfg nodes link = Except.ok nodes1) : NodesMoved nodes nodes1 := by
  cases hA : nodeAt nodes link.a with
  | error e => simp [satisfyLink, hA, bind, Except.bind] at h
  | ok nodeA =>
    cases hB : nodeAt nodes link.b with
    | error e => simp [satisfyLink, hA, hB, bind, Except.bind] at h
    | ok nodeB =>
      rw [satisfyLink_eq_constrainPair m cfg nodes link nodeA nodeB hA hB] at h
      split at h
      · split at h
        · exact constrainPair_moved m _ nodes nodes1 link nodeA nodeB hA h
        · cases h; exact NodesMoved.refl _
      · split at h
        · exact constrainPair_moved m _ nodes nodes1 link nodeA nodeB hA h
        · cases h; exact NodesMoved.refl _

theorem satisfyLinks_moved (m : Libm) (cfg : Config) :
    ∀ (links : List Link) (nodes nodes1 : List Node),
      satisfyLinks m cfg nodes links = Except.ok nodes1 → NodesMoved nodes nodes1 := by
  intro links
  induction links with
  | nil =>
    intro nodes nodes1 h
    simp only [satisfyLinks, Except.ok.injEq] at h
    subst h
    exact NodesMoved.refl _
  | cons link rest ih =>
    intro nodes nodes1 h
    simp only [satisfyLinks] at h
    cases h1 : satisfyLink m cfg nodes link with
    | error e => simp [h1] at h
    | ok nodes2 =>
      simp only [h1] at h
      exact (satisfyLink_moved m cfg nodes nodes2 link h1).trans (ih nodes2 nodes1 h)

theorem SatisfyConstraints_moved (m : Libm) (cfg : Config) (g g1 : Graph)
    (h : SatisfyConstraints m cfg g = Except.ok g1) :
    NodesMoved g.nodes g1.nodes ∧ g1.links = g.links ∧ g1.pathToNode = g.pathToNode := by
  unfold SatisfyConstraints at h
  cases h1 : satisfyLinks m cfg g.nodes g.links with
  | error e => simp [h1] at h
  | ok nodes1 =>
    simp only [h1, Except.ok.injEq] at h
    subst h
    exact ⟨satisfyLinks_moved m cfg _ _ _ h1, rfl, rfl⟩

theorem process_pair_moved (m : Libm) (cfg : Config) (nodes nodes1 : List Node) (a b : Int)
    (h : process_pair m cfg nodes a b = Except.ok nodes1) : NodesMoved nodes nodes1 := by
  unfold process_pair at h
  cases hA : nodeAt nodes a with
  | error e => simp [hA, bind, Except.bind] at h
  | ok nodeA =>
    cases hB : nodeAt nodes b with
    | error e => simp [hA, hB, bind, Except.bind] at h
    | ok nodeB =>
      simp only [hA, hB, bind, Except.bind] at h
      split at h
      · cases h; exact NodesMoved.refl _
      · split at h
        · cases h; exact NodesMoved.refl _
        · split at h
          · cases h
          · rename_i nodeB1 hB1
            simp only [Except.ok.injEq] at h
            subst h
            exact (NodesMoved.step hA _ _).trans (NodesMoved.step hB1 _ _)

theorem processPairs_moved (m : Libm) (cfg : Config) :
    ∀ (pairs : List (Int × Int)) (nodes nodes1 : List Node),
      processPairs m cfg nodes pairs = Except.ok nodes1 → NodesMoved nodes nodes1 := by
  intro pairs
  induction pairs with
  | nil =>
    intro nodes nodes1 h
    simp only [processPairs, Except.ok.injEq] at h
    subst h
    exact NodesMoved.refl _
  | cons p rest ih =>
    intro nodes nodes1 h
    obtain ⟨a, b⟩ := p
    simp only [processPairs] at h
    cases h1 : process_pair m cfg nodes a b with
    | error e => simp [h1] at h
    | ok nodes2 =>
      simp only [h1] at h
      exact (process_pair_moved m cfg nodes nodes2 a b h1).trans (ih nodes2 nodes1 h)

theorem ApplyRepulsion_moved (m : Libm) (cfg : Config) (g g1 : Graph)
    (h : ApplyRepulsion m cfg g = Except.ok g1) :
    NodesMoved g.nodes g1.nodes ∧ g1.links = g.links ∧ g1.pathToNode = g.pathToNode := by
  unfold ApplyRepulsion at h
  simp only at h
  split at h
  · cases h; exact ⟨NodesMoved.refl _, rfl, rfl⟩
  · split at h
    · cases h
    · rename_i grid hgrid
      split at h
      · cases h
      · rename_i nodes1 hpairs
        simp only [Except.ok.injEq] at h
        subst h
        exact ⟨processPairs_moved m cfg _ _ _ hpairs, rfl, rfl⟩

theorem alignSingleChild_moved (m : Libm) (strength : ℚ) (nodes nodes1 : List Node)
    (parent : Node) (cd : ChildData)
    (h : alignSingleChild m strength nodes parent cd = Except.ok nodes1) :
    NodesMoved nodes nodes1 := by
  unfold alignSingleChild at h
  cases hc : nodeAt nodes cd.index with
  | error e => simp [hc, bind, Except.bind] at h
  | ok child =>
    simp only [hc, bind, Except.bind] at h
    split at h
    · cases hg : nodeAt nodes parent.parent_dir with
      | error e => simp [hg] at h
      | ok gp =>
        simp only [hg] at h
        split at h
        · have := NodesMoved.step hc
            (child.px + -(m.sin (m.atan2 (child.py - parent.py) (child.px - parent.px))) *
              (m.sqrt ((child.px - parent.px) * (child.px - parent.px) +
                (child.py - parent.py) * (child.py - parent.py)) *
                wrapDelta (m.atan2 (parent.py - gp.py) (parent.px - gp.px) -
                  m.atan2 (child.py - parent.py) (child.px - parent.px)) * strength))
            (child.py + m.cos (m.atan2 (child.py - parent.py) (child.px - parent.px)) *
              (m.sqrt ((child.px - parent.px) * (child.px - parent.px) +
                (child.py - parent.py) * (child.py - parent.py)) *
                wrapDelta (m.atan2 (parent.py - gp.py) (parent.px - gp.px) -
                  m.atan2 (child.py - parent.py) (child.px - parent.px)) * strength))
          split at h
          · cases h; exact NodesMoved.refl _
          · rename_i hf
            cases h
            rw [if_neg hf] at this
            exact this
        · cases h; exact NodesMoved.refl _
    · cases h; exact NodesMoved.refl _

theorem moveChildren_moved (m : Libm) :
    ∀ (moves : List (ChildData × ℚ)) (nodes nodes1 : List Node),
      moveChildren m nodes moves = Except.ok nodes1 → NodesMoved nodes nodes1 := by
  intro moves
  induction moves with
  | nil =>
    intro nodes nodes1 h
    simp only [moveChildren, Except.ok.injEq] at h
    subst h
    exact NodesMoved.refl _
  | cons mv rest ih =>
    intro nodes nodes1 h
    obtain ⟨cd, delta⟩ := mv
    simp only [moveChildren] at h
    cases hc : nodeAt nodes cd.index with
    | error e => simp [hc] at h
    | ok child =>
      simp only [hc] at h
      exact (NodesMoved.step hc _ _).trans (ih _ nodes1 h)

theorem equalizeParent_moved (m : Libm) (strength : ℚ) (nodes nodes1 : List Node)
    (parentIndex : Nat) (h : equalizeParent m strength nodes parentIndex = Except.ok nodes1) :
    NodesMoved nodes nodes1 := by
  unfold equalizeParent at h
  split at h
  · cases h
  · split at h
    · cases h; exact NodesMoved.refl _
    · split at h
      · cases h
      · split at h
        · cases h; exact NodesMoved.refl _
        · exact alignSingleChild_moved m strength _ _ _ _ h
        · exact moveChildren_moved m _ _ _ h

theorem equalizeParents_moved (m : Libm) (strength : ℚ) :
    ∀ (parents : List Nat) (nodes nodes1 : List Node),
      equalizeParents m strength nodes parents = Except.ok nodes1 → NodesMoved nodes nodes1 := by
  intro parents
  induction parents with
  | nil =>
    intro nodes nodes1 h
    simp only [equalizeParents, Except.ok.injEq] at h
    subst h
    exact NodesMoved.refl _
  | cons p rest ih =>
    intro nodes nodes1 h
    simp only [equalizeParents] at h
    cases h1 : equalizeParent m strength nodes p with
    | error e => simp [h1] at h
    | ok nodes2 =>
      simp only [h1] at h
      exact (equalizeParent_moved m strength nodes nodes2 p h1).trans (ih nodes2 nodes1 h)

theorem EqualizeChildAngles_moved (m : Libm) (cfg : Config) (g g1 : Graph)
    (h : EqualizeChildAngles m cfg g = Except.ok g1) :
    NodesMoved g.nodes g1.nodes ∧ g1.links = g.links ∧ g1.pathToNode = g.pathToNode := by
  unfold EqualizeChildAngles at h
  simp only at h
  split at h
  · cases h; exact ⟨NodesMoved.refl _, rfl, rfl⟩
  · split at h
    · cases h; exact ⟨NodesMoved.refl _, rfl, rfl⟩
    · split at h
      · cases h
      · rename_i nodes1 hp
        simp only [Except.ok.injEq] at h
        subst h
        exact ⟨equalizeParents_moved m _ _ _ _ hp, rfl, rfl⟩

theorem Node.MovedTo.node_stepped {n n1 : Node} (h : n.MovedTo n1) : n.SteppedTo n1 := by
  obtain ⟨e, f⟩ := h
  refine ⟨?_, f⟩
  rw [e]

theorem Node.SteppedTo.step_trans {n n1 n2 : Node} (h1 : n.SteppedTo n1) (h2 : n1.SteppedTo n2) :
    n.SteppedTo n2 := by
  obtain ⟨e1, f1⟩ := h1
  obtain ⟨e2, f2⟩ := h2
  constructor
  · rw [e2, e1]
  · intro hf
    have := f1 hf
    subst this
    exact f2 hf

theorem NodesMoved.stepped {nodes nodes1 : List Node} (h : NodesMoved nodes nodes1) :
    NodesStepped nodes nodes1 :=
  ⟨h.1, fun i n hi => by
    obtain ⟨n1, hn1, hm⟩ := h.2 i n hi
    exact ⟨n1, hn1, hm.node_stepped⟩⟩

theorem NodesStepped.seq_trans {nodes nodes1 nodes2 : List Node} (h1 : NodesStepped nodes nodes1)
    (h2 : NodesStepped nodes1 nodes2) : NodesStepped nodes nodes2 := by
  refine ⟨by rw [h2.1, h1.1], ?_⟩
  intro i n hi
  obtain ⟨n1, hn1, hm1⟩ := h1.2 i n hi
  obtain ⟨n2, hn2, hm2⟩ := h2.2 i n1 hn1
  exact ⟨n2, hn2, hm1.step_trans hm2⟩

theorem integrateNode_stepped (cfg : Config) (n : Node) : n.SteppedTo (integrateNode cfg n) := by
  unfold integrateNode
  by_cases hf : n.fixed
  · simp only [hf, if_true]
    exact ⟨rfl, fun _ => rfl⟩
  · rw [if_neg hf]
    exact ⟨rfl, fun h => absurd h hf⟩

theorem Integrate_stepped (cfg : Config) (g : Graph) :
    NodesStepped g.nodes (Integrate cfg g).nodes ∧ (Integrate cfg g).links = g.links ∧
      (Integrate cfg g).pathToNode = g.pathToNode := by
  refine ⟨⟨by simp [Integrate], ?_⟩, rfl, rfl⟩
  intro i n hi
  refine ⟨integrateNode cfg n, ?_, integrateNode_stepped cfg n⟩
  simp [Integrate, hi]

theorem stepLoop_moved (m : Libm) (cfg : Config) :
    ∀ (iterations : Nat) (g g1 : Graph), stepLoop m cfg iterations g = Except.ok g1 →
      NodesMoved g.nodes g1.nodes ∧ g1.links = g.links ∧ g1.pathToNode = g.pathToNode := by
  intro iterations
  induction iterations with
  | zero =>
    intro g g1 h
    simp only [stepLoop, Except.ok.injEq] at h
    subst h
    exact ⟨NodesMoved.refl _, rfl, rfl⟩
  | succ k ih =>
    intro g g1 h
    simp only [stepLoop] at h
    cases h1 : SatisfyConstraints m cfg g with
    | error e => simp [h1] at h
    | ok ga =>
      simp only [h1] at h
      cases h2 : ApplyRepulsion m cfg ga with
      | error e => simp [h2] at h
      | ok gb =>
        simp only [h2] at h
        obtain ⟨a1, a2, a3⟩ := SatisfyConstraints_moved m cfg g ga h1
        obtain ⟨b1, b2, b3⟩ := ApplyRepulsion_moved m cfg ga gb h2
        obtain ⟨c1, c2, c3⟩ := ih gb g1 h
        exact ⟨(a1.trans b1).trans c1, by rw [c2, b2, a2], by rw [c3, b3, a3]⟩

theorem Step_stepped (m : Libm) (cfg : Config) (g g1 : Graph)
    (h : Step m cfg g = Except.ok g1) :
    NodesStepped g.nodes g1.nodes ∧ g1.links = g.links ∧ g1.pathToNode = g.pathToNode := by
  unfold Step at h
  obtain ⟨a1, a2, a3⟩ := Integrate_stepped cfg g
  obtain ⟨b1, b2, b3⟩ := stepLoop_moved m cfg _ _ _ h
  exact ⟨a1.seq_trans b1.stepped, by rw [b2, a2], by rw [b3, a3]⟩

/-- C11: with `damping = 0` and any `max_displacement >= 0`, a node whose position equals its
previous position (`px = ppx` and `py = ppy`) is the same node after `Integrate`, with the same
position and previous position. -/
theorem Integrate_rest_fixed_point (cfg : Config) (g : Graph) (i : Nat) (n : Node)
    (_hd : cfg.physics.damping = 0) (hM : 0 ≤ cfg.physics.max_displacement)
    (hn : g.nodes[i]? = some n) (hx : n.px = n.ppx) (hy : n.py = n.ppy) :
    (Integrate cfg g).nodes[i]? = some n := by
  simp only [Integrate, List.getElem?_map, hn, Option.map_some']
  rw [integrateNode_at_rest cfg n hM hx hy]

theorem Integrate_rest_fixed_point_witness :
    (Integrate { physics := { damping := 0, max_displacement := 1000000 } }
      { nodes := [{ px := 3, ppx := 3, py := -7, ppy := -7 }] }).nodes[0]? =
      some { px := 3, ppx := 3, py := -7, ppy := -7 } :=
  Integrate_rest_fixed_point { physics := { damping := 0, max_displacement := 1000000 } }
    { nodes := [{ px := 3, ppx := 3, py := -7, ppy := -7 }] } 0
    { px := 3, ppx := 3, py := -7, ppy := -7 } rfl (by decide!) rfl rfl rfl

/-- C14: with `dir_children_angle_strength <= 0` (in particular `= 0`), `EqualizeChildAngles`
returns the graph it was given: every node has the same `px`, `py`, `ppx` and `ppy`. -/
theorem EqualizeChildAngles_zero_strength (m : Libm) (cfg : Config) (g : Graph)
    (h : cfg.physics.dir_children_angle_strength ≤ 0) :
    EqualizeChildAngles m cfg g = Except.ok g := by
  simp [EqualizeChildAngles, h]

theorem EqualizeChildAngles_zero_strength_witness :
    EqualizeChildAngles libmQ { physics := { dir_children_angle_strength := 0 } } chainGraph =
      Except.ok chainGraph :=
  EqualizeChildAngles_zero_strength libmQ { physics := { dir_children_angle_strength := 0 } }
    chainGraph (by decide!)

theorem satisfyLinks_withTimeStep (m : Libm) (cfg : Config) (t : ℚ) :
    ∀ (links : List Link) (nodes : List Node),
      satisfyLinks m (cfg.withTimeStep t) nodes links = satisfyLinks m cfg nodes links := by
  intro links
  induction links with
  | nil => intro nodes; rfl
  | cons link rest ih =>
    intro nodes
    simp only [satisfyLinks]
    have h : satisfyLink m (cfg.withTimeStep t) nodes link = satisfyLink m cfg nodes link := rfl
    rw [h]
    cases satisfyLink m cfg nodes link with
    | error e => rfl
    | ok nodes1 => exact ih nodes1

theorem processPairs_withTimeStep (m : Libm) (cfg : Config) (t : ℚ) :
    ∀ (pairs : List (Int × Int)) (nodes : List Node),
      processPairs m (cfg.withTimeStep t) nodes pairs = processPairs m cfg nodes pairs := by
  intro pairs
  induction pairs with
  | nil => intro nodes; rfl
  | cons p rest ih =>
    intro nodes
    obtain ⟨a, b⟩ := p
    simp only [processPairs]
    have h : process_pair m (cfg.withTimeStep t) nodes a b = process_pair m cfg nodes a b := rfl
    rw [h]
    cases process_pair m cfg nodes a b with
    | error e => rfl
    | ok nodes1 => exact ih nodes1

theorem SatisfyConstraints_withTimeStep (m : Libm) (cfg : Config) (t : ℚ) (g : Graph) :
    SatisfyConstraints m (cfg.withTimeStep t) g = SatisfyConstraints m cfg g := by
  unfold SatisfyConstraints
  rw [satisfyLinks_withTimeStep]

theorem ApplyRepulsion_withTimeStep (m : Libm) (cfg : Config) (t : ℚ) (g : Graph) :
    ApplyRepulsion m (cfg.withTimeStep t) g = ApplyRepulsion m cfg g := by
  unfold ApplyRepulsion
  simp only [processPairs_withTimeStep]
  rfl

theorem stepLoop_withTimeStep (m : Libm) (cfg : Config) (t : ℚ) :
    ∀ (k : Nat) (g : Graph), stepLoop m (cfg.withTimeStep t) k g = stepLoop m cfg k g := by
  intro k
  induction k with
  | zero => intro g; rfl
  | succ k ih =>
    intro g
    simp only [stepLoop, SatisfyConstraints_withTimeStep, ApplyRepulsion_withTimeStep, ih]

theorem frameLoop_withTimeStep (m : Libm) (cfg : Config) (t : ℚ) (flags : PauseFlags) :
    ∀ (k : Nat) (g : Graph),
      frameLoop m (cfg.withTimeStep t) flags k g = frameLoop m cfg flags k g := by
  intro k
  induction k with
  | zero => intro g; rfl
  | succ k ih =>
    intro g
    have he : ∀ g0, AngleEqualizationOnly m (cfg.withTimeStep t) g0 =
        AngleEqualizationOnly m cfg g0 := fun _ => rfl
    simp only [frameLoop, ConstraintsOnly, RepulsionOnly, SatisfyConstraints_withTimeStep,
      ApplyRepulsion_withTimeStep, ih, he]

/-- C15: changing `physics.time_step` and nothing else in the configuration changes the
result of no pass: `Integrate`, the three other passes, `Step` and the passes of `App::Frame`
give the same graph for `cfg.withTimeStep t` as for `cfg`. -/
theorem time_step_unused (m : Libm) (cfg : Config) (t : ℚ) (flags : PauseFlags) (g : Graph) :
    Integrate (cfg.withTimeStep t) g = Integrate cfg g ∧
    SatisfyConstraints m (cfg.withTimeStep t) g = SatisfyConstraints m cfg g ∧
    ApplyRepulsion m (cfg.withTimeStep t) g = ApplyRepulsion m cfg g ∧
    EqualizeChildAngles m (cfg.withTimeStep t) g = EqualizeChildAngles m cfg g ∧
    Step m (cfg.withTimeStep t) g = Step m cfg g ∧
    FramePhysics m (cfg.withTimeStep t) flags g = FramePhysics m cfg flags g := by
  refine ⟨rfl, SatisfyConstraints_withTimeStep m cfg t g, ApplyRepulsion_withTimeStep m cfg t g,
    rfl, ?_, ?_⟩
  · unfold Step
    rw [stepLoop_withTimeStep]
    rfl
  · unfold FramePhysics
    simp only [frameLoop_withTimeStep]
    rfl

theorem toOption_ok {α : Type} {r : Except Fault α} {f : α → Bool}
    (h : (r.toOption.map f) = some true) : ∃ a, r = Except.ok a ∧ f a = true := by
  cases r with
  | error e => simp [Except.toOption] at h
  | ok a => exact ⟨a, rfl, by simpa [Except.toOption] using h⟩

theorem scan_x_then_y_eval :
    ((scanFiles 8 {} {} [("src/a/x.h", "src/a"), ("src/a/b/y.h", "src/a/b")]).toOption.map
      (fun g =>
        decide ((kindsAndPaths g).Perm
          [(NodeKind.Directory, "src"), (NodeKind.Directory, "src/a"),
           (NodeKind.Directory, "src/a/b"), (NodeKind.File, "src/a/x.h"),
           (NodeKind.File, "src/a/b/y.h")]) &&
        decide ((linkedPaths g).dedup.Perm
          [("src", "src/a"), ("src/a", "src/a/b"), ("src/a", "src/a/x.h"),
           ("src/a/b", "src/a/b/y.h")]) &&
        ((scanFiles 8 {} g [("src/a/x.h", "src/a"), ("src/a/b/y.h", "src/a/b")]).toOption.map
          (fun g1 => decide (g1.nodes.length = 5) && decide (g.links.length < g1.links.length))
          == some true))) = some true := by
  decide!

theorem scan_y_then_x_eval :
    ((scanFiles 8 {} {} [("src/a/b/y.h", "src/a/b"), ("src/a/x.h", "src/a")]).toOption.map
      (fun g =>
        decide ((kindsAndPaths g).Perm
          [(NodeKind.Directory, "src"), (NodeKind.Directory, "src/a"),
           (NodeKind.Directory, "src/a/b"), (NodeKind.File, "src/a/x.h"),
           (NodeKind.File, "src/a/b/y.h")]) &&
        decide ((linkedPaths g).dedup.Perm
          [("src", "src/a"), ("src/a", "src/a/b"), ("src/a", "src/a/x.h"),
           ("src/a/b", "src/a/b/y.h")]) &&
        ((scanFiles 8 {} g [("src/a/b/y.h", "src/a/b"), ("src/a/x.h", "src/a")]).toOption.map
          (fun g1 => decide (g1.nodes.length = 5) && decide (g.links.length < g1.links.length))
          == some true))) = some true := by
  decide!

/-- C19: with the default configuration (directory links enabled, include links disabled), the
per-file update applied from the empty graph to `src/a/x.h` and `src/a/b/y.h`, in either order,
returns a graph whose nodes are the directories `src`, `src/a`, `src/a/b` and the files
`src/a/x.h`, `src/a/b/y.h`, 5 nodes, and whose linked pairs, without repetition, are
`src - src/a`, `src/a - src/a/b`, `src/a - src/a/x.h` and `src/a/b - src/a/b/y.h`; applying
the two updates once more to that graph keeps 5 nodes and makes the link sequence longer. -/
theorem scan_two_files :
    (∃ g g1, scanFiles 8 {} {} [("src/a/x.h", "src/a"), ("src/a/b/y.h", "src/a/b")] =
        Except.ok g ∧
      (kindsAndPaths g).Perm
        [(NodeKind.Directory, "src"), (NodeKind.Directory, "src/a"),
         (NodeKind.Directory, "src/a/b"), (NodeKind.File, "src/a/x.h"),
         (NodeKind.File, "src/a/b/y.h")] ∧
      (linkedPaths g).dedup.Perm
        [("src", "src/a"), ("src/a", "src/a/b"), ("src/a", "src/a/x.h"),
         ("src/a/b", "src/a/b/y.h")] ∧
      scanFiles 8 {} g [("src/a/x.h", "src/a"), ("src/a/b/y.h", "src/a/b")] = Except.ok g1 ∧
      g1.nodes.length = 5 ∧ g.links.length < g1.links.length) ∧
    (∃ g g1, scanFiles 8 {} {} [("src/a/b/y.h", "src/a/b"), ("src/a/x.h", "src/a")] =
        Except.ok g ∧
      (kindsAndPaths g).Perm
        [(NodeKind.Directory, "src"), (NodeKind.Directory, "src/a"),
         (NodeKind.Directory, "src/a/b"), (NodeKind.File, "src/a/x.h"),
         (NodeKind.File, "src/a/b/y.h")] ∧
      (linkedPaths g).dedup.Perm
        [("src", "src/a"), ("src/a", "src/a/b"), ("src/a", "src/a/x.h"),
         ("src/a/b", "src/a/b/y.h")] ∧
      scanFiles 8 {} g [("src/a/b/y.h", "src/a/b"), ("src/a/x.h", "src/a")] = Except.ok g1 ∧
      g1.nodes.length = 5 ∧ g.links.length < g1.links.length) := by
  constructor
  · obtain ⟨g, hg, hf⟩ := toOption_ok scan_x_then_y_eval
    simp only [Bool.and_eq_true, decide_eq_true_eq, beq_iff_eq] at hf
    obtain ⟨g1, hg1, hf1⟩ := toOption_ok hf.2
    simp only [Bool.and_eq_true, decide_eq_true_eq] at hf1
    exact ⟨g, g1, hg, hf.1.1, hf.1.2, hg1, hf1.1, hf1.2⟩
  · obtain ⟨g, hg, hf⟩ := toOption_ok scan_y_then_x_eval
    simp only [Bool.and_eq_true, decide_eq_true_eq, beq_iff_eq] at hf
    obtain ⟨g1, hg1, hf1⟩ := toOption_ok hf.2
    simp only [Bool.and_eq_true, decide_eq_true_eq] at hf1
    exact ⟨g, g1, hg, hf.1.1, hf.1.2, hg1, hf1.1, hf1.2⟩

/-- C20 (the code at the failing input): after `AddDirectory("a", "a", -1)` and
`AddLink(0, 7, 80, 1)` the graph has one node and the stored link `(0, 7)`, whose end `7` is
not a node; `SatisfyConstraints` then reads `nodes[7]` outside the node sequence, whatever
the configuration. -/
theorem dangling_link_is_dereferenced :
    ∃ g, runOps 1 {} [GraphOp.addDirectory "a" "a" (-1), GraphOp.addLink 0 7 80 1] =
        Except.ok g ∧
      g.nodes.length = 1 ∧
      g.links = [{ a := 0, b := 7, restLength := 80, stiffness := 1 }] ∧
      ∀ (m : Libm) (cfg : Config), SatisfyConstraints m cfg g = Except.error Fault.outOfRange := by
  refine ⟨_, rfl, rfl, rfl, ?_⟩
  intro m cfg
  simp [SatisfyConstraints, satisfyLinks, satisfyLink, nodeAt, AddLink, bind, Except.bind]

theorem linkChain_spec (cfg : Config) :
    ∀ (fuel : Nat) (g : Graph) (cur : Int), ParentsBelow g.nodes → 0 ≤ cur →
      cur < g.nodes.length → cur < fuel →
      ∃ added, linkChain cfg fuel g cur = Except.ok { g with links := g.links ++ added } ∧
        ∀ l ∈ added, l.stiffness = 1 / 2 ∧
          ∃ parent child, g.nodes[l.a.toNat]? = some parent ∧ g.nodes[l.b.toNat]? = some child ∧
            0 ≤ l.a ∧ 0 ≤ l.b ∧ child.parent_dir = l.a ∧
            l.restLength = dirDirRestLength parent.subtreeDirCount child.subtreeDirCount
              cfg.graph.dir_dir_length_coef := by
  intro fuel
  induction fuel with
  | zero => intro g cur _ h0 _ hf; omega
  | succ fuel ih =>
    intro g cur hpb h0 hlen hf
    have hlt : cur.toNat < g.nodes.length := by omega
    have hcur : g.nodes[cur.toNat]? = some (g.nodes[cur.toNat]) := List.getElem?_eq_getElem hlt
    generalize g.nodes[cur.toNat] = current at hcur
    have hp := hpb _ _ hcur
    rw [linkChain, nodeAt_of_getElem? h0 hcur]
    by_cases hneg : current.parent_dir < 0
    · refine ⟨[], ?_, ?_⟩
      · simp [hneg]
      · intro l hl; cases hl
    · have hp0 : 0 ≤ current.parent_dir := by omega
      have hplt : current.parent_dir.toNat < g.nodes.length := by omega
      have hpar : g.nodes[current.parent_dir.toNat]? = some (g.nodes[current.parent_dir.toNat]) :=
        List.getElem?_eq_getElem hplt
      generalize g.nodes[current.parent_dir.toNat] = parent at hpar
      simp only [hneg, if_false, nodeAt_of_getElem? hp0 hpar]
      have hguard : ¬ (current.parent_dir < 0 ∨ cur < 0 ∨ current.parent_dir = cur) := by omega
      have hadd : ∀ (r s : ℚ), AddLink g current.parent_dir cur r s =
          { g with links := g.links ++
            [{ a := current.parent_dir, b := cur, restLength := r, stiffness := s }] } := by
        intro r s
        simp [AddLink, hguard]
      rw [hadd]
      obtain ⟨added, hrun, hall⟩ := ih
        { g with links := g.links ++
            [{ a := current.parent_dir, b := cur,
               restLength := (40 + (((parent.subtreeDirCount + 1 +
                 (current.subtreeDirCount + 1) : Int)) : ℚ) * 2) * cfg.graph.dir_dir_length_coef,
               stiffness := 1 / 2 }] }
        current.parent_dir hpb hp0 (by simp; omega) (by omega)
      refine ⟨Link.mk current.parent_dir cur
        ((40 + (((parent.subtreeDirCount + 1 + (current.subtreeDirCount + 1) : Int)) : ℚ) * 2) *
          cfg.graph.dir_dir_length_coef) (1 / 2) :: added, ?_, ?_⟩
      · rw [hrun]
        simp
      · intro l hl
        rcases List.mem_cons.mp hl with rfl | hl
        · exact ⟨rfl, parent, current, hpar, hcur, hp0, h0, rfl, rfl⟩
        · exact hall l hl

theorem linkFile_spec (cfg : Config) (g : Graph) (dir_id file_id : Int) (dir : Node)
    (hen : cfg.graph.enable_directory_links = true) (h0 : 0 ≤ dir_id)
    (hdir : g.nodes[dir_id.toNat]? = some dir) :
    linkFile cfg g dir_id file_id =
      Except.ok (AddLink g dir_id file_id
        (dirFileRestLength dir.children.length cfg.graph.dir_file_length_coef) (3 / 5)) := by
  unfold linkFile
  simp [hen, h0, nodeAt_of_getElem? h0 hdir, dirFileRestLength]

theorem registerFile_new (cfg : Config) (g : Graph) (file_path : String) (dir_id : Int)
    (dir : Node) (hen : cfg.graph.enable_directory_links = true)
    (hnew : mapFind g.pathToNode file_path = none) (h0 : 0 ≤ dir_id)
    (hdir : g.nodes[dir_id.toNat]? = some dir) :
    ∃ g1, registerFile cfg g file_path dir_id = Except.ok (g1, (g.nodes.length : Int)) ∧
      g1.nodes[dir_id.toNat]? = some (dir.pushChild (g.nodes.length : Int)) ∧
      g1.links = g.links ++
        [{ a := dir_id, b := (g.nodes.length : Int),
           restLength := dirFileRestLength (dir.children.length + 1)
             cfg.graph.dir_file_length_coef,
           stiffness := 3 / 5 }] := by
  have hlt : dir_id.toNat < g.nodes.length := by
    by_contra hge
    rw [List.getElem?_eq_none (by omega)] at hdir
    cases hdir
  obtain ⟨nodes1, hrun, hlen, _, hold⟩ :=
    AddFile_new_spec g file_path (lastSegment file_path) dir_id hnew (by omega)
  have hd1 := hold _ _ hdir
  have hcast : ((dir_id.toNat : Nat) : Int) = dir_id := by omega
  simp only [hcast, if_true] at hd1
  have hfind : FindOrAddFile g file_path dir_id =
      Except.ok ({ g with nodes := nodes1,
                          pathToNode := (file_path, (g.nodes.length : Int)) :: g.pathToNode },
                 (g.nodes.length : Int)) := by
    simp only [FindOrAddFile, hnew]
    exact hrun
  have hguard : ¬ (dir_id < 0 ∨ (g.nodes.length : Int) < 0 ∨ dir_id = (g.nodes.length : Int)) := by
    omega
  have hd2 : (Graph.mk nodes1 g.links
      ((file_path, (g.nodes.length : Int)) :: g.pathToNode)).nodes[dir_id.toNat]? =
      some (dir.pushChild (g.nodes.length : Int)) := hd1
  refine ⟨AddLink (Graph.mk nodes1 g.links ((file_path, (g.nodes.length : Int)) :: g.pathToNode))
    dir_id (g.nodes.length : Int)
    (dirFileRestLength (dir.pushChild (g.nodes.length : Int)).children.length
      cfg.graph.dir_file_length_coef) (3 / 5), ?_, ?_, ?_⟩
  · unfold registerFile
    rw [hfind]
    simp only
    rw [linkFile_spec cfg _ dir_id _ _ hen h0 hd2]
  · simpa [AddLink, hguard] using hd1
  · simp [AddLink, hguard, Node.pushChild]

theorem scan_x_eval :
    (scanFile 8 {} {} "src/a/x.h" "src/a").toOption.map
      (fun r => decide (r.2 = 2) &&
        decide (r.1.links[0]? = some { a := 0, b := 1, restLength := 46, stiffness := 1 / 2 }) &&
        decide (r.1.nodes[0]?.map (fun n => (n.kind, n.subtreeDirCount)) =
          some (NodeKind.Directory, 1)) &&
        decide (r.1.nodes[1]?.map (fun n => (n.kind, n.parent_dir, n.subtreeDirCount)) =
          some (NodeKind.Directory, 0, 0))) = some true := by
  decide!

/-- C16, the claim fails: scanning `src/a/x.h` from the empty graph with the default
configuration stores the link from `src` (node 0, `subtreeDirCount` 1) to `src/a` (node 1,
`subtreeDirCount` 0) with rest length 46, and `SatisfyConstraints` uses 46 for it, while the
formula `(40 + (P + 1) + (C + 1) * 2) * coef` gives 44. -/
theorem dirDir_spec_formula_fails :
    ∃ g link parent child, scanFile 8 {} {} "src/a/x.h" "src/a" = Except.ok (g, 2) ∧
      g.links[0]? = some link ∧ link.a = 0 ∧ link.b = 1 ∧
      g.nodes[0]? = some parent ∧ g.nodes[1]? = some child ∧
      parent.kind = NodeKind.Directory ∧ child.kind = NodeKind.Directory ∧
      child.parent_dir = 0 ∧
      link.restLength = 46 ∧
      (∀ m : Libm, satisfyLink m {} g.nodes link = constrainPair m 46 g.nodes link parent child) ∧
      specDirDirRestLength parent.subtreeDirCount child.subtreeDirCount
        ({} : Config).graph.dir_dir_length_coef = 44 ∧
      link.restLength ≠ specDirDirRestLength parent.subtreeDirCount child.subtreeDirCount
        ({} : Config).graph.dir_dir_length_coef := by
  obtain ⟨r, hrun, he⟩ := toOption_ok scan_x_eval
  obtain ⟨g, id⟩ := r
  simp only [Bool.and_eq_true, decide_eq_true_eq] at he
  obtain ⟨⟨⟨hid, hlink⟩, hp⟩, hc⟩ := he
  subst hid
  rw [hrun]
  have hmain : ∃ link parent child, g.links[0]? = some link ∧ link.a = 0 ∧ link.b = 1 ∧
      g.nodes[0]? = some parent ∧ g.nodes[1]? = some child ∧
      parent.kind = NodeKind.Directory ∧ child.kind = NodeKind.Directory ∧
      child.parent_dir = 0 ∧
      link.restLength = 46 ∧
      (∀ m : Libm, satisfyLink m {} g.nodes link = constrainPair m 46 g.nodes link parent child) ∧
      specDirDirRestLength parent.subtreeDirCount child.subtreeDirCount
        ({} : Config).graph.dir_dir_length_coef = 44 ∧
      link.restLength ≠ specDirDirRestLength parent.subtreeDirCount child.subtreeDirCount
        ({} : Config).graph.dir_dir_length_coef := by
    cases hn0 : g.nodes[0]? with
    | none => rw [hn0] at hp; cases hp
    | some parent =>
      cases hn1 : g.nodes[1]? with
      | none => rw [hn1] at hc; cases hc
      | some child =>
        rw [hn0] at hp
        rw [hn1] at hc
        simp only [Option.map_some', Option.some.injEq, Prod.mk.injEq] at hp hc
        have hdesired : ∀ m : Libm, satisfyLink m {} g.nodes
            { a := 0, b := 1, restLength := 46, stiffness := 1 / 2 } =
            constrainPair m 46 g.nodes { a := 0, b := 1, restLength := 46, stiffness := 1 / 2 }
              parent child := by
          intro m
          rw [satisfyLink_eq_constrainPair m {} g.nodes _ parent child
            (nodeAt_of_getElem? (by decide) (by simpa using hn0))
            (nodeAt_of_getElem? (by decide) (by simpa using hn1))]
          simp only [hp.1, hc.1, hp.2, hc.2.2, true_or, and_self, if_true]
          have : dirDirRestLength 1 0 ({} : Config).graph.dir_dir_length_coef = 46 := by decide!
          rw [this]
        refine ⟨_, parent, child, hlink, rfl, rfl, rfl, rfl, hp.1, hc.1, hc.2.1, rfl,
          hdesired, ?_, ?_⟩
        · rw [hp.2, hc.2.2]; decide!
        · rw [hp.2, hc.2.2]; decide!
  obtain ⟨link, parent, child, h⟩ := hmain
  exact ⟨g, link, parent, child, rfl, h⟩

theorem NodesMoved.nodeAt_after {nodes nodes1 : List Node} (h : NodesMoved nodes nodes1) (i : Int)
    (h0 : 0 ≤ i) (hlt : i < nodes.length) : ∃ n, nodeAt nodes1 i = Except.ok n :=
  nodeAt_in_range nodes1 i h0 (by rw [h.1]; exact hlt)

theorem constrainPair_ok (m : Libm) (desired : ℚ) (nodes : List Node) (link : Link)
    (nodeA nodeB : Node) (hA : nodeAt nodes link.a = Except.ok nodeA)
    (hb0 : 0 ≤ link.b) (hb : link.b < nodes.length) :
    ∃ nodes1, constrainPair m desired nodes link nodeA nodeB = Except.ok nodes1 := by
  unfold constrainPair
  simp only [bind, Except.bind]
  obtain ⟨nodeB1, hB1⟩ := (NodesMoved.step hA
    (nodeA.px + (nodeB.px - nodeA.px) *
      ((m.sqrt ((nodeB.px - nodeA.px) * (nodeB.px - nodeA.px) +
        (nodeB.py - nodeA.py) * (nodeB.py - nodeA.py) + 1 / 1000000) - desired) /
        m.sqrt ((nodeB.px - nodeA.px) * (nodeB.px - nodeA.px) +
        (nodeB.py - nodeA.py) * (nodeB.py - nodeA.py) + 1 / 1000000)) *
      (link.stiffness * (1 / 2)) *
      (if 1 / max (1 / 10000) nodeA.mass + 1 / max (1 / 10000) nodeB.mass > 0 then
        1 / max (1 / 10000) nodeA.mass /
          (1 / max (1 / 10000) nodeA.mass + 1 / max (1 / 10000) nodeB.mass)
       else 1 / 2))
    (nodeA.py + (nodeB.py - nodeA.py) *
      ((m.sqrt ((nodeB.px - nodeA.px) * (nodeB.px - nodeA.px) +
        (nodeB.py - nodeA.py) * (nodeB.py - nodeA.py) + 1 / 1000000) - desired) /
        m.sqrt ((nodeB.px - nodeA.px) * (nodeB.px - nodeA.px) +
        (nodeB.py - nodeA.py) * (nodeB.py - nodeA.py) + 1 / 1000000)) *
      (link.stiffness * (1 / 2)) *
      (if 1 / max (1 / 10000) nodeA.mass + 1 / max (1 / 10000) nodeB.mass > 0 then
        1 / max (1 / 10000) nodeA.mass /
          (1 / max (1 / 10000) nodeA.mass + 1 / max (1 / 10000) nodeB.mass)
       else 1 / 2))).nodeAt_after link.b hb0 hb
  rw [hB1]
  exact ⟨_, rfl⟩

theorem satisfyLink_ok (m : Libm) (cfg : Config) (nodes : List Node) (link : Link)
    (ha0 : 0 ≤ link.a) (ha : link.a < nodes.length) (hb0 : 0 ≤ link.b)
    (hb : link.b < nodes.length) : ∃ nodes1, satisfyLink m cfg nodes link = Except.ok nodes1 := by
  obtain ⟨nodeA, hA⟩ := nodeAt_in_range nodes link.a ha0 ha
  obtain ⟨nodeB, hB⟩ := nodeAt_in_range nodes link.b hb0 hb
  rw [satisfyLink_eq_constrainPair m cfg nodes link nodeA nodeB hA hB]
  split
  · split
    · exact constrainPair_ok m _ nodes link nodeA nodeB hA hb0 hb
    · exact ⟨_, rfl⟩
  · split
    · exact constrainPair_ok m _ nodes link nodeA nodeB hA hb0 hb
    · exact ⟨_, rfl⟩

theorem satisfyLinks_ok (m : Libm) (cfg : Config) :
    ∀ (links : List Link) (nodes : List Node),
      (∀ l ∈ links, 0 ≤ l.a ∧ l.a < (nodes.length : Int) ∧ 0 ≤ l.b ∧ l.b < (nodes.length : Int)) →
      ∃ nodes1, satisfyLinks m cfg nodes links = Except.ok nodes1 := by
  intro links
  induction links with
  | nil => intro nodes _; exact ⟨nodes, rfl⟩
  | cons link rest ih =>
    intro nodes h
    obtain ⟨a0, a1, b0, b1⟩ := h link (List.mem_cons_self _ _)
    obtain ⟨nodes1, h1⟩ := satisfyLink_ok m cfg nodes link a0 a1 b0 b1
    have hm := satisfyLink_moved m cfg nodes nodes1 link h1
    obtain ⟨nodes2, h2⟩ := ih nodes1 (fun l hl => by
      rw [hm.1]
      exact h l (List.mem_cons_of_mem _ hl))
    exact ⟨nodes2, by simp only [satisfyLinks, h1]; exact h2⟩

theorem SatisfyConstraints_ok (m : Libm) (cfg : Config) (g : Graph) (h : LinksInRange g) :
    ∃ g1, SatisfyConstraints m cfg g = Except.ok g1 := by
  obtain ⟨nodes1, h1⟩ := satisfyLinks_ok m cfg g.links g.nodes h
  refine ⟨{ g with nodes := nodes1 }, ?_⟩
  simp only [SatisfyConstraints, h1]

theorem TreeInRange.moved {nodes nodes1 : List Node} (h : TreeInRange nodes)
    (hm : NodesMoved nodes nodes1) : TreeInRange nodes1 := by
  intro n1 hn1
  obtain ⟨i, hlt, hi⟩ := List.mem_iff_getElem.mp hn1
  have hlt0 : i < nodes.length := by rw [← hm.1]; exact hlt
  obtain ⟨x, hx, hmv⟩ := hm.2 i _ (List.getElem?_eq_getElem hlt0)
  rw [List.getElem?_eq_getElem hlt, hi] at hx
  cases hx
  have h0 := h _ (List.getElem_mem hlt0)
  rw [hm.1]
  rw [hmv.1]
  exact h0

theorem collectDirChildren_ok (m : Libm) (nodes : List Node) (parent : Node) :
    ∀ (children : List Int), (∀ c ∈ children, 0 ≤ c ∧ c < (nodes.length : Int)) →
      ∃ l, collectDirChildren m nodes parent children = Except.ok l ∧
        ∀ cd ∈ l, cd.index ∈ children := by
  intro children
  induction children with
  | nil => intro _; exact ⟨[], rfl, fun cd hcd => by cases hcd⟩
  | cons c rest ih =>
    intro h
    obtain ⟨c0, c1⟩ := h c (List.mem_cons_self _ _)
    obtain ⟨node, hnode⟩ := nodeAt_in_range nodes c c0 c1
    obtain ⟨tail, htail, hmem⟩ := ih (fun x hx => h x (List.mem_cons_of_mem _ hx))
    simp only [collectDirChildren, hnode, htail]
    split
    · exact ⟨tail, rfl, fun cd hcd => List.mem_cons_of_mem _ (hmem cd hcd)⟩
    · split
      · exact ⟨tail, rfl, fun cd hcd => List.mem_cons_of_mem _ (hmem cd hcd)⟩
      · refine ⟨_, rfl, ?_⟩
        intro cd hcd
        rcases List.mem_cons.mp hcd with rfl | hcd
        · exact List.mem_cons_self _ _
        · exact List.mem_cons_of_mem _ (hmem cd hcd)

theorem alignSingleChild_ok (m : Libm) (strength : ℚ) (nodes : List Node) (parent : Node)
    (cd : ChildData) (h0 : 0 ≤ cd.index) (h1 : cd.index < nodes.length)
    (hp : parent.parent_dir < nodes.length) :
    ∃ nodes1, alignSingleChild m strength nodes parent cd = Except.ok nodes1 := by
  obtain ⟨child, hchild⟩ := nodeAt_in_range nodes cd.index h0 h1
  unfold alignSingleChild
  simp only [hchild, bind, Except.bind]
  split
  · rename_i hge
    obtain ⟨gp, hgp⟩ := nodeAt_in_range nodes parent.parent_dir hge hp
    simp only [hgp]
    split
    · split <;> exact ⟨_, rfl⟩
    · exact ⟨_, rfl⟩
  · exact ⟨_, rfl⟩

theorem moveChildren_ok (m : Libm) :
    ∀ (moves : List (ChildData × ℚ)) (nodes : List Node),
      (∀ mv ∈ moves, 0 ≤ mv.1.index ∧ mv.1.index < (nodes.length : Int)) →
      ∃ nodes1, moveChildren m nodes moves = Except.ok nodes1 := by
  intro moves
  induction moves with
  | nil => intro nodes _; exact ⟨nodes, rfl⟩
  | cons mv rest ih =>
    intro nodes h
    obtain ⟨cd, delta⟩ := mv
    obtain ⟨c0, c1⟩ := h (cd, delta) (List.mem_cons_self _ _)
    obtain ⟨child, hchild⟩ := nodeAt_in_range nodes cd.index c0 c1
    simp only [moveChildren, hchild]
    apply ih
    intro x hx
    have hm := NodesMoved.step hchild
      (child.px + -(m.sin cd.angle) * (cd.radius * delta))
      (child.py + m.cos cd.angle * (cd.radius * delta))
    rw [hm.1]
    exact h x (List.mem_cons_of_mem _ hx)

theorem equalizeParent_ok (m : Libm) (strength : ℚ) (nodes : List Node) (parentIndex : Nat)
    (htree : TreeInRange nodes) (hlt : parentIndex < nodes.length) :
    ∃ nodes1, equalizeParent m strength nodes parentIndex = Except.ok nodes1 := by
  unfold equalizeParent
  rw [List.getElem?_eq_getElem hlt]
  have hp := htree _ (List.getElem_mem hlt)
  generalize nodes[parentIndex] = parent at hp
  simp only
  split
  · exact ⟨_, rfl⟩
  · obtain ⟨l, hl, hmem⟩ := collectDirChildren_ok m nodes parent parent.children hp.2
    simp only [hl]
    split
    · exact ⟨_, rfl⟩
    · rename_i _ cd
      have hcd := hp.2 _ (hmem cd (by simp))
      exact alignSingleChild_ok m strength nodes parent cd hcd.1 hcd.2 hp.1
    · apply moveChildren_ok
      intro mv hmv
      have h1 : mv.1 ∈ List.insertionSort (fun a b => a.angle ≤ b.angle) l :=
        (List.of_mem_zip hmv).1
      have h2 : mv.1 ∈ l := (List.perm_insertionSort _ l).subset h1
      exact hp.2 _ (hmem _ h2)

theorem equalizeParents_ok (m : Libm) (strength : ℚ) :
    ∀ (parents : List Nat) (nodes : List Node), TreeInRange nodes →
      (∀ p ∈ parents, p < nodes.length) →
      ∃ nodes1, equalizeParents m strength nodes parents = Except.ok nodes1 := by
  intro parents
  induction parents with
  | nil => intro nodes _ _; exact ⟨nodes, rfl⟩
  | cons p rest ih =>
    intro nodes htree h
    obtain ⟨nodes1, h1⟩ := equalizeParent_ok m strength nodes p htree (h p (List.mem_cons_self _ _))
    have hm := equalizeParent_moved m strength nodes nodes1 p h1
    obtain ⟨nodes2, h2⟩ := ih nodes1 (htree.moved hm) (fun q hq => by
      rw [hm.1]
      exact h q (List.mem_cons_of_mem _ hq))
    exact ⟨nodes2, by simp only [equalizeParents, h1]; exact h2⟩

theorem EqualizeChildAngles_ok (m : Libm) (cfg : Config) (g : Graph) (h : TreeInRange g.nodes) :
    ∃ g1, EqualizeChildAngles m cfg g = Except.ok g1 := by
  unfold EqualizeChildAngles
  simp only
  split
  · exact ⟨_, rfl⟩
  · split
    · exact ⟨_, rfl⟩
    · obtain ⟨nodes1, h1⟩ := equalizeParents_ok m cfg.physics.dir_children_angle_strength
        (List.range g.nodes.length) g.nodes h (fun p hp => List.mem_range.mp hp)
      rw [h1]
      exact ⟨_, rfl⟩

theorem cell_coord_range (c g : Int) (hg : 1 ≤ g) :
    0 ≤ (if (if c < 0 then 0 else c) ≥ g then g - 1 else (if c < 0 then 0 else c)) ∧
    (if (if c < 0 then 0 else c) ≥ g then g - 1 else (if c < 0 then 0 else c)) < g := by
  split <;> split <;> omega

theorem get_cell_index_range (minX minY cellSize : ℚ) (gx gy : Int) (x y : ℚ)
    (hx : 1 ≤ gx) (hy : 1 ≤ gy) :
    0 ≤ get_cell_index minX minY cellSize gx gy x y ∧
    get_cell_index minX minY cellSize gx gy x y < gx * gy := by
  unfold get_cell_index
  simp only
  have h1 := cell_coord_range (truncToInt ((x - minX) / cellSize)) gx hx
  have h2 := cell_coord_range (truncToInt ((y - minY) / cellSize)) gy hy
  generalize (if (if truncToInt ((x - minX) / cellSize) < 0 then 0
    else truncToInt ((x - minX) / cellSize)) ≥ gx then gx - 1
    else (if truncToInt ((x - minX) / cellSize) < 0 then 0
    else truncToInt ((x - minX) / cellSize))) = cx at h1
  generalize (if (if truncToInt ((y - minY) / cellSize) < 0 then 0
    else truncToInt ((y - minY) / cellSize)) ≥ gy then gy - 1
    else (if truncToInt ((y - minY) / cellSize) < 0 then 0
    else truncToInt ((y - minY) / cellSize))) = cy at h2
  constructor
  · nlinarith [h1.1, h2.1]
  · nlinarith [h1.1, h1.2, h2.1, h2.2]

theorem fillGrid_spec (minX minY cellSize : ℚ) (gx gy : Int) :
    ∀ (nodes : List Node) (start : Int) (grid : List (List Int)),
      (∀ node ∈ nodes, node.kind = NodeKind.Directory →
        0 ≤ get_cell_index minX minY cellSize gx gy node.px node.py ∧
        get_cell_index minX minY cellSize gx gy node.px node.py < (grid.length : Int)) →
      ∃ grid1, fillGrid minX minY cellSize gx gy nodes start grid = Except.ok grid1 ∧
        grid1.length = grid.length ∧
        ∀ k : Nat, k < grid.length →
          grid1[k]? = some ((grid[k]?).getD [] ++
            cellMembers (fun node => get_cell_index minX minY cellSize gx gy node.px node.py)
              nodes start k) := by
  intro nodes
  induction nodes with
  | nil =>
    intro start grid _
    refine ⟨grid, rfl, rfl, ?_⟩
    intro k hk
    simp [cellMembers, List.getElem?_eq_getElem hk]
  | cons node rest ih =>
    intro start grid h
    have hrest : ∀ x ∈ rest, x.kind = NodeKind.Directory →
        0 ≤ get_cell_index minX minY cellSize gx gy x.px x.py ∧
        get_cell_index minX minY cellSize gx gy x.px x.py < (grid.length : Int) :=
      fun x hx => h x (List.mem_cons_of_mem _ hx)
    by_cases hk : node.kind = NodeKind.Directory
    · obtain ⟨i0, i1⟩ := h node (List.mem_cons_self _ _) hk
      have hlt : (get_cell_index minX minY cellSize gx gy node.px node.py).toNat < grid.length := by
        omega
      obtain ⟨grid1, hrun, hlen, hspec⟩ := ih (start + 1)
        (grid.set (get_cell_index minX minY cellSize gx gy node.px node.py).toNat
          (grid[(get_cell_index minX minY cellSize gx gy node.px node.py).toNat] ++ [start]))
        (by simpa using hrest)
      refine ⟨grid1, ?_, by simpa using hlen, ?_⟩
      · rw [fillGrid]
        have hneg : ¬ get_cell_index minX minY cellSize gx gy node.px node.py < 0 := by omega
        simp only [hk, ne_eq, not_true_eq_false, if_false, hneg, List.getElem?_eq_getElem hlt]
        exact hrun
      · intro k hklt
        have := hspec k (by simpa using hklt)
        rw [this]
        simp only [cellMembers, hk, true_and]
        by_cases hkc : get_cell_index minX minY cellSize gx gy node.px node.py = (k : Int)
        · have hkn : (get_cell_index minX minY cellSize gx gy node.px node.py).toNat = k := by
            omega
          simp [hkc, List.getElem?_set, hkn, hklt, List.getElem?_eq_getElem hklt]
        · have hkn : (get_cell_index minX minY cellSize gx gy node.px node.py).toNat ≠ k := by
            omega
          simp [hkc, List.getElem?_set, hkn]
    · obtain ⟨grid1, hrun, hlen, hspec⟩ := ih (start + 1) grid hrest
      refine ⟨grid1, ?_, hlen, ?_⟩
      · rw [fillGrid]
        simp only [hk, ne_eq, not_false_eq_true, if_true]
        exact hrun
      · intro k hklt
        rw [hspec k hklt]
        simp [cellMembers, hk]

theorem cellMembers_mem (cellOf : Node → Int) :
    ∀ (nodes : List Node) (start k x : Int), x ∈ cellMembers cellOf nodes start k →
      start ≤ x ∧ x < start + nodes.length := by
  intro nodes
  induction nodes with
  | nil => intro start k x hx; simp [cellMembers] at hx
  | cons node rest ih =>
    intro start k x hx
    simp only [cellMembers] at hx
    simp only [List.length_cons, Nat.cast_add, Nat.cast_one]
    split at hx
    · rcases List.mem_cons.mp hx with rfl | hx
      · omega
      · have := ih _ _ _ hx
        omega
    · have := ih _ _ _ hx
      omega

theorem cellPairs_mem : ∀ (l : List Int) (p : Int × Int), p ∈ cellPairs l → p.1 ∈ l ∧ p.2 ∈ l := by
  intro l
  induction l with
  | nil => intro p hp; simp [cellPairs] at hp
  | cons a rest ih =>
    intro p hp
    simp only [cellPairs, List.mem_append, List.mem_map] at hp
    rcases hp with ⟨b, hb, rfl⟩ | hp
    · exact ⟨List.mem_cons_self _ _, List.mem_cons_of_mem _ hb⟩
    · have := ih p hp
      exact ⟨List.mem_cons_of_mem _ this.1, List.mem_cons_of_mem _ this.2⟩

theorem crossPairs_mem (l1 l2 : List Int) (p : Int × Int) (hp : p ∈ crossPairs l1 l2) :
    p.1 ∈ l1 ∧ p.2 ∈ l2 ∧ p.1 < p.2 := by
  simp only [crossPairs, List.mem_flatMap, List.mem_map, List.mem_filter, decide_eq_true_eq] at hp
  obtain ⟨a, ha, b, ⟨hb, hab⟩, rfl⟩ := hp
  exact ⟨ha, hb, hab⟩

theorem gridCell_mem (grid : List (List Int)) (index x : Int) (hx : x ∈ gridCell grid index) :
    ∃ cell ∈ grid, x ∈ cell := by
  unfold gridCell at hx
  split at hx
  · cases hx
  · cases hc : grid[index.toNat]? with
    | none => simp [hc] at hx
    | some cell =>
      simp only [hc, Option.getD_some] at hx
      obtain ⟨hlt, hget⟩ := List.getElem?_eq_some.mp hc
      exact ⟨cell, hget ▸ List.getElem_mem hlt, hx⟩

theorem pairsAtCell_mem (grid : List (List Int)) (gx gy X Y : Int) (p : Int × Int)
    (hp : p ∈ pairsAtCell grid gx gy X Y) :
    (∃ cell ∈ grid, p.1 ∈ cell) ∧ (∃ cell ∈ grid, p.2 ∈ cell) := by
  unfold pairsAtCell at hp
  simp only [List.mem_append, List.mem_flatMap] at hp
  rcases hp with hp | ⟨oy, _, ox, _, hp⟩
  · have := cellPairs_mem _ p hp
    exact ⟨gridCell_mem _ _ _ this.1, gridCell_mem _ _ _ this.2⟩
  · split at hp
    · cases hp
    · split at hp
      · cases hp
      · have := crossPairs_mem _ _ p hp
        exact ⟨gridCell_mem _ _ _ this.1, gridCell_mem _ _ _ this.2.1⟩

theorem repulsionPairs_mem (grid : List (List Int)) (gx gy : Int) (p : Int × Int)
    (hp : p ∈ repulsionPairs grid gx gy) :
    (∃ cell ∈ grid, p.1 ∈ cell) ∧ (∃ cell ∈ grid, p.2 ∈ cell) := by
  unfold repulsionPairs at hp
  simp only [List.mem_flatMap] at hp
  obtain ⟨Y, _, X, _, hp⟩ := hp
  exact pairsAtCell_mem grid gx gy _ _ p hp

theorem processPairs_ok (m : Libm) (cfg : Config) :
    ∀ (pairs : List (Int × Int)) (nodes : List Node),
      (∀ p ∈ pairs, 0 ≤ p.1 ∧ p.1 < (nodes.length : Int) ∧ 0 ≤ p.2 ∧ p.2 < (nodes.length : Int)) →
      ∃ nodes1, processPairs m cfg nodes pairs = Except.ok nodes1 := by
  intro pairs
  induction pairs with
  | nil => intro nodes _; exact ⟨nodes, rfl⟩
  | cons p rest ih =>
    intro nodes h
    obtain ⟨a, b⟩ := p
    obtain ⟨a0, a1, b0, b1⟩ := h (a, b) (List.mem_cons_self _ _)
    obtain ⟨nodeA, hA⟩ := nodeAt_in_range nodes a a0 a1
    obtain ⟨nodeB, hB⟩ := nodeAt_in_range nodes b b0 b1
    have hpp : ∃ nodes1, process_pair m cfg nodes a b = Except.ok nodes1 := by
      unfold process_pair
      simp only [hA, hB, bind, Except.bind]
      split
      · exact ⟨_, rfl⟩
      · split
        · exact ⟨_, rfl⟩
        · obtain ⟨nodeB1, hB1⟩ := (NodesMoved.step hA
            (nodeA.px - (nodeB.px - nodeA.px) *
              (1 / m.sqrt ((nodeB.px - nodeA.px) * (nodeB.px - nodeA.px) +
                (nodeB.py - nodeA.py) * (nodeB.py - nodeA.py) + 1 / 1000000)) *
              (cfg.physics.repulsion_strength *
                (1 - m.sqrt ((nodeB.px - nodeA.px) * (nodeB.px - nodeA.px) +
                  (nodeB.py - nodeA.py) * (nodeB.py - nodeA.py) + 1 / 1000000) /
                  cfg.physics.repulsion_radius)) * (1 / 2))
            (nodeA.py - (nodeB.py - nodeA.py) *
              (1 / m.sqrt ((nodeB.px - nodeA.px) * (nodeB.px - nodeA.px) +
                (nodeB.py - nodeA.py) * (nodeB.py - nodeA.py) + 1 / 1000000)) *
              (cfg.physics.repulsion_strength *
                (1 - m.sqrt ((nodeB.px - nodeA.px) * (nodeB.px - nodeA.px) +
                  (nodeB.py - nodeA.py) * (nodeB.py - nodeA.py) + 1 / 1000000) /
                  cfg.physics.repulsion_radius)) * (1 / 2))).nodeAt_after b b0 b1
          rw [hB1]
          exact ⟨_, rfl⟩
    obtain ⟨nodes1, h1⟩ := hpp
    have hm := process_pair_moved m cfg nodes nodes1 a b h1
    obtain ⟨nodes2, h2⟩ := ih nodes1 (fun q hq => by
      rw [hm.1]
      exact h q (List.mem_cons_of_mem _ hq))
    exact ⟨nodes2, by simp only [processPairs, h1]; exact h2⟩

theorem fillGrid_fresh (minX minY cellSize : ℚ) (gx gy : Int) (nodes : List Node)
    (hx : 1 ≤ gx) (hy : 1 ≤ gy) :
    ∃ grid, fillGrid minX minY cellSize gx gy nodes 0
        (List.replicate (gx.toNat * gy.toNat) []) = Except.ok grid ∧
      grid.length = gx.toNat * gy.toNat ∧
      ∀ k : Nat, k < gx.toNat * gy.toNat →
        grid[k]? = some
          (cellMembers (fun node => get_cell_index minX minY cellSize gx gy node.px node.py)
            nodes 0 k) := by
  have hcast : ((gx.toNat * gy.toNat : Nat) : Int) = gx * gy := by
    push_cast
    rw [Int.toNat_of_nonneg (by omega), Int.toNat_of_nonneg (by omega)]
  obtain ⟨grid, hrun, hlen, hspec⟩ := fillGrid_spec minX minY cellSize gx gy nodes 0
    (List.replicate (gx.toNat * gy.toNat) [])
    (by
      intro node _ _
      have := get_cell_index_range minX minY cellSize gx gy node.px node.py hx hy
      rw [List.length_replicate, hcast]
      exact this)
  refine ⟨grid, hrun, by simpa using hlen, ?_⟩
  intro k hk
  have := hspec k (by simpa using hk)
  rw [this]
  simp [List.getElem?_replicate, hk]

theorem repulsion_core_ok (m : Libm) (cfg : Config) (minX minY cellSize : ℚ) (gx gy : Int)
    (nodes : List Node) (hx : 1 ≤ gx) (hy : 1 ≤ gy) :
    ∃ grid nodes1, fillGrid minX minY cellSize gx gy nodes 0
        (List.replicate (gx.toNat * gy.toNat) []) = Except.ok grid ∧
      processPairs m cfg nodes (repulsionPairs grid gx gy) = Except.ok nodes1 := by
  obtain ⟨grid, hrun, hlen, hspec⟩ := fillGrid_fresh minX minY cellSize gx gy nodes hx hy
  have hcells : ∀ cell ∈ grid, ∀ x ∈ cell, 0 ≤ x ∧ x < (nodes.length : Int) := by
    intro cell hcell x hxc
    obtain ⟨k, hk, hget⟩ := List.mem_iff_getElem.mp hcell
    have := hspec k (by rw [← hlen]; exact hk)
    rw [List.getElem?_eq_getElem hk, hget] at this
    cases this
    have := cellMembers_mem _ _ _ _ _ hxc
    omega
  obtain ⟨nodes1, h1⟩ := processPairs_ok m cfg (repulsionPairs grid gx gy) nodes (by
    intro p hp
    obtain ⟨⟨c1, hc1, h1⟩, ⟨c2, hc2, h2⟩⟩ := repulsionPairs_mem grid gx gy p hp
    have a := hcells c1 hc1 _ h1
    have b := hcells c2 hc2 _ h2
    exact ⟨a.1, a.2, b.1, b.2⟩)
  exact ⟨grid, nodes1, hrun, h1⟩

theorem ApplyRepulsion_ok (m : Libm) (cfg : Config) (g : Graph) :
    ∃ g1, ApplyRepulsion m cfg g = Except.ok g1 := by
  unfold ApplyRepulsion
  simp only
  split
  · exact ⟨g, rfl⟩
  · obtain ⟨grid, nodes1, hgrid, hpairs⟩ := repulsion_core_ok m cfg
      (dirBounds g.nodes (1000000000, 1000000000, -1000000000, -1000000000, 0)).1
      (dirBounds g.nodes (1000000000, 1000000000, -1000000000, -1000000000, 0)).2.1
      cfg.physics.repulsion_radius
      (max 1 (truncToInt (((dirBounds g.nodes
        (1000000000, 1000000000, -1000000000, -1000000000, 0)).2.2.1 -
        (dirBounds g.nodes (1000000000, 1000000000, -1000000000, -1000000000, 0)).1) /
        cfg.physics.repulsion_radius) + 1))
      (max 1 (truncToInt (((dirBounds g.nodes
        (1000000000, 1000000000, -1000000000, -1000000000, 0)).2.2.2.1 -
        (dirBounds g.nodes (1000000000, 1000000000, -1000000000, -1000000000, 0)).2.1) /
        cfg.physics.repulsion_radius) + 1))
      g.nodes (le_max_left _ _) (le_max_left _ _)
    rw [hgrid]
    simp only [hpairs]
    exact ⟨_, rfl⟩

theorem LinksInRange.links_moved {g g1 : Graph} (h : LinksInRange g)
    (hm : g1.nodes.length = g.nodes.length) (hl : g1.links = g.links) : LinksInRange g1 := by
  intro l hlm
  rw [hm]
  rw [hl] at hlm
  exact h l hlm

theorem stepLoop_ok (m : Libm) (cfg : Config) :
    ∀ (k : Nat) (g : Graph), LinksInRange g → ∃ g1, stepLoop m cfg k g = Except.ok g1 := by
  intro k
  induction k with
  | zero => intro g _; exact ⟨g, rfl⟩
  | succ k ih =>
    intro g h
    obtain ⟨ga, h1⟩ := SatisfyConstraints_ok m cfg g h
    obtain ⟨gb, h2⟩ := ApplyRepulsion_ok m cfg ga
    obtain ⟨a1, a2, _⟩ := SatisfyConstraints_moved m cfg g ga h1
    obtain ⟨b1, b2, _⟩ := ApplyRepulsion_moved m cfg ga gb h2
    obtain ⟨gc, h3⟩ := ih gb ((h.links_moved a1.1 a2).links_moved b1.1 b2)
    exact ⟨gc, by simp only [stepLoop, h1, h2]; exact h3⟩

theorem Step_ok (m : Libm) (cfg : Config) (g : Graph) (h : LinksInRange g) :
    ∃ g1, Step m cfg g = Except.ok g1 := by
  unfold Step
  apply stepLoop_ok
  exact h.links_moved (by simp [Integrate]) rfl

theorem Node.SteppedTo.sameTopology {n n1 : Node} (h : n.SteppedTo n1) : n.SameTopology n1 := by
  obtain ⟨e, _⟩ := h
  rw [e]
  exact ⟨rfl, rfl, rfl, rfl, rfl, rfl, rfl, rfl, rfl, rfl⟩

theorem Node.MovedTo.previous {n n1 : Node} (h : n.MovedTo n1) :
    n1.ppx = n.ppx ∧ n1.ppy = n.ppy := by
  obtain ⟨e, _⟩ := h
  rw [e]
  exact ⟨rfl, rfl⟩

theorem NodesStepped.keepsTopology {g g1 : Graph} (h : NodesStepped g.nodes g1.nodes)
    (hl : g1.links = g.links) (hp : g1.pathToNode = g.pathToNode) : KeepsTopology g g1 :=
  ⟨h.1, hl, hp, fun i n hi => by
    obtain ⟨n1, hn1, hs⟩ := h.2 i n hi
    exact ⟨n1, hn1, hs.sameTopology⟩⟩

theorem NodesMoved.keepsPrevious {g g1 : Graph} (h : NodesMoved g.nodes g1.nodes) :
    KeepsPrevious g g1 :=
  fun i n hi => by
    obtain ⟨n1, hn1, hs⟩ := h.2 i n hi
    exact ⟨n1, hn1, hs.previous⟩

theorem NodesStepped.fixed {nodes nodes1 : List Node} (h : NodesStepped nodes nodes1) (i : Nat)
    (n : Node) (hn : nodes[i]? = some n) (hf : n.fixed = true) : nodes1[i]? = some n := by
  obtain ⟨n1, hn1, hs⟩ := h.2 i n hn
  rw [hn1, hs.2 hf]

/-- C12: a node whose `fixed` flag is set is the same node, with the same `px`, `py`, `ppx`
and `ppy`, after `Integrate`, and after every returning run of `SatisfyConstraints`,
`ApplyRepulsion`, `EqualizeChildAngles` and `Step`; these passes return whenever the indices
they follow are inside the node sequence (`ApplyRepulsion` always). -/
theorem fixed_node_never_moves (m : Libm) (cfg : Config) (g : Graph) (i : Nat) (n : Node)
    (hn : g.nodes[i]? = some n) (hfix : n.fixed = true) :
    (Integrate cfg g).nodes[i]? = some n ∧
    (∀ g1, SatisfyConstraints m cfg g = Except.ok g1 → g1.nodes[i]? = some n) ∧
    (∀ g1, ApplyRepulsion m cfg g = Except.ok g1 → g1.nodes[i]? = some n) ∧
    (∀ g1, EqualizeChildAngles m cfg g = Except.ok g1 → g1.nodes[i]? = some n) ∧
    (∀ g1, Step m cfg g = Except.ok g1 → g1.nodes[i]? = some n) ∧
    (LinksInRange g → ∃ g1, SatisfyConstraints m cfg g = Except.ok g1) ∧
    (∃ g1, ApplyRepulsion m cfg g = Except.ok g1) ∧
    (TreeInRange g.nodes → ∃ g1, EqualizeChildAngles m cfg g = Except.ok g1) ∧
    (LinksInRange g → ∃ g1, Step m cfg g = Except.ok g1) := by
  refine ⟨(Integrate_stepped cfg g).1.fixed i n hn hfix, ?_, ?_, ?_, ?_,
    SatisfyConstraints_ok m cfg g, ApplyRepulsion_ok m cfg g, EqualizeChildAngles_ok m cfg g,
    Step_ok m cfg g⟩
  · intro g1 h
    exact (SatisfyConstraints_moved m cfg g g1 h).1.stepped.fixed i n hn hfix
  · intro g1 h
    exact (ApplyRepulsion_moved m cfg g g1 h).1.stepped.fixed i n hn hfix
  · intro g1 h
    exact (EqualizeChildAngles_moved m cfg g g1 h).1.stepped.fixed i n hn hfix
  · intro g1 h
    exact (Step_stepped m cfg g g1 h).1.fixed i n hn hfix

theorem fixed_node_never_moves_witness :
    (Integrate {} { nodes := [{ px := 5, ppx := 1, py := 2, ppy := 7, fixed := true }] }).nodes[0]? =
      some { px := 5, ppx := 1, py := 2, ppy := 7, fixed := true } :=
  (fixed_node_never_moves libmQ {}
    { nodes := [{ px := 5, ppx := 1, py := 2, ppy := 7, fixed := true }] } 0
    { px := 5, ppx := 1, py := 2, ppy := 7, fixed := true } rfl rfl).1

/-- C18: every physics pass keeps the number of nodes, the fields `id`, `kind`, `name`,
`path`, `parent_dir`, `children`, `subtreeDirCount`, `mass`, `fixed` and `color_rgba` of every
node, the link sequence and the path index; `SatisfyConstraints`, `ApplyRepulsion` and
`EqualizeChildAngles` keep `ppx` and `ppy` as well, so only the integration writes them. The
passes return whenever the indices they follow are inside the node sequence. -/
theorem passes_keep_topology (m : Libm) (cfg : Config) (g : Graph) :
    KeepsTopology g (Integrate cfg g) ∧
    (∀ g1, SatisfyConstraints m cfg g = Except.ok g1 → KeepsTopology g g1 ∧ KeepsPrevious g g1) ∧
    (∀ g1, ApplyRepulsion m cfg g = Except.ok g1 → KeepsTopology g g1 ∧ KeepsPrevious g g1) ∧
    (∀ g1, EqualizeChildAngles m cfg g = Except.ok g1 →
      KeepsTopology g g1 ∧ KeepsPrevious g g1) ∧
    (∀ g1, Step m cfg g = Except.ok g1 → KeepsTopology g g1) ∧
    (∀ g1, stepLoop m cfg cfg.physics.solver_iterations.toNat (Integrate cfg g) = Except.ok g1 →
      KeepsPrevious (Integrate cfg g) g1) ∧
    (LinksInRange g → ∃ g1, SatisfyConstraints m cfg g = Except.ok g1) ∧
    (∃ g1, ApplyRepulsion m cfg g = Except.ok g1) ∧
    (TreeInRange g.nodes → ∃ g1, EqualizeChildAngles m cfg g = Except.ok g1) ∧
    (LinksInRange g → ∃ g1, Step m cfg g = Except.ok g1) := by
  refine ⟨?_, ?_, ?_, ?_, ?_, ?_, SatisfyConstraints_ok m cfg g, ApplyRepulsion_ok m cfg g,
    EqualizeChildAngles_ok m cfg g, Step_ok m cfg g⟩
  · obtain ⟨a, b, c⟩ := Integrate_stepped cfg g
    exact a.keepsTopology b c
  · intro g1 h
    obtain ⟨a, b, c⟩ := SatisfyConstraints_moved m cfg g g1 h
    exact ⟨a.stepped.keepsTopology b c, a.keepsPrevious⟩
  · intro g1 h
    obtain ⟨a, b, c⟩ := ApplyRepulsion_moved m cfg g g1 h
    exact ⟨a.stepped.keepsTopology b c, a.keepsPrevious⟩
  · intro g1 h
    obtain ⟨a, b, c⟩ := EqualizeChildAngles_moved m cfg g g1 h
    exact ⟨a.stepped.keepsTopology b c, a.keepsPrevious⟩
  · intro g1 h
    obtain ⟨a, b, c⟩ := Step_stepped m cfg g g1 h
    exact a.keepsTopology b c
  · intro g1 h
    exact (stepLoop_moved m cfg _ _ g1 h).1.keepsPrevious

theorem get_cell_index_eq (minX minY cellSize : ℚ) (gx gy : Int) (x y : ℚ) :
    get_cell_index minX minY cellSize gx gy x y =
      cellCoord minY cellSize gy y * gx + cellCoord minX cellSize gx x := rfl

theorem pairsAtCell_eq (grid : List (List Int)) (gx gy X Y : Int) :
    pairsAtCell grid gx gy X Y =
      cellPairs (gridCell grid (Y * gx + X)) ++
        ([-1, 0, 1] : List Int).flatMap (fun oy =>
          ([-1, 0, 1] : List Int).flatMap (fun ox => neighborPairs grid gx gy X Y ox oy)) := rfl

theorem truncToInt_nonneg (x : ℚ) (hx : 0 ≤ x) : truncToInt x = ⌊x⌋ := by
  unfold truncToInt
  rw [Int.tdiv_eq_ediv (Rat.num_nonneg.mpr hx) (by exact_mod_cast Nat.zero_le _), Rat.floor_def]

theorem truncToInt_neg (x : ℚ) : truncToInt (-x) = -truncToInt x := by
  unfold truncToInt
  simp [Int.neg_tdiv]

theorem truncToInt_bounds_nonneg (x : ℚ) (hx : 0 ≤ x) :
    (truncToInt x : ℚ) ≤ x ∧ x < truncToInt x + 1 ∧ 0 ≤ truncToInt x := by
  rw [truncToInt_nonneg x hx]
  exact ⟨Int.floor_le x, Int.lt_floor_add_one x, Int.floor_nonneg.mpr hx⟩

theorem truncToInt_bounds_nonpos (x : ℚ) (hx : x ≤ 0) :
    x ≤ truncToInt x ∧ (truncToInt x : ℚ) - 1 < x ∧ truncToInt x ≤ 0 := by
  have h := truncToInt_bounds_nonneg (-x) (by linarith)
  rw [truncToInt_neg] at h
  obtain ⟨h1, h2, h3⟩ := h
  push_cast at h1 h2
  refine ⟨by linarith, by linarith, by omega⟩

theorem truncToInt_step (u v : ℚ) (huv : u ≤ v) (hd : v - u ≤ 1) :
    truncToInt u ≤ truncToInt v ∧ truncToInt v ≤ truncToInt u + 1 := by
  by_cases hu : 0 ≤ u
  · obtain ⟨a1, a2, _⟩ := truncToInt_bounds_nonneg u hu
    obtain ⟨b1, b2, _⟩ := truncToInt_bounds_nonneg v (by linarith)
    have h1 : (truncToInt u : ℚ) < truncToInt v + 1 := by linarith
    have h2 : (truncToInt v : ℚ) < truncToInt u + 2 := by linarith
    have h1' : truncToInt u < truncToInt v + 1 := by exact_mod_cast h1
    have h2' : truncToInt v < truncToInt u + 2 := by exact_mod_cast h2
    omega
  · have hu' : u ≤ 0 := by linarith
    obtain ⟨a1, a2, a3⟩ := truncToInt_bounds_nonpos u hu'
    by_cases hv : 0 ≤ v
    · obtain ⟨b1, b2, b3⟩ := truncToInt_bounds_nonneg v hv
      have h2 : (truncToInt v : ℚ) < truncToInt u + 2 := by linarith
      have h2' : truncToInt v < truncToInt u + 2 := by exact_mod_cast h2
      omega
    · obtain ⟨b1, b2, b3⟩ := truncToInt_bounds_nonpos v (by linarith)
      have h1 : (truncToInt u : ℚ) < truncToInt v + 1 := by linarith
      have h2 : (truncToInt v : ℚ) < truncToInt u + 2 := by linarith
      have h1' : truncToInt u < truncToInt v + 1 := by exact_mod_cast h1
      have h2' : truncToInt v < truncToInt u + 2 := by exact_mod_cast h2
      omega

theorem truncToInt_close (u v : ℚ) (h : |u - v| ≤ 1) :
    truncToInt u - truncToInt v ≤ 1 ∧ truncToInt v - truncToInt u ≤ 1 := by
  rw [abs_le] at h
  by_cases huv : u ≤ v
  · have := truncToInt_step u v huv (by linarith)
    omega
  · have := truncToInt_step v u (by linarith) (by linarith)
    omega

theorem cellCoord_range (lo cellSize : ℚ) (g : Int) (x : ℚ) (hg : 1 ≤ g) :
    0 ≤ cellCoord lo cellSize g x ∧ cellCoord lo cellSize g x < g := by
  unfold cellCoord
  simp only
  split <;> split <;> omega

theorem cellCoord_close (lo cellSize : ℚ) (g : Int) (x1 x2 : ℚ) (hg : 1 ≤ g)
    (hr : 0 < cellSize) (h : |x1 - x2| ≤ cellSize) :
    cellCoord lo cellSize g x1 - cellCoord lo cellSize g x2 ≤ 1 ∧
    cellCoord lo cellSize g x2 - cellCoord lo cellSize g x1 ≤ 1 := by
  have hq : |(x1 - lo) / cellSize - (x2 - lo) / cellSize| ≤ 1 := by
    rw [← sub_div, abs_div, abs_of_pos hr, div_le_one hr]
    have : x1 - lo - (x2 - lo) = x1 - x2 := by ring
    rw [this]
    exact h
  have := truncToInt_close _ _ hq
  unfold cellCoord
  simp only
  split_ifs <;> omega

theorem cell_index_inj (gx X Y X1 Y1 : Int) (hX0 : 0 ≤ X) (hX : X < gx) (hX10 : 0 ≤ X1)
    (hX1 : X1 < gx) (h : Y * gx + X = Y1 * gx + X1) : X = X1 ∧ Y = Y1 := by
  have hY : Y = Y1 := by
    rcases lt_trichotomy Y Y1 with hlt | heq | hgt
    · exfalso
      have : (Y1 - Y) * gx ≥ 1 * gx := by
        apply Int.mul_le_mul_of_nonneg_right (by omega) (by omega)
      nlinarith
    · exact heq
    · exfalso
      have : (Y - Y1) * gx ≥ 1 * gx := by
        apply Int.mul_le_mul_of_nonneg_right (by omega) (by omega)
      nlinarith
  subst hY
  exact ⟨by omega, rfl⟩

theorem crossPairs_nil_left (l : List Int) : crossPairs [] l = [] := rfl

theorem dirBounds_count : ∀ (nodes : List Node) (acc : ℚ × ℚ × ℚ × ℚ × Int),
    (dirBounds nodes acc).2.2.2.2 =
      acc.2.2.2.2 + (nodes.countP (fun n => decide (n.kind = NodeKind.Directory)) : Nat) := by
  intro nodes
  induction nodes with
  | nil => intro acc; simp [dirBounds]
  | cons node rest ih =>
    intro acc
    obtain ⟨a, b, c, d, e⟩ := acc
    simp only [dirBounds]
    split
    · rename_i hk
      rw [ih, List.countP_cons_of_neg _ _ (by simpa using hk)]
    · rename_i hk
      rw [ih, List.countP_cons_of_pos _ _ (by simpa using hk)]
      push_cast
      ring

theorem gridCell_of_getElem? (grid : List (List Int)) (k : Int) (cell : List Int) (h0 : 0 ≤ k)
    (h : grid[k.toNat]? = some cell) : gridCell grid k = cell := by
  unfold gridCell
  rw [if_neg (by omega), h]
  rfl

theorem near_coordinate (a b c r : ℚ) (hr : 0 < r) (h : a * a + b * b + c ≤ r * r) (hc : 0 ≤ c) :
    |a| ≤ r := by
  apply abs_le_of_sq_le_sq _ hr.le
  nlinarith [mul_self_nonneg b]

theorem clamped_mass_pos (mass : ℚ) : 0 < max (1 / 10000) mass :=
  lt_of_lt_of_le (by norm_num) (le_max_left _ _)

theorem inverse_mass_sum_pos (massA massB : ℚ) :
    0 < 1 / max (1 / 10000) massA + 1 / max (1 / 10000) massB :=
  add_pos (one_div_pos.mpr (clamped_mass_pos massA)) (one_div_pos.mpr (clamped_mass_pos massB))

theorem guarded_distance_arg (dx dy : ℚ) : 1 / 1000000 ≤ dx * dx + dy * dy + 1 / 1000000 := by
  nlinarith [mul_self_nonneg dx, mul_self_nonneg dy]

theorem divisors_eval :
    satisfyLinkDivisors libmQ {} twoDirectoryGraph.nodes { a := 0, b := 2 } =
      [5, 1, 5, 6 / 5, 6 / 5] ∧
    process_pair_divisors libmQ {} twoDirectoryGraph.nodes 0 2 = [5, 30] := by
  constructor <;> decide!

theorem satisfyLink_eq_enabled (m : Libm) (cfg : Config) (nodes : List Node) (link : Link)
    (nodeA nodeB : Node) (hA : nodeAt nodes link.a = Except.ok nodeA)
    (hB : nodeAt nodes link.b = Except.ok nodeB) :
    satisfyLink m cfg nodes link =
      if linkEnabled cfg nodeA nodeB then
        constrainPair m (desiredRestLength cfg nodeA nodeB) nodes link nodeA nodeB
      else Except.ok nodes := by
  unfold satisfyLink
  rw [hA, hB]
  simp only [bind, Except.bind]
  by_cases ha : nodeA.kind = NodeKind.Directory <;> by_cases hb : nodeB.kind = NodeKind.Directory <;>
    by_cases hd : cfg.graph.enable_directory_links <;>
    by_cases hi : cfg.graph.enable_include_links <;>
    simp [ha, hb, hd, hi, constrainPair, linkEnabled, desiredRestLength, bind, Except.bind]

theorem set_self_of_getElem? (nodes : List Node) (i : Nat) (n : Node)
    (h : nodes[i]? = some n) : nodes.set i n = nodes := by
  apply List.ext_getElem?
  intro j
  rw [List.getElem?_set]
  split
  · rename_i hij
    subst hij
    split
    · exact h.symm
    · rename_i hlt
      rw [List.getElem?_eq_none (by omega)]
  · rfl

/-- The outcome of `constrainPair` for two distinct ends: both nodes are overwritten, a fixed
one by itself. -/
theorem constrainPair_result (m : Libm) (desired : ℚ) (nodes : List Node) (link : Link)
    (A B : Node) (hA : nodeAt nodes link.a = Except.ok A) (hB : nodeAt nodes link.b = Except.ok B)
    (hab : link.a ≠ link.b) :
    let dist := m.sqrt ((B.px - A.px) * (B.px - A.px) + (B.py - A.py) * (B.py - A.py) + 1 / 1000000)
    let e := (dist - desired) / dist
    let deltaX := (B.px - A.px) * e * (link.stiffness * (1 / 2))
    let deltaY := (B.py - A.py) * e * (link.stiffness * (1 / 2))
    let invA := 1 / max (1 / 10000) A.mass
    let invB := 1 / max (1 / 10000) B.mass
    let wA := invA / (invA + invB)
    let wB := invB / (invA + invB)
    constrainPair m desired nodes link A B =
      Except.ok ((nodes.set link.a.toNat
          (if A.fixed then A else A.placeAt (A.px + deltaX * wA) (A.py + deltaY * wA))).set
        link.b.toNat
          (if B.fixed then B else B.placeAt (B.px - deltaX * wB) (B.py - deltaY * wB))) := by
  intro dist e deltaX deltaY invA invB wA wB
  obtain ⟨ha0, hAg⟩ := nodeAt_ok hA
  obtain ⟨hb0, hBg⟩ := nodeAt_ok hB
  have hne : link.a.toNat ≠ link.b.toNat := by omega
  have hsum : invA + invB > 0 := inverse_mass_sum_pos A.mass B.mass
  unfold constrainPair
  simp only [bind, Except.bind]
  rw [if_pos hsum, if_pos hsum]
  have hB1 : ∀ A1 : Node, nodeAt (nodes.set link.a.toNat A1) link.b = Except.ok B := by
    intro A1
    apply nodeAt_of_getElem? hb0
    rw [List.getElem?_set_ne hne]
    exact hBg
  by_cases hAf : A.fixed = true
  · rw [if_pos hAf, if_pos hAf]
    rw [set_self_of_getElem? nodes _ A hAg]
    simp only [hB]
    by_cases hBf : B.fixed = true
    · rw [if_pos hBf, if_pos hBf, set_self_of_getElem? nodes _ B hBg]
    · rw [if_neg hBf, if_neg hBf]
      rfl
  · rw [if_neg hAf, if_neg hAf]
    simp only [hB1]
    by_cases hBf : B.fixed = true
    · rw [if_pos hBf, if_pos hBf]
      rw [set_self_of_getElem? _ link.b.toNat B (by rw [List.getElem?_set_ne hne]; exact hBg)]
      rfl
    · rw [if_neg hBf, if_neg hBf]
      rfl

theorem weights_spec (massA massB : ℚ) :
    let invA := 1 / max (1 / 10000) massA
    let invB := 1 / max (1 / 10000) massB
    invA / (invA + invB) + invB / (invA + invB) = 1 ∧
    0 < invA / (invA + invB) ∧ 0 < invB / (invA + invB) ∧
    (max (1 / 10000) massB ≤ max (1 / 10000) massA →
      invA / (invA + invB) ≤ invB / (invA + invB)) := by
  intro invA invB
  have hA : 0 < invA := one_div_pos.mpr (clamped_mass_pos massA)
  have hB : 0 < invB := one_div_pos.mpr (clamped_mass_pos massB)
  have hs : 0 < invA + invB := add_pos hA hB
  refine ⟨?_, div_pos hA hs, div_pos hB hs, ?_⟩
  · rw [← add_div, div_self hs.ne']
  · intro hle
    apply div_le_div_of_nonneg_right _ hs.le
    exact one_div_le_one_div_of_le (clamped_mass_pos massB) hle

theorem abs_share_le (d w1 w2 : ℚ) (h1 : 0 < w1) (h2 : 0 < w2) (h : w1 ≤ w2) :
    |d * w1| ≤ |d * w2| := by
  rw [abs_mul, abs_mul, abs_of_pos h1, abs_of_pos h2]
  exact mul_le_mul_of_nonneg_left h (abs_nonneg _)

/-- One link step: for an enabled link whose ends `A = nodes[a]` and `B = nodes[b]` are distinct,
the link step of `SatisfyConstraints` computes `dist = sqrt (|B - A|^2 + 1e-6)`,
`e = (dist - desired) / dist` and `delta = (B - A) * e * stiffness * 0.5`, with the weights
`wA = invA / (invA + invB)` and `wB = invB / (invA + invB)` of the inverse clamped masses
(`wA + wB = 1`, both positive). It returns the nodes with `A` replaced by `A` moved by
`+delta * wA` unless `A` is fixed, `B` replaced by `B` moved by `-delta * wB` unless `B` is fixed
(so each end moves by its own share whether or not the other end is fixed), and no other node
changed; the end with the larger clamped mass has the smaller weight, so its move is no longer
than that of the other end. -/
theorem satisfyLink_single (m : Libm) (cfg : Config) (nodes : List Node) (link : Link)
    (A B : Node) (hA : nodeAt nodes link.a = Except.ok A) (hB : nodeAt nodes link.b = Except.ok B)
    (hab : link.a ≠ link.b) (hen : linkEnabled cfg A B = true) :
    let dist := m.sqrt ((B.px - A.px) * (B.px - A.px) + (B.py - A.py) * (B.py - A.py) + 1 / 1000000)
    let e := (dist - desiredRestLength cfg A B) / dist
    let deltaX := (B.px - A.px) * e * link.stiffness * (1 / 2)
    let deltaY := (B.py - A.py) * e * link.stiffness * (1 / 2)
    let massA := max (1 / 10000) A.mass
    let massB := max (1 / 10000) B.mass
    let wA := (1 / massA) / (1 / massA + 1 / massB)
    let wB := (1 / massB) / (1 / massA + 1 / massB)
    let A1 := if A.fixed then A else A.placeAt (A.px + deltaX * wA) (A.py + deltaY * wA)
    let B1 := if B.fixed then B else B.placeAt (B.px - deltaX * wB) (B.py - deltaY * wB)
    satisfyLink m cfg nodes link = Except.ok ((nodes.set link.a.toNat A1).set link.b.toNat B1) ∧
    ((nodes.set link.a.toNat A1).set link.b.toNat B1)[link.a.toNat]? = some A1 ∧
    ((nodes.set link.a.toNat A1).set link.b.toNat B1)[link.b.toNat]? = some B1 ∧
    (∀ i : Nat, i ≠ link.a.toNat → i ≠ link.b.toNat →
      ((nodes.set link.a.toNat A1).set link.b.toNat B1)[i]? = nodes[i]?) ∧
    wA + wB = 1 ∧ 0 < wA ∧ 0 < wB ∧
    (massB ≤ massA → wA ≤ wB ∧ |deltaX * wA| ≤ |deltaX * wB| ∧ |deltaY * wA| ≤ |deltaY * wB| ∧
      (deltaX * wA) ^ 2 + (deltaY * wA) ^ 2 ≤ (deltaX * wB) ^ 2 + (deltaY * wB) ^ 2) := by
  intro dist e deltaX deltaY massA massB wA wB A1 B1
  obtain ⟨ha0, hAg⟩ := nodeAt_ok hA
  obtain ⟨hb0, hBg⟩ := nodeAt_ok hB
  have hne : link.a.toNat ≠ link.b.toNat := by omega
  have hla : link.a.toNat < nodes.length := (List.getElem?_eq_some.mp hAg).1
  have hlb : link.b.toNat < nodes.length := (List.getElem?_eq_some.mp hBg).1
  have hw := weights_spec A.mass B.mass
  simp only at hw
  obtain ⟨hw1, hw2, hw3, hw4⟩ := hw
  refine ⟨?_, ?_, ?_, ?_, hw1, hw2, hw3, ?_⟩
  · rw [satisfyLink_eq_enabled m cfg nodes link A B hA hB, if_pos hen]
    have h := constrainPair_result m (desiredRestLength cfg A B) nodes link A B hA hB hab
    simp only at h
    rw [h]
    have hx : (B.px - A.px) * e * (link.stiffness * (1 / 2)) = deltaX := by
      simp only [deltaX]; ring
    have hy : (B.py - A.py) * e * (link.stiffness * (1 / 2)) = deltaY := by
      simp only [deltaY]; ring
    simp only [A1, B1, ← hx, ← hy, e, dist, wA, wB, massA, massB]
  · rw [List.getElem?_set_ne (Ne.symm hne), List.getElem?_set_eq_of_lt _ hla]
  · rw [List.getElem?_set_eq_of_lt _ (by rw [List.length_set]; exact hlb)]
  · intro i hia hib
    rw [List.getElem?_set_ne (Ne.symm hib), List.getElem?_set_ne (Ne.symm hia)]
  · intro hle
    have hww := hw4 hle
    have hx : |deltaX * wA| ≤ |deltaX * wB| := abs_share_le deltaX wA wB hw2 hw3 hww
    have hy : |deltaY * wA| ≤ |deltaY * wB| := abs_share_le deltaY wA wB hw2 hw3 hww
    refine ⟨hww, hx, hy, ?_⟩
    have h1 := sq_le_sq.mpr hx
    have h2 := sq_le_sq.mpr hy
    linarith

theorem satisfyLink_single_witness :
    satisfyLink libmQ {} twoDirectoryGraph.nodes { a := 0, b := 2 } =
      Except.ok ((twoDirectoryGraph.nodes.set 0
        (lightDirectory.placeAt (0 + 3 * ((5 - 44) / 5) * 1 * (1 / 2) * (5 / 6))
          (0 + 4 * ((5 - 44) / 5) * 1 * (1 / 2) * (5 / 6)))).set 2
        (heavyDirectory.placeAt (3 - 3 * ((5 - 44) / 5) * 1 * (1 / 2) * (1 / 6))
          (4 - 4 * ((5 - 44) / 5) * 1 * (1 / 2) * (1 / 6)))) := by
  have h := (satisfyLink_single libmQ {} twoDirectoryGraph.nodes { a := 0, b := 2 }
    lightDirectory heavyDirectory rfl rfl (by decide) (by decide)).1
  rw [h]
  exact congrArg Except.ok (by decide!)

theorem KeepsFiles.files_refl (nodes : List Node) : KeepsFiles nodes nodes :=
  fun _ _ h _ => h

theorem KeepsFiles.files_trans {nodes nodes1 nodes2 : List Node} (h1 : KeepsFiles nodes nodes1)
    (h2 : KeepsFiles nodes1 nodes2) : KeepsFiles nodes nodes2 :=
  fun i n h hk => h2 i n (h1 i n h hk) hk

theorem KeepsFiles.set_directory {nodes : List Node} {i : Int} {n : Node}
    (h : nodeAt nodes i = Except.ok n) (hk : n.kind = NodeKind.Directory) (n1 : Node) :
    KeepsFiles nodes (nodes.set i.toNat n1) := by
  intro j x hj hx
  obtain ⟨_, hn⟩ := nodeAt_ok h
  have hne : i.toNat ≠ j := by
    intro e
    rw [e, hj] at hn
    cases hn
    exact hx hk
  rw [List.getElem?_set_ne hne]
  exact hj

theorem process_pair_keepsFiles (m : Libm) (cfg : Config) (nodes nodes1 : List Node) (a b : Int)
    (h : process_pair m cfg nodes a b = Except.ok nodes1) : KeepsFiles nodes nodes1 := by
  unfold process_pair at h
  cases hA : nodeAt nodes a with
  | error e => simp [hA, bind, Except.bind] at h
  | ok nodeA =>
    cases hB : nodeAt nodes b with
    | error e => simp [hA, hB, bind, Except.bind] at h
    | ok nodeB =>
      simp only [hA, hB, bind, Except.bind] at h
      split at h
      · cases h; exact KeepsFiles.files_refl _
      · rename_i hkinds
        have hkA : nodeA.kind = NodeKind.Directory := by
          by_contra hc; exact hkinds (Or.inl hc)
        have hkB : nodeB.kind = NodeKind.Directory := by
          by_contra hc; exact hkinds (Or.inr hc)
        split at h
        · cases h; exact KeepsFiles.files_refl _
        · split at h
          · cases h
          · rename_i nodeB1 hB1
            simp only [Except.ok.injEq] at h
            subst h
            have step1 : ∀ n1 : Node, KeepsFiles nodes
                (if nodeA.fixed = true then nodes else nodes.set a.toNat n1) := by
              intro n1
              split
              · exact KeepsFiles.files_refl _
              · exact KeepsFiles.set_directory hA hkA n1
            intro j x hj hx
            split
            · exact step1 _ j x hj hx
            · obtain ⟨_, hBg⟩ := nodeAt_ok hB
              have hne : b.toNat ≠ j := by
                intro e
                rw [e, hj] at hBg
                cases hBg
                exact hx hkB
              rw [List.getElem?_set_ne hne]
              exact step1 _ j x hj hx

theorem processPairs_keepsFiles (m : Libm) (cfg : Config) :
    ∀ (pairs : List (Int × Int)) (nodes nodes1 : List Node),
      processPairs m cfg nodes pairs = Except.ok nodes1 → KeepsFiles nodes nodes1 := by
  intro pairs
  induction pairs with
  | nil =>
    intro nodes nodes1 h
    simp only [processPairs, Except.ok.injEq] at h
    subst h
    exact KeepsFiles.files_refl _
  | cons p rest ih =>
    intro nodes nodes1 h
    obtain ⟨a, b⟩ := p
    simp only [processPairs] at h
    cases h1 : process_pair m cfg nodes a b with
    | error e => simp [h1] at h
    | ok nodes2 =>
      simp only [h1] at h
      exact (process_pair_keepsFiles m cfg nodes nodes2 a b h1).files_trans (ih nodes2 nodes1 h)

theorem ApplyRepulsion_keepsFiles (m : Libm) (cfg : Config) (g g1 : Graph)
    (h : ApplyRepulsion m cfg g = Except.ok g1) : KeepsFiles g.nodes g1.nodes := by
  unfold ApplyRepulsion at h
  simp only at h
  split at h
  · cases h; exact KeepsFiles.files_refl _
  · split at h
    · cases h
    · split at h
      · cases h
      · rename_i nodes1 hp
        cases h
        exact processPairs_keepsFiles m cfg _ _ _ hp

theorem ApplyRepulsion_few_directories (m : Libm) (cfg : Config) (g : Graph)
    (h : g.nodes.countP (fun n => decide (n.kind = NodeKind.Directory)) < 2) :
    ApplyRepulsion m cfg g = Except.ok g := by
  unfold ApplyRepulsion
  simp only
  have hc := dirBounds_count g.nodes (1000000000, 1000000000, -1000000000, -1000000000, 0)
  simp only [zero_add] at hc
  rw [if_pos (by rw [hc]; omega)]

/-- C27: `ApplyRepulsion` returns, for every graph and configuration, a graph in which every
File node is the node it was (same position, same index) and the links and the path index are
those of the input; on a graph with fewer than 2 Directory nodes it returns the graph it was
given. -/
theorem ApplyRepulsion_directories_only (m : Libm) (cfg : Config) (g : Graph) :
    ∃ g1, ApplyRepulsion m cfg g = Except.ok g1 ∧
      g1.nodes.length = g.nodes.length ∧ g1.links = g.links ∧ g1.pathToNode = g.pathToNode ∧
      (∀ (i : Nat) (n : Node), g.nodes[i]? = some n → n.kind = NodeKind.File →
        g1.nodes[i]? = some n) ∧
      (g.nodes.countP (fun n => decide (n.kind = NodeKind.Directory)) < 2 → g1 = g) := by
  obtain ⟨g1, h⟩ := ApplyRepulsion_ok m cfg g
  obtain ⟨hm, hl, hp⟩ := ApplyRepulsion_moved m cfg g g1 h
  refine ⟨g1, h, hm.1, hl, hp, ?_, ?_⟩
  · intro i n hi hk
    exact ApplyRepulsion_keepsFiles m cfg g g1 h i n hi (by rw [hk]; decide)
  · intro hc
    have := ApplyRepulsion_few_directories m cfg g hc
    rw [this] at h
    cases h
    rfl

theorem nodup_flatMap_of_unique {α β : Type} (l : List α) (f : α → List β) (hl : l.Nodup)
    (hf : ∀ x ∈ l, (f x).Nodup)
    (hu : ∀ x ∈ l, ∀ y ∈ l, ∀ b, b ∈ f x → b ∈ f y → x = y) : (l.flatMap f).Nodup := by
  rw [List.nodup_flatMap]
  refine ⟨hf, ?_⟩
  apply hl.pairwise_of_forall_ne
  intro x hx y hy hne
  show List.Disjoint (f x) (f y)
  intro b hb1 hb2
  exact hne (hu x hx y hy b hb1 hb2)

theorem cellPairs_mem_iff : ∀ (l : List Int), l.Pairwise (· < ·) → ∀ (p : Int × Int),
    p ∈ cellPairs l ↔ p.1 ∈ l ∧ p.2 ∈ l ∧ p.1 < p.2 := by
  intro l
  induction l with
  | nil => intro _ p; simp [cellPairs]
  | cons a rest ih =>
    intro hs p
    obtain ⟨x, y⟩ := p
    rw [List.pairwise_cons] at hs
    obtain ⟨ha, hrest⟩ := hs
    simp only [cellPairs, List.mem_append, List.mem_map, Prod.mk.injEq, ih hrest, List.mem_cons]
    constructor
    · rintro (⟨b, hb, rfl, rfl⟩ | ⟨h1, h2, h3⟩)
      · exact ⟨Or.inl rfl, Or.inr hb, ha b hb⟩
      · exact ⟨Or.inr h1, Or.inr h2, h3⟩
    · rintro ⟨h1 | h1, h2 | h2, h3⟩
      · subst h1; subst h2; omega
      · subst h1; exact Or.inl ⟨y, h2, rfl, rfl⟩
      · subst h2
        have := ha x h1
        omega
      · exact Or.inr ⟨h1, h2, h3⟩

theorem cellPairs_nodup : ∀ (l : List Int), l.Pairwise (· < ·) → (cellPairs l).Nodup := by
  intro l
  induction l with
  | nil => intro _; simp [cellPairs]
  | cons a rest ih =>
    intro hs
    have hs' := hs
    rw [List.pairwise_cons] at hs
    obtain ⟨ha, hrest⟩ := hs
    simp only [cellPairs]
    apply List.Nodup.append
    · apply List.Nodup.map
      · intro b c h
        simpa using h
      · exact hrest.nodup
    · exact ih hrest
    · intro p hp1 hp2
      simp only [List.mem_map] at hp1
      obtain ⟨b, hb, rfl⟩ := hp1
      have := ((cellPairs_mem_iff rest hrest (a, b)).mp hp2).1
      have := ha a this
      omega

theorem crossPairs_mem_iff (l1 l2 : List Int) (p : Int × Int) :
    p ∈ crossPairs l1 l2 ↔ p.1 ∈ l1 ∧ p.2 ∈ l2 ∧ p.1 < p.2 := by
  obtain ⟨x, y⟩ := p
  simp only [crossPairs, List.mem_flatMap, List.mem_map, List.mem_filter, decide_eq_true_eq,
    Prod.mk.injEq]
  constructor
  · rintro ⟨a, ha, b, ⟨hb, hab⟩, rfl, rfl⟩
    exact ⟨ha, hb, hab⟩
  · rintro ⟨h1, h2, h3⟩
    exact ⟨x, h1, y, ⟨h2, h3⟩, rfl, rfl⟩

theorem crossPairs_nodup (l1 l2 : List Int) (h1 : l1.Nodup) (h2 : l2.Nodup) :
    (crossPairs l1 l2).Nodup := by
  unfold crossPairs
  apply nodup_flatMap_of_unique l1 _ h1
  · intro a _
    apply List.Nodup.map
    · intro b c h
      simpa using h
    · exact h2.filter _
  · intro a _ a' _ p hp hp'
    simp only [List.mem_map] at hp hp'
    obtain ⟨b, _, rfl⟩ := hp
    obtain ⟨b', _, h⟩ := hp'
    simp only [Prod.mk.injEq] at h
    exact h.1.symm

theorem cellMembers_sorted (cellOf : Node → Int) :
    ∀ (nodes : List Node) (start k : Int),
      (cellMembers cellOf nodes start k).Pairwise (· < ·) := by
  intro nodes
  induction nodes with
  | nil => intro _ _; simp [cellMembers]
  | cons node rest ih =>
    intro start k
    simp only [cellMembers]
    split
    · rw [List.pairwise_cons]
      refine ⟨?_, ih _ _⟩
      intro x hx
      have := cellMembers_mem cellOf rest (start + 1) k x hx
      omega
    · exact ih _ _

theorem cellMembers_mem_iff (cellOf : Node → Int) :
    ∀ (nodes : List Node) (start k x : Int),
      x ∈ cellMembers cellOf nodes start k ↔
        start ≤ x ∧ ∃ n, nodes[(x - start).toNat]? = some n ∧
          n.kind = NodeKind.Directory ∧ cellOf n = k := by
  intro nodes
  induction nodes with
  | nil => intro start k x; simp [cellMembers]
  | cons node rest ih =>
    intro start k x
    have hrest : ∀ y : Int, start + 1 ≤ y →
        (node :: rest)[(y - start).toNat]? = rest[(y - (start + 1)).toNat]? := by
      intro y hy
      have : (y - start).toNat = (y - (start + 1)).toNat + 1 := by omega
      rw [this, List.getElem?_cons_succ]
    simp only [cellMembers]
    split
    · rename_i hc
      rw [List.mem_cons, ih]
      constructor
      · rintro (rfl | ⟨h1, n, h2, h3⟩)
        · exact ⟨le_refl _, node, by simp, hc.1, hc.2⟩
        · exact ⟨by omega, n, by rw [hrest x h1]; exact h2, h3⟩
      · rintro ⟨h1, n, h2, h3⟩
        by_cases hx : x = start
        · exact Or.inl hx
        · right
          have h1' : start + 1 ≤ x := by omega
          exact ⟨h1', n, by rw [← hrest x h1']; exact h2, h3⟩
    · rename_i hc
      rw [ih]
      constructor
      · rintro ⟨h1, n, h2, h3⟩
        exact ⟨by omega, n, by rw [hrest x h1]; exact h2, h3⟩
      · rintro ⟨h1, n, h2, h3⟩
        by_cases hx : x = start
        · exfalso
          subst hx
          simp only [sub_self, Int.toNat_zero, List.getElem?_cons_zero, Option.some.injEq] at h2
          subst h2
          exact hc h3
        · have h1' : start + 1 ≤ x := by omega
          exact ⟨h1', n, by rw [← hrest x h1']; exact h2, h3⟩

theorem neighborPairs_mem_iff (grid : List (List Int)) (gx gy X Y ox oy : Int) (p : Int × Int) :
    p ∈ neighborPairs grid gx gy X Y ox oy ↔
      ¬ (ox = 0 ∧ oy = 0) ∧ (0 ≤ X + ox ∧ 0 ≤ Y + oy ∧ X + ox < gx ∧ Y + oy < gy) ∧
      p.1 ∈ gridCell grid (Y * gx + X) ∧ p.2 ∈ gridCell grid ((Y + oy) * gx + (X + ox)) ∧
      p.1 < p.2 := by
  unfold neighborPairs
  split
  · rename_i h0
    simp [h0]
  · rename_i h0
    simp only
    split
    · rename_i hout
      simp only [List.not_mem_nil, false_iff]
      intro h
      omega
    · rename_i hin
      rw [crossPairs_mem_iff]
      constructor
      · intro h
        exact ⟨h0, by omega, h⟩
      · intro h
        exact h.2.2

theorem offsets_mem (o : Int) : o ∈ ([-1, 0, 1] : List Int) ↔ (o = -1 ∨ o = 0 ∨ o = 1) := by
  simp

theorem offsets_nodup : ([-1, 0, 1] : List Int).Nodup := by decide

theorem pairsAtCell_mem_iff (grid : List (List Int)) (gx gy X Y : Int)
    (hS : (gridCell grid (Y * gx + X)).Pairwise (· < ·)) (p : Int × Int) :
    p ∈ pairsAtCell grid gx gy X Y ↔
      p.1 ∈ gridCell grid (Y * gx + X) ∧ p.1 < p.2 ∧
      ∃ ox oy : Int, (ox = -1 ∨ ox = 0 ∨ ox = 1) ∧ (oy = -1 ∨ oy = 0 ∨ oy = 1) ∧
        ((ox = 0 ∧ oy = 0) ∨ (0 ≤ X + ox ∧ 0 ≤ Y + oy ∧ X + ox < gx ∧ Y + oy < gy)) ∧
        p.2 ∈ gridCell grid ((Y + oy) * gx + (X + ox)) := by
  rw [pairsAtCell_eq, List.mem_append, cellPairs_mem_iff _ hS]
  simp only [List.mem_flatMap, neighborPairs_mem_iff, offsets_mem]
  constructor
  · rintro (⟨h1, h2, h3⟩ | ⟨oy, hoy, ox, hox, h0, hin, h1, h2, h3⟩)
    · exact ⟨h1, h3, 0, 0, Or.inr (Or.inl rfl), Or.inr (Or.inl rfl), Or.inl ⟨rfl, rfl⟩,
        by simpa using h2⟩
    · exact ⟨h1, h3, ox, oy, hox, hoy, Or.inr hin, h2⟩
  · rintro ⟨h1, h3, ox, oy, hox, hoy, hin, h2⟩
    by_cases h0 : ox = 0 ∧ oy = 0
    · obtain ⟨rfl, rfl⟩ := h0
      left
      exact ⟨h1, by simpa using h2, h3⟩
    · right
      rcases hin with hin | hin
      · exact absurd hin h0
      · exact ⟨oy, hoy, ox, hox, h0, hin, h1, h2, h3⟩

theorem pairsAtCell_nodup (grid : List (List Int)) (gx gy X Y : Int)
    (hX : 0 ≤ X ∧ X < gx) (hY : 0 ≤ Y ∧ Y < gy)
    (hS : ∀ X1 Y1 : Int, 0 ≤ X1 → X1 < gx → 0 ≤ Y1 → Y1 < gy →
      (gridCell grid (Y1 * gx + X1)).Pairwise (· < ·))
    (hD : ∀ (X1 Y1 X2 Y2 x : Int), 0 ≤ X1 → X1 < gx → 0 ≤ Y1 → Y1 < gy →
      0 ≤ X2 → X2 < gx → 0 ≤ Y2 → Y2 < gy →
      x ∈ gridCell grid (Y1 * gx + X1) → x ∈ gridCell grid (Y2 * gx + X2) → X1 = X2 ∧ Y1 = Y2) :
    (pairsAtCell grid gx gy X Y).Nodup := by
  rw [pairsAtCell_eq]
  have hSc := hS X Y hX.1 hX.2 hY.1 hY.2
  apply List.Nodup.append
  · exact cellPairs_nodup _ hSc
  · apply nodup_flatMap_of_unique _ _ offsets_nodup
    · intro oy _
      apply nodup_flatMap_of_unique _ _ offsets_nodup
      · intro ox _
        unfold neighborPairs
        split
        · exact List.nodup_nil
        · simp only
          split
          · exact List.nodup_nil
          · rename_i hin
            exact crossPairs_nodup _ _ hSc.nodup
              (hS _ _ (by omega) (by omega) (by omega) (by omega)).nodup
      · intro ox _ ox' _ p hp hp'
        rw [neighborPairs_mem_iff] at hp hp'
        obtain ⟨_, hin, _, h2, _⟩ := hp
        obtain ⟨_, hin', _, h2', _⟩ := hp'
        have := hD _ _ _ _ _ hin.1 hin.2.2.1 hin.2.1 hin.2.2.2 hin'.1 hin'.2.2.1 hin'.2.1
          hin'.2.2.2 h2 h2'
        omega
    · intro oy _ oy' _ p hp hp'
      simp only [List.mem_flatMap, neighborPairs_mem_iff] at hp hp'
      obtain ⟨ox, _, _, hin, _, h2, _⟩ := hp
      obtain ⟨ox', _, _, hin', _, h2', _⟩ := hp'
      have := hD _ _ _ _ _ hin.1 hin.2.2.1 hin.2.1 hin.2.2.2 hin'.1 hin'.2.2.1 hin'.2.1
        hin'.2.2.2 h2 h2'
      omega
  · intro p hp1 hp2
    have h1 := ((cellPairs_mem_iff _ hSc p).mp hp1).2.1
    simp only [List.mem_flatMap, neighborPairs_mem_iff] at hp2
    obtain ⟨oy, _, ox, _, h0, hin, _, h2, _⟩ := hp2
    have := hD _ _ _ _ _ hX.1 hX.2 hY.1 hY.2 hin.1 hin.2.2.1 hin.2.1 hin.2.2.2 h1 h2
    omega

theorem repulsionPairs_mem_iff (grid : List (List Int)) (gx gy : Int) (p : Int × Int) :
    p ∈ repulsionPairs grid gx gy ↔
      ∃ X Y : Int, 0 ≤ X ∧ X < gx ∧ 0 ≤ Y ∧ Y < gy ∧ p ∈ pairsAtCell grid gx gy X Y := by
  unfold repulsionPairs
  simp only [List.mem_flatMap, List.mem_range]
  constructor
  · rintro ⟨Y, hY, X, hX, hp⟩
    exact ⟨X, Y, by omega, by omega, by omega, by omega, hp⟩
  · rintro ⟨X, Y, hX0, hX, hY0, hY, hp⟩
    refine ⟨Y.toNat, by omega, X.toNat, by omega, ?_⟩
    rw [Int.toNat_of_nonneg hX0, Int.toNat_of_nonneg hY0]
    exact hp

theorem repulsionPairs_nodup (grid : List (List Int)) (gx gy : Int)
    (hS : ∀ X1 Y1 : Int, 0 ≤ X1 → X1 < gx → 0 ≤ Y1 → Y1 < gy →
      (gridCell grid (Y1 * gx + X1)).Pairwise (· < ·))
    (hD : ∀ (X1 Y1 X2 Y2 x : Int), 0 ≤ X1 → X1 < gx → 0 ≤ Y1 → Y1 < gy →
      0 ≤ X2 → X2 < gx → 0 ≤ Y2 → Y2 < gy →
      x ∈ gridCell grid (Y1 * gx + X1) → x ∈ gridCell grid (Y2 * gx + X2) → X1 = X2 ∧ Y1 = Y2) :
    (repulsionPairs grid gx gy).Nodup := by
  unfold repulsionPairs
  apply nodup_flatMap_of_unique _ _ (List.nodup_range _)
  · intro Y hY
    have hY' := List.mem_range.mp hY
    apply nodup_flatMap_of_unique _ _ (List.nodup_range _)
    · intro X hX
      have hX' := List.mem_range.mp hX
      exact pairsAtCell_nodup grid gx gy _ _ ⟨by omega, by omega⟩ ⟨by omega, by omega⟩ hS hD
    · intro X hX X' hX' p hp hp'
      have hX1 := List.mem_range.mp hX
      have hX2 := List.mem_range.mp hX'
      have h1 := ((pairsAtCell_mem_iff grid gx gy _ _
        (hS _ _ (by omega) (by omega) (by omega) (by omega)) p).mp hp).1
      have h2 := ((pairsAtCell_mem_iff grid gx gy _ _
        (hS _ _ (by omega) (by omega) (by omega) (by omega)) p).mp hp').1
      have := hD _ _ _ _ _ (by omega) (by omega) (by omega) (by omega) (by omega) (by omega)
        (by omega) (by omega) h1 h2
      omega
  · intro Y hY Y' hY' p hp hp'
    have hY1 := List.mem_range.mp hY
    have hY2 := List.mem_range.mp hY'
    simp only [List.mem_flatMap, List.mem_range] at hp hp'
    obtain ⟨X, hX, hp⟩ := hp
    obtain ⟨X', hX', hp'⟩ := hp'
    have h1 := ((pairsAtCell_mem_iff grid gx gy _ _
      (hS _ _ (by omega) (by omega) (by omega) (by omega)) p).mp hp).1
    have h2 := ((pairsAtCell_mem_iff grid gx gy _ _
      (hS _ _ (by omega) (by omega) (by omega) (by omega)) p).mp hp').1
    have := hD _ _ _ _ _ (by omega) (by omega) (by omega) (by omega) (by omega) (by omega)
      (by omega) (by omega) h1 h2
    omega

theorem repulsionCalls_few (cfg : Config) (g : Graph)
    (h : g.nodes.countP (fun n => decide (n.kind = NodeKind.Directory)) < 2) :
    repulsionCalls cfg g = [] := by
  unfold repulsionCalls
  simp only
  have hc := dirBounds_count g.nodes (1000000000, 1000000000, -1000000000, -1000000000, 0)
  simp only [zero_add] at hc
  rw [if_pos (by rw [hc]; omega)]

theorem repulsionCalls_grid (cfg : Config) (g : Graph)
    (h : 2 ≤ g.nodes.countP (fun n => decide (n.kind = NodeKind.Directory))) :
    ∃ (minX minY : ℚ) (gx gy : Int) (grid : List (List Int)), 1 ≤ gx ∧ 1 ≤ gy ∧
      repulsionCalls cfg g = repulsionPairs grid gx gy ∧
      ∀ X Y : Int, 0 ≤ X → X < gx → 0 ≤ Y → Y < gy →
        gridCell grid (Y * gx + X) =
          cellMembers (fun node =>
            get_cell_index minX minY cfg.physics.repulsion_radius gx gy node.px node.py)
            g.nodes 0 (Y * gx + X) := by
  unfold repulsionCalls
  rcases hdb : dirBounds g.nodes (1000000000, 1000000000, -1000000000, -1000000000, 0) with
    ⟨minX, minY, maxX, maxY, num⟩
  simp only
  have hnum : ¬ num ≤ 1 := by
    have hc := dirBounds_count g.nodes (1000000000, 1000000000, -1000000000, -1000000000, 0)
    rw [hdb] at hc
    simp only [zero_add] at hc
    omega
  rw [if_neg hnum]
  generalize hgx : max 1 (truncToInt ((maxX - minX) / cfg.physics.repulsion_radius) + 1) = gx
  generalize hgy : max 1 (truncToInt ((maxY - minY) / cfg.physics.repulsion_radius) + 1) = gy
  have hx1 : 1 ≤ gx := by rw [← hgx]; exact le_max_left _ _
  have hy1 : 1 ≤ gy := by rw [← hgy]; exact le_max_left _ _
  obtain ⟨grid, hrun, hlen, hspec⟩ :=
    fillGrid_fresh minX minY cfg.physics.repulsion_radius gx gy g.nodes hx1 hy1
  rw [hrun]
  refine ⟨minX, minY, gx, gy, grid, hx1, hy1, rfl, ?_⟩
  intro X Y hX0 hX hY0 hY
  have hlt : Y * gx + X < gx * gy := by nlinarith
  have h0 : 0 ≤ Y * gx + X := by nlinarith
  have hk : (Y * gx + X).toNat < gx.toNat * gy.toNat := by
    zify
    rw [Int.toNat_of_nonneg h0, Int.toNat_of_nonneg (by omega), Int.toNat_of_nonneg (by omega)]
    exact hlt
  have hcellk := hspec _ hk
  rw [Int.toNat_of_nonneg h0] at hcellk
  exact gridCell_of_getElem? grid _ _ h0 hcellk

theorem ApplyRepulsion_eq_calls (m : Libm) (cfg : Config) (g : Graph) :
    ApplyRepulsion m cfg g =
      match processPairs m cfg g.nodes (repulsionCalls cfg g) with
      | Except.error e => Except.error e
      | Except.ok nodes1 => Except.ok { g with nodes := nodes1 } := by
  unfold ApplyRepulsion repulsionCalls
  rcases hdb : dirBounds g.nodes (1000000000, 1000000000, -1000000000, -1000000000, 0) with
    ⟨minX, minY, maxX, maxY, num⟩
  simp only
  split
  · simp only [processPairs]
  · generalize hgx : max 1 (truncToInt ((maxX - minX) / cfg.physics.repulsion_radius) + 1) = gx
    generalize hgy : max 1 (truncToInt ((maxY - minY) / cfg.physics.repulsion_radius) + 1) = gy
    have hx1 : 1 ≤ gx := by rw [← hgx]; exact le_max_left _ _
    have hy1 : 1 ≤ gy := by rw [← hgy]; exact le_max_left _ _
    obtain ⟨grid, hrun, _, _⟩ :=
      fillGrid_fresh minX minY cfg.physics.repulsion_radius gx gy g.nodes hx1 hy1
    simp only [hrun]

theorem cells_sorted_disjoint (minX minY r : ℚ) (gx gy : Int) (nodes : List Node)
    (grid : List (List Int))
    (hcell : ∀ X Y : Int, 0 ≤ X → X < gx → 0 ≤ Y → Y < gy →
        gridCell grid (Y * gx + X) =
          cellMembers (fun node => get_cell_index minX minY r gx gy node.px node.py)
            nodes 0 (Y * gx + X)) :
    (∀ X1 Y1 : Int, 0 ≤ X1 → X1 < gx → 0 ≤ Y1 → Y1 < gy →
      (gridCell grid (Y1 * gx + X1)).Pairwise (· < ·)) ∧
    (∀ (X1 Y1 X2 Y2 x : Int), 0 ≤ X1 → X1 < gx → 0 ≤ Y1 → Y1 < gy →
      0 ≤ X2 → X2 < gx → 0 ≤ Y2 → Y2 < gy →
      x ∈ gridCell grid (Y1 * gx + X1) → x ∈ gridCell grid (Y2 * gx + X2) →
      X1 = X2 ∧ Y1 = Y2) := by
  constructor
  · intro X Y hX0 hX hY0 hY
    rw [hcell X Y hX0 hX hY0 hY]
    exact cellMembers_sorted _ _ _ _
  · intro X1 Y1 X2 Y2 x a1 a2 a3 a4 b1 b2 b3 b4 h1 h2
    rw [hcell X1 Y1 a1 a2 a3 a4, cellMembers_mem_iff] at h1
    rw [hcell X2 Y2 b1 b2 b3 b4, cellMembers_mem_iff] at h2
    obtain ⟨_, n, hn, _, hk⟩ := h1
    obtain ⟨_, n', hn', _, hk'⟩ := h2
    rw [hn] at hn'
    cases hn'
    rw [hk] at hk'
    exact cell_index_inj gx _ _ _ _ a1 a2 b1 b2 hk'

theorem countP_le_one_unique (p : Node → Bool) : ∀ (l : List Node), l.countP p ≤ 1 →
    ∀ (i j : Nat) (a b : Node), l[i]? = some a → l[j]? = some b → p a = true → p b = true →
      i = j := by
  intro l
  induction l with
  | nil => intro _ i j a b hi; simp at hi
  | cons x rest ih =>
    intro hc i j a b hi hj ha hb
    by_cases hx : p x = true
    · rw [List.countP_cons_of_pos _ _ hx] at hc
      have h0 : rest.countP p = 0 := by omega
      rw [List.countP_eq_zero] at h0
      cases i with
      | zero =>
        cases j with
        | zero => rfl
        | succ j =>
          simp only [List.getElem?_cons_succ] at hj
          exact absurd hb (h0 b (List.getElem?_mem hj))
      | succ i =>
        simp only [List.getElem?_cons_succ] at hi
        exact absurd ha (h0 a (List.getElem?_mem hi))
    · rw [List.countP_cons_of_neg _ _ hx] at hc
      cases i with
      | zero =>
        simp only [List.getElem?_cons_zero, Option.some.injEq] at hi
        subst hi
        exact absurd ha hx
      | succ i =>
        cases j with
        | zero =>
          simp only [List.getElem?_cons_zero, Option.some.injEq] at hj
          subst hj
          exact absurd hb hx
        | succ j =>
          simp only [List.getElem?_cons_succ] at hi hj
          rw [ih hc i j a b hi hj ha hb]

theorem repulsionCalls_nodup (cfg : Config) (g : Graph) : (repulsionCalls cfg g).Nodup := by
  by_cases h : g.nodes.countP (fun n => decide (n.kind = NodeKind.Directory)) < 2
  · rw [repulsionCalls_few cfg g h]
    exact List.nodup_nil
  · obtain ⟨minX, minY, gx, gy, grid, hx1, hy1, hcalls, hcell⟩ :=
      repulsionCalls_grid cfg g (by omega)
    obtain ⟨hS, hD⟩ := cells_sorted_disjoint minX minY _ gx gy g.nodes grid hcell
    rw [hcalls]
    exact repulsionPairs_nodup grid gx gy hS hD

theorem repulsionCalls_complete (cfg : Config) (g : Graph)
    (hr : 0 < cfg.physics.repulsion_radius) (i j : Nat) (A B : Node) (hij : i < j)
    (hA : g.nodes[i]? = some A) (hB : g.nodes[j]? = some B)
    (hkA : A.kind = NodeKind.Directory) (hkB : B.kind = NodeKind.Directory)
    (hx : |B.px - A.px| ≤ cfg.physics.repulsion_radius)
    (hy : |B.py - A.py| ≤ cfg.physics.repulsion_radius) :
    ((i : Int), (j : Int)) ∈ repulsionCalls cfg g := by
  have hcount : 2 ≤ g.nodes.countP (fun n => decide (n.kind = NodeKind.Directory)) := by
    by_contra hc
    have := countP_le_one_unique (fun n => decide (n.kind = NodeKind.Directory)) g.nodes
      (by omega) i j A B hA hB (by simp [hkA]) (by simp [hkB])
    omega
  obtain ⟨minX, minY, gx, gy, grid, hx1, hy1, hcalls, hcell⟩ := repulsionCalls_grid cfg g hcount
  obtain ⟨hS, hD⟩ := cells_sorted_disjoint minX minY _ gx gy g.nodes grid hcell
  have rxA := cellCoord_range minX cfg.physics.repulsion_radius gx A.px hx1
  have ryA := cellCoord_range minY cfg.physics.repulsion_radius gy A.py hy1
  have rxB := cellCoord_range minX cfg.physics.repulsion_radius gx B.px hx1
  have ryB := cellCoord_range minY cfg.physics.repulsion_radius gy B.py hy1
  have cx := cellCoord_close minX cfg.physics.repulsion_radius gx B.px A.px hx1 hr hx
  have cy := cellCoord_close minY cfg.physics.repulsion_radius gy B.py A.py hy1 hr hy
  rw [hcalls, repulsionPairs_mem_iff]
  refine ⟨cellCoord minX cfg.physics.repulsion_radius gx A.px,
    cellCoord minY cfg.physics.repulsion_radius gy A.py, rxA.1, rxA.2, ryA.1, ryA.2, ?_⟩
  rw [pairsAtCell_mem_iff grid gx gy _ _ (hS _ _ rxA.1 rxA.2 ryA.1 ryA.2)]
  refine ⟨?_, by simpa using hij, ?_⟩
  · rw [hcell _ _ rxA.1 rxA.2 ryA.1 ryA.2, cellMembers_mem_iff]
    refine ⟨by simp, A, by simpa using hA, hkA, ?_⟩
    exact get_cell_index_eq _ _ _ _ _ _ _
  · refine ⟨cellCoord minX cfg.physics.repulsion_radius gx B.px -
        cellCoord minX cfg.physics.repulsion_radius gx A.px,
      cellCoord minY cfg.physics.repulsion_radius gy B.py -
        cellCoord minY cfg.physics.repulsion_radius gy A.py, by omega, by omega,
      Or.inr (by omega), ?_⟩
    have e1 : cellCoord minX cfg.physics.repulsion_radius gx A.px +
        (cellCoord minX cfg.physics.repulsion_radius gx B.px -
          cellCoord minX cfg.physics.repulsion_radius gx A.px) =
        cellCoord minX cfg.physics.repulsion_radius gx B.px := by ring
    have e2 : cellCoord minY cfg.physics.repulsion_radius gy A.py +
        (cellCoord minY cfg.physics.repulsion_radius gy B.py -
          cellCoord minY cfg.physics.repulsion_radius gy A.py) =
        cellCoord minY cfg.physics.repulsion_radius gy B.py := by ring
    rw [e1, e2, hcell _ _ rxB.1 rxB.2 ryB.1 ryB.2, cellMembers_mem_iff]
    refine ⟨by simp, B, by simpa using hB, hkB, ?_⟩
    exact get_cell_index_eq _ _ _ _ _ _ _

theorem repulsionCalls_eval : repulsionCalls {} twoDirectoryGraph = [(0, 2)] := by
  decide!

theorem subWhileGt_spec (bound step : ℚ) :
    ∀ (fuel : Nat) (d : ℚ), d - bound < fuel * step →
      ∃ n : Nat, subWhileGt fuel bound step d = d - n * step ∧
        subWhileGt fuel bound step d ≤ bound ∧
        (d ≤ bound → subWhileGt fuel bound step d = d) ∧
        (bound < d → bound - step < subWhileGt fuel bound step d) := by
  intro fuel
  induction fuel with
  | zero =>
    intro d h
    simp only [Nat.cast_zero, zero_mul] at h
    refine ⟨0, by simp [subWhileGt], by simp only [subWhileGt]; linarith, fun _ => rfl, ?_⟩
    intro hb
    linarith
  | succ fuel ih =>
    intro d h
    simp only [subWhileGt]
    split
    · rename_i hgt
      have h' : d - step - bound < fuel * step := by
        push_cast at h
        linarith
      obtain ⟨n, h1, h2, h3, h4⟩ := ih (d - step) h'
      refine ⟨n + 1, by rw [h1]; push_cast; ring, h2, fun hle => absurd hgt (not_lt.mpr hle), ?_⟩
      intro _
      by_cases hc : d - step ≤ bound
      · rw [h3 hc]
        linarith
      · exact h4 (not_le.mp hc)
    · rename_i hle
      exact ⟨0, by simp, not_lt.mp hle, fun _ => rfl, fun hb => absurd hb hle⟩

theorem addWhileLt_spec (bound step : ℚ) :
    ∀ (fuel : Nat) (d : ℚ), bound - d < fuel * step →
      ∃ n : Nat, addWhileLt fuel bound step d = d + n * step ∧
        bound ≤ addWhileLt fuel bound step d ∧
        (bound ≤ d → addWhileLt fuel bound step d = d) ∧
        (d < bound → addWhileLt fuel bound step d < bound + step) := by
  intro fuel
  induction fuel with
  | zero =>
    intro d h
    simp only [Nat.cast_zero, zero_mul] at h
    refine ⟨0, by simp [addWhileLt], by simp only [addWhileLt]; linarith, fun _ => rfl, ?_⟩
    intro hb
    linarith
  | succ fuel ih =>
    intro d h
    simp only [addWhileLt]
    split
    · rename_i hlt
      have h' : bound - (d + step) < fuel * step := by
        push_cast at h
        linarith
      obtain ⟨n, h1, h2, h3, h4⟩ := ih (d + step) h'
      refine ⟨n + 1, by rw [h1]; push_cast; ring, h2, fun hle => absurd hlt (not_lt.mpr hle), ?_⟩
      intro _
      by_cases hc : bound ≤ d + step
      · rw [h3 hc]
        linarith
      · exact h4 (not_le.mp hc)
    · rename_i hge
      exact ⟨0, by simp, not_lt.mp hge, fun _ => rfl, fun hb => absurd hb hge⟩

theorem twoPi_pos : (0 : ℚ) < twoPi := by unfold twoPi; norm_num

theorem twoPi_eq : twoPi = 2 * onePi := by unfold twoPi onePi; norm_num

theorem wrapFuel_enough (d : ℚ) : |d| + twoPi < (wrapFuel d : ℚ) * twoPi := by
  unfold wrapFuel
  have hnn : (0 : Int) ≤ Rat.floor (|d| / twoPi) := by
    apply Rat.le_floor.mpr
    push_cast
    exact div_nonneg (abs_nonneg _) twoPi_pos.le
  have hcast : (((Rat.floor (|d| / twoPi) + 2).toNat : Nat) : ℚ) =
      (Rat.floor (|d| / twoPi) : ℚ) + 2 := by
    have : (((Rat.floor (|d| / twoPi) + 2).toNat : Nat) : Int) = Rat.floor (|d| / twoPi) + 2 :=
      Int.toNat_of_nonneg (by omega)
    exact_mod_cast this
  rw [hcast]
  have hfl : |d| / twoPi < (Rat.floor (|d| / twoPi) : ℚ) + 1 := by
    by_contra hc
    have h1 : ((Rat.floor (|d| / twoPi) + 1 : Int) : ℚ) ≤ |d| / twoPi := by
      push_cast
      exact not_lt.mp hc
    have := Rat.le_floor.mpr h1
    omega
  have : |d| < ((Rat.floor (|d| / twoPi) : ℚ) + 1) * twoPi := by
    rwa [div_lt_iff₀ twoPi_pos] at hfl
  linarith

theorem wrapDelta_spec (x : ℚ) :
    (∃ k : Int, wrapDelta x = x + k * twoPi) ∧ -onePi ≤ wrapDelta x ∧ wrapDelta x ≤ onePi := by
  unfold wrapDelta
  simp only
  have hpi : (0 : ℚ) < onePi := by unfold onePi; norm_num
  have f1 : x - onePi < (wrapFuel x : ℚ) * twoPi := by
    have := wrapFuel_enough x
    have := le_abs_self x
    have := twoPi_pos
    linarith
  obtain ⟨n1, e1, b1, k1, l1⟩ := subWhileGt_spec onePi twoPi (wrapFuel x) x f1
  generalize subWhileGt (wrapFuel x) onePi twoPi x = d1 at e1 b1 k1 l1
  have f2 : -onePi - d1 < (wrapFuel d1 : ℚ) * twoPi := by
    have := wrapFuel_enough d1
    have := neg_abs_le d1
    have := twoPi_eq
    linarith
  obtain ⟨n2, e2, b2, k2, l2⟩ := addWhileLt_spec (-onePi) twoPi (wrapFuel d1) d1 f2
  refine ⟨⟨(n2 : Int) - (n1 : Int), ?_⟩, b2, ?_⟩
  · rw [e2, e1]
    push_cast
    ring
  · by_cases hc : -onePi ≤ d1
    · rw [k2 hc]
      exact b1
    · have := l2 (not_le.mp hc)
      have := twoPi_eq
      linarith

theorem wrapDelta_zero_iff (x : ℚ) : wrapDelta x = 0 ↔ ∃ k : Int, x = k * twoPi := by
  obtain ⟨⟨k, hk⟩, hlo, hhi⟩ := wrapDelta_spec x
  constructor
  · intro h0
    refine ⟨-k, ?_⟩
    rw [h0] at hk
    push_cast
    linarith
  · rintro ⟨j, hj⟩
    rw [hk, hj] at hlo hhi
    rw [hk, hj]
    have hsum : ((j : ℚ) + k) * twoPi = (j : ℚ) * twoPi + k * twoPi := by ring
    rw [← hsum] at hlo hhi ⊢
    have hz : j + k = 0 := by
      by_contra hne
      rcases lt_or_gt_of_ne hne with hlt | hgt
      · have h1 : ((j + k : Int) : ℚ) ≤ -1 := by exact_mod_cast (show j + k ≤ -1 by omega)
        push_cast at h1
        have := twoPi_pos
        have := twoPi_eq
        nlinarith
      · have h1 : (1 : ℚ) ≤ ((j + k : Int) : ℚ) := by exact_mod_cast (show 1 ≤ j + k by omega)
        push_cast at h1
        have := twoPi_pos
        have := twoPi_eq
        nlinarith
    have hz' : (j : ℚ) + k = 0 := by exact_mod_cast hz
    rw [hz', zero_mul]

theorem collectDirChildren_no_directory (m : Libm) (nodes : List Node) (parent : Node) :
    ∀ l : List Int, (∀ x ∈ l, ∃ n, nodeAt nodes x = Except.ok n ∧ n.kind ≠ NodeKind.Directory) →
      collectDirChildren m nodes parent l = Except.ok [] := by
  intro l
  induction l with
  | nil => intro _; rfl
  | cons x rest ih =>
    intro h
    obtain ⟨n, hn, hk⟩ := h x (List.mem_cons_self _ _)
    simp only [collectDirChildren, hn, ih (fun y hy => h y (List.mem_cons_of_mem _ hy))]
    rw [if_pos hk]

theorem collectDirChildren_single (m : Libm) (nodes : List Node) (parent child : Node) (c : Int)
    (post : List Int) (hchild : nodeAt nodes c = Except.ok child)
    (hck : child.kind = NodeKind.Directory)
    (hpost : ∀ x ∈ post, ∃ n, nodeAt nodes x = Except.ok n ∧ n.kind ≠ NodeKind.Directory) :
    ∀ pre : List Int,
      (∀ x ∈ pre, ∃ n, nodeAt nodes x = Except.ok n ∧ n.kind ≠ NodeKind.Directory) →
      collectDirChildren m nodes parent (pre ++ c :: post) =
        Except.ok
          (if m.sqrt ((child.px - parent.px) * (child.px - parent.px) +
              (child.py - parent.py) * (child.py - parent.py)) < 1 / 100000 then []
           else [ChildData.mk c (m.atan2 (child.py - parent.py) (child.px - parent.px))
             (m.sqrt ((child.px - parent.px) * (child.px - parent.px) +
               (child.py - parent.py) * (child.py - parent.py)))]) := by
  intro pre
  induction pre with
  | nil =>
    intro _
    simp only [List.nil_append, collectDirChildren, hchild,
      collectDirChildren_no_directory m nodes parent post hpost]
    rw [if_neg (by simp [hck])]
    split <;> rfl
  | cons x rest ih =>
    intro h
    obtain ⟨n, hn, hk⟩ := h x (List.mem_cons_self _ _)
    rw [List.cons_append]
    simp only [collectDirChildren, hn, ih (fun y hy => h y (List.mem_cons_of_mem _ hy))]
    rw [if_pos hk]

theorem equalizeParent_single (m : Libm) (strength : ℚ) (nodes : List Node) (parentIndex : Nat)
    (parent child : Node) (c : Int) (pre post : List Int)
    (hparent : nodes[parentIndex]? = some parent) (hpk : parent.kind = NodeKind.Directory)
    (hchildren : parent.children = pre ++ c :: post)
    (hpre : ∀ x ∈ pre, ∃ n, nodeAt nodes x = Except.ok n ∧ n.kind ≠ NodeKind.Directory)
    (hpost : ∀ x ∈ post, ∃ n, nodeAt nodes x = Except.ok n ∧ n.kind ≠ NodeKind.Directory)
    (hchild : nodeAt nodes c = Except.ok child) (hck : child.kind = NodeKind.Directory) :
    equalizeParent m strength nodes parentIndex =
      if m.sqrt ((child.px - parent.px) * (child.px - parent.px) +
          (child.py - parent.py) * (child.py - parent.py)) < 1 / 100000 then Except.ok nodes
      else alignSingleChild m strength nodes parent
        (ChildData.mk c (m.atan2 (child.py - parent.py) (child.px - parent.px))
          (m.sqrt ((child.px - parent.px) * (child.px - parent.px) +
            (child.py - parent.py) * (child.py - parent.py)))) := by
  unfold equalizeParent
  simp only [hparent]
  rw [if_neg (by simp [hpk]), hchildren,
    collectDirChildren_single m nodes parent child c post hchild hck hpost pre hpre]
  by_cases hr : m.sqrt ((child.px - parent.px) * (child.px - parent.px) +
      (child.py - parent.py) * (child.py - parent.py)) < 1 / 100000
  · rw [if_pos hr, if_pos hr]
  · rw [if_neg hr, if_neg hr]

theorem alignSingleChild_no_grandparent (m : Libm) (strength : ℚ) (nodes : List Node)
    (parent child : Node) (cd : ChildData) (hchild : nodeAt nodes cd.index = Except.ok child)
    (hgp : parent.parent_dir < 0) :
    alignSingleChild m strength nodes parent cd = Except.ok nodes := by
  unfold alignSingleChild
  simp only [hchild, bind, Except.bind]
  rw [if_neg (by omega)]

theorem alignSingleChild_grandparent (m : Libm) (strength : ℚ) (nodes : List Node)
    (parent child gp : Node) (cd : ChildData) (hchild : nodeAt nodes cd.index = Except.ok child)
    (hgp0 : 0 ≤ parent.parent_dir) (hgp : nodeAt nodes parent.parent_dir = Except.ok gp) :
    alignSingleChild m strength nodes parent cd =
      if m.sqrt ((child.px - parent.px) * (child.px - parent.px) +
          (child.py - parent.py) * (child.py - parent.py)) > 1 / 100000 then
        Except.ok (if child.fixed then nodes
          else nodes.set cd.index.toNat
            (child.placeAt
              (child.px + -(m.sin (m.atan2 (child.py - parent.py) (child.px - parent.px))) *
                (m.sqrt ((child.px - parent.px) * (child.px - parent.px) +
                    (child.py - parent.py) * (child.py - parent.py)) *
                  wrapDelta (m.atan2 (parent.py - gp.py) (parent.px - gp.px) -
                    m.atan2 (child.py - parent.py) (child.px - parent.px)) * strength))
              (child.py + m.cos (m.atan2 (child.py - parent.py) (child.px - parent.px)) *
                (m.sqrt ((child.px - parent.px) * (child.px - parent.px) +
                    (child.py - parent.py) * (child.py - parent.py)) *
                  wrapDelta (m.atan2 (parent.py - gp.py) (parent.px - gp.px) -
                    m.atan2 (child.py - parent.py) (child.px - parent.px)) * strength))))
      else Except.ok nodes := by
  unfold alignSingleChild
  simp only [hchild, hgp, bind, Except.bind]
  rw [if_pos (by omega)]
  split
  · split <;> rfl
  · rfl

theorem eq_ok_of_toOption {α : Type} {r : Except Fault α} {a : α}
    (h : r.toOption = some a) : r = Except.ok a := by
  cases r with
  | error e => simp [Except.toOption] at h
  | ok b =>
    simp only [Except.toOption, Option.some.injEq] at h
    rw [h]

theorem tangent_step_zero_iff (s c mag : ℚ) (h : s ≠ 0 ∨ c ≠ 0) :
    (-s * mag = 0 ∧ c * mag = 0) ↔ mag = 0 := by
  constructor
  · rintro ⟨h1, h2⟩
    rcases h with hs | hc
    · rcases mul_eq_zero.mp h1 with h0 | h0
      · exact absurd (neg_eq_zero.mp h0) hs
      · exact h0
    · rcases mul_eq_zero.mp h2 with h0 | h0
      · exact absurd h0 hc
      · exact h0
  · intro h0
    rw [h0]
    simp

/-- The step of one parent: let `parent` be a Directory whose only Directory child is `child`, at index
`c`, with `r = sqrt (dx*dx + dy*dy)` and `t = atan2 dy dx` for `(dx, dy) = child - parent`. The
step of `EqualizeChildAngles` for `parent` returns the nodes unchanged if the parent has no
grandparent, and also if `r <= 0.00001`. If the parent has a grandparent `gp` and
`r > 0.00001`, it returns the nodes with a non-fixed child moved by `r * d * strength` along the
tangent `(-sin t, cos t)`, where `d` is `atan2 (parent - gp) - t` brought into `[-pi, pi]` by
whole turns; `d = 0` exactly when the two angles differ by a whole number of turns, and for
`strength != 0` and a non-zero tangent the move is zero exactly when `d = 0`. -/
theorem single_child_alignment (m : Libm) (strength : ℚ) (nodes : List Node) (parentIndex : Nat)
    (parent child : Node) (c : Int) (pre post : List Int)
    (hparent : nodes[parentIndex]? = some parent) (hpk : parent.kind = NodeKind.Directory)
    (hchildren : parent.children = pre ++ c :: post)
    (hpre : ∀ x ∈ pre, ∃ n, nodeAt nodes x = Except.ok n ∧ n.kind ≠ NodeKind.Directory)
    (hpost : ∀ x ∈ post, ∃ n, nodeAt nodes x = Except.ok n ∧ n.kind ≠ NodeKind.Directory)
    (hchild : nodeAt nodes c = Except.ok child) (hck : child.kind = NodeKind.Directory) :
    let r := m.sqrt ((child.px - parent.px) * (child.px - parent.px) +
      (child.py - parent.py) * (child.py - parent.py))
    let t := m.atan2 (child.py - parent.py) (child.px - parent.px)
    (parent.parent_dir < 0 → equalizeParent m strength nodes parentIndex = Except.ok nodes) ∧
    (r ≤ 1 / 100000 →
      (0 ≤ parent.parent_dir → ∃ gp, nodeAt nodes parent.parent_dir = Except.ok gp) →
      equalizeParent m strength nodes parentIndex = Except.ok nodes) ∧
    (∀ gp : Node, 0 ≤ parent.parent_dir → nodeAt nodes parent.parent_dir = Except.ok gp →
      1 / 100000 < r →
      let desired := m.atan2 (parent.py - gp.py) (parent.px - gp.px)
      let d := wrapDelta (desired - t)
      equalizeParent m strength nodes parentIndex =
        Except.ok (if child.fixed then nodes
          else nodes.set c.toNat
            (child.placeAt (child.px + -(m.sin t) * (r * d * strength))
              (child.py + m.cos t * (r * d * strength)))) ∧
      -onePi ≤ d ∧ d ≤ onePi ∧ (∃ k : Int, d = desired - t + k * twoPi) ∧
      (d = 0 ↔ ∃ k : Int, desired - t = k * twoPi) ∧
      (strength ≠ 0 → (m.sin t ≠ 0 ∨ m.cos t ≠ 0) →
        ((-(m.sin t) * (r * d * strength) = 0 ∧ m.cos t * (r * d * strength) = 0) ↔ d = 0))) := by
  intro r t
  have heq := equalizeParent_single m strength nodes parentIndex parent child c pre post hparent
    hpk hchildren hpre hpost hchild hck
  refine ⟨?_, ?_, ?_⟩
  · intro hgp
    rw [heq]
    split
    · rfl
    · exact alignSingleChild_no_grandparent m strength nodes parent child _ hchild hgp
  · intro hr hgp
    rw [heq]
    split
    · rfl
    · by_cases h0 : parent.parent_dir < 0
      · exact alignSingleChild_no_grandparent m strength nodes parent child _ hchild h0
      · obtain ⟨gp, hg⟩ := hgp (by omega)
        rw [alignSingleChild_grandparent m strength nodes parent child gp _ hchild (by omega) hg]
        rw [if_neg (not_lt.mpr hr)]
  · intro gp hgp0 hgp hr desired d
    refine ⟨?_, (wrapDelta_spec _).2.1, (wrapDelta_spec _).2.2, (wrapDelta_spec _).1,
      wrapDelta_zero_iff _, ?_⟩
    · rw [heq, if_neg (not_lt.mpr hr.le),
        alignSingleChild_grandparent m strength nodes parent child gp _ hchild hgp0 hgp,
        if_pos hr]
    · intro hs ht
      rw [tangent_step_zero_iff _ _ _ ht]
      have hr0 : r ≠ 0 := by
        have : (0 : ℚ) < r := lt_trans (by norm_num) hr
        exact this.ne'
      constructor
      · intro h0
        rcases mul_eq_zero.mp h0 with h1 | h1
        · rcases mul_eq_zero.mp h1 with h2 | h2
          · exact absurd h2 hr0
          · exact h2
        · exact absurd h1 hs
      · intro h0
        rw [h0]
        simp

theorem single_child_alignment_witness :
    equalizeParent libmQ (1 / 10) chainGraph.nodes 1 =
      Except.ok (chainGraph.nodes.set 2
        (Node.placeAt
          { id := 2, kind := NodeKind.Directory, name := "b", path := "r/a/b", parent_dir := 1,
            px := 100, py := 100, ppx := 100, ppy := 100, color_rgba := 0xFF7FE07F - 2 ^ 32 }
          (100 + -(libmQ.sin (libmQ.atan2 (100 - 100) (100 - 0))) *
            (libmQ.sqrt ((100 - 0) * (100 - 0) + (100 - 100) * (100 - 100)) *
              wrapDelta (libmQ.atan2 (100 - 0) (0 - 0) - libmQ.atan2 (100 - 100) (100 - 0)) *
              (1 / 10)))
          (100 + libmQ.cos (libmQ.atan2 (100 - 100) (100 - 0)) *
            (libmQ.sqrt ((100 - 0) * (100 - 0) + (100 - 100) * (100 - 100)) *
              wrapDelta (libmQ.atan2 (100 - 0) (0 - 0) - libmQ.atan2 (100 - 100) (100 - 0)) *
              (1 / 10))))) := by
  have h := ((single_child_alignment libmQ (1 / 10) chainGraph.nodes 1
    { id := 1, kind := NodeKind.Directory, name := "a", path := "r/a", parent_dir := 0,
      children := [2], subtreeDirCount := 1, py := 100, ppy := 100,
      color_rgba := 0xFF7FE07F - 2 ^ 32 }
    { id := 2, kind := NodeKind.Directory, name := "b", path := "r/a/b", parent_dir := 1,
      px := 100, py := 100, ppx := 100, ppy := 100, color_rgba := 0xFF7FE07F - 2 ^ 32 }
    2 [] [] rfl rfl rfl (by simp) (by simp) rfl rfl).2.2
    { id := 0, kind := NodeKind.Directory, name := "r", path := "r", parent_dir := -1,
      children := [1], subtreeDirCount := 2, color_rgba := 0xFF7FE07F - 2 ^ 32 }
    (by decide) rfl (by decide!)).1
  rw [h]
  exact congrArg Except.ok (by decide!)

theorem truncToInt_intCast (n : Int) : truncToInt (n : ℚ) = n := by
  unfold truncToInt
  simp

theorem lacks_section {o : List (String × JsonValue)} {sect key : String} {f : JsonValue → Bool}
    (h : (match valueAt o sect key with
      | some v => !f v
      | none => true) = true)
    (p : List (String × JsonValue)) (hp : jsonFind o sect = some (JsonValue.object p)) :
    ∀ v, jsonFind p key = some v → f v = false := by
  intro v hv
  unfold valueAt at h
  rw [hp] at h
  simp only [hv] at h
  simpa using h

theorem numberField_unchanged (p : List (String × JsonValue)) (key : String) (x : ℚ)
    (h : ∀ v, jsonFind p key = some v → v.is_number = false) : numberField p key x = x := by
  unfold numberField
  cases hv : jsonFind p key with
  | none => rfl
  | some v =>
    have := h v hv
    cases v <;> simp_all [get_number_or, JsonValue.is_number]

theorem numberfField_unchanged (p : List (String × JsonValue)) (key : String) (x : ℚ)
    (h : ∀ v, jsonFind p key = some v → v.is_number = false) : numberfField p key x = x := by
  unfold numberfField
  cases hv : jsonFind p key with
  | none => rfl
  | some v =>
    have := h v hv
    cases v <;> simp_all [get_numberf_or, JsonValue.is_number]

theorem intField_unchanged (p : List (String × JsonValue)) (key : String) (x : Int)
    (h : ∀ v, jsonFind p key = some v → v.is_number = false) : intField p key x = x := by
  unfold intField
  cases hv : jsonFind p key with
  | none => rfl
  | some v =>
    have := h v hv
    cases v <;> simp_all [get_number_or, JsonValue.is_number, truncToInt_intCast]

theorem boolField_unchanged (p : List (String × JsonValue)) (key : String) (x : Bool)
    (h : ∀ v, jsonFind p key = some v → v.is_bool = false) : boolField p key x = x := by
  unfold boolField
  cases hv : jsonFind p key with
  | none => rfl
  | some v =>
    have := h v hv
    cases v <;> simp_all [JsonValue.is_bool]

theorem Parse_physics (o : List (String × JsonValue)) (out : Config) (error : String) :
    (Config.Parse (JsonValue.object o) out error).2.1.physics =
      match jsonFind o "physics" with
      | some (JsonValue.object p) =>
        { time_step := numberField p "time_step" (numberField p "time_step" out.physics.time_step),
          solver_iterations := intField p "solver_iterations" out.physics.solver_iterations,
          link_rest_length := numberField p "link_rest_length" out.physics.link_rest_length,
          link_stiffness := numberField p "link_stiffness" out.physics.link_stiffness,
          repulsion_radius := numberField p "repulsion_radius" out.physics.repulsion_radius,
          repulsion_strength := numberField p "repulsion_strength" out.physics.repulsion_strength,
          damping := numberField p "damping" out.physics.damping,
          max_displacement := numberField p "max_displacement" out.physics.max_displacement,
          dir_children_angle_strength :=
            numberfField p "dir_children_angle_strength" out.physics.dir_children_angle_strength }
      | _ => out.physics := rfl

theorem Parse_render (o : List (String × JsonValue)) (out : Config) (error : String) :
    (Config.Parse (JsonValue.object o) out error).2.1.render =
      match jsonFind o "render" with
      | some (JsonValue.object r) =>
        { circle_radius := numberfField r "circle_radius" out.render.circle_radius,
          zoom_speed := numberfField r "zoom_speed" out.render.zoom_speed,
          pan_speed := numberfField r "pan_speed" out.render.pan_speed }
      | _ => out.render := rfl

theorem Parse_graph (o : List (String × JsonValue)) (out : Config) (error : String) :
    (Config.Parse (JsonValue.object o) out error).2.1.graph =
      match jsonFind o "graph" with
      | some (JsonValue.object g) =>
        { enable_directory_links :=
            boolField g "enable_directory_links" out.graph.enable_directory_links,
          enable_include_links := boolField g "enable_include_links" out.graph.enable_include_links,
          dir_dir_length_coef := numberfField g "dir_dir_length_coef" out.graph.dir_dir_length_coef,
          dir_file_length_coef :=
            numberfField g "dir_file_length_coef" out.graph.dir_file_length_coef }
      | _ => out.graph := rfl

theorem Parse_source_roots (o : List (String × JsonValue)) (out : Config) (error : String) :
    (Config.Parse (JsonValue.object o) out error).2.1.source_roots =
      match jsonFind o "source_roots" with
      | some v => parse_array_of_strings v out.source_roots
      | none => out.source_roots := rfl

theorem filterMap_strings (a : List JsonValue) :
    a.filterMap (fun it =>
      match it with
      | JsonValue.string str => some str
      | _ => none) = stringElements a := by
  induction a with
  | nil => rfl
  | cons x rest ih =>
    cases x <;> simp [stringElements, List.filterMap_cons, ih]

theorem stringElements_mem (a : List JsonValue) (str : String) :
    str ∈ stringElements a ↔ JsonValue.string str ∈ a := by
  induction a with
  | nil => simp [stringElements]
  | cons x rest ih =>
    cases x <;> simp [stringElements, ih]

theorem Parse_sample_eval :
    Config.Parse (JsonValue.object sampleConfigObject) {} "" =
      (true,
       { source_roots := ["a", "b"],
         physics := { damping := 1 / 2 } },
       "") := by
  with_unfolding_all rfl

/-- C22: for every JSON object `o`, `Config::Parse` returns `true` and leaves `error` as it
was; every numeric field of `physics`, `render` and `graph` that `o` does not supply as a
number (its section is absent or is not an object, or its key is absent, or its value is not a
number) keeps the value it had in `out` before the call, and so does every boolean field of
`graph` that `o` does not supply as a boolean; `source_roots` is its previous value followed by
the strings among the elements of the array stored under `source_roots`, and its previous value
when that key is absent or does not hold an array. -/
theorem Parse_keeps_defaults (o : List (String × JsonValue)) (out : Config) (error : String) :
    (Config.Parse (JsonValue.object o) out error).1 = true ∧
    (Config.Parse (JsonValue.object o) out error).2.2 = error ∧
    (∀ a : List JsonValue, jsonFind o "source_roots" = some (JsonValue.array a) →
      (Config.Parse (JsonValue.object o) out error).2.1.source_roots =
        out.source_roots ++ stringElements a ∧
      ∀ str : String, str ∈ stringElements a ↔ JsonValue.string str ∈ a) ∧
    ((∀ v : JsonValue, jsonFind o "source_roots" = some v → v.is_array = false) →
      (Config.Parse (JsonValue.object o) out error).2.1.source_roots = out.source_roots) ∧
    (lacksNumber o "physics" "time_step" = true →
      (Config.Parse (JsonValue.object o) out error).2.1.physics.time_step = out.physics.time_step) ∧
    (lacksNumber o "physics" "solver_iterations" = true →
      (Config.Parse (JsonValue.object o) out error).2.1.physics.solver_iterations = out.physics.solver_iterations) ∧
    (lacksNumber o "physics" "link_rest_length" = true →
      (Config.Parse (JsonValue.object o) out error).2.1.physics.link_rest_length = out.physics.link_rest_length) ∧
    (lacksNumber o "physics" "link_stiffness" = true →
      (Config.Parse (JsonValue.object o) out error).2.1.physics.link_stiffness = out.physics.link_stiffness) ∧
    (lacksNumber o "physics" "repulsion_radius" = true →
      (Config.Parse (JsonValue.object o) out error).2.1.physics.repulsion_radius = out.physics.repulsion_radius) ∧
    (lacksNumber o "physics" "repulsion_strength" = true →
      (Config.Parse (JsonValue.object o) out error).2.1.physics.repulsion_strength = out.physics.repulsion_strength) ∧
    (lacksNumber o "physics" "damping" = true →
      (Config.Parse (JsonValue.object o) out error).2.1.physics.damping = out.physics.damping) ∧
    (lacksNumber o "physics" "max_displacement" = true →
      (Config.Parse (JsonValue.object o) out error).2.1.physics.max_displacement = out.physics.max_displacement) ∧
    (lacksNumber o "physics" "dir_children_angle_strength" = true →
      (Config.Parse (JsonValue.object o) out error).2.1.physics.dir_children_angle_strength = out.physics.dir_children_angle_strength) ∧
    (lacksNumber o "render" "circle_radius" = true →
      (Config.Parse (JsonValue.object o) out error).2.1.render.circle_radius = out.render.circle_radius) ∧
    (lacksNumber o "render" "zoom_speed" = true →
      (Config.Parse (JsonValue.object o) out error).2.1.render.zoom_speed = out.render.zoom_speed) ∧
    (lacksNumber o "render" "pan_speed" = true →
      (Config.Parse (JsonValue.object o) out error).2.1.render.pan_speed = out.render.pan_speed) ∧
    (lacksBool o "graph" "enable_directory_links" = true →
      (Config.Parse (JsonValue.object o) out error).2.1.graph.enable_directory_links = out.graph.enable_directory_links) ∧
    (lacksBool o "graph" "enable_include_links" = true →
      (Config.Parse (JsonValue.object o) out error).2.1.graph.enable_include_links = out.graph.enable_include_links) ∧
    (lacksNumber o "graph" "dir_dir_length_coef" = true →
      (Config.Parse (JsonValue.object o) out error).2.1.graph.dir_dir_length_coef = out.graph.dir_dir_length_coef) ∧
    (lacksNumber o "graph" "dir_file_length_coef" = true →
      (Config.Parse (JsonValue.object o) out error).2.1.graph.dir_file_length_coef = out.graph.dir_file_length_coef) := by
  refine ⟨rfl, rfl, ?_, ?_, ?_, ?_, ?_, ?_, ?_, ?_, ?_, ?_, ?_, ?_, ?_, ?_, ?_, ?_, ?_, ?_⟩
  · intro a ha
    rw [Parse_source_roots, ha]
    simp only [parse_array_of_strings, filterMap_strings]
    exact ⟨trivial, stringElements_mem a⟩
  · intro h
    rw [Parse_source_roots]
    cases hs : jsonFind o "source_roots" with
    | none => rfl
    | some v =>
      have := h v hs
      cases v <;> simp_all [parse_array_of_strings, JsonValue.is_array]
  · intro h
    rw [Parse_physics]
    cases hs : jsonFind o "physics" with
    | none => rfl
    | some v =>
      cases v with
      | object p =>
        simp only
        rw [numberField_unchanged p "time_step" _ (lacks_section h p hs), numberField_unchanged p "time_step" _ (lacks_section h p hs)]
      | null => rfl
      | bool b => rfl
      | number d => rfl
      | string s => rfl
      | array a => rfl
  · intro h
    rw [Parse_physics]
    cases hs : jsonFind o "physics" with
    | none => rfl
    | some v =>
      cases v with
      | object p =>
        simp only
        rw [intField_unchanged p "solver_iterations" _ (lacks_section h p hs)]
      | null => rfl
      | bool b => rfl
      | number d => rfl
      | string s => rfl
      | array a => rfl
  · intro h
    rw [Parse_physics]
    cases hs : jsonFind o "physics" with
    | none => rfl
    | some v =>
      cases v with
      | object p =>
        simp only
        rw [numberField_unchanged p "link_rest_length" _ (lacks_section h p hs)]
      | null => rfl
      | bool b => rfl
      | number d => rfl
      | string s => rfl
      | array a => rfl
  · intro h
    rw [Parse_physics]
    cases hs : jsonFind o "physics" with
    | none => rfl
    | some v =>
      cases v with
      | object p =>
        simp only
        rw [numberField_unchanged p "link_stiffness" _ (lacks_section h p hs)]
      | null => rfl
      | bool b => rfl
      | number d => rfl
      | string s => rfl
      | array a => rfl
  · intro h
    rw [Parse_physics]
    cases hs : jsonFind o "physics" with
    | none => rfl
    | some v =>
      cases v with
      | object p =>
        simp only
        rw [numberField_unchanged p "repulsion_radius" _ (lacks_section h p hs)]
      | null => rfl
      | bool b => rfl
      | number d => rfl
      | string s => rfl
      | array a => rfl
  · intro h
    rw [Parse_physics]
    cases hs : jsonFind o "physics" with
    | none => rfl
    | some v =>
      cases v with
      | object p =>
        simp only
        rw [numberField_unchanged p "repulsion_strength" _ (lacks_section h p hs)]
      | null => rfl
      | bool b => rfl
      | number d => rfl
      | string s => rfl
      | array a => rfl
  · intro h
    rw [Parse_physics]
    cases hs : jsonFind o "physics" with
    | none => rfl
    | some v =>
      cases v with
      | object p =>
        simp only
        rw [numberField_unchanged p "damping" _ (lacks_section h p hs)]
      | null => rfl
      | bool b => rfl
      | number d => rfl
      | string s => rfl
      | array a => rfl
  · intro h
    rw [Parse_physics]
    cases hs : jsonFind o "physics" with
    | none => rfl
    | some v =>
      cases v with
      | object p =>
        simp only
        rw [numberField_unchanged p "max_displacement" _ (lacks_section h p hs)]
      | null => rfl
      | bool b => rfl
      | number d => rfl
      | string s => rfl
      | array a => rfl
  · intro h
    rw [Parse_physics]
    cases hs : jsonFind o "physics" with
    | none => rfl
    | some v =>
      cases v with
      | object p =>
        simp only
        rw [numberfField_unchanged p "dir_children_angle_strength" _ (lacks_section h p hs)]
      | null => rfl
      | bool b => rfl
      | number d => rfl
      | string s => rfl
      | array a => rfl
  · intro h
    rw [Parse_render]
    cases hs : jsonFind o "render" with
    | none => rfl
    | some v =>
      cases v with
      | object p =>
        simp only
        rw [numberfField_unchanged p "circle_radius" _ (lacks_section h p hs)]
      | null => rfl
      | bool b => rfl
      | number d => rfl
      | string s => rfl
      | array a => rfl
  · intro h
    rw [Parse_render]
    cases hs : jsonFind o "render" with
    | none => rfl
    | some v =>
      cases v with
      | object p =>
        simp only
        rw [numberfField_unchanged p "zoom_speed" _ (lacks_section h p hs)]
      | null => rfl
      | bool b => rfl
      | number d => rfl
      | string s => rfl
      | array a => rfl
  · intro h
    rw [Parse_render]
    cases hs : jsonFind o "render" with
    | none => rfl
    | some v =>
      cases v with
      | object p =>
        simp only
        rw [numberfField_unchanged p "pan_speed" _ (lacks_section h p hs)]
      | null => rfl
      | bool b => rfl
      | number d => rfl
      | string s => rfl
      | array a => rfl
  · intro h
    rw [Parse_graph]
    cases hs : jsonFind o "graph" with
    | none => rfl
    | some v =>
      cases v with
      | object p =>
        simp only
        rw [boolField_unchanged p "enable_directory_links" _ (lacks_section h p hs)]
      | null => rfl
      | bool b => rfl
      | number d => rfl
      | string s => rfl
      | array a => rfl
  · intro h
    rw [Parse_graph]
    cases hs : jsonFind o "graph" with
    | none => rfl
    | some v =>
      cases v with
      | object p =>
        simp only
        rw [boolField_unchanged p "enable_include_links" _ (lacks_section h p hs)]
      | null => rfl
      | bool b => rfl
      | number d => rfl
      | string s => rfl
      | array a => rfl
  · intro h
    rw [Parse_graph]
    cases hs : jsonFind o "graph" with
    | none => rfl
    | some v =>
      cases v with
      | object p =>
        simp only
        rw [numberfField_unchanged p "dir_dir_length_coef" _ (lacks_section h p hs)]
      | null => rfl
      | bool b => rfl
      | number d => rfl
      | string s => rfl
      | array a => rfl
  · intro h
    rw [Parse_graph]
    cases hs : jsonFind o "graph" with
    | none => rfl
    | some v =>
      cases v with
      | object p =>
        simp only
        rw [numberfField_unchanged p "dir_file_length_coef" _ (lacks_section h p hs)]
      | null => rfl
      | bool b => rfl
      | number d => rfl
      | string s => rfl
      | array a => rfl

theorem Parse_keeps_defaults_witness :
    (Config.Parse (JsonValue.object sampleConfigObject) {} "").2.1.physics.time_step =
      16 / 1000 ∧
    (Config.Parse (JsonValue.object sampleConfigObject) {} "").2.1.physics.solver_iterations =
      8 ∧
    (Config.Parse (JsonValue.object sampleConfigObject) {} "").2.1.graph.enable_include_links =
      false :=
  ⟨(Parse_keeps_defaults sampleConfigObject {} "").2.2.2.2.1 rfl,
   (Parse_keeps_defaults sampleConfigObject {} "").2.2.2.2.2.1 rfl,
   (Parse_keeps_defaults sampleConfigObject {} "").2.2.2.2.2.2.2.2.2.2.2.2.2.2.2.2.2.1 rfl⟩

theorem Parse_false_has_message (root : JsonValue) (out : Config) (error : String)
    (h : (Config.Parse root out error).1 = false) :
    (Config.Parse root out error).2.2 = "Config root must be object" := by
  cases root <;> first | rfl | (simp [Config.Parse] at h)

theorem LoadFromJson_messages (stod : List Char → Option ℚ) (fuel : Nat) (out : Config)
    (error : String) :
    Config.LoadFromJson stod (fuel + 2) "[] x" out error =
      Except.ok (false, out, "Trailing characters after JSON value") ∧
    Config.LoadFromJson stod (fuel + 2) "[]" out error =
      Except.ok (false, out, "Config root must be object") ∧
    Config.LoadFromJson stod (fuel + 1) "@" out error =
      Except.ok (false, out, "Invalid JSON value") := by
  refine ⟨?_, ?_, ?_⟩
  · unfold Config.LoadFromJson JsonParser.Parse
    simp only [JsonParser.parse_value, JsonParser.parse_array]
    rfl
  · unfold Config.LoadFromJson JsonParser.Parse
    simp only [JsonParser.parse_value, JsonParser.parse_array]
    rfl
  · unfold Config.LoadFromJson JsonParser.Parse
    simp only [JsonParser.parse_value]
    rfl

/-- C23: `Config::LoadFromJson` returns `false` without assigning `error` on the empty input,
on an input that stops inside a literal (`tru`), on an unterminated string and on an
unsupported escape: whatever `error` held before the call (the empty string in
`App::Initialize`) it still holds after it. So a `false` result does not come with a message
on every input. -/
theorem LoadFromJson_false_without_message (stod : List Char → Option ℚ) (fuel : Nat)
    (out : Config) (error : String) :
    Config.LoadFromJson stod (fuel + 1) "" out error = Except.ok (false, out, error) ∧
    Config.LoadFromJson stod (fuel + 1) "   " out error = Except.ok (false, out, error) ∧
    Config.LoadFromJson stod (fuel + 1) "tru" out error = Except.ok (false, out, error) ∧
    Config.LoadFromJson stod (fuel + 1) (String.mk ['"', 'a', 'b']) out error =
      Except.ok (false, out, error) ∧
    Config.LoadFromJson stod (fuel + 1) (String.mk ['"', '\\', 'u', '0', '0', '4', '1', '"'])
      out error = Except.ok (false, out, error) ∧
    Config.LoadFromJson stod (fuel + 1) "" out "" = Except.ok (false, out, "") := by
  refine ⟨?_, ?_, ?_, ?_, ?_, ?_⟩ <;>
  · unfold Config.LoadFromJson JsonParser.Parse
    simp only [JsonParser.parse_value]
    rfl

theorem guardedFrom_append : ∀ (a b : List Stmt) (holding : Bool),
    guardedFrom holding a = true → guardedFrom holding (a ++ b) = guardedFrom false b := by
  intro a
  induction a with
  | nil =>
    intro b holding h
    simp only [guardedFrom, Bool.not_eq_true'] at h
    subst h
    rfl
  | cons s rest ih =>
    intro b holding h
    cases s with
    | lock =>
      simp only [guardedFrom, Bool.and_eq_true, Bool.not_eq_true'] at h
      simp only [List.cons_append, guardedFrom, h.1, Bool.not_false, Bool.true_and]
      exact ih b true h.2
    | unlock =>
      simp only [guardedFrom, Bool.and_eq_true] at h
      simp only [List.cons_append, guardedFrom, h.1, Bool.true_and]
      exact ih b false h.2
    | access f =>
      simp only [guardedFrom, Bool.and_eq_true] at h
      simp only [List.cons_append, guardedFrom, h.1, Bool.true_and]
      exact ih b true h.2

theorem guardedFrom_flatMap {α : Type} (f : α → List Stmt)
    (hf : ∀ x, guardedFrom false (f x) = true) :
    ∀ l : List α, guardedFrom false (l.flatMap f) = true := by
  intro l
  induction l with
  | nil => rfl
  | cons x rest ih =>
    rw [List.flatMap_cons, guardedFrom_append _ _ _ (hf x)]
    exact ih

theorem includeBlock_guarded (fuel : Nat) (cfg : Config) (inc : IncludeHit) :
    guardedFrom false (includeBlock fuel cfg inc) = true := rfl

theorem fileBlocks_guarded (fuel : Nat) (cfg : Config) (f : SourceFile) :
    guardedFrom false (fileBlocks fuel cfg f) = true := by
  unfold fileBlocks
  simp only
  rw [guardedFrom_append _ _ false (by rfl)]
  exact guardedFrom_flatMap _ (includeBlock_guarded fuel cfg) _

theorem scanRootProgram_guarded (fuel : Nat) (cfg : Config) (files : List SourceFile) :
    guardedFrom false (scanRootProgram fuel cfg files) = true :=
  guardedFrom_flatMap _ (fileBlocks_guarded fuel cfg) _

theorem step_spec (c : Bool) (t : Nat) (st st1 : ScanState) (hs : step c t st = some st1) :
    ∃ (s : Stmt) (r : List Stmt), (st.workers t).rest = s :: r ∧ st1.threads = st.threads ∧
      (∀ i, i ≠ t → st1.workers i = st.workers i) ∧ (st1.workers t).rest = r ∧
      ((s = Stmt.lock ∧ st.owner = none ∧ st1.owner = some t) ∨
       (s = Stmt.unlock ∧ st.owner = some t ∧ st1.owner = none) ∨
       (∃ f, s = Stmt.access f ∧ st1.owner = st.owner)) := by
  unfold step at hs
  split at hs
  · cases hs
  · rename_i rest hrest
    split at hs
    · rename_i hown
      simp only [Option.some.injEq] at hs
      subst hs
      refine ⟨_, _, hrest, rfl, ?_, ?_, Or.inl ⟨rfl, hown, rfl⟩⟩
      · intro i hi
        simp [ScanState.setWorker, hi]
      · simp [ScanState.setWorker]
    · cases hs
  · rename_i rest hrest
    split at hs
    · rename_i hown
      simp only [Option.some.injEq] at hs
      subst hs
      refine ⟨_, _, hrest, rfl, ?_, ?_, Or.inr (Or.inl ⟨rfl, hown, rfl⟩)⟩
      · intro i hi
        simp [ScanState.setWorker, hi]
      · simp [ScanState.setWorker]
    · cases hs
  · rename_i f rest hrest
    split at hs
    · cases hs
    · split at hs
      · simp only [Option.some.injEq] at hs
        subst hs
        refine ⟨_, _, hrest, rfl, ?_, ?_, Or.inr (Or.inr ⟨f, rfl, rfl⟩)⟩
        · intro i hi
          simp [ScanState.setWorker, hi]
        · simp [ScanState.setWorker]
      · split at hs
        · simp only [Option.some.injEq] at hs
          subst hs
          refine ⟨_, _, hrest, rfl, ?_, ?_, Or.inr (Or.inr ⟨f, rfl, rfl⟩)⟩
          · intro i hi
            simp [ScanState.setWorker, hi]
          · simp [ScanState.setWorker]
        · simp only [Option.some.injEq] at hs
          subst hs
          refine ⟨_, _, hrest, rfl, ?_, ?_, Or.inr (Or.inr ⟨f, rfl, rfl⟩)⟩
          · intro i hi
            simp [ScanState.setWorker, hi]
          · simp [ScanState.setWorker]

theorem guardedFrom_false_cons (s : Stmt) (r : List Stmt)
    (h : guardedFrom false (s :: r) = true) : s = Stmt.lock ∧ guardedFrom true r = true := by
  cases s with
  | lock => simpa [guardedFrom] using h
  | unlock => simp [guardedFrom] at h
  | access f => simp [guardedFrom] at h

theorem guardedFrom_true_cons (s : Stmt) (r : List Stmt)
    (h : guardedFrom true (s :: r) = true) :
    (s = Stmt.unlock ∧ guardedFrom false r = true) ∨
    (∃ f, s = Stmt.access f ∧ guardedFrom true r = true) := by
  cases s with
  | lock => simp [guardedFrom] at h
  | unlock => exact Or.inl ⟨rfl, by simpa [guardedFrom] using h⟩
  | access f => exact Or.inr ⟨f, rfl, by simpa [guardedFrom] using h⟩

theorem step_inv (c : Bool) (t : Nat) (st st1 : ScanState)
    (hinv : ∀ i, guardedFrom (decide (st.owner = some i)) (st.workers i).rest = true)
    (hs : step c t st = some st1) :
    ∀ i, guardedFrom (decide (st1.owner = some i)) (st1.workers i).rest = true := by
  obtain ⟨s, r, hrest, _, hother, hr, hcase⟩ := step_spec c t st st1 hs
  have ht := hinv t
  rw [hrest] at ht
  intro i
  by_cases hi : i = t
  · subst hi
    rw [hr]
    rcases hcase with ⟨rfl, ho, ho1⟩ | ⟨rfl, ho, ho1⟩ | ⟨f, rfl, ho1⟩
    · rw [ho] at ht
      rw [ho1]
      simpa [guardedFrom] using ht
    · rw [ho] at ht
      rw [ho1]
      simpa [guardedFrom] using ht
    · rw [ho1]
      cases hd : decide (st.owner = some i) with
      | false => rw [hd] at ht; simp [guardedFrom] at ht
      | true => rw [hd] at ht; simpa [guardedFrom] using ht
  · rw [hother i hi]
    have h := hinv i
    rcases hcase with ⟨_, ho, ho1⟩ | ⟨_, ho, ho1⟩ | ⟨f, _, ho1⟩
    · rw [ho] at h
      rw [ho1]
      have : decide (some t = some i) = false := by simp [Ne.symm hi]
      rw [this]
      simpa using h
    · rw [ho] at h
      rw [ho1]
      have : decide (some t = some i) = false := by simp [Ne.symm hi]
      rw [this] at h
      simpa using h
    · rw [ho1]
      exact h

theorem step_checked (t : Nat) (st : ScanState)
    (hinv : ∀ i, guardedFrom (decide (st.owner = some i)) (st.workers i).rest = true) :
    step true t st = step false t st := by
  unfold step
  split
  · rfl
  · rfl
  · rfl
  · rename_i f rest hrest
    have ht := hinv t
    rw [hrest] at ht
    have hown : st.owner = some t := by
      cases hd : decide (st.owner = some t) with
      | false => rw [hd] at ht; simp [guardedFrom] at ht
      | true => exact of_decide_eq_true hd
    simp [hown]

theorem runSchedule_checked : ∀ (sched : List Nat) (st : ScanState),
    (∀ i, guardedFrom (decide (st.owner = some i)) (st.workers i).rest = true) →
    runSchedule true sched st = runSchedule false sched st := by
  intro sched
  induction sched with
  | nil => intro st _; rfl
  | cons t rest ih =>
    intro st hinv
    simp only [runSchedule, step_checked t st hinv]
    cases hs : step false t st with
    | none => rfl
    | some st1 => exact ih st1 (step_inv false t st st1 hinv hs)

theorem holder_runs_to_unlock : ∀ (r : List Stmt) (t : Nat) (sched : List Nat)
    (st final : ScanState),
    (∀ i, guardedFrom (decide (st.owner = some i)) (st.workers i).rest = true) →
    st.owner = some t → (st.workers t).rest = r →
    runSchedule false sched st = some final → (final.workers t).rest = [] →
    ∃ (more : List Nat) (st2 : ScanState),
      sched = List.replicate (sectionLength r) t ++ more ∧
      runSchedule false (List.replicate (sectionLength r) t) st = some st2 ∧
      st2.owner = none ∧
      (∀ i, guardedFrom (decide (st2.owner = some i)) (st2.workers i).rest = true) ∧
      runSchedule false more st2 = some final ∧
      (∀ i, i ≠ t → st2.workers i = st.workers i) ∧
      lockCount (st2.workers t).rest = lockCount r := by
  intro r
  induction r with
  | nil =>
    intro t sched st final hinv hown hrest _ _
    have := hinv t
    rw [hrest, hown] at this
    simp [guardedFrom] at this
  | cons s r ih =>
    intro t sched st final hinv hown hrest hrun hdone
    cases sched with
    | nil =>
      simp only [runSchedule, Option.some.injEq] at hrun
      subst hrun
      rw [hrest] at hdone
      cases hdone
    | cons t1 m =>
      simp only [runSchedule] at hrun
      cases hs : step false t1 st with
      | none => rw [hs] at hrun; cases hrun
      | some st1 =>
        rw [hs] at hrun
        simp only at hrun
        obtain ⟨s1, r1, hrest1, _, hother, hr1, hcase⟩ := step_spec false t1 st st1 hs
        have hinv1 := step_inv false t1 st st1 hinv hs
        have ht1 : t1 = t := by
          by_contra hne
          have h1 := hinv t1
          rw [hrest1, hown] at h1
          have : decide (some t = some t1) = false := by simp [Ne.symm hne]
          rw [this] at h1
          obtain ⟨hl, _⟩ := guardedFrom_false_cons s1 r1 h1
          rcases hcase with ⟨_, ho, _⟩ | ⟨hu, _, _⟩ | ⟨f, hf, _⟩
          · rw [hown] at ho; cases ho
          · rw [hl] at hu; cases hu
          · rw [hl] at hf; cases hf
        subst ht1
        rw [hrest] at hrest1
        cases hrest1
        have hg := hinv t1
        rw [hrest, hown] at hg
        simp only [decide_True] at hg
        rcases hcase with ⟨_, ho, _⟩ | ⟨hu, _, ho1⟩ | ⟨f, hf, ho1⟩
        · rw [hown] at ho; cases ho
        · subst hu
          refine ⟨m, st1, ?_, ?_, ho1, hinv1, hrun, hother, ?_⟩
          · simp [sectionLength, List.replicate]
          · simp [sectionLength, List.replicate, runSchedule, hs]
          · rw [hr1]; rfl
        · subst hf
          obtain ⟨more, st2, e1, e2, e3, e4, e5, e6, e7⟩ :=
            ih t1 m st1 final hinv1 (by rw [ho1, hown]) hr1 hrun hdone
          refine ⟨more, st2, ?_, ?_, e3, e4, e5, ?_, ?_⟩
          · rw [e1]
            simp [sectionLength, List.replicate_succ]
          · simp only [sectionLength, List.replicate_succ, runSchedule, hs]
            exact e2
          · intro i hi
            rw [e6 i hi, hother i hi]
          · rw [e7]; rfl

theorem blocks_of_schedule : ∀ (n : Nat) (sched : List Nat) (st final : ScanState),
    sched.length ≤ n →
    (∀ i, guardedFrom (decide (st.owner = some i)) (st.workers i).rest = true) →
    st.owner = none → runSchedule false sched st = some final →
    (∀ i, (final.workers i).rest = []) →
    ∃ order : List Nat, runAtomic order st = some final ∧
      ∀ i, order.count i = lockCount (st.workers i).rest := by
  intro n
  induction n with
  | zero =>
    intro sched st final hlen _ _ hrun hdone
    have : sched = [] := List.length_eq_zero.mp (by omega)
    subst this
    simp only [runSchedule, Option.some.injEq] at hrun
    subst hrun
    refine ⟨[], rfl, ?_⟩
    intro i
    rw [hdone i]
    rfl
  | succ n ih =>
    intro sched st final hlen hinv hown hrun hdone
    cases sched with
    | nil =>
      simp only [runSchedule, Option.some.injEq] at hrun
      subst hrun
      refine ⟨[], rfl, ?_⟩
      intro i
      rw [hdone i]
      rfl
    | cons t m =>
      simp only [runSchedule] at hrun
      cases hs : step false t st with
      | none => rw [hs] at hrun; cases hrun
      | some st1 =>
        rw [hs] at hrun
        simp only at hrun
        obtain ⟨s, r, hrest, _, hother, hr, hcase⟩ := step_spec false t st st1 hs
        have hinv1 := step_inv false t st st1 hinv hs
        have hg := hinv t
        rw [hrest, hown] at hg
        have hd : decide ((none : Option Nat) = some t) = false := by simp
        rw [hd] at hg
        obtain ⟨hl, _⟩ := guardedFrom_false_cons s r hg
        subst hl
        have ho1 : st1.owner = some t := by
          rcases hcase with ⟨_, _, ho1⟩ | ⟨hu, _, _⟩ | ⟨f, hf, _⟩
          · exact ho1
          · cases hu
          · cases hf
        obtain ⟨more, st2, e1, e2, e3, e4, e5, e6, e7⟩ :=
          holder_runs_to_unlock r t m st1 final hinv1 ho1 hr hrun (hdone t)
        have hlen2 : more.length ≤ n := by
          rw [e1] at hlen
          simp only [List.length_cons, List.length_append, List.length_replicate] at hlen
          omega
        obtain ⟨order, o1, o2⟩ := ih more st2 final hlen2 e4 e3 e5 hdone
        refine ⟨t :: order, ?_, ?_⟩
        · simp only [runAtomic]
          have ha : atomicStep t st = some st2 := by
            unfold atomicStep
            rw [hown, hrest]
            simp only [sectionLength, List.replicate_succ, runSchedule, hs]
            exact e2
          rw [ha]
          exact o1
        · intro i
          by_cases hi : i = t
          · subst hi
            rw [List.count_cons_self, o2 i, e7, hrest]
            rfl
          · rw [List.count_cons_of_ne hi, o2 i, e6 i hi, hother i hi]

theorem runSchedule_threads : ∀ (sched : List Nat) (st final : ScanState),
    (∀ i, st.threads ≤ i → (st.workers i).rest = []) →
    runSchedule false sched st = some final →
    final.threads = st.threads ∧ ∀ i, final.threads ≤ i → (final.workers i).rest = [] := by
  intro sched
  induction sched with
  | nil =>
    intro st final h hrun
    simp only [runSchedule, Option.some.injEq] at hrun
    subst hrun
    exact ⟨rfl, h⟩
  | cons t m ih =>
    intro st final h hrun
    simp only [runSchedule] at hrun
    cases hs : step false t st with
    | none => rw [hs] at hrun; cases hrun
    | some st1 =>
      rw [hs] at hrun
      simp only at hrun
      obtain ⟨s, r, hrest, hth, hother, _, _⟩ := step_spec false t st st1 hs
      have h1 : ∀ i, st1.threads ≤ i → (st1.workers i).rest = [] := by
        intro i hi
        rw [hth] at hi
        have hne : i ≠ t := by
          intro e
          subst e
          have := h i hi
          rw [hrest] at this
          cases this
        rw [hother i hne]
        exact h i hi
      obtain ⟨a, b⟩ := ih st1 final h1 hrun
      exact ⟨by rw [a, hth], b⟩

theorem finished_all (st : ScanState) (hf : finished st = true)
    (h : ∀ i, st.threads ≤ i → (st.workers i).rest = []) : ∀ i, (st.workers i).rest = [] := by
  intro i
  by_cases hi : st.threads ≤ i
  · exact h i hi
  · unfold finished at hf
    rw [List.all_eq_true] at hf
    have := hf i (List.mem_range.mpr (by omega))
    exact List.isEmpty_iff.mp this

theorem initState_guarded (fuel : Nat) (cfg : Config) (roots : List (List SourceFile))
    (graph : Graph) (i : Nat) :
    guardedFrom (decide ((initState fuel cfg roots graph).owner = some i))
      ((initState fuel cfg roots graph).workers i).rest = true := by
  simp only [initState]
  cases hr : roots[i]? with
  | none => rfl
  | some files => exact scanRootProgram_guarded fuel cfg files

theorem initState_threads (fuel : Nat) (cfg : Config) (roots : List (List SourceFile))
    (graph : Graph) (i : Nat) (hi : (initState fuel cfg roots graph).threads ≤ i) :
    ((initState fuel cfg roots graph).workers i).rest = [] := by
  simp only [initState] at hi ⊢
  rw [List.getElem?_eq_none hi]

theorem step_enabled (t : Nat) (st : ScanState) (s : Stmt) (r : List Stmt)
    (hrest : (st.workers t).rest = s :: r) (hl : s = Stmt.lock → st.owner = none)
    (hu : s = Stmt.unlock → st.owner = some t) : ∃ st1, step false t st = some st1 := by
  unfold step
  rw [hrest]
  cases s with
  | lock =>
    simp only [hl rfl]
    exact ⟨_, rfl⟩
  | unlock =>
    simp only [hu rfl, if_true]
    exact ⟨_, rfl⟩
  | access f =>
    simp only [Bool.false_eq_true, false_and, if_false]
    split
    · exact ⟨_, rfl⟩
    · split
      · exact ⟨_, rfl⟩
      · exact ⟨_, rfl⟩

theorem runSchedule_append (c : Bool) : ∀ (a b : List Nat) (st st1 : ScanState),
    runSchedule c a st = some st1 → runSchedule c (a ++ b) st = runSchedule c b st1 := by
  intro a
  induction a with
  | nil =>
    intro b st st1 h
    simp only [runSchedule, Option.some.injEq] at h
    subst h
    rfl
  | cons t m ih =>
    intro b st st1 h
    simp only [List.cons_append, runSchedule] at h ⊢
    cases hs : step c t st with
    | none => rw [hs] at h; cases h
    | some st2 =>
      rw [hs] at h
      simp only at h ⊢
      exact ih b st2 st1 h

theorem thread_runs_alone : ∀ (r : List Stmt) (holding : Bool) (t : Nat) (st : ScanState),
    (st.workers t).rest = r → guardedFrom holding r = true →
    st.owner = (if holding then some t else none) →
    ∃ st2, runSchedule false (List.replicate r.length t) st = some st2 ∧ st2.owner = none ∧
      (st2.workers t).rest = [] ∧ (∀ i, i ≠ t → st2.workers i = st.workers i) ∧
      st2.threads = st.threads := by
  intro r
  induction r with
  | nil =>
    intro holding t st hrest hg hown
    simp only [guardedFrom, Bool.not_eq_true'] at hg
    subst hg
    exact ⟨st, rfl, by simpa using hown, hrest, fun _ _ => rfl, rfl⟩
  | cons s r ih =>
    intro holding t st hrest hg hown
    have hen : ∃ st1, step false t st = some st1 := by
      apply step_enabled t st s r hrest
      · intro hs
        subst hs
        cases holding with
        | false => simpa using hown
        | true => simp [guardedFrom] at hg
      · intro hs
        subst hs
        cases holding with
        | false => simp [guardedFrom] at hg
        | true => simpa using hown
    obtain ⟨st1, hs⟩ := hen
    obtain ⟨s1, r1, hrest1, hth, hother, hr1, hcase⟩ := step_spec false t st st1 hs
    rw [hrest] at hrest1
    cases hrest1
    have next : ∃ holding1 : Bool, guardedFrom holding1 r = true ∧
        st1.owner = (if holding1 then some t else none) := by
      rcases hcase with ⟨rfl, _, ho1⟩ | ⟨rfl, _, ho1⟩ | ⟨f, rfl, ho1⟩
      · refine ⟨true, ?_, by simpa using ho1⟩
        cases holding <;> simp_all [guardedFrom]
      · refine ⟨false, ?_, by simpa using ho1⟩
        cases holding <;> simp_all [guardedFrom]
      · refine ⟨true, ?_, ?_⟩
        · cases holding <;> simp_all [guardedFrom]
        · cases holding with
          | false => simp [guardedFrom] at hg
          | true => rw [ho1, hown]
    obtain ⟨holding1, hg1, hown1⟩ := next
    obtain ⟨st2, e1, e2, e3, e4, e5⟩ := ih holding1 t st1 hr1 hg1 hown1
    refine ⟨st2, ?_, e2, e3, ?_, by rw [e5, hth]⟩
    · simp only [List.length_cons, List.replicate_succ, runSchedule, hs]
      exact e1
    · intro i hi
      rw [e4 i hi, hother i hi]

theorem threads_run_in_turn : ∀ (k : Nat) (st : ScanState), st.owner = none →
    (∀ i, guardedFrom false (st.workers i).rest = true) →
    ∃ (sched : List Nat) (st2 : ScanState), runSchedule false sched st = some st2 ∧
      st2.owner = none ∧ (∀ i, i < k → (st2.workers i).rest = []) ∧
      (∀ i, k ≤ i → st2.workers i = st.workers i) ∧ st2.threads = st.threads := by
  intro k
  induction k with
  | zero =>
    intro st hown _
    exact ⟨[], st, rfl, hown, fun i hi => absurd hi (Nat.not_lt_zero i), fun _ _ => rfl, rfl⟩
  | succ k ih =>
    intro st hown hg
    obtain ⟨sched, st2, e1, e2, e3, e4, e5⟩ := ih st hown hg
    have hgk : guardedFrom false (st2.workers k).rest = true := by
      rw [e4 k (le_refl _)]
      exact hg k
    obtain ⟨st3, f1, f2, f3, f4, f5⟩ :=
      thread_runs_alone (st2.workers k).rest false k st2 rfl hgk (by simpa using e2)
    refine ⟨sched ++ List.replicate (st2.workers k).rest.length k, st3, ?_, f2, ?_, ?_,
      by rw [f5, e5]⟩
    · rw [runSchedule_append false sched _ st st2 e1]
      exact f1
    · intro i hi
      by_cases hik : i = k
      · subst hik; exact f3
      · rw [f4 i hik]
        exact e3 i (by omega)
    · intro i hi
      rw [f4 i (by omega), e4 i (by omega)]

theorem exists_complete_schedule (fuel : Nat) (cfg : Config) (roots : List (List SourceFile))
    (graph : Graph) : ∃ schedule, completes schedule (initState fuel cfg roots graph) = true := by
  obtain ⟨sched, st2, e1, _, e3, _, e5⟩ :=
    threads_run_in_turn roots.length (initState fuel cfg roots graph) rfl
      (fun i => by simpa using initState_guarded fuel cfg roots graph i)
  refine ⟨sched, ?_⟩
  unfold completes
  rw [e1]
  simp only [finished, List.all_eq_true, List.mem_range]
  intro i hi
  rw [e5] at hi
  exact List.isEmpty_iff.mpr (e3 i hi)

/-- C24: in the model of `SourceParser::Run` where each worker thread is the statement sequence
of `ScanRoot` for its root (`lock`, `unlock`, and the statements that use the shared graph) and
a schedule interleaves the steps of the threads, a thread waiting at `lock` while the mutex is
held: the statements of every worker use the graph only between a `lock` and its `unlock`;
some schedule lets all workers finish, so that `Run` returns; for every schedule that can be followed until all workers are joined, no access is made by a
thread that does not hold the mutex (the run that refuses such an access is the same run), and
the final state, in particular the graph, is the one reached by executing the locked blocks one
after the other as wholes, in some order that takes the blocks of each worker in its own order
and each exactly once. -/
theorem Run_serializable (fuel : Nat) (cfg : Config) (roots : List (List SourceFile))
    (graph : Graph) (schedule : List Nat)
    (h : completes schedule (initState fuel cfg roots graph) = true) :
    (∀ files : List SourceFile, guardedFrom false (scanRootProgram fuel cfg files) = true) ∧
    (∃ s, completes s (initState fuel cfg roots graph) = true) ∧
    runSchedule true schedule (initState fuel cfg roots graph) =
      runSchedule false schedule (initState fuel cfg roots graph) ∧
    ∃ order : List Nat,
      runAtomic order (initState fuel cfg roots graph) =
        runSchedule false schedule (initState fuel cfg roots graph) ∧
      (∀ t, order.count t = lockCount ((initState fuel cfg roots graph).workers t).rest) ∧
      finalGraph (runAtomic order (initState fuel cfg roots graph)) =
        finalGraph (runSchedule false schedule (initState fuel cfg roots graph)) := by
  refine ⟨scanRootProgram_guarded fuel cfg, exists_complete_schedule fuel cfg roots graph,
    runSchedule_checked schedule _ (initState_guarded fuel cfg roots graph), ?_⟩
  unfold completes at h
  cases hrun : runSchedule false schedule (initState fuel cfg roots graph) with
  | none => rw [hrun] at h; cases h
  | some final =>
    rw [hrun] at h
    simp only at h
    obtain ⟨_, hth⟩ := runSchedule_threads schedule _ final
      (initState_threads fuel cfg roots graph) hrun
    have hdone := finished_all final h hth
    obtain ⟨order, o1, o2⟩ := blocks_of_schedule schedule.length schedule _ final (le_refl _)
      (initState_guarded fuel cfg roots graph) rfl hrun hdone
    exact ⟨order, o1, o2, by rw [o1]⟩

theorem Run_serializable_witness :
    completes alternatingSchedule (initState 10 {} twoRoots {}) = true ∧
    runSchedule true alternatingSchedule (initState 10 {} twoRoots {}) =
      runSchedule false alternatingSchedule (initState 10 {} twoRoots {}) ∧
    ∃ order : List Nat,
      finalGraph (runAtomic order (initState 10 {} twoRoots {})) =
        finalGraph (runSchedule false alternatingSchedule (initState 10 {} twoRoots {})) := by
  have hc : completes alternatingSchedule (initState 10 {} twoRoots {}) = true := by decide!
  obtain ⟨_, _, h1, order, _, _, h2⟩ :=
    Run_serializable 10 {} twoRoots {} alternatingSchedule hc
  exact ⟨hc, h1, order, h2⟩

theorem placeAt_same (n : Node) : n.placeAt n.px n.py = n := rfl

theorem constrainPair_coincident (m : Libm) (desired : ℚ) (nodes : List Node) (link : Link)
    (A B : Node) (hA : nodeAt nodes link.a = Except.ok A) (hB : nodeAt nodes link.b = Except.ok B)
    (hx : A.px = B.px) (hy : A.py = B.py) :
    constrainPair m desired nodes link A B = Except.ok nodes := by
  obtain ⟨ha0, hAg⟩ := nodeAt_ok hA
  obtain ⟨hb0, hBg⟩ := nodeAt_ok hB
  unfold constrainPair
  simp only [bind, Except.bind, hx, hy, sub_self, zero_mul, add_zero, sub_zero]
  have hA1 : ({ A with px := B.px, py := B.py } : Node) = A := by rw [← hx, ← hy]
  rw [hA1, set_self_of_getElem? nodes _ A hAg]
  simp only [ite_self, hB]
  rw [set_self_of_getElem? nodes _ B hBg]
  simp only [ite_self]

theorem satisfyLink_coincident (m : Libm) (cfg : Config) (nodes : List Node) (link : Link)
    (A B : Node) (hA : nodeAt nodes link.a = Except.ok A) (hB : nodeAt nodes link.b = Except.ok B)
    (hx : A.px = B.px) (hy : A.py = B.py) :
    satisfyLink m cfg nodes link = Except.ok nodes := by
  rw [satisfyLink_eq_enabled m cfg nodes link A B hA hB]
  split
  · exact constrainPair_coincident m _ nodes link A B hA hB hx hy
  · rfl

theorem process_pair_coincident (m : Libm) (cfg : Config) (nodes : List Node) (indexA indexB : Int)
    (A B : Node) (hA : nodeAt nodes indexA = Except.ok A) (hB : nodeAt nodes indexB = Except.ok B)
    (hx : A.px = B.px) (hy : A.py = B.py) :
    process_pair m cfg nodes indexA indexB = Except.ok nodes := by
  obtain ⟨ha0, hAg⟩ := nodeAt_ok hA
  obtain ⟨hb0, hBg⟩ := nodeAt_ok hB
  unfold process_pair
  simp only [bind, Except.bind, hA, hB, hx, hy, sub_self, zero_mul, add_zero, sub_zero]
  split
  · rfl
  · split
    · rfl
    · have hA1 : ({ A with px := B.px, py := B.py } : Node) = A := by rw [← hx, ← hy]
      rw [hA1, set_self_of_getElem? nodes _ A hAg]
      simp only [ite_self, hB]
      rw [set_self_of_getElem? nodes _ B hBg]
      simp only [ite_self]

theorem repulsionForce_le (cfg : Config) (d0 d : ℚ) (hs : 0 ≤ cfg.physics.repulsion_strength)
    (hr : 0 < cfg.physics.repulsion_radius) (h : d0 ≤ d) :
    repulsionForce cfg d ≤ repulsionForce cfg d0 := by
  unfold repulsionForce
  apply mul_le_mul_of_nonneg_left _ hs
  have := div_le_div_of_nonneg_right h hr.le
  linarith

/-- C39: when the two ends `A = nodes[a]` and `B = nodes[b]` have the same `px` and the same
`py`, the link step of `SatisfyConstraints` for a link between `a` and `b` (of any stiffness and
stored rest length, enabled or not) returns the node sequence unchanged, and so does the
repulsion step `process_pair` for the pair, whatever the kinds, masses and `fixed` flags. The
distance that the repulsion step computes for the pair is then `sqrt(1e-6)`, the square root of
the least value `distanceSquared` can take, so the force `strength * (1 - distance / radius)` is
at least the force for any other distance `m.sqrt d2` that `sqrt` does not put below it (for
`strength >= 0` and `radius > 0`). -/
theorem coincident_nodes_not_separated (m : Libm) (cfg : Config) (nodes : List Node)
    (a b : Int) (A B : Node) (hA : nodeAt nodes a = Except.ok A)
    (hB : nodeAt nodes b = Except.ok B) (hx : A.px = B.px) (hy : A.py = B.py) :
    (∀ restLength stiffness : ℚ,
      satisfyLink m cfg nodes { a := a, b := b, restLength := restLength, stiffness := stiffness } =
        Except.ok nodes) ∧
    process_pair m cfg nodes a b = Except.ok nodes ∧
    (B.px - A.px) * (B.px - A.px) + (B.py - A.py) * (B.py - A.py) + 1 / 1000000 = 1 / 1000000 ∧
    (∀ dx dy : ℚ, (1 : ℚ) / 1000000 ≤ dx * dx + dy * dy + 1 / 1000000) ∧
    (∀ d2 : ℚ, 0 ≤ cfg.physics.repulsion_strength → 0 < cfg.physics.repulsion_radius →
      m.sqrt (1 / 1000000) ≤ m.sqrt d2 →
      repulsionForce cfg (m.sqrt d2) ≤ repulsionForce cfg (m.sqrt (1 / 1000000))) := by
  refine ⟨?_, process_pair_coincident m cfg nodes a b A B hA hB hx hy, ?_, ?_, ?_⟩
  · intro restLength stiffness
    exact satisfyLink_coincident m cfg nodes _ A B hA hB hx hy
  · rw [hx, hy]
    ring
  · intro dx dy
    exact guarded_distance_arg dx dy
  · intro d2 hs hr h
    exact repulsionForce_le cfg _ _ hs hr h

theorem coincident_nodes_not_separated_witness :
    satisfyLink libmQ {} coincidentNodes { a := 0, b := 1, restLength := 46, stiffness := 1 / 2 } =
      Except.ok coincidentNodes ∧
    process_pair libmQ {} coincidentNodes 0 1 = Except.ok coincidentNodes ∧
    repulsionForce {} (libmQ.sqrt 10000) ≤ repulsionForce {} (libmQ.sqrt (1 / 1000000)) ∧
    repulsionForce {} (libmQ.sqrt (1 / 1000000)) = 200 * (1 - (1 / 1000) / 30) := by
  have h := coincident_nodes_not_separated libmQ {} coincidentNodes 0 1
    { id := 0, kind := NodeKind.Directory, name := "r", path := "r", children := [1],
      subtreeDirCount := 1, px := 5, py := 5, ppx := 5, ppy := 5 }
    { id := 1, kind := NodeKind.Directory, name := "a", path := "r/a", parent_dir := 0,
      px := 5, py := 5, ppx := 5, ppy := 5 } rfl rfl rfl rfl
  exact ⟨h.1 46 (1 / 2), h.2.1, h.2.2.2.2 10000 (by decide!) (by decide!) (by decide!),
    by decide!⟩

theorem assignDesiredRestLength_eq (cfg : Config) (link : Link) (nodeA nodeB : Node) :
    assignDesiredRestLength cfg link nodeA nodeB = desiredRestLength cfg nodeA nodeB := by
  unfold assignDesiredRestLength desiredRestLength
  by_cases ha : nodeA.kind = NodeKind.Directory <;> by_cases hb : nodeB.kind = NodeKind.Directory <;>
    simp [ha, hb, Id.run]

theorem satisfyLink_restLength (m : Libm) (cfg : Config) (nodes : List Node) (l l1 : Link)
    (h : l.SameButRestLength l1) : satisfyLink m cfg nodes l1 = satisfyLink m cfg nodes l := by
  obtain ⟨ha, hb, hs⟩ := h
  unfold satisfyLink
  rw [ha, hb, hs]

theorem satisfyLinks_restLength (m : Libm) (cfg : Config) :
    ∀ (links links1 : List Link), List.Forall₂ Link.SameButRestLength links links1 →
      ∀ nodes : List Node, satisfyLinks m cfg nodes links1 = satisfyLinks m cfg nodes links := by
  intro links links1 h
  induction h with
  | nil => intro nodes; rfl
  | cons hl _ ih =>
    intro nodes
    simp only [satisfyLinks, satisfyLink_restLength m cfg nodes _ _ hl]
    cases satisfyLink m cfg nodes _ with
    | error e => rfl
    | ok nodes1 => exact ih nodes1

theorem SameButRestLength.same_refl (g : Graph) : SameButRestLength g g := by
  refine ⟨rfl, rfl, ?_⟩
  induction g.links with
  | nil => exact List.Forall₂.nil
  | cons l rest ih => exact List.Forall₂.cons ⟨rfl, rfl, rfl⟩ ih

theorem withRestLength_same (g : Graph) (r : ℚ) : SameButRestLength g (g.withRestLength r) := by
  refine ⟨rfl, rfl, ?_⟩
  show List.Forall₂ Link.SameButRestLength g.links (g.links.map _)
  induction g.links with
  | nil => exact List.Forall₂.nil
  | cons l rest ih => exact List.Forall₂.cons ⟨rfl, rfl, rfl⟩ ih

theorem SatisfyConstraints_restLength (m : Libm) (cfg : Config) (g g1 : Graph)
    (h : SameButRestLength g g1) :
    (∃ e, SatisfyConstraints m cfg g = Except.error e ∧
      SatisfyConstraints m cfg g1 = Except.error e) ∨
    (∃ r r1, SatisfyConstraints m cfg g = Except.ok r ∧ SatisfyConstraints m cfg g1 = Except.ok r1 ∧
      SameButRestLength r r1) := by
  obtain ⟨hn, hp, hl⟩ := h
  unfold SatisfyConstraints
  rw [hn, satisfyLinks_restLength m cfg _ _ hl]
  cases satisfyLinks m cfg g.nodes g.links with
  | error e => exact Or.inl ⟨e, rfl, rfl⟩
  | ok nodes1 => exact Or.inr ⟨_, _, rfl, rfl, rfl, hp, hl⟩

theorem repulsionCalls_nodes (cfg : Config) (g g1 : Graph) (hn : g1.nodes = g.nodes) :
    repulsionCalls cfg g1 = repulsionCalls cfg g := by
  unfold repulsionCalls
  rw [hn]

theorem ApplyRepulsion_restLength (m : Libm) (cfg : Config) (g g1 : Graph)
    (h : SameButRestLength g g1) :
    (∃ e, ApplyRepulsion m cfg g = Except.error e ∧ ApplyRepulsion m cfg g1 = Except.error e) ∨
    (∃ r r1, ApplyRepulsion m cfg g = Except.ok r ∧ ApplyRepulsion m cfg g1 = Except.ok r1 ∧
      SameButRestLength r r1) := by
  obtain ⟨hn, hp, hl⟩ := h
  rw [ApplyRepulsion_eq_calls m cfg g, ApplyRepulsion_eq_calls m cfg g1,
    repulsionCalls_nodes cfg g g1 hn, hn]
  cases processPairs m cfg g.nodes (repulsionCalls cfg g) with
  | error e => exact Or.inl ⟨e, rfl, rfl⟩
  | ok nodes1 => exact Or.inr ⟨_, _, rfl, rfl, rfl, hp, hl⟩

theorem EqualizeChildAngles_restLength (m : Libm) (cfg : Config) (g g1 : Graph)
    (h : SameButRestLength g g1) :
    (∃ e, EqualizeChildAngles m cfg g = Except.error e ∧
      EqualizeChildAngles m cfg g1 = Except.error e) ∨
    (∃ r r1, EqualizeChildAngles m cfg g = Except.ok r ∧
      EqualizeChildAngles m cfg g1 = Except.ok r1 ∧ SameButRestLength r r1) := by
  obtain ⟨hn, hp, hl⟩ := h
  unfold EqualizeChildAngles
  simp only [hn]
  by_cases h1 : cfg.physics.dir_children_angle_strength ≤ 0
  · rw [if_pos h1, if_pos h1]
    exact Or.inr ⟨_, _, rfl, rfl, hn, hp, hl⟩
  · rw [if_neg h1, if_neg h1]
    by_cases h2 : g.nodes.length < 2
    · rw [if_pos h2, if_pos h2]
      exact Or.inr ⟨_, _, rfl, rfl, hn, hp, hl⟩
    · rw [if_neg h2, if_neg h2]
      cases equalizeParents m cfg.physics.dir_children_angle_strength g.nodes
          (List.range g.nodes.length) with
      | error e => exact Or.inl ⟨e, rfl, rfl⟩
      | ok nodes1 => exact Or.inr ⟨_, _, rfl, rfl, rfl, hp, hl⟩

theorem Integrate_restLength (cfg : Config) (g g1 : Graph) (h : SameButRestLength g g1) :
    SameButRestLength (Integrate cfg g) (Integrate cfg g1) := by
  obtain ⟨hn, hp, hl⟩ := h
  exact ⟨by simp [Integrate, hn], hp, hl⟩

theorem stepLoop_restLength (m : Libm) (cfg : Config) :
    ∀ (k : Nat) (g g1 : Graph), SameButRestLength g g1 →
      resultNodes (stepLoop m cfg k g1) = resultNodes (stepLoop m cfg k g) := by
  intro k
  induction k with
  | zero =>
    intro g g1 h
    simp only [stepLoop, resultNodes, h.1]
  | succ k ih =>
    intro g g1 h
    simp only [stepLoop]
    rcases SatisfyConstraints_restLength m cfg g g1 h with ⟨e, h1, h2⟩ | ⟨r, r1, h1, h2, hr⟩
    · rw [h1, h2]
    · rw [h1, h2]
      simp only
      rcases ApplyRepulsion_restLength m cfg r r1 hr with ⟨e, h3, h4⟩ | ⟨s, s1, h3, h4, hs⟩
      · rw [h3, h4]
      · rw [h3, h4]
        exact ih s s1 hs

theorem frameLoop_restLength (m : Libm) (cfg : Config) (flags : PauseFlags) :
    ∀ (k : Nat) (g g1 : Graph), SameButRestLength g g1 →
      resultNodes (frameLoop m cfg flags k g1) = resultNodes (frameLoop m cfg flags k g) := by
  intro k
  induction k with
  | zero =>
    intro g g1 h
    simp only [frameLoop, resultNodes, h.1]
  | succ k ih =>
    intro g g1 h
    simp only [frameLoop]
    have hc : (∃ e, (if flags.pauseConstraints then Except.ok g else ConstraintsOnly m cfg g) =
          Except.error e ∧
        (if flags.pauseConstraints then Except.ok g1 else ConstraintsOnly m cfg g1) =
          Except.error e) ∨
        (∃ r r1, (if flags.pauseConstraints then Except.ok g else ConstraintsOnly m cfg g) =
          Except.ok r ∧
        (if flags.pauseConstraints then Except.ok g1 else ConstraintsOnly m cfg g1) =
          Except.ok r1 ∧ SameButRestLength r r1) := by
      by_cases hp : flags.pauseConstraints = true
      · rw [if_pos hp, if_pos hp]
        exact Or.inr ⟨g, g1, rfl, rfl, h⟩
      · rw [if_neg hp, if_neg hp]
        exact SatisfyConstraints_restLength m cfg g g1 h
    rcases hc with ⟨e, h1, h2⟩ | ⟨r, r1, h1, h2, hr⟩
    · rw [h1, h2]
    · rw [h1, h2]
      simp only
      rcases EqualizeChildAngles_restLength m cfg r r1 hr with ⟨e, h3, h4⟩ | ⟨s, s1, h3, h4, hs⟩
      · simp only [AngleEqualizationOnly, h3, h4]
      · simp only [AngleEqualizationOnly, h3, h4]
        have hrep : (∃ e, (if flags.pauseRepulsion then Except.ok s else RepulsionOnly m cfg s) =
              Except.error e ∧
            (if flags.pauseRepulsion then Except.ok s1 else RepulsionOnly m cfg s1) =
              Except.error e) ∨
            (∃ t t1, (if flags.pauseRepulsion then Except.ok s else RepulsionOnly m cfg s) =
              Except.ok t ∧
            (if flags.pauseRepulsion then Except.ok s1 else RepulsionOnly m cfg s1) =
              Except.ok t1 ∧ SameButRestLength t t1) := by
          by_cases hp : flags.pauseRepulsion = true
          · rw [if_pos hp, if_pos hp]
            exact Or.inr ⟨s, s1, rfl, rfl, hs⟩
          · rw [if_neg hp, if_neg hp]
            exact ApplyRepulsion_restLength m cfg s s1 hs
        rcases hrep with ⟨e, h5, h6⟩ | ⟨t, t1, h5, h6, ht⟩
        · rw [h5, h6]
        · rw [h5, h6]
          exact ih t t1 ht

/-- C37: the variable `desiredRestLength` of `Physics::SatisfyConstraints`, initialised from
`link.restLength`, is assigned in every branch before it is used: its value is the length
recomputed from the two ends (from the `subtreeDirCount` of two directories, from the child
count of the directory of a directory-to-file link, the configured `link_rest_length` for two
files) and does not depend on the link. Hence for two graphs that differ at most in the
`restLength` fields of their links, `SatisfyConstraints`, `Step` and the pass sequence of
`App::Frame` give the same node sequence (or the same fault), for every configuration. -/
theorem restLength_never_read (m : Libm) (cfg : Config) (flags : PauseFlags) (g g1 : Graph)
    (h : SameButRestLength g g1) :
    (∀ (link : Link) (nodeA nodeB : Node),
      assignDesiredRestLength cfg link nodeA nodeB = desiredRestLength cfg nodeA nodeB) ∧
    (∀ (link : Link) (r : ℚ) (nodeA nodeB : Node),
      assignDesiredRestLength cfg { link with restLength := r } nodeA nodeB =
        assignDesiredRestLength cfg link nodeA nodeB) ∧
    resultNodes (SatisfyConstraints m cfg g1) = resultNodes (SatisfyConstraints m cfg g) ∧
    resultNodes (Step m cfg g1) = resultNodes (Step m cfg g) ∧
    resultNodes (FramePhysics m cfg flags g1) = resultNodes (FramePhysics m cfg flags g) := by
  refine ⟨fun link A B => assignDesiredRestLength_eq cfg link A B, ?_, ?_, ?_, ?_⟩
  · intro link r A B
    rw [assignDesiredRestLength_eq, assignDesiredRestLength_eq]
  · rcases SatisfyConstraints_restLength m cfg g g1 h with ⟨e, h1, h2⟩ | ⟨r, r1, h1, h2, hr⟩
    · rw [h1, h2]
    · rw [h1, h2]
      simp only [resultNodes, hr.1]
  · unfold Step
    exact stepLoop_restLength m cfg _ _ _ (Integrate_restLength cfg g g1 h)
  · unfold FramePhysics
    by_cases hp : flags.paused = true
    · simp only [hp, if_true, resultNodes, h.1]
    · simp only [hp]
      apply frameLoop_restLength
      by_cases hi : flags.pauseIntegrate = true
      · simp only [hi, if_true]
        exact h
      · simp only [hi]
        exact Integrate_restLength cfg g g1 h

theorem restLength_never_read_witness :
    SameButRestLength threeMassGraph (threeMassGraph.withRestLength 1000) ∧
    resultNodes (SatisfyConstraints libmQ {} (threeMassGraph.withRestLength 1000)) =
      resultNodes (SatisfyConstraints libmQ {} threeMassGraph) ∧
    resultNodes (Step libmQ {} (threeMassGraph.withRestLength 1000)) =
      resultNodes (Step libmQ {} threeMassGraph) ∧
    (SatisfyConstraints libmQ {} threeMassGraph).toOption.map
      (fun r => decide (r.nodes = threeMassGraph.nodes)) = some false :=
  ⟨withRestLength_same threeMassGraph 1000,
    (restLength_never_read libmQ {} {} threeMassGraph (threeMassGraph.withRestLength 1000)
      (withRestLength_same threeMassGraph 1000)).2.2.1,
    (restLength_never_read libmQ {} {} threeMassGraph (threeMassGraph.withRestLength 1000)
      (withRestLength_same threeMassGraph 1000)).2.2.2.1, by decide!⟩

theorem getD_set_rat (l : List ℚ) (i t : Nat) (x : ℚ) (hi : i < l.length) :
    (l.set i x).getD t 0 = if i = t then x else l.getD t 0 := by
  simp only [List.getD_eq_getElem?_getD, List.getElem?_set]
  by_cases h : i = t
  · subst h
    simp [hi]
  · simp [h]

theorem sum_set_rat : ∀ (l : List ℚ) (i : Nat) (x : ℚ), i < l.length →
    (l.set i x).sum = l.sum - l.getD i 0 + x := by
  intro l
  induction l with
  | nil => intro i x h; simp at h
  | cons a rest ih =>
    intro i x h
    cases i with
    | zero =>
      simp only [List.set_cons_zero, List.sum_cons, List.getD_cons_zero]
      ring
    | succ i =>
      simp only [List.length_cons, Nat.add_lt_add_iff_right] at h
      simp only [List.set_cons_succ, List.sum_cons, ih i x h, List.getD_cons_succ]
      ring

theorem sum_ite_eq_range (f : Nat → ℚ) (t : Nat) :
    ∀ n : Nat, ((List.range n).map (fun i => if i = t then f i else 0)).sum =
      if t < n then f t else 0 := by
  intro n
  induction n with
  | zero => simp
  | succ n ih =>
    rw [List.range_succ, List.map_append, List.sum_append, ih]
    simp only [List.map_cons, List.map_nil, List.sum_cons, List.sum_nil, add_zero]
    by_cases h1 : t < n
    · have h2 : ¬ n = t := by omega
      have h3 : t < n + 1 := by omega
      simp [h1, h2, h3]
    · by_cases h2 : n = t
      · subst h2
        simp
      · have h3 : ¬ t < n + 1 := by omega
        simp [h1, h2, h3]

theorem succIndex_eq_iff (n i t : Nat) (hi : i < n) (ht : t < n) :
    succIndex n i = t ↔ i = predIndex n t := by
  unfold succIndex predIndex
  by_cases h1 : i + 1 = n
  · have e1 : (i + 1) % n = 0 := by rw [h1, Nat.mod_self]
    rw [e1]
    constructor
    · intro h
      subst h
      have : 0 + n - 1 = i := by omega
      rw [this, Nat.mod_eq_of_lt hi]
    · intro h
      by_contra hne
      have ht0 : 0 < t := by omega
      have e2 : t + n - 1 = (t - 1) + n := by omega
      rw [e2, Nat.add_mod_right, Nat.mod_eq_of_lt (by omega)] at h
      omega
  · have e1 : (i + 1) % n = i + 1 := Nat.mod_eq_of_lt (by omega)
    rw [e1]
    constructor
    · intro h
      subst h
      have e2 : i + 1 + n - 1 = i + n := by omega
      rw [e2, Nat.add_mod_right, Nat.mod_eq_of_lt hi]
    · intro h
      by_cases ht0 : t = 0
      · subst ht0
        have e2 : 0 + n - 1 = n - 1 := by omega
        rw [e2, Nat.mod_eq_of_lt (by omega)] at h
        omega
      · have e2 : t + n - 1 = (t - 1) + n := by omega
        rw [e2, Nat.add_mod_right, Nat.mod_eq_of_lt (by omega)] at h
        omega

theorem predIndex_lt (n t : Nat) (hn : 0 < n) : predIndex n t < n :=
  Nat.mod_lt _ hn

theorem succIndex_lt (n t : Nat) (hn : 0 < n) : succIndex n t < n :=
  Nat.mod_lt _ hn

theorem succIndex_predIndex (n t : Nat) (ht : t < n) : succIndex n (predIndex n t) = t :=
  (succIndex_eq_iff n (predIndex n t) t (predIndex_lt n t (by omega)) ht).mpr rfl

theorem sum_ite_succ_range (f : Nat → ℚ) (n t : Nat) (ht : t < n) :
    ((List.range n).map (fun i => if succIndex n i = t then f i else 0)).sum =
      f (predIndex n t) := by
  have hcongr : (List.range n).map (fun i => if succIndex n i = t then f i else 0) =
      (List.range n).map (fun i => if i = predIndex n t then f i else 0) := by
    apply List.map_congr_left
    intro i hi
    have hi' : i < n := List.mem_range.mp hi
    by_cases h : succIndex n i = t
    · rw [if_pos h, if_pos ((succIndex_eq_iff n i t hi' ht).mp h)]
    · rw [if_neg h, if_neg (fun h2 => h ((succIndex_eq_iff n i t hi' ht).mpr h2))]
  rw [hcongr, sum_ite_eq_range, if_pos (predIndex_lt n t (by omega))]

/-- The value `adj` of iteration `i` of the accumulation loop. -/
theorem accumulateAngleDelta_spec (strength targetGap : ℚ) (dirChildren : List ChildData)
    (n : Nat) (adj : Nat → ℚ)
    (hadj : ∀ i, adj i = (1 / 2) * (wrapDiffPos ((dirChildren.getD (succIndex n i) default).angle -
      (dirChildren.getD i default).angle) - targetGap) * strength) :
    ∀ (is : List Nat) (angleDelta : List ℚ), (∀ i ∈ is, i < n) → angleDelta.length = n →
      (accumulateAngleDelta strength targetGap dirChildren n is angleDelta).length = n ∧
      (accumulateAngleDelta strength targetGap dirChildren n is angleDelta).sum = angleDelta.sum ∧
      ∀ t, (accumulateAngleDelta strength targetGap dirChildren n is angleDelta).getD t 0 =
        angleDelta.getD t 0 + (is.map (fun i => if i = t then adj i else 0)).sum -
          (is.map (fun i => if succIndex n i = t then adj i else 0)).sum := by
  intro is
  induction is with
  | nil =>
    intro angleDelta _ hlen
    simp [accumulateAngleDelta, hlen]
  | cons i rest ih =>
    intro angleDelta his hlen
    have hi : i < n := his i (List.mem_cons_self _ _)
    have hn : 0 < n := by omega
    have hj : succIndex n i < n := succIndex_lt n i hn
    simp only [accumulateAngleDelta]
    have hadj' := hadj i
    unfold succIndex at hadj' hj
    rw [← hadj']
    have hlen1 : (angleDelta.set i (angleDelta.getD i 0 + adj i)).length = n := by
      simp [hlen]
    obtain ⟨r1, r2, r3⟩ := ih
      ((angleDelta.set i (angleDelta.getD i 0 + adj i)).set ((i + 1) % n)
        ((angleDelta.set i (angleDelta.getD i 0 + adj i)).getD ((i + 1) % n) 0 - adj i))
      (fun k hk => his k (List.mem_cons_of_mem _ hk)) (by simp [hlen])
    refine ⟨r1, ?_, ?_⟩
    · rw [r2, sum_set_rat _ _ _ (by rw [hlen1]; exact hj), sum_set_rat _ _ _ (by rw [hlen]; exact hi)]
      ring
    · intro t
      rw [r3 t, getD_set_rat _ _ _ _ (by rw [hlen1]; exact hj),
        getD_set_rat _ _ _ _ (by rw [hlen]; exact hi)]
      simp only [List.map_cons, List.sum_cons, succIndex]
      rw [getD_set_rat _ _ _ _ (by rw [hlen]; exact hi)]
      by_cases h1 : i = t
      · subst h1
        by_cases h2 : (i + 1) % n = i
        · rw [if_pos h2, if_pos rfl, if_pos h2, if_pos h2.symm]
          ring
        · rw [if_neg h2, if_pos rfl, if_pos rfl, if_neg h2]
          ring
      · by_cases h2 : (i + 1) % n = t
        · subst h2
          rw [if_pos rfl, if_neg h1, if_neg h1, if_pos rfl]
          ring
        · rw [if_neg h2, if_neg h1, if_neg h1, if_neg h2]
          ring

theorem angleDelta_closed_form (strength targetGap : ℚ) (sorted : List ChildData) :
    accumulateAngleDelta strength targetGap sorted sorted.length (List.range sorted.length)
        (List.replicate sorted.length 0) =
      (List.range sorted.length).map (netAdjustment strength sorted) ∧
    ((List.range sorted.length).map (netAdjustment strength sorted)).sum = 0 := by
  obtain ⟨h1, h2, h3⟩ := accumulateAngleDelta_spec strength targetGap sorted sorted.length
    (fun i => (1 / 2) * (wrapDiffPos ((sorted.getD (succIndex sorted.length i) default).angle -
      (sorted.getD i default).angle) - targetGap) * strength) (fun _ => rfl)
    (List.range sorted.length) (List.replicate sorted.length 0)
    (fun i hi => List.mem_range.mp hi) (by simp)
  have heq : accumulateAngleDelta strength targetGap sorted sorted.length
      (List.range sorted.length) (List.replicate sorted.length 0) =
      (List.range sorted.length).map (netAdjustment strength sorted) := by
    apply List.ext_getElem
    · rw [h1]
      simp
    · intro t ht1 ht2
      have ht : t < sorted.length := by rwa [h1] at ht1
      have hget := h3 t
      rw [List.getD_eq_getElem _ _ ht1] at hget
      rw [hget, sum_ite_eq_range, if_pos ht, sum_ite_succ_range _ _ _ ht]
      have hz : (List.replicate sorted.length (0 : ℚ)).getD t 0 = 0 := by
        simp [List.getD_eq_getElem?_getD, List.getElem?_replicate, ht]
      simp only [List.getElem_map, List.getElem_range, netAdjustment, gapAfter, gapBefore,
        succIndex_predIndex _ _ ht, hz]
      ring
  refine ⟨heq, ?_⟩
  rw [← heq, h2]
  simp

theorem sortByAngle_length (dc : List ChildData) : (sortByAngle dc).length = dc.length :=
  List.length_insertionSort _ _

theorem sortByAngle_perm (dc : List ChildData) : (sortByAngle dc).Perm dc :=
  List.perm_insertionSort _ _

theorem collectDirChildren_mem (m : Libm) (nodes : List Node) (parent : Node) :
    ∀ (l : List Int) (dc : List ChildData), collectDirChildren m nodes parent l = Except.ok dc →
      (dc.map ChildData.index).Sublist l ∧
      ∀ cd ∈ dc, ∃ child, nodeAt nodes cd.index = Except.ok child ∧
        child.kind = NodeKind.Directory ∧
        cd.angle = m.atan2 (child.py - parent.py) (child.px - parent.px) ∧
        cd.radius = m.sqrt ((child.px - parent.px) * (child.px - parent.px) +
          (child.py - parent.py) * (child.py - parent.py)) ∧
        1 / 100000 ≤ cd.radius := by
  intro l
  induction l with
  | nil =>
    intro dc h
    simp only [collectDirChildren, Except.ok.injEq] at h
    subst h
    exact ⟨List.Sublist.slnil, fun cd hcd => by simp at hcd⟩
  | cons c rest ih =>
    intro dc h
    simp only [collectDirChildren] at h
    cases hc : nodeAt nodes c with
    | error e => rw [hc] at h; cases h
    | ok node =>
      rw [hc] at h
      simp only at h
      cases ht : collectDirChildren m nodes parent rest with
      | error e => rw [ht] at h; cases h
      | ok tail =>
        rw [ht] at h
        simp only at h
        obtain ⟨hsub, hmem⟩ := ih tail ht
        by_cases hk : node.kind ≠ NodeKind.Directory
        · rw [if_pos hk] at h
          cases h
          exact ⟨hsub.cons _, hmem⟩
        · rw [if_neg hk] at h
          by_cases hr : m.sqrt ((node.px - parent.px) * (node.px - parent.px) +
              (node.py - parent.py) * (node.py - parent.py)) < 1 / 100000
          · rw [if_pos hr] at h
            cases h
            exact ⟨hsub.cons _, hmem⟩
          · rw [if_neg hr] at h
            cases h
            refine ⟨by simpa using hsub.cons₂ c, ?_⟩
            intro cd hcd
            rcases List.mem_cons.mp hcd with rfl | hcd
            · exact ⟨node, hc, by simpa using hk, rfl, rfl, not_lt.mp hr⟩
            · exact hmem cd hcd

theorem equalizeParent_many (m : Libm) (strength : ℚ) (nodes : List Node) (parentIndex : Nat)
    (parent : Node) (dc : List ChildData) (hparent : nodes[parentIndex]? = some parent)
    (hpk : parent.kind = NodeKind.Directory)
    (hdc : collectDirChildren m nodes parent parent.children = Except.ok dc)
    (hn : 2 ≤ dc.length) :
    equalizeParent m strength nodes parentIndex =
      moveChildren m nodes ((sortByAngle dc).zip
        ((List.range dc.length).map (netAdjustment strength (sortByAngle dc)))) := by
  unfold equalizeParent
  simp only [hparent]
  rw [if_neg (by simp [hpk]), hdc]
  simp only
  have hcf := (angleDelta_closed_form strength (twoPi / (dc.length : ℚ)) (sortByAngle dc)).1
  rw [sortByAngle_length] at hcf
  cases dc with
  | nil => simp at hn
  | cons a t =>
    cases t with
    | nil => simp at hn
    | cons b t2 =>
      simp only
      rw [← hcf]
      rfl

theorem moveChildren_zero (m : Libm) :
    ∀ (pairs : List (ChildData × ℚ)) (nodes : List Node),
      (∀ p ∈ pairs, p.2 = 0 ∧ ∃ child, nodeAt nodes p.1.index = Except.ok child) →
      moveChildren m nodes pairs = Except.ok nodes := by
  intro pairs
  induction pairs with
  | nil => intro nodes _; rfl
  | cons p rest ih =>
    intro nodes h
    obtain ⟨cd, delta⟩ := p
    obtain ⟨hz, child, hchild⟩ := h (cd, delta) (List.mem_cons_self _ _)
    simp only at hz hchild
    subst hz
    simp only [moveChildren, hchild, mul_zero, add_zero]
    have hsame : ({ child with px := child.px, py := child.py } : Node) = child := rfl
    rw [hsame, set_self_of_getElem? nodes _ child (nodeAt_ok hchild).2]
    simp only [ite_self]
    exact ih nodes (fun q hq => h q (List.mem_cons_of_mem _ hq))

/-- The node that the last loop of `EqualizeChildAngles` writes for `child`. -/
theorem moveChildren_spec (m : Libm) :
    ∀ (pairs : List (ChildData × ℚ)) (nodes : List Node),
      (pairs.map (fun p => p.1.index)).Nodup →
      (∀ p ∈ pairs, 0 ≤ p.1.index ∧ p.1.index < (nodes.length : Int)) →
      ∃ nodes1, moveChildren m nodes pairs = Except.ok nodes1 ∧ nodes1.length = nodes.length ∧
        (∀ p ∈ pairs, ∀ child, nodeAt nodes p.1.index = Except.ok child →
          nodeAt nodes1 p.1.index = Except.ok
            (if child.fixed then child
             else child.placeAt (child.px + -(m.sin p.1.angle) * (p.1.radius * p.2))
               (child.py + m.cos p.1.angle * (p.1.radius * p.2)))) ∧
        (∀ i : Nat, (∀ p ∈ pairs, p.1.index.toNat ≠ i) → nodes1[i]? = nodes[i]?) := by
  intro pairs
  induction pairs with
  | nil =>
    intro nodes _ _
    exact ⟨nodes, rfl, rfl, fun p hp => by simp at hp, fun _ _ => rfl⟩
  | cons p rest ih =>
    intro nodes hnd hr
    obtain ⟨cd, delta⟩ := p
    simp only [List.map_cons, List.nodup_cons, List.mem_map, not_exists, not_and] at hnd
    obtain ⟨hnot, hnd2⟩ := hnd
    obtain ⟨h0, h1⟩ := hr (cd, delta) (List.mem_cons_self _ _)
    simp only at h0 h1
    obtain ⟨child, hchild⟩ := nodeAt_in_range nodes cd.index h0 h1
    have hcg := (nodeAt_ok hchild).2
    have hlt : cd.index.toNat < nodes.length := by omega
    generalize hnew : (if child.fixed then child
        else child.placeAt (child.px + -(m.sin cd.angle) * (cd.radius * delta))
          (child.py + m.cos cd.angle * (cd.radius * delta))) = child1
    have hstep : moveChildren m nodes ((cd, delta) :: rest) =
        moveChildren m (nodes.set cd.index.toNat child1) rest := by
      simp only [moveChildren, hchild]
      rw [← hnew]
      by_cases hf : child.fixed = true
      · rw [if_pos hf, if_pos hf, set_self_of_getElem? nodes _ child hcg]
      · rw [if_neg hf, if_neg hf]
        rfl
    obtain ⟨nodes1, hrun, hlen, hmoved, hother⟩ := ih (nodes.set cd.index.toNat child1) hnd2
      (fun q hq => by
        rw [List.length_set]
        exact hr q (List.mem_cons_of_mem _ hq))
    refine ⟨nodes1, by rw [hstep, hrun], by rw [hlen, List.length_set], ?_, ?_⟩
    · intro q hq c hc
      rcases List.mem_cons.mp hq with rfl | hq
      · simp only at hc ⊢
        rw [hchild] at hc
        cases hc
        apply nodeAt_of_getElem? h0
        rw [hother cd.index.toNat, List.getElem?_set_eq_of_lt _ hlt, hnew]
        intro q hq heq
        have hq0 := (hr q (List.mem_cons_of_mem _ hq)).1
        exact hnot q hq (by omega)
      · have hq0 := (hr q (List.mem_cons_of_mem _ hq)).1
        have hne : cd.index.toNat ≠ q.1.index.toNat := by
          intro heq
          exact hnot q hq (by omega)
        apply hmoved q hq c
        apply nodeAt_of_getElem? hq0
        rw [List.getElem?_set_ne hne]
        exact (nodeAt_ok hc).2
    · intro i hi
      rw [hother i (fun q hq => hi q (List.mem_cons_of_mem _ hq)),
        List.getElem?_set_ne (hi (cd, delta) (List.mem_cons_self _ _))]

theorem zip_map_index (sorted : List ChildData) (deltas : List ℚ)
    (hlen : sorted.length = deltas.length) :
    (sorted.zip deltas).map (fun p => p.1.index) = sorted.map ChildData.index := by
  have h := List.map_fst_zip sorted deltas (by omega)
  have h2 : (sorted.zip deltas).map (fun p => p.1.index) =
      ((sorted.zip deltas).map Prod.fst).map ChildData.index := by
    rw [List.map_map]
    rfl
  rw [h2, h]

theorem tangent_orthogonal (s c r delta : ℚ) :
    (-s * (r * delta)) * (r * c) + (c * (r * delta)) * (r * s) = 0 := by
  ring

/-- The step of one parent: for a directory with `n >= 2` collected directory children, taken in the sorted order
of `EqualizeChildAngles`, the array `angleDelta` that the accumulation loop builds holds for
child `i` the value `0.5 * strength * (gap from child i to its successor - gap from its
predecessor to child i)`, whatever the target gap is (so also for the code's `2 pi / n`); these
values sum to zero; and, the children list having no repeated id, the step of this parent
returns with every non-fixed collected child moved by `radius * angleDelta` along
`(-sin angle, cos angle)`, fixed children and all other nodes unchanged. That displacement is
orthogonal to `radius * (cos angle, sin angle)`, hence to the parent->child vector whenever
`sin`, `cos` and `atan2` give that vector back as `radius * (cos angle, sin angle)`. -/
theorem angle_adjustment_formula (m : Libm) (strength : ℚ) (nodes : List Node)
    (parentIndex : Nat) (parent : Node) (dc : List ChildData)
    (hparent : nodes[parentIndex]? = some parent) (hpk : parent.kind = NodeKind.Directory)
    (hdc : collectDirChildren m nodes parent parent.children = Except.ok dc)
    (hn : 2 ≤ dc.length) (hnodup : parent.children.Nodup) :
    (∀ targetGap : ℚ,
      accumulateAngleDelta strength targetGap (sortByAngle dc) dc.length (List.range dc.length)
          (List.replicate dc.length 0) =
        (List.range dc.length).map (netAdjustment strength (sortByAngle dc))) ∧
    ((List.range dc.length).map (netAdjustment strength (sortByAngle dc))).sum = 0 ∧
    ∃ nodes1, equalizeParent m strength nodes parentIndex = Except.ok nodes1 ∧
      nodes1.length = nodes.length ∧
      (∀ (i : Nat) (cd : ChildData), (sortByAngle dc)[i]? = some cd →
        ∃ child, nodeAt nodes cd.index = Except.ok child ∧
          child.kind = NodeKind.Directory ∧
          cd.angle = m.atan2 (child.py - parent.py) (child.px - parent.px) ∧
          cd.radius = m.sqrt ((child.px - parent.px) * (child.px - parent.px) +
            (child.py - parent.py) * (child.py - parent.py)) ∧
          nodeAt nodes1 cd.index = Except.ok
            (if child.fixed then child
             else child.placeAt
               (child.px + -(m.sin cd.angle) *
                 (cd.radius * netAdjustment strength (sortByAngle dc) i))
               (child.py + m.cos cd.angle *
                 (cd.radius * netAdjustment strength (sortByAngle dc) i))) ∧
          (-(m.sin cd.angle) * (cd.radius * netAdjustment strength (sortByAngle dc) i)) *
              (cd.radius * m.cos cd.angle) +
            (m.cos cd.angle * (cd.radius * netAdjustment strength (sortByAngle dc) i)) *
              (cd.radius * m.sin cd.angle) = 0 ∧
          (cd.radius * m.cos cd.angle = child.px - parent.px →
            cd.radius * m.sin cd.angle = child.py - parent.py →
            (-(m.sin cd.angle) * (cd.radius * netAdjustment strength (sortByAngle dc) i)) *
                (child.px - parent.px) +
              (m.cos cd.angle * (cd.radius * netAdjustment strength (sortByAngle dc) i)) *
                (child.py - parent.py) = 0)) ∧
      (∀ j : Nat, (∀ cd ∈ dc, cd.index.toNat ≠ j) → nodes1[j]? = nodes[j]?) := by
  have hsl := sortByAngle_length dc
  obtain ⟨hsub, hmem⟩ := collectDirChildren_mem m nodes parent parent.children dc hdc
  have hcf : ∀ targetGap : ℚ,
      accumulateAngleDelta strength targetGap (sortByAngle dc) dc.length (List.range dc.length)
          (List.replicate dc.length 0) =
        (List.range dc.length).map (netAdjustment strength (sortByAngle dc)) := by
    intro targetGap
    have h := (angleDelta_closed_form strength targetGap (sortByAngle dc)).1
    rwa [hsl] at h
  have hsum : ((List.range dc.length).map (netAdjustment strength (sortByAngle dc))).sum = 0 := by
    have h := (angleDelta_closed_form strength 0 (sortByAngle dc)).2
    rwa [hsl] at h
  refine ⟨hcf, hsum, ?_⟩
  have hlen : (sortByAngle dc).length =
      ((List.range dc.length).map (netAdjustment strength (sortByAngle dc))).length := by
    simp [hsl]
  have hnd : (((sortByAngle dc).zip
      ((List.range dc.length).map (netAdjustment strength (sortByAngle dc)))).map
      (fun p => p.1.index)).Nodup := by
    rw [zip_map_index _ _ hlen]
    exact ((sortByAngle_perm dc).map ChildData.index).nodup_iff.mpr (hsub.nodup hnodup)
  have hsorted_mem : ∀ cd ∈ sortByAngle dc, cd ∈ dc :=
    fun cd h => (sortByAngle_perm dc).mem_iff.mp h
  have hrange : ∀ p ∈ (sortByAngle dc).zip
      ((List.range dc.length).map (netAdjustment strength (sortByAngle dc))),
      0 ≤ p.1.index ∧ p.1.index < (nodes.length : Int) := by
    intro p hp
    obtain ⟨child, hchild, _⟩ := hmem p.1 (hsorted_mem p.1 (List.of_mem_zip hp).1)
    obtain ⟨h0, hg⟩ := nodeAt_ok hchild
    have := (List.getElem?_eq_some.mp hg).1
    omega
  obtain ⟨nodes1, hrun, hlen1, hmoved, hother⟩ := moveChildren_spec m _ nodes hnd hrange
  refine ⟨nodes1, ?_, hlen1, ?_, ?_⟩
  · rw [equalizeParent_many m strength nodes parentIndex parent dc hparent hpk hdc hn]
    exact hrun
  · intro i cd hi
    have hilt : i < (sortByAngle dc).length := (List.getElem?_eq_some.mp hi).1
    obtain ⟨child, hchild, hk, ha, hr, _⟩ := hmem cd (hsorted_mem cd (List.getElem?_mem hi))
    have hpair : (cd, netAdjustment strength (sortByAngle dc) i) ∈ (sortByAngle dc).zip
        ((List.range dc.length).map (netAdjustment strength (sortByAngle dc))) := by
      apply List.getElem?_mem (n := i)
      rw [List.getElem?_zip_eq_some]
      refine ⟨hi, ?_⟩
      simp only [List.getElem?_map]
      rw [List.getElem?_range (by omega)]
      rfl
    refine ⟨child, hchild, hk, ha, hr, hmoved _ hpair child hchild, by ring, ?_⟩
    intro hc hs
    rw [← hc, ← hs]
    ring
  · intro j hj
    apply hother
    intro p hp
    exact hj p.1 (hsorted_mem p.1 (List.of_mem_zip hp).1)

theorem angle_adjustment_formula_witness :
    ((List.range 3).map (netAdjustment (1 / 10) (sortByAngle fanChildren))).sum = 0 ∧
    netAdjustment (1 / 10) (sortByAngle fanChildren) 0 = -(onePi / 40) ∧
    netAdjustment (1 / 10) (sortByAngle fanChildren) 1 = 0 ∧
    netAdjustment (1 / 10) (sortByAngle fanChildren) 2 = onePi / 40 ∧
    ∃ nodes1, equalizeParent libmQ (1 / 10) fanGraph.nodes 0 = Except.ok nodes1 ∧
      nodeAt nodes1 1 = Except.ok ((leafDirectory 1 "a" 100 0).placeAt 100 (-(onePi * 5 / 2))) ∧
      nodeAt nodes1 2 = Except.ok (leafDirectory 2 "b" 0 50) ∧
      nodeAt nodes1 3 = Except.ok ((leafDirectory 3 "c" (-100) 0).placeAt (-100) (-(onePi * 5 / 2))) := by
  have hdc : collectDirChildren libmQ fanGraph.nodes (hubDirectory [1, 2, 3])
      (hubDirectory [1, 2, 3]).children = Except.ok fanChildren :=
    eq_ok_of_toOption (by decide!)
  obtain ⟨_, hsum, nodes1, hrun, _, hmoved, _⟩ :=
    angle_adjustment_formula libmQ (1 / 10) fanGraph.nodes 0 (hubDirectory [1, 2, 3]) fanChildren
      rfl rfl hdc (by decide) (by decide)
  refine ⟨hsum, by decide!, by decide!, by decide!, nodes1, hrun, ?_, ?_, ?_⟩
  · obtain ⟨child, hchild, _, _, _, h, _⟩ := hmoved 0 _ (show (sortByAngle fanChildren)[0]? =
      some { index := 1, angle := 0, radius := 100 } by decide!)
    cases hchild
    rw [h]
    exact congrArg Except.ok (by decide!)
  · obtain ⟨child, hchild, _, _, _, h, _⟩ := hmoved 1 _ (show (sortByAngle fanChildren)[1]? =
      some { index := 2, angle := onePi / 2, radius := 50 } by decide!)
    cases hchild
    rw [h]
    exact congrArg Except.ok (by decide!)
  · obtain ⟨child, hchild, _, _, _, h, _⟩ := hmoved 2 _ (show (sortByAngle fanChildren)[2]? =
      some { index := 3, angle := onePi, radius := 100 } by decide!)
    cases hchild
    rw [h]
    exact congrArg Except.ok (by decide!)

theorem addWhileLe_spec (bound step : ℚ) :
    ∀ (fuel : Nat) (d : ℚ), bound - d < fuel * step →
      ∃ n : Nat, addWhileLe fuel bound step d = d + n * step ∧
        bound < addWhileLe fuel bound step d ∧
        (bound < d → addWhileLe fuel bound step d = d) ∧
        (d ≤ bound → addWhileLe fuel bound step d ≤ bound + step) := by
  intro fuel
  induction fuel with
  | zero =>
    intro d h
    simp only [Nat.cast_zero, zero_mul] at h
    refine ⟨0, by simp [addWhileLe], by simp only [addWhileLe]; linarith, fun _ => rfl, ?_⟩
    intro hb
    linarith
  | succ fuel ih =>
    intro d h
    simp only [addWhileLe]
    split
    · rename_i hle
      have h' : bound - (d + step) < fuel * step := by
        push_cast at h
        linarith
      obtain ⟨n, h1, h2, h3, h4⟩ := ih (d + step) h'
      refine ⟨n + 1, by rw [h1]; push_cast; ring, h2, fun hlt => absurd hle (not_le.mpr hlt), ?_⟩
      intro _
      by_cases hc : bound < d + step
      · rw [h3 hc]
        linarith
      · exact h4 (not_lt.mp hc)
    · rename_i hgt
      exact ⟨0, by simp, not_le.mp hgt, fun _ => rfl, fun hb => absurd hb hgt⟩

theorem wrapDiffPos_spec (x : ℚ) :
    (∃ k : Int, wrapDiffPos x = x + k * twoPi) ∧ 0 < wrapDiffPos x ∧ wrapDiffPos x ≤ twoPi := by
  unfold wrapDiffPos
  simp only
  have f1 : 0 - x < (wrapFuel x : ℚ) * twoPi := by
    have := wrapFuel_enough x
    have := neg_abs_le x
    have := twoPi_pos
    linarith
  obtain ⟨n1, e1, b1, k1, l1⟩ := addWhileLe_spec 0 twoPi (wrapFuel x) x f1
  generalize addWhileLe (wrapFuel x) 0 twoPi x = d1 at e1 b1 k1 l1
  have f2 : d1 - twoPi < (wrapFuel d1 : ℚ) * twoPi := by
    have := wrapFuel_enough d1
    have := le_abs_self d1
    have := twoPi_pos
    linarith
  obtain ⟨n2, e2, b2, k2, l2⟩ := subWhileGt_spec twoPi twoPi (wrapFuel d1) d1 f2
  refine ⟨⟨(n1 : Int) - (n2 : Int), ?_⟩, ?_, b2⟩
  · rw [e2, e1]
    push_cast
    ring
  · by_cases hc : d1 ≤ twoPi
    · rw [k2 hc]
      exact b1
    · have := l2 (not_le.mp hc)
      linarith

theorem wrapDiffPos_unique (x y : ℚ) (k : Int) (hy : y = x + k * twoPi) (h0 : 0 < y)
    (h1 : y ≤ twoPi) : wrapDiffPos x = y := by
  obtain ⟨⟨j, hj⟩, hlo, hhi⟩ := wrapDiffPos_spec x
  have hdiff : wrapDiffPos x - y = ((j - k : Int) : ℚ) * twoPi := by
    rw [hj, hy]
    push_cast
    ring
  have hz : j - k = 0 := by
    by_contra hne
    rcases lt_or_gt_of_ne hne with hlt | hgt
    · have h2 : ((j - k : Int) : ℚ) ≤ -1 := by exact_mod_cast (show j - k ≤ -1 by omega)
      have := twoPi_pos
      nlinarith
    · have h2 : (1 : ℚ) ≤ ((j - k : Int) : ℚ) := by exact_mod_cast (show 1 ≤ j - k by omega)
      have := twoPi_pos
      nlinarith
  rw [hz] at hdiff
  simp only [Int.cast_zero, zero_mul] at hdiff
  linarith

theorem gapBefore_eq_gapAfter (sorted : List ChildData) (i : Nat) (hi : i < sorted.length) :
    gapBefore sorted i = gapAfter sorted (predIndex sorted.length i) := by
  unfold gapBefore gapAfter
  rw [succIndex_predIndex _ _ hi]

theorem equal_gaps_angles (sorted : List ChildData) (gap : ℚ)
    (hgap : ∀ i, i + 1 < sorted.length →
      (sorted.getD (i + 1) default).angle - (sorted.getD i default).angle = gap) :
    ∀ i, i < sorted.length →
      (sorted.getD i default).angle = (sorted.getD 0 default).angle + i * gap := by
  intro i
  induction i with
  | zero => intro _; simp
  | succ i ih =>
    intro hi
    have h1 := hgap i hi
    have h2 := ih (by omega)
    push_cast
    linarith

theorem equal_gaps_gapAfter (sorted : List ChildData) (hn : 2 ≤ sorted.length)
    (hgap : ∀ i, i + 1 < sorted.length →
      (sorted.getD (i + 1) default).angle - (sorted.getD i default).angle =
        twoPi / (sorted.length : ℚ)) :
    ∀ i, i < sorted.length → gapAfter sorted i = twoPi / (sorted.length : ℚ) := by
  intro i hi
  have hnpos : (0 : ℚ) < (sorted.length : ℚ) := by exact_mod_cast (show 0 < sorted.length by omega)
  have hgpos : 0 < twoPi / (sorted.length : ℚ) := div_pos twoPi_pos hnpos
  have hgle : twoPi / (sorted.length : ℚ) ≤ twoPi := by
    apply div_le_self twoPi_pos.le
    exact_mod_cast (show 1 ≤ sorted.length by omega)
  unfold gapAfter succIndex
  by_cases h1 : i + 1 < sorted.length
  · rw [Nat.mod_eq_of_lt h1, hgap i h1]
    exact wrapDiffPos_unique _ _ 0 (by simp) hgpos hgle
  · have hi1 : i + 1 = sorted.length := by omega
    rw [hi1, Nat.mod_self, equal_gaps_angles sorted _ hgap i hi]
    apply wrapDiffPos_unique _ _ 1 _ hgpos hgle
    have hc : (i : ℚ) = (sorted.length : ℚ) - 1 := by
      rw [← hi1]
      push_cast
      ring
    rw [hc]
    field_simp
    ring

theorem equal_gaps_netAdjustment (strength : ℚ) (sorted : List ChildData)
    (hn : 2 ≤ sorted.length)
    (hgap : ∀ i, i + 1 < sorted.length →
      (sorted.getD (i + 1) default).angle - (sorted.getD i default).angle =
        twoPi / (sorted.length : ℚ)) :
    ∀ i, i < sorted.length → netAdjustment strength sorted i = 0 := by
  intro i hi
  unfold netAdjustment
  rw [gapBefore_eq_gapAfter sorted i hi, equal_gaps_gapAfter sorted hn hgap i hi,
    equal_gaps_gapAfter sorted hn hgap _ (predIndex_lt _ _ (by omega))]
  ring

theorem equalizeParent_no_children (m : Libm) (strength : ℚ) (nodes : List Node) (j : Nat)
    (n : Node) (hj : nodes[j]? = some n) (hc : n.children = []) :
    equalizeParent m strength nodes j = Except.ok nodes := by
  unfold equalizeParent
  simp only [hj, hc, collectDirChildren]
  split <;> rfl

theorem equalizeParents_fixed (m : Libm) (strength : ℚ) (nodes : List Node) :
    ∀ l : List Nat, (∀ j ∈ l, equalizeParent m strength nodes j = Except.ok nodes) →
      equalizeParents m strength nodes l = Except.ok nodes := by
  intro l
  induction l with
  | nil => intro _; rfl
  | cons j rest ih =>
    intro h
    simp only [equalizeParents, h j (List.mem_cons_self _ _)]
    exact ih (fun k hk => h k (List.mem_cons_of_mem _ hk))

theorem star_pass_fixed (m : Libm) (cfg : Config) (g : Graph) (parentIndex : Nat)
    (hstep : equalizeParent m cfg.physics.dir_children_angle_strength g.nodes parentIndex =
      Except.ok g.nodes)
    (hleaf : ∀ (j : Nat) (n : Node), g.nodes[j]? = some n → j ≠ parentIndex → n.children = []) :
    EqualizeChildAngles m cfg g = Except.ok g := by
  unfold EqualizeChildAngles
  simp only
  split
  · rfl
  · split
    · rfl
    · rw [equalizeParents_fixed m _ g.nodes (List.range g.nodes.length)]
      intro j hj
      by_cases hjp : j = parentIndex
      · rw [hjp]
        exact hstep
      · have hlt : j < g.nodes.length := List.mem_range.mp hj
        exact equalizeParent_no_children m _ g.nodes j _ (List.getElem?_eq_getElem hlt)
          (hleaf j _ (List.getElem?_eq_getElem hlt) hjp)

/-- In exact arithmetic: for a directory whose collected directory children (the Directory children
at a distance of at least `0.00001` from it, `n >= 2` of them), taken in the sorted order of
`EqualizeChildAngles`, have every adjacent difference of angles equal to `2 pi / n`, with
`2 pi` the constant `6.28318530718` of the code: every gap, the one
from the last child round to the first included, is `2 pi / n`, every net adjustment is zero,
and the step of this directory returns the node sequence unchanged, for every strength. When
no other node has children (the directory and its children are the whole tree), one whole
`EqualizeChildAngles` pass returns the graph unchanged, so the gaps and their variance are
what they were. -/
theorem equal_spacing_fixed_point (m : Libm) (cfg : Config) (g : Graph)
    (parentIndex : Nat) (parent : Node) (dc : List ChildData)
    (hparent : g.nodes[parentIndex]? = some parent) (hpk : parent.kind = NodeKind.Directory)
    (hdc : collectDirChildren m g.nodes parent parent.children = Except.ok dc)
    (hn : 2 ≤ dc.length)
    (hgap : ∀ i, i + 1 < dc.length →
      ((sortByAngle dc).getD (i + 1) default).angle - ((sortByAngle dc).getD i default).angle =
        twoPi / (dc.length : ℚ)) :
    (∀ i, i < dc.length → gapAfter (sortByAngle dc) i = twoPi / (dc.length : ℚ) ∧
      gapBefore (sortByAngle dc) i = twoPi / (dc.length : ℚ) ∧
      netAdjustment cfg.physics.dir_children_angle_strength (sortByAngle dc) i = 0) ∧
    equalizeParent m cfg.physics.dir_children_angle_strength g.nodes parentIndex =
      Except.ok g.nodes ∧
    ((∀ (j : Nat) (n : Node), g.nodes[j]? = some n → j ≠ parentIndex → n.children = []) →
      EqualizeChildAngles m cfg g = Except.ok g) := by
  have hsl := sortByAngle_length dc
  have hn' : 2 ≤ (sortByAngle dc).length := by rw [hsl]; exact hn
  have hgap' : ∀ i, i + 1 < (sortByAngle dc).length →
      ((sortByAngle dc).getD (i + 1) default).angle - ((sortByAngle dc).getD i default).angle =
        twoPi / ((sortByAngle dc).length : ℚ) := by
    rw [hsl]
    exact hgap
  have hzero : ∀ i, i < dc.length →
      netAdjustment cfg.physics.dir_children_angle_strength (sortByAngle dc) i = 0 := by
    intro i hi
    exact equal_gaps_netAdjustment _ (sortByAngle dc) hn' hgap' i (by rw [hsl]; exact hi)
  have hstep : equalizeParent m cfg.physics.dir_children_angle_strength g.nodes parentIndex =
      Except.ok g.nodes := by
    rw [equalizeParent_many m _ g.nodes parentIndex parent dc hparent hpk hdc hn]
    apply moveChildren_zero
    intro p hp
    obtain ⟨hp1, hp2⟩ := List.of_mem_zip hp
    obtain ⟨hsub, hmem⟩ := collectDirChildren_mem m g.nodes parent parent.children dc hdc
    obtain ⟨child, hchild, _⟩ := hmem p.1 ((sortByAngle_perm dc).mem_iff.mp hp1)
    refine ⟨?_, child, hchild⟩
    obtain ⟨i, hi, hpi⟩ := List.mem_map.mp hp2
    rw [← hpi]
    exact hzero i (List.mem_range.mp hi)
  refine ⟨?_, hstep, fun hleaf => star_pass_fixed m cfg g parentIndex hstep hleaf⟩
  intro i hi
  have hi' : i < (sortByAngle dc).length := by rw [hsl]; exact hi
  have h1 := equal_gaps_gapAfter (sortByAngle dc) hn' hgap' i hi'
  have h2 := equal_gaps_gapAfter (sortByAngle dc) hn' hgap' _
    (predIndex_lt (sortByAngle dc).length i (by omega))
  rw [← gapBefore_eq_gapAfter (sortByAngle dc) i hi', hsl] at h2
  rw [hsl] at h1
  exact ⟨h1, h2, hzero i hi⟩

theorem AddDirectory_adds (fuel : Nat) (g : Graph) (path name : String) (parentDir : Int)
    (hinv : GraphInv g) (hv : validParent g parentDir = true) (hf : g.nodes.length ≤ fuel) :
    ∃ g1 id, AddDirectory fuel g path name parentDir = Except.ok (g1, id) ∧
      (g1.nodes = g.nodes ∨ ∃ nd, Adds g.nodes g1.nodes nd ∧ nd.parent_dir = parentDir) := by
  cases hfind : mapFind g.pathToNode path with
  | some id =>
    exact ⟨g, id, AddDirectory_of_find fuel g path name parentDir id hfind, Or.inl rfl⟩
  | none =>
    have hp := validParent_lt hinv.ids parentDir hv
    obtain ⟨nodes1, hrun, hlen, hlast, hold⟩ :=
      AddDirectory_new_spec fuel g path name parentDir hinv.parents hfind hp hf
    refine ⟨_, _, hrun, Or.inr ⟨newDirectoryNode (g.nodes.length : Int) path name parentDir,
      ⟨hlen, hlast, rfl, hp, ?_⟩, rfl⟩⟩
    intro i n hi
    exact ⟨_, hold i n hi, rfl, rfl, rfl⟩

theorem AddFile_adds (g : Graph) (path name : String) (parentDir : Int)
    (hinv : GraphInv g) (hv : validParent g parentDir = true) :
    ∃ g1 id, AddFile g path name parentDir = Except.ok (g1, id) ∧
      (g1.nodes = g.nodes ∨ ∃ nd, Adds g.nodes g1.nodes nd ∧ nd.parent_dir = parentDir) := by
  cases hfind : mapFind g.pathToNode path with
  | some id =>
    exact ⟨g, id, AddFile_of_find g path name parentDir id hfind, Or.inl rfl⟩
  | none =>
    have hp := validParent_lt hinv.ids parentDir hv
    obtain ⟨nodes1, hrun, hlen, hlast, hold⟩ :=
      AddFile_new_spec g path name parentDir hfind hp
    refine ⟨_, _, hrun, Or.inr ⟨newFileNode (g.nodes.length : Int) path name parentDir,
      ⟨hlen, hlast, rfl, hp, ?_⟩, rfl⟩⟩
    intro i n hi
    exact ⟨_, hold i n hi, rfl, rfl, rfl⟩

theorem applyOp_adds (fuel : Nat) (g : Graph) (op : GraphOp) (hinv : GraphInv g)
    (hv : opParentValid g op = true) (hf : g.nodes.length ≤ fuel) :
    ∃ g1, applyOp fuel g op = Except.ok g1 ∧
      (g1.nodes = g.nodes ∨ ∃ nd, Adds g.nodes g1.nodes nd ∧ nd.parent_dir = opParent op) := by
  cases op with
  | addDirectory path name parentDir =>
    obtain ⟨g1, id, hrun, h⟩ := AddDirectory_adds fuel g path name parentDir hinv hv hf
    exact ⟨g1, by simp [applyOp, hrun, Except.map], h⟩
  | addFile path name parentDir =>
    obtain ⟨g1, id, hrun, h⟩ := AddFile_adds g path name parentDir hinv hv
    exact ⟨g1, by simp [applyOp, hrun, Except.map], h⟩
  | findOrAddDirectory path parentDir =>
    obtain ⟨g1, id, hrun, h⟩ :=
      AddDirectory_adds fuel g path (lastSegment path) parentDir hinv hv hf
    refine ⟨g1, ?_, h⟩
    cases hfind : mapFind g.pathToNode path with
    | some id0 =>
      have := AddDirectory_of_find fuel g path (lastSegment path) parentDir id0 hfind
      rw [this] at hrun
      cases hrun
      simp [applyOp, FindOrAddDirectory, hfind, Except.map]
    | none => simp [applyOp, FindOrAddDirectory, hfind, hrun, Except.map]
  | findOrAddFile path parentDir =>
    obtain ⟨g1, id, hrun, h⟩ := AddFile_adds g path (lastSegment path) parentDir hinv hv
    refine ⟨g1, ?_, h⟩
    cases hfind : mapFind g.pathToNode path with
    | some id0 =>
      have := AddFile_of_find g path (lastSegment path) parentDir id0 hfind
      rw [this] at hrun
      cases hrun
      simp [applyOp, FindOrAddFile, hfind, Except.map]
    | none => simp [applyOp, FindOrAddFile, hfind, hrun, Except.map]
  | addLink a b r s =>
    exact ⟨AddLink g a b r s, rfl, Or.inl (AddLink_nodes g a b r s)⟩

theorem childrenOf_top {nodes : List Node} (hpb : ParentsBelow nodes) (p : Int)
    (hp : (nodes.length : Int) ≤ p + 1) : childrenOf nodes p = [] := by
  unfold childrenOf
  rw [List.map_eq_nil_iff, List.filter_eq_nil_iff]
  intro c hc
  have hlt : c < nodes.length := List.mem_range.mp hc
  have := hpb c _ (List.getElem?_eq_getElem hlt)
  simp only [List.getElem?_eq_getElem hlt, Option.map_some', Option.some.injEq,
    decide_eq_true_eq]
  omega

theorem childrenOf_adds {nodes nodes1 : List Node} {nd : Node} (h : Adds nodes nodes1 nd)
    (p : Int) :
    childrenOf nodes1 p =
      childrenOf nodes p ++ (if nd.parent_dir = p then [(nodes.length : Int)] else []) := by
  unfold childrenOf
  rw [h.length_eq, List.range_succ, List.filter_append, List.map_append]
  congr 1
  · congr 1
    apply List.filter_congr
    intro c hc
    have hlt : c < nodes.length := List.mem_range.mp hc
    obtain ⟨n1, h1, _, hp1, _⟩ := h.old c _ (List.getElem?_eq_getElem hlt)
    rw [h1, List.getElem?_eq_getElem hlt]
    simp [hp1]
  · simp only [List.filter_cons, List.filter_nil, h.last, Option.map_some', Option.some.injEq,
      decide_eq_true_eq]
    split <;> rfl

theorem ChildrenOk_adds {nodes nodes1 : List Node} {nd : Node} (h : Adds nodes nodes1 nd)
    (hpb : ParentsBelow nodes) (hc : ChildrenOk nodes) : ChildrenOk nodes1 := by
  intro i x hi
  rw [childrenOf_adds h]
  by_cases hlt : i < nodes.length
  · obtain ⟨n1, h1, _, _, hch⟩ := h.old i _ (List.getElem?_eq_getElem hlt)
    rw [h1] at hi
    cases hi
    rw [hch, hc i _ (List.getElem?_eq_getElem hlt)]
    by_cases hip : (i : Int) = nd.parent_dir
    · rw [if_pos hip, if_pos hip.symm]
    · rw [if_neg hip, if_neg (fun e => hip e.symm), List.append_nil]
  · have heq : i = nodes.length := by
      by_contra hne
      rw [List.getElem?_eq_none (by rw [h.length_eq]; omega)] at hi
      cases hi
    subst heq
    rw [h.last] at hi
    cases hi
    have hpl := h.parent_lt
    rw [h.children_nil, childrenOf_top hpb _ (by omega), if_neg (by omega)]
    rfl

theorem ParentsExist_adds {nodes nodes1 : List Node} {nd : Node} (h : Adds nodes nodes1 nd)
    (hnd : nd.parent_dir = -1 ∨ 0 ≤ nd.parent_dir) (hp : ParentsExist nodes) :
    ParentsExist nodes1 := by
  intro i x hi
  by_cases hlt : i < nodes.length
  · obtain ⟨n1, h1, _, hp1, _⟩ := h.old i _ (List.getElem?_eq_getElem hlt)
    rw [h1] at hi
    cases hi
    rw [hp1]
    exact hp i _ (List.getElem?_eq_getElem hlt)
  · have heq : i = nodes.length := by
      by_contra hne
      rw [List.getElem?_eq_none (by rw [h.length_eq]; omega)] at hi
      cases hi
    subst heq
    rw [h.last] at hi
    cases hi
    exact hnd

theorem DirParents_adds {nodes nodes1 : List Node} {nd : Node} (h : Adds nodes nodes1 nd)
    (hnd : 0 ≤ nd.parent_dir →
      ∃ q, nodes[nd.parent_dir.toNat]? = some q ∧ q.kind = NodeKind.Directory)
    (hp : DirParents nodes) : DirParents nodes1 := by
  have hold : ∀ (p : Int), 0 ≤ p →
      (∃ q, nodes[p.toNat]? = some q ∧ q.kind = NodeKind.Directory) →
      ∃ q, nodes1[p.toNat]? = some q ∧ q.kind = NodeKind.Directory := by
    intro p _ hq
    obtain ⟨q, hq1, hq2⟩ := hq
    obtain ⟨q1, h1, hk, _, _⟩ := h.old _ q hq1
    exact ⟨q1, h1, by rw [hk, hq2]⟩
  intro i x hi h0
  by_cases hlt : i < nodes.length
  · obtain ⟨n1, h1, _, hp1, _⟩ := h.old i _ (List.getElem?_eq_getElem hlt)
    rw [h1] at hi
    cases hi
    rw [hp1] at h0 ⊢
    exact hold _ h0 (hp i _ (List.getElem?_eq_getElem hlt) h0)
  · have heq : i = nodes.length := by
      by_contra hne
      rw [List.getElem?_eq_none (by rw [h.length_eq]; omega)] at hi
      cases hi
    subst heq
    rw [h.last] at hi
    cases hi
    exact hold _ h0 (hnd h0)

theorem validParent_cases {g : Graph} (p : Int) (hv : validParent g p = true) :
    p = -1 ∨ 0 ≤ p ∨ ∃ n ∈ g.nodes, n.id = p := by
  unfold validParent at hv
  simp only [Bool.or_eq_true, beq_iff_eq, List.any_eq_true] at hv
  rcases hv with h | ⟨n, hn, hid⟩
  · exact Or.inl h
  · exact Or.inr (Or.inr ⟨n, hn, hid⟩)

theorem validParent_range {g : Graph} (hids : IdsAreIndices g.nodes) (p : Int)
    (hv : validParent g p = true) : p = -1 ∨ 0 ≤ p := by
  rcases validParent_cases p hv with h | h | h
  · exact Or.inl h
  · exact Or.inr h
  · exact Or.inr (index_lt_of_id hids p h).1

theorem dirParent_valid {g : Graph} (p : Int) (hv : dirParent g p = true) :
    validParent g p = true := by
  unfold dirParent at hv
  unfold validParent
  simp only [Bool.or_eq_true, beq_iff_eq, List.any_eq_true, Bool.and_eq_true,
    decide_eq_true_eq] at hv ⊢
  rcases hv with h | ⟨n, hn, hid, _⟩
  · exact Or.inl h
  · exact Or.inr ⟨n, hn, hid⟩

theorem dirParent_kind {g : Graph} (hids : IdsAreIndices g.nodes) (p : Int)
    (hv : dirParent g p = true) (h0 : 0 ≤ p) :
    ∃ q, g.nodes[p.toNat]? = some q ∧ q.kind = NodeKind.Directory := by
  unfold dirParent at hv
  simp only [Bool.or_eq_true, beq_iff_eq, List.any_eq_true, Bool.and_eq_true,
    decide_eq_true_eq] at hv
  rcases hv with h | ⟨n, hn, hid, hk⟩
  · omega
  · obtain ⟨i, hlt, hi⟩ := List.mem_iff_getElem.mp hn
    have hsome : g.nodes[i]? = some n := by rw [List.getElem?_eq_getElem hlt, hi]
    have := hids i n hsome
    have hpi : p.toNat = i := by omega
    exact ⟨n, by rw [hpi]; exact hsome, hk⟩

theorem opDirParent_valid {g : Graph} (op : GraphOp) (hv : opDirParent g op = true) :
    opParentValid g op = true := by
  cases op <;> first | exact dirParent_valid _ hv | rfl

theorem opsDirValid_valid (fuel : Nat) :
    ∀ (ops : List GraphOp) (g : Graph), opsDirValid fuel g ops = true →
      opsValid fuel g ops = true := by
  intro ops
  induction ops with
  | nil => intro g _; rfl
  | cons op rest ih =>
    intro g h
    simp only [opsDirValid, Bool.and_eq_true] at h
    simp only [opsValid, Bool.and_eq_true]
    refine ⟨opDirParent_valid op h.1, ?_⟩
    cases hrun : applyOp fuel g op with
    | error e => rfl
    | ok g1 =>
      have h2 := h.2
      rw [hrun] at h2
      exact ih g1 h2

theorem opParent_valid {g : Graph} (op : GraphOp) (hv : opParentValid g op = true) :
    validParent g (opParent op) = true := by
  cases op <;> exact hv

theorem opParent_dir {g : Graph} (op : GraphOp) (hv : opDirParent g op = true) :
    dirParent g (opParent op) = true := by
  cases op <;> exact hv

theorem applyOp_tree (fuel : Nat) (g : Graph) (op : GraphOp) (hinv : GraphInv g)
    (hc : ChildrenOk g.nodes) (hp : ParentsExist g.nodes)
    (hv : opParentValid g op = true) (hf : g.nodes.length ≤ fuel) :
    ∃ g1, applyOp fuel g op = Except.ok g1 ∧ GraphInv g1 ∧ ChildrenOk g1.nodes ∧
      ParentsExist g1.nodes ∧ g1.nodes.length ≤ g.nodes.length + 1 ∧
      (opDirParent g op = true → DirParents g.nodes → DirParents g1.nodes) := by
  obtain ⟨g1, hrun, hinv1, hlen1, _⟩ := applyOp_inv fuel g op hinv hv hf
  obtain ⟨g2, hrun2, hshape⟩ := applyOp_adds fuel g op hinv hv hf
  rw [hrun] at hrun2
  cases hrun2
  refine ⟨g1, hrun, hinv1, ?_, ?_, hlen1, ?_⟩
  · rcases hshape with h | ⟨nd, h, _⟩
    · rw [h]; exact hc
    · exact ChildrenOk_adds h hinv.parents hc
  · rcases hshape with h | ⟨nd, h, hnd⟩
    · rw [h]; exact hp
    · exact ParentsExist_adds h
        (by rw [hnd]; exact validParent_range hinv.ids _ (opParent_valid op hv)) hp
  · intro hd hdp
    rcases hshape with h | ⟨nd, h, hnd⟩
    · rw [h]; exact hdp
    · exact DirParents_adds h
        (by rw [hnd]; exact dirParent_kind hinv.ids _ (opParent_dir op hd)) hdp

theorem runOps_tree (fuel : Nat) :
    ∀ (ops : List GraphOp) (g : Graph), GraphInv g → ChildrenOk g.nodes →
      ParentsExist g.nodes → opsValid fuel g ops = true → g.nodes.length + ops.length ≤ fuel →
      ∃ g1, runOps fuel g ops = Except.ok g1 ∧ GraphInv g1 ∧ ChildrenOk g1.nodes ∧
        ParentsExist g1.nodes ∧ g1.nodes.length ≤ g.nodes.length + ops.length ∧
        (opsDirValid fuel g ops = true → DirParents g.nodes → DirParents g1.nodes) := by
  intro ops
  induction ops with
  | nil =>
    intro g hinv hc hp _ _
    exact ⟨g, rfl, hinv, hc, hp, by simp, fun _ h => h⟩
  | cons op rest ih =>
    intro g hinv hc hp hv hf
    simp only [opsValid, Bool.and_eq_true] at hv
    simp only [List.length_cons] at hf
    obtain ⟨g1, hrun, hinv1, hc1, hp1, hlen1, hd1⟩ :=
      applyOp_tree fuel g op hinv hc hp hv.1 (by omega)
    have hv2 := hv.2
    rw [hrun] at hv2
    obtain ⟨g2, hrun2, hinv2, hc2, hp2, hlen2, hd2⟩ := ih g1 hinv1 hc1 hp1 hv2 (by omega)
    refine ⟨g2, ?_, hinv2, hc2, hp2, by simp only [List.length_cons]; omega, ?_⟩
    · simp only [runOps, hrun]
      exact hrun2
    · intro hdv hdp
      simp only [opsDirValid, Bool.and_eq_true] at hdv
      have hdv2 := hdv.2
      rw [hrun] at hdv2
      exact hd2 hdv2 (hd1 hdv.1 hdp)

theorem ChildrenOk_empty : ChildrenOk ([] : List Node) := by
  intro i n hi
  simp at hi

theorem ParentsExist_empty : ParentsExist ([] : List Node) := by
  intro i n hi
  simp at hi

theorem DirParents_empty : DirParents ([] : List Node) := by
  intro i n hi
  simp at hi

theorem mem_childrenOf (nodes : List Node) (p c : Int) :
    c ∈ childrenOf nodes p ↔ 0 ≤ c ∧ ∃ x, nodes[c.toNat]? = some x ∧ x.parent_dir = p := by
  unfold childrenOf
  simp only [List.mem_map, List.mem_filter, List.mem_range, decide_eq_true_eq]
  constructor
  · rintro ⟨k, ⟨hk, hpar⟩, rfl⟩
    refine ⟨Int.ofNat_nonneg k, ?_⟩
    rw [List.getElem?_eq_getElem hk] at hpar
    simp only [Option.map_some', Option.some.injEq] at hpar
    exact ⟨nodes[k], by simp [List.getElem?_eq_getElem hk], hpar⟩
  · rintro ⟨h0, x, hx, hpar⟩
    have hlt := (List.getElem?_eq_some.mp hx).1
    refine ⟨c.toNat, ⟨hlt, ?_⟩, ?_⟩
    · rw [hx]
      simp [hpar]
    · exact Int.toNat_of_nonneg h0

theorem childrenOf_sorted (nodes : List Node) (p : Int) :
    (childrenOf nodes p).Pairwise (fun a b => a < b) := by
  unfold childrenOf
  rw [List.pairwise_map]
  apply List.Pairwise.filter
  apply List.Pairwise.imp _ (List.pairwise_lt_range nodes.length)
  intro a b hab
  exact Int.ofNat_lt.mpr hab

/-- C34: in every graph built from the empty graph by adding calls whose `parentDir` arguments
are `-1` or the id of an existing node, the calls all return and, for every node `n` at index
`i`: `n.id = i`; `parent_dir` is `-1` or an id strictly smaller than `n.id`; the `children`
list is strictly increasing; an id is in `children` exactly when it is the id of a node whose
`parent_dir` is `i`; and when `n` has a parent, `n.id` occurs exactly once in the `children` of
that parent and in the `children` of no other node. -/
theorem tree_is_consistent (fuel : Nat) (ops : List GraphOp)
    (hvalid : opsValid fuel {} ops = true) (hfuel : ops.length ≤ fuel) :
    ∃ g, runOps fuel {} ops = Except.ok g ∧
      ∀ (i : Nat) (n : Node), g.nodes[i]? = some n →
        n.id = (i : Int) ∧
        (n.parent_dir = -1 ∨ (0 ≤ n.parent_dir ∧ n.parent_dir < n.id)) ∧
        n.children.Pairwise (fun a b => a < b) ∧
        (∀ c : Int, c ∈ n.children ↔
          0 ≤ c ∧ ∃ x, g.nodes[c.toNat]? = some x ∧ x.parent_dir = (i : Int)) ∧
        (0 ≤ n.parent_dir →
          ∃ p, g.nodes[n.parent_dir.toNat]? = some p ∧ p.children.count n.id = 1 ∧
            ∀ (j : Nat) (q : Node), g.nodes[j]? = some q → (j : Int) ≠ n.parent_dir →
              n.id ∉ q.children) := by
  obtain ⟨g, hrun, hinv, hc, hp, _, _⟩ := runOps_tree fuel ops {} GraphInv_empty
    ChildrenOk_empty ParentsExist_empty hvalid (by simpa using hfuel)
  refine ⟨g, hrun, ?_⟩
  intro i n hi
  have hid := hinv.ids i n hi
  have hpb := hinv.parents i n hi
  refine ⟨hid, ?_, ?_, ?_, ?_⟩
  · rcases hp i n hi with h | h
    · exact Or.inl h
    · exact Or.inr ⟨h, by rw [hid]; exact hpb⟩
  · rw [hc i n hi]
    exact childrenOf_sorted g.nodes i
  · intro c
    rw [hc i n hi]
    exact mem_childrenOf g.nodes i c
  · intro h0
    have hlt : n.parent_dir.toNat < g.nodes.length := by
      have := (List.getElem?_eq_some.mp hi).1
      omega
    have hpn : g.nodes[n.parent_dir.toNat]? = some g.nodes[n.parent_dir.toNat] :=
      List.getElem?_eq_getElem hlt
    generalize g.nodes[n.parent_dir.toNat] = p at hpn
    have hcast : ((n.parent_dir.toNat : Nat) : Int) = n.parent_dir := Int.toNat_of_nonneg h0
    have hidx : (n.id).toNat = i := by omega
    refine ⟨p, hpn, ?_, ?_⟩
    · apply List.count_eq_one_of_mem
      · have hs := childrenOf_sorted g.nodes (n.parent_dir.toNat : Int)
        rw [← hc _ p hpn] at hs
        exact hs.imp (fun h => ne_of_lt h)
      · rw [hc _ p hpn, mem_childrenOf]
        refine ⟨by omega, n, ?_, hcast.symm⟩
        rw [hidx]
        exact hi
    · intro j q hj hne hmem
      rw [hc j q hj, mem_childrenOf] at hmem
      obtain ⟨_, x, hx, hxp⟩ := hmem
      rw [hidx, hi] at hx
      cases hx
      exact hne hxp.symm

theorem tree_is_consistent_witness :
    (runOps 10 {} smallTreeOps).toOption.map
      (fun g => g.nodes.map (fun n => (n.parent_dir, n.children))) =
      some [(-1, [1, 5]), (0, [2, 3]), (1, []), (1, [4]), (3, []), (0, [])] ∧
    ∃ g, runOps 10 {} smallTreeOps = Except.ok g ∧
      ∀ (i : Nat) (n : Node), g.nodes[i]? = some n →
        n.id = (i : Int) ∧ n.children.Pairwise (fun a b => a < b) := by
  obtain ⟨g, hrun, h⟩ := tree_is_consistent 10 smallTreeOps (by decide!) (by decide)
  exact ⟨by decide!, g, hrun, fun i n hi => ⟨(h i n hi).1, (h i n hi).2.2.1⟩⟩

open Finset in
theorem sum_range_eq_finset (f : Nat → Nat) :
    ∀ n : Nat, ((List.range n).map f).sum = ∑ i ∈ Finset.range n, f i := by
  intro n
  induction n with
  | zero => simp
  | succ n ih =>
    rw [List.range_succ, List.map_append, List.sum_append, ih, Finset.sum_range_succ]
    simp

theorem sum_filter_range (q : Nat → Bool) (f : Nat → Nat) :
    ∀ n : Nat, (((List.range n).filter q).map f).sum =
      ∑ c ∈ Finset.range n, if q c = true then f c else 0 := by
  intro n
  induction n with
  | zero => simp
  | succ n ih =>
    rw [List.range_succ, List.filter_append, List.map_append, List.sum_append, ih,
      Finset.sum_range_succ]
    congr 1
    by_cases h : q n = true <;> simp [h]

theorem countP_take_eq_sum (p : Node → Bool) (nodes : List Node) :
    ∀ k : Nat, k ≤ nodes.length →
      (nodes.take k).countP p =
        ∑ x ∈ Finset.range k, if (nodes[x]?).map p = some true then 1 else 0 := by
  intro k
  induction k with
  | zero => intro _; simp
  | succ k ih =>
    intro hk
    have hlt : k < nodes.length := by omega
    rw [List.take_succ, List.countP_append, ih (by omega), Finset.sum_range_succ,
      List.getElem?_eq_getElem hlt]
    congr 1
    simp only [Option.toList, List.countP_cons, List.countP_nil, Option.map_some',
      Option.some.injEq, zero_add]

theorem countP_eq_sum (p : Node → Bool) (nodes : List Node) :
    nodes.countP p =
      ∑ x ∈ Finset.range nodes.length, if (nodes[x]?).map p = some true then 1 else 0 := by
  have h := countP_take_eq_sum p nodes nodes.length (le_refl _)
  rwa [List.take_length] at h

theorem parentChain_cons {nodes : List Node} (fuel : Nat) (cur : Int) (n : Node)
    (h0 : 0 ≤ cur) (hn : nodes[cur.toNat]? = some n) :
    parentChain nodes (fuel + 1) cur = cur :: parentChain nodes fuel n.parent_dir := by
  rw [parentChain]
  simp only [show ¬ cur < 0 by omega, if_false, hn]

theorem chain_children_count {nodes : List Node} (hpb : ParentsBelow nodes) (d : Int)
    (hd0 : 0 ≤ d) :
    ∀ (fuel : Nat) (cur : Int), cur < fuel → cur < nodes.length →
      (∑ c ∈ Finset.range nodes.length,
          if (nodes[c]?).map Node.parent_dir = some d ∧ (c : Int) ∈ parentChain nodes fuel cur
          then 1 else 0) + (if cur = d then 1 else 0) =
        (if d ∈ parentChain nodes fuel cur then 1 else 0) := by
  intro fuel
  induction fuel with
  | zero =>
    intro cur hc _
    have hneg : cur < 0 := by exact_mod_cast hc
    simp only [parentChain, List.not_mem_nil, and_false, if_false, Finset.sum_const_zero,
      zero_add]
    rw [if_neg (by omega)]
  | succ fuel ih =>
    intro cur hc hcN
    by_cases hneg : cur < 0
    · simp only [parentChain_neg _ _ _ hneg, List.not_mem_nil, and_false, if_false,
        Finset.sum_const_zero, zero_add]
      rw [if_neg (by omega)]
    · have h0 : 0 ≤ cur := by omega
      have hlt : cur.toNat < nodes.length := by omega
      have hn : nodes[cur.toNat]? = some nodes[cur.toNat] := List.getElem?_eq_getElem hlt
      generalize nodes[cur.toNat] = nc at hn
      have hpc := hpb _ _ hn
      rw [parentChain_cons fuel cur nc h0 hn]
      have hih := ih nc.parent_dir (by push_cast at hc; omega) (by omega)
      have hnotin : ∀ y : Int, y ∈ parentChain nodes fuel nc.parent_dir → y ≠ cur := by
        intro y hy
        have := (parentChain_mem_le hpb _ _ _ hy).2
        omega
      have hsplit : ∀ c ∈ Finset.range nodes.length,
          (if (nodes[c]?).map Node.parent_dir = some d ∧
              (c : Int) ∈ cur :: parentChain nodes fuel nc.parent_dir then 1 else 0) =
          (if c = cur.toNat ∧ nc.parent_dir = d then 1 else 0) +
          (if (nodes[c]?).map Node.parent_dir = some d ∧
              (c : Int) ∈ parentChain nodes fuel nc.parent_dir then 1 else 0) := by
        intro c _
        by_cases hcc : c = cur.toNat
        · subst hcc
          have hcast : ((cur.toNat : Nat) : Int) = cur := Int.toNat_of_nonneg h0
          have hni : ¬ ((cur.toNat : Nat) : Int) ∈ parentChain nodes fuel nc.parent_dir := by
            intro hmem
            exact hnotin _ hmem hcast
          simp only [hn, Option.map_some', Option.some.injEq, List.mem_cons, hcast, true_or,
            and_true, true_and]
          rw [hcast] at hni
          simp [hni]
        · have hne : ¬ (c : Int) = cur := by omega
          simp [hcc, hne]
      rw [Finset.sum_congr rfl hsplit, Finset.sum_add_distrib]
      have hsingle : (∑ c ∈ Finset.range nodes.length,
          if c = cur.toNat ∧ nc.parent_dir = d then 1 else 0) =
          (if nc.parent_dir = d then 1 else 0) := by
        rw [Finset.sum_eq_single cur.toNat]
        · simp
        · intro b _ hb
          simp [hb]
        · intro hnot
          exact absurd (Finset.mem_range.mpr hlt) hnot
      rw [hsingle]
      by_cases hcd : cur = d
      · have hdn : ¬ d ∈ parentChain nodes fuel nc.parent_dir := by
          intro hmem
          exact hnotin _ hmem hcd.symm
        rw [if_neg hdn] at hih
        have hz : (if nc.parent_dir = d then 1 else 0) = 0 := by
          by_contra hne
          omega
        simp only [List.mem_cons, hcd, true_or, if_true]
        omega
      · have hdc : ¬ d = cur := fun h => hcd h.symm
        simp only [List.mem_cons, hdc, false_or, hcd, if_false, add_zero]
        omega

theorem descendantCount_children {nodes : List Node} (hpb : ParentsBelow nodes) (d : Nat) :
    descendantCount nodes d =
      ((childrenOf nodes d).map (fun c => 1 + descendantCount nodes c)).sum := by
  have hrhs : ((childrenOf nodes d).map (fun c => 1 + descendantCount nodes c)).sum =
      ∑ c ∈ Finset.range nodes.length,
        if decide ((nodes[c]?).map Node.parent_dir = some (d : Int)) = true
        then 1 + descendantCount nodes (c : Int) else 0 := by
    unfold childrenOf
    rw [List.map_map]
    exact sum_filter_range _ (fun c => 1 + descendantCount nodes (c : Int)) nodes.length
  rw [hrhs]
  have hD : ∀ c : Nat, descendantCount nodes (c : Int) =
      ∑ x ∈ Finset.range nodes.length,
        if (nodes[x]?).map (isBelow nodes (c : Int)) = some true then 1 else 0 :=
    fun c => countP_eq_sum _ nodes
  have hexpand : ∀ c ∈ Finset.range nodes.length,
      (if decide ((nodes[c]?).map Node.parent_dir = some (d : Int)) = true
        then 1 + descendantCount nodes (c : Int) else 0) =
      (if (nodes[c]?).map Node.parent_dir = some (d : Int) then 1 else 0) +
      ∑ x ∈ Finset.range nodes.length,
        if (nodes[c]?).map Node.parent_dir = some (d : Int) ∧
          (nodes[x]?).map (isBelow nodes (c : Int)) = some true then 1 else 0 := by
    intro c _
    by_cases hq : (nodes[c]?).map Node.parent_dir = some (d : Int)
    · simp only [hq, decide_True, if_true, true_and]
      rw [hD c]
    · simp [hq]
  rw [Finset.sum_congr rfl hexpand, Finset.sum_add_distrib, Finset.sum_comm, hD d,
    ← Finset.sum_add_distrib]
  apply Finset.sum_congr rfl
  intro x hx
  have hlt : x < nodes.length := Finset.mem_range.mp hx
  have hn : nodes[x]? = some nodes[x] := List.getElem?_eq_getElem hlt
  generalize nodes[x] = nx at hn
  have hpx := hpb _ _ hn
  have hchain := chain_children_count hpb (d : Int) (Int.ofNat_nonneg d) nodes.length
    nx.parent_dir (by omega) (by omega)
  simp only [hn, Option.map_some', Option.some.injEq, isBelow, decide_eq_true_eq]
  rw [← hchain, add_comm]

theorem childrenOf_file {nodes : List Node} (hdp : DirParents nodes) (d : Nat) (n : Node)
    (hn : nodes[d]? = some n) (hk : n.kind ≠ NodeKind.Directory) : childrenOf nodes d = [] := by
  unfold childrenOf
  rw [List.map_eq_nil_iff, List.filter_eq_nil_iff]
  intro c hc
  have hlt : c < nodes.length := List.mem_range.mp hc
  simp only [List.getElem?_eq_getElem hlt, Option.map_some', Option.some.injEq,
    decide_eq_true_eq]
  intro hpar
  obtain ⟨q, hq, hqk⟩ := hdp c _ (List.getElem?_eq_getElem hlt) (by rw [hpar]; omega)
  rw [hpar, Int.toNat_ofNat, hn] at hq
  cases hq
  exact hk hqk

theorem descendantCount_file {nodes : List Node} (hpb : ParentsBelow nodes)
    (hdp : DirParents nodes) (d : Nat) (n : Node) (hn : nodes[d]? = some n)
    (hk : n.kind ≠ NodeKind.Directory) : descendantCount nodes d = 0 := by
  rw [descendantCount_children hpb d, childrenOf_file hdp d n hn hk]
  rfl

theorem MemoOk_set {nodes : List Node} {memo : List Int} (h : MemoOk nodes memo) (d : Nat) :
    MemoOk nodes (memo.set d (descendantCount nodes d : Int)) := by
  refine ⟨by rw [List.length_set]; exact h.1, ?_⟩
  intro i v hi
  by_cases hdi : d = i
  · subst hdi
    by_cases hlt : d < memo.length
    · rw [List.getElem?_set_eq_of_lt _ hlt] at hi
      cases hi
      exact Or.inr rfl
    · rw [List.getElem?_eq_none (by rw [List.length_set]; omega)] at hi
      cases hi
  · rw [List.getElem?_set_ne hdi] at hi
    exact h.2 i v hi

theorem countChildren_spec {nodes : List Node} (hpb : ParentsBelow nodes)
    (hdp : DirParents nodes)
    (recurse : Int → List Int → Except Fault (Int × List Int)) (d : Nat)
    (hrec : ∀ (c : Nat) (memo : List Int), d < c → c < nodes.length → MemoOk nodes memo →
      ∃ memo1, recurse (c : Int) memo = Except.ok ((descendantCount nodes c : Int), memo1) ∧
        MemoOk nodes memo1) :
    ∀ (cs : List Int) (count : Int) (memo : List Int),
      (∀ c ∈ cs, (d : Int) < c ∧ c < nodes.length) → MemoOk nodes memo →
      ∃ memo1, countChildren nodes recurse cs count memo =
          Except.ok (count + ((cs.map (fun c => 1 + descendantCount nodes c)).sum : Nat),
            memo1) ∧
        MemoOk nodes memo1 := by
  intro cs
  induction cs with
  | nil =>
    intro count memo _ hm
    exact ⟨memo, by simp [countChildren], hm⟩
  | cons c rest ih =>
    intro count memo hcs hm
    obtain ⟨hc1, hc2⟩ := hcs c (List.mem_cons_self _ _)
    have hc0 : 0 ≤ c := by omega
    have hlt : c.toNat < nodes.length := by omega
    have hcast : ((c.toNat : Nat) : Int) = c := Int.toNat_of_nonneg hc0
    have hchild : nodeAt nodes c = Except.ok nodes[c.toNat] :=
      nodeAt_of_getElem? hc0 (List.getElem?_eq_getElem hlt)
    have hcn : nodes[c.toNat]? = some nodes[c.toNat] := List.getElem?_eq_getElem hlt
    generalize nodes[c.toNat] = child at hchild hcn
    simp only [countChildren, hchild, List.map_cons, List.sum_cons]
    by_cases hk : child.kind = NodeKind.File
    · rw [if_pos hk]
      have hz : descendantCount nodes c = 0 := by
        rw [← hcast]
        exact descendantCount_file hpb hdp c.toNat child hcn (by rw [hk]; decide)
      obtain ⟨memo1, h1, h2⟩ := ih (count + 1) memo
        (fun x hx => hcs x (List.mem_cons_of_mem _ hx)) hm
      refine ⟨memo1, ?_, h2⟩
      rw [h1, hz]
      push_cast
      congr 2
      ring
    · rw [if_neg hk]
      obtain ⟨memoA, hA1, hA2⟩ := hrec c.toNat memo (by omega) hlt hm
      rw [hcast] at hA1
      rw [hA1]
      simp only
      obtain ⟨memo1, h1, h2⟩ := ih (count + 1 + (descendantCount nodes c : Int)) memoA
        (fun x hx => hcs x (List.mem_cons_of_mem _ hx)) hA2
      refine ⟨memo1, ?_, h2⟩
      rw [h1]
      push_cast
      congr 2
      ring

theorem ComputeDescendantCount_spec {nodes : List Node} (hpb : ParentsBelow nodes)
    (hc : ChildrenOk nodes) (hdp : DirParents nodes) :
    ∀ (fuel : Nat) (d : Nat) (memo : List Int), d < nodes.length → nodes.length - d ≤ fuel →
      MemoOk nodes memo →
      ∃ memo1, ComputeDescendantCount nodes fuel (d : Int) memo =
          Except.ok ((descendantCount nodes d : Int), memo1) ∧
        MemoOk nodes memo1 := by
  intro fuel
  induction fuel with
  | zero =>
    intro d memo hd hf _
    omega
  | succ fuel ih =>
    intro d memo hd hf hm
    have hmlt : d < memo.length := by rw [hm.1]; exact hd
    have hmemo : memoAt memo (d : Int) = Except.ok memo[d] := by
      unfold memoAt
      simp [List.getElem?_eq_getElem hmlt]
    have hmg : memo[d]? = some memo[d] := List.getElem?_eq_getElem hmlt
    generalize memo[d] = cached at hmemo hmg
    have hnode : nodeAt nodes (d : Int) = Except.ok nodes[d] :=
      nodeAt_of_getElem? (Int.ofNat_nonneg d) (by simp [List.getElem?_eq_getElem hd])
    have hng : nodes[d]? = some nodes[d] := List.getElem?_eq_getElem hd
    generalize nodes[d] = node at hnode hng
    simp only [ComputeDescendantCount, hmemo]
    by_cases hcached : cached ≥ 0
    · rw [if_pos hcached]
      rcases hm.2 d cached hmg with h | h
      · omega
      · exact ⟨memo, by rw [h], hm⟩
    · rw [if_neg hcached]
      simp only [hnode, Int.toNat_ofNat]
      by_cases hk : node.kind ≠ NodeKind.Directory
      · rw [if_pos hk]
        have hz := descendantCount_file hpb hdp d node hng hk
        refine ⟨memo.set d 0, by rw [hz]; rfl, ?_⟩
        have := MemoOk_set hm d
        rwa [hz] at this
      · rw [if_neg hk]
        have hch := hc d node hng
        have hrange : ∀ c ∈ node.children, (d : Int) < c ∧ c < nodes.length := by
          intro c hcm
          rw [hch, mem_childrenOf] at hcm
          obtain ⟨h0, x, hx, hxp⟩ := hcm
          have h1 := hpb _ _ hx
          have h2 := (List.getElem?_eq_some.mp hx).1
          omega
        obtain ⟨memo1, h1, h2⟩ := countChildren_spec hpb hdp
          (ComputeDescendantCount nodes fuel) d
          (fun c memo0 hdc hcN hm0 => ih c memo0 hcN (by omega) hm0)
          node.children 0 memo hrange hm
        rw [h1]
        simp only
        have hsum : (0 : Int) + ((node.children.map (fun c => 1 + descendantCount nodes c)).sum :
            Nat) = (descendantCount nodes d : Int) := by
          rw [hch, ← descendantCount_children hpb d]
          simp
        rw [hsum]
        exact ⟨_, rfl, MemoOk_set h2 d⟩

theorem MemoOk_fresh (nodes : List Node) : MemoOk nodes (List.replicate nodes.length (-1)) := by
  refine ⟨by simp, ?_⟩
  intro i v hi
  rw [List.getElem?_replicate] at hi
  split at hi
  · cases hi
    exact Or.inl rfl
  · cases hi

theorem countP_split {α : Type} (p q r : α → Bool) :
    ∀ l : List α, (∀ x ∈ l, (if p x then 1 else 0) = (if q x then 1 else 0) + (if r x then 1 else 0)) →
      l.countP p = l.countP q + l.countP r := by
  intro l
  induction l with
  | nil => intro _; rfl
  | cons a rest ih =>
    intro h
    have ha := h a (List.mem_cons_self _ _)
    have hr := ih (fun x hx => h x (List.mem_cons_of_mem _ hx))
    simp only [List.countP_cons, hr]
    omega

theorem descendantCount_split {nodes : List Node} (hids : IdsAreIndices nodes)
    (hpb : ParentsBelow nodes) (d : Int) :
    descendantCount nodes d = countDirsBelow nodes d + countFilesBelow nodes d := by
  unfold descendantCount countDirsBelow countFilesBelow
  apply countP_split
  intro x hx
  obtain ⟨i, hlt, hi⟩ := List.mem_iff_getElem.mp hx
  have hsome : nodes[i]? = some x := by rw [List.getElem?_eq_getElem hlt, hi]
  have hid := hids i x hsome
  have hp := hpb i x hsome
  by_cases hb : isBelow nodes d x = true
  · have hne : x.id ≠ d := by
      intro heq
      unfold isBelow at hb
      simp only [decide_eq_true_eq] at hb
      have := (parentChain_mem_le hpb _ _ _ hb).2
      omega
    cases hk : x.kind <;> simp [hb, hne]
  · simp [hb]

theorem runOps_dir_tree (fuel : Nat) (ops : List GraphOp)
    (hvalid : opsDirValid fuel {} ops = true) (hfuel : ops.length ≤ fuel) :
    ∃ g, runOps fuel {} ops = Except.ok g ∧ GraphInv g ∧ ChildrenOk g.nodes ∧
      ParentsExist g.nodes ∧ DirParents g.nodes ∧ g.nodes.length ≤ fuel := by
  obtain ⟨g, hrun, hinv, hc, hp, hlen, hd⟩ := runOps_tree fuel ops {} GraphInv_empty
    ChildrenOk_empty ParentsExist_empty (opsDirValid_valid fuel ops {} hvalid)
    (by simpa using hfuel)
  have hlen2 : g.nodes.length ≤ fuel := by
    have : g.nodes.length ≤ 0 + ops.length := hlen
    omega
  exact ⟨g, hrun, hinv, hc, hp, hd hvalid DirParents_empty, hlen2⟩

/-- C38: on every graph built from the empty graph by adding calls whose `parentDir` arguments
are `-1` or the id of an existing Directory node, and for every node `d` and every `memo` whose
entries are `-1` or already computed counts, `ComputeDescendantCount(d, memo)` returns once the
bound on the recursion depth is at least the number of nodes (every child has a larger id than
its parent, so the recursion descends along strictly increasing ids); it returns the number of
nodes whose parent chain passes through `d`, which is `0` for a File and
`subtreeDirCount + (number of File nodes whose parent chain passes through d)` for a
Directory, and it leaves a `memo` of the same kind. -/
theorem descendant_count_agrees (fuel : Nat) (ops : List GraphOp)
    (hvalid : opsDirValid fuel {} ops = true) (hfuel : ops.length ≤ fuel) :
    ∃ g, runOps fuel {} ops = Except.ok g ∧
      MemoOk g.nodes (List.replicate g.nodes.length (-1)) ∧
      ∀ (d : Nat) (n : Node), g.nodes[d]? = some n →
        (∀ c ∈ n.children, n.id < c) ∧
        ∀ memo : List Int, MemoOk g.nodes memo →
          ∃ memo1, ComputeDescendantCount g.nodes fuel (d : Int) memo =
              Except.ok ((descendantCount g.nodes d : Int), memo1) ∧
            MemoOk g.nodes memo1 ∧
            (n.kind = NodeKind.File → descendantCount g.nodes d = 0) ∧
            (n.kind = NodeKind.Directory →
              (descendantCount g.nodes d : Int) =
                n.subtreeDirCount + (countFilesBelow g.nodes d : Int)) := by
  obtain ⟨g, hrun, hinv, hc, hp, hdp, hlen⟩ := runOps_dir_tree fuel ops hvalid hfuel
  refine ⟨g, hrun, MemoOk_fresh g.nodes, ?_⟩
  intro d n hn
  have hd : d < g.nodes.length := (List.getElem?_eq_some.mp hn).1
  refine ⟨?_, ?_⟩
  · intro c hcm
    rw [hc d n hn, mem_childrenOf] at hcm
    obtain ⟨_, x, hx, hxp⟩ := hcm
    have h1 := hinv.parents _ _ hx
    have h2 := hinv.ids d n hn
    omega
  · intro memo hm
    obtain ⟨memo1, h1, h2⟩ := ComputeDescendantCount_spec hinv.parents hc hdp fuel d memo hd
      (by omega) hm
    refine ⟨memo1, h1, h2, ?_, ?_⟩
    · intro hk
      exact descendantCount_file hinv.parents hdp d n hn (by rw [hk]; decide)
    · intro _
      rw [descendantCount_split hinv.ids hinv.parents, hinv.counts d n hn]
      push_cast
      rfl

theorem descendant_count_agrees_witness :
    (ComputeDescendantCount ((runOps 10 {} smallTreeOps).toOption.getD {}).nodes 10 0
      (List.replicate 6 (-1))).toOption = some (5, [5, 3, -1, 1, -1, 0]) ∧
    ∃ g, runOps 10 {} smallTreeOps = Except.ok g ∧
      ∀ (d : Nat) (n : Node), g.nodes[d]? = some n →
        ∃ memo1, ComputeDescendantCount g.nodes 10 (d : Int)
            (List.replicate g.nodes.length (-1)) =
          Except.ok ((descendantCount g.nodes d : Int), memo1) := by
  obtain ⟨g, hrun, hfresh, h⟩ := descendant_count_agrees 10 smallTreeOps (by decide!) (by decide)
  refine ⟨by decide!, g, hrun, ?_⟩
  intro d n hn
  obtain ⟨memo1, h1, _⟩ := (h d n hn).2 _ hfresh
  exact ⟨memo1, h1⟩

theorem SameTree.tree_refl (nodes : List Node) : SameTree nodes nodes :=
  ⟨rfl, fun _ n hi => ⟨n, hi, rfl, rfl, rfl, rfl⟩⟩

theorem SameTree.tree_trans {a b c : List Node} (h1 : SameTree a b) (h2 : SameTree b c) :
    SameTree a c := by
  refine ⟨by rw [h2.1, h1.1], ?_⟩
  intro i n hi
  obtain ⟨n1, hn1, e1, e2, e3, e4⟩ := h1.2 i n hi
  obtain ⟨n2, hn2, f1, f2, f3, f4⟩ := h2.2 i n1 hn1
  exact ⟨n2, hn2, by rw [f1, e1], by rw [f2, e2], by rw [f3, e3], by rw [f4, e4]⟩

theorem SameTree.parent_map {a b : List Node} (h : SameTree a b) (i : Nat) :
    (a[i]?).map Node.parent_dir = (b[i]?).map Node.parent_dir := by
  by_cases hlt : i < a.length
  · obtain ⟨n1, hn1, _, _, e3, _⟩ := h.2 i _ (List.getElem?_eq_getElem hlt)
    rw [hn1, List.getElem?_eq_getElem hlt]
    simp [e3]
  · rw [List.getElem?_eq_none (by omega), List.getElem?_eq_none (by rw [h.1]; omega)]

theorem SameTree.keeps_parents {a b : List Node} (h : SameTree a b) (hpb : ParentsBelow a) :
    ParentsBelow b := by
  intro i x hi
  have hlt : i < a.length := by
    have := (List.getElem?_eq_some.mp hi).1
    rw [h.1] at this
    exact this
  obtain ⟨n1, hn1, _, _, e3, _⟩ := h.2 i _ (List.getElem?_eq_getElem hlt)
  rw [hn1] at hi
  cases hi
  rw [e3]
  exact hpb i _ (List.getElem?_eq_getElem hlt)

theorem SameTree.childrenOf_eq {a b : List Node} (h : SameTree a b) (p : Int) :
    childrenOf b p = childrenOf a p := by
  unfold childrenOf
  rw [h.1]
  congr 1
  apply List.filter_congr
  intro c _
  rw [h.parent_map c]

theorem SameTree.childrenOk {a b : List Node} (h : SameTree a b) (hc : ChildrenOk a) :
    ChildrenOk b := by
  intro i x hi
  have hlt : i < a.length := by
    have := (List.getElem?_eq_some.mp hi).1
    rw [h.1] at this
    exact this
  obtain ⟨n1, hn1, _, _, _, e4⟩ := h.2 i _ (List.getElem?_eq_getElem hlt)
  rw [hn1] at hi
  cases hi
  rw [e4, h.childrenOf_eq]
  exact hc i _ (List.getElem?_eq_getElem hlt)

theorem SameTree.dirParents {a b : List Node} (h : SameTree a b) (hd : DirParents a) :
    DirParents b := by
  intro i x hi h0
  have hlt : i < a.length := by
    have := (List.getElem?_eq_some.mp hi).1
    rw [h.1] at this
    exact this
  obtain ⟨n1, hn1, _, _, e3, _⟩ := h.2 i _ (List.getElem?_eq_getElem hlt)
  rw [hn1] at hi
  cases hi
  rw [e3] at h0 ⊢
  obtain ⟨q, hq, hqk⟩ := hd i _ (List.getElem?_eq_getElem hlt) h0
  obtain ⟨q1, hq1, _, f2, _, _⟩ := h.2 _ q hq
  exact ⟨q1, hq1, by rw [f2, hqk]⟩

theorem SameTree.descendantCount_eq {a b : List Node} (h : SameTree a b) (d : Int) :
    descendantCount b d = descendantCount a d := by
  unfold descendantCount
  apply countP_eq_of_pointwise
  · exact h.1
  · intro i x y hx hy
    obtain ⟨n1, hn1, _, _, e3, _⟩ := h.2 i y hy
    rw [hn1] at hx
    cases hx
    unfold isBelow
    rw [e3, h.1, parentChain_congr (fun j => (h.parent_map j).symm)]

theorem SameTree.memoOk {a b : List Node} (h : SameTree a b) {memo : List Int}
    (hm : MemoOk a memo) : MemoOk b memo := by
  refine ⟨by rw [h.1]; exact hm.1, ?_⟩
  intro i v hi
  rw [h.descendantCount_eq]
  exact hm.2 i v hi

theorem SameTree.set_mass {a b : List Node} (h : SameTree a b) (i : Nat) (n : Node) (v : ℚ)
    (hn : b[i]? = some n) : SameTree a (b.set i (n.setMass v)) := by
  refine ⟨by rw [List.length_set]; exact h.1, ?_⟩
  intro j x hj
  obtain ⟨n1, hn1, e1, e2, e3, e4⟩ := h.2 j x hj
  by_cases hij : i = j
  · subst hij
    rw [hn] at hn1
    cases hn1
    have hlt := (List.getElem?_eq_some.mp hn).1
    exact ⟨n.setMass v, by rw [List.getElem?_set_eq_of_lt _ hlt], e1, e2, e3, e4⟩
  · exact ⟨n1, by rw [List.getElem?_set_ne hij]; exact hn1, e1, e2, e3, e4⟩

theorem spiralFrom_getElem? (m : Libm) :
    ∀ (nodes : List Node) (k i : Nat),
      (spiralFrom m k nodes)[i]? = (nodes[i]?).map (spiralNode m (k + i)) := by
  intro nodes
  induction nodes with
  | nil => intro k i; simp [spiralFrom]
  | cons n rest ih =>
    intro k i
    cases i with
    | zero => simp [spiralFrom]
    | succ i =>
      have e : k + 1 + i = k + (i + 1) := by omega
      simp only [spiralFrom, List.getElem?_cons_succ, ih, e]

theorem spiralFrom_length (m : Libm) :
    ∀ (nodes : List Node) (k : Nat), (spiralFrom m k nodes).length = nodes.length := by
  intro nodes
  induction nodes with
  | nil => intro k; rfl
  | cons n rest ih => intro k; simp [spiralFrom, ih]

theorem spiralFrom_sameTree (m : Libm) (nodes : List Node) :
    SameTree nodes (spiralFrom m 0 nodes) := by
  refine ⟨spiralFrom_length m nodes 0, ?_⟩
  intro i n hi
  refine ⟨spiralNode m (0 + i) n, ?_, rfl, rfl, rfl, rfl⟩
  rw [spiralFrom_getElem?, hi]
  rfl

theorem initializeMass_spec (m : Libm) (fuel : Nat) {nodes0 nodes : List Node}
    (hpb : ParentsBelow nodes0) (hc : ChildrenOk nodes0) (hdp : DirParents nodes0)
    (hs : SameTree nodes0 nodes) (memo : List Int) (hm : MemoOk nodes0 memo) (i : Nat)
    (node : Node) (hn : nodes[i]? = some node) (hf : nodes0.length ≤ fuel) :
    ∃ memo1, initializeMass m fuel nodes memo i =
        Except.ok (nodes.set i (node.setMass
          (if node.kind = NodeKind.Directory then 1 + m.sqrt (descendantCount nodes0 i : ℚ)
           else 1)), memo1) ∧
      MemoOk nodes0 memo1 := by
  have hlt : i < nodes.length := (List.getElem?_eq_some.mp hn).1
  unfold initializeMass
  simp only [hn]
  by_cases hk : node.kind = NodeKind.Directory
  · rw [if_pos hk, if_pos hk]
    obtain ⟨memo1, h1, h2⟩ := ComputeDescendantCount_spec (hs.keeps_parents hpb)
      (hs.childrenOk hc) (hs.dirParents hdp) fuel i memo hlt
      (by rw [hs.1]; omega) (hs.memoOk hm)
    rw [h1]
    simp only
    have hmemo1 : MemoOk nodes0 memo1 := by
      refine ⟨by rw [h2.1, hs.1], ?_⟩
      intro j v hj
      rw [← hs.descendantCount_eq]
      exact h2.2 j v hj
    refine ⟨memo1, ?_, hmemo1⟩
    have hmax : max (0 : Int) (descendantCount nodes (i : Int) : Int) =
        (descendantCount nodes (i : Int) : Int) := max_eq_right (Int.ofNat_nonneg _)
    rw [hmax, hs.descendantCount_eq]
    simp
  · rw [if_neg hk, if_neg hk]
    exact ⟨memo, rfl, hm⟩

theorem initializeMasses_spec (m : Libm) (fuel : Nat) {nodes0 : List Node}
    (hpb : ParentsBelow nodes0) (hc : ChildrenOk nodes0) (hdp : DirParents nodes0)
    (hf : nodes0.length ≤ fuel) :
    ∀ (is : List Nat) (nodes : List Node) (memo : List Int), is.Nodup →
      (∀ i ∈ is, i < nodes0.length) → SameTree nodes0 nodes → MemoOk nodes0 memo →
      ∃ nodes1, initializeMasses m fuel is nodes memo = Except.ok nodes1 ∧
        SameTree nodes0 nodes1 ∧
        (∀ i ∈ is, ∀ node, nodes[i]? = some node →
          nodes1[i]? = some (node.setMass
            (if node.kind = NodeKind.Directory then 1 + m.sqrt (descendantCount nodes0 i : ℚ)
             else 1))) ∧
        (∀ i, i ∉ is → nodes1[i]? = nodes[i]?) := by
  intro is
  induction is with
  | nil =>
    intro nodes memo _ _ hs _
    exact ⟨nodes, rfl, hs, fun i hi => by simp at hi, fun _ _ => rfl⟩
  | cons i rest ih =>
    intro nodes memo hnd hr hs hm
    obtain ⟨hnot, hnd2⟩ := List.nodup_cons.mp hnd
    have hi : i < nodes.length := by rw [hs.1]; exact hr i (List.mem_cons_self _ _)
    have hn : nodes[i]? = some nodes[i] := List.getElem?_eq_getElem hi
    generalize nodes[i] = node at hn
    obtain ⟨memo1, h1, hm1⟩ := initializeMass_spec m fuel hpb hc hdp hs memo hm i node hn hf
    obtain ⟨nodes1, h2, hs2, hmass, hother⟩ := ih _ memo1 hnd2
      (fun j hj => hr j (List.mem_cons_of_mem _ hj)) (hs.set_mass i node _ hn) hm1
    refine ⟨nodes1, ?_, hs2, ?_, ?_⟩
    · simp only [initializeMasses, h1]
      exact h2
    · intro j hj x hx
      rcases List.mem_cons.mp hj with rfl | hj
      · rw [hn] at hx
        cases hx
        rw [hother j hnot, List.getElem?_set_eq_of_lt _ hi]
      · have hne : i ≠ j := fun e => hnot (e ▸ hj)
        exact hmass j hj x (by rw [List.getElem?_set_ne hne]; exact hx)
    · intro j hj
      have hne : i ≠ j := fun e => hj (e ▸ List.mem_cons_self _ _)
      rw [hother j (fun h => hj (List.mem_cons_of_mem _ h)), List.getElem?_set_ne hne]

theorem Physics_spec (m : Libm) (fuel : Nat) (g : Graph)
    (hpb : ParentsBelow g.nodes) (hc : ChildrenOk g.nodes) (hdp : DirParents g.nodes)
    (hf : g.nodes.length ≤ fuel) :
    ∃ g1, Physics m fuel g = Except.ok g1 ∧ g1.nodes.length = g.nodes.length ∧
      g1.links = g.links ∧ g1.pathToNode = g.pathToNode ∧
      ∀ (i : Nat) (n : Node), g.nodes[i]? = some n →
        g1.nodes[i]? = some ((spiralNode m i n).setMass
          (if n.kind = NodeKind.Directory then 1 + m.sqrt (descendantCount g.nodes i : ℚ)
           else 1)) := by
  have hs := spiralFrom_sameTree m g.nodes
  obtain ⟨nodes1, h1, hs1, hmass, _⟩ := initializeMasses_spec m fuel hpb hc hdp hf
    (List.range g.nodes.length) (spiralFrom m 0 g.nodes)
    (List.replicate g.nodes.length (-1)) (List.nodup_range _)
    (fun i hi => List.mem_range.mp hi) hs (MemoOk_fresh g.nodes)
  refine ⟨{ g with nodes := nodes1 }, ?_, hs1.1, rfl, rfl, ?_⟩
  · unfold Physics InitializeDirectoryMasses
    simp only [spiralFrom_length, h1]
  · intro i n hi
    have hlt : i < g.nodes.length := (List.getElem?_eq_some.mp hi).1
    have := hmass i (List.mem_range.mpr hlt) (spiralNode m i n)
      (by rw [spiralFrom_getElem?, hi]; simp)
    exact this

theorem sqrtQ_nonneg (x : ℚ) : 0 ≤ sqrtQ x := by
  unfold sqrtQ
  exact div_nonneg (Nat.cast_nonneg _) (by norm_num)

/-- C32: on every graph built from the empty graph by adding calls whose `parentDir` arguments
are `-1` or the id of an existing Directory node, the constructor of `Physics` returns (for a
recursion bound of at least the number of nodes) and leaves every File node with mass `1` and
every Directory node `d` with mass `1 + sqrt(D(d))`, where `D(d)` is the number of nodes of
either kind whose parent chain passes through `d`; kinds, ids and the tree are unchanged, and
every mass is at least `1` when `sqrt` is not negative. -/
theorem directory_masses (m : Libm) (fuel : Nat) (ops : List GraphOp)
    (hvalid : opsDirValid fuel {} ops = true) (hfuel : ops.length ≤ fuel)
    (hsqrt : ∀ x : ℚ, 0 ≤ x → 0 ≤ m.sqrt x) :
    ∃ g g1, runOps fuel {} ops = Except.ok g ∧ Physics m fuel g = Except.ok g1 ∧
      g1.nodes.length = g.nodes.length ∧
      ∀ (i : Nat) (n : Node), g.nodes[i]? = some n →
        ∃ n1, g1.nodes[i]? = some n1 ∧ n1.id = n.id ∧ n1.kind = n.kind ∧
          n1.parent_dir = n.parent_dir ∧ n1.children = n.children ∧
          (n.kind = NodeKind.File → n1.mass = 1) ∧
          (n.kind = NodeKind.Directory →
            n1.mass = 1 + m.sqrt (descendantCount g.nodes i : ℚ)) ∧
          1 ≤ n1.mass := by
  obtain ⟨g, hrun, hinv, hc, _, hdp, hlen⟩ := runOps_dir_tree fuel ops hvalid hfuel
  obtain ⟨g1, h1, hl1, _, _, hnodes⟩ := Physics_spec m fuel g hinv.parents hc hdp hlen
  refine ⟨g, g1, hrun, h1, hl1, ?_⟩
  intro i n hi
  refine ⟨_, hnodes i n hi, rfl, rfl, rfl, rfl, ?_, ?_, ?_⟩
  · intro hk
    simp [Node.setMass, hk]
  · intro hk
    simp [Node.setMass, hk]
  · by_cases hk : n.kind = NodeKind.Directory
    · simp only [Node.setMass, hk, if_true]
      have := hsqrt (descendantCount g.nodes i : ℚ) (Nat.cast_nonneg _)
      linarith
    · simp [Node.setMass, hk]

theorem directory_masses_witness :
    (runOps 10 {} smallTreeOps).toOption = some smallTree ∧
    (Physics libmQ 10 smallTree).toOption.map (fun g => g.nodes.map Node.mass) =
      some [1 + 2236067 / 1000000, 1 + 1732050 / 1000000, 1, 2, 1, 1] ∧
    ∃ g g1, runOps 10 {} smallTreeOps = Except.ok g ∧ Physics libmQ 10 g = Except.ok g1 ∧
      ∀ (i : Nat) (n : Node), g.nodes[i]? = some n →
        ∃ n1, g1.nodes[i]? = some n1 ∧ 1 ≤ n1.mass := by
  obtain ⟨g, g1, hrun, h1, _, h⟩ := directory_masses libmQ 10 smallTreeOps (by decide!)
    (by decide) (fun x _ => sqrtQ_nonneg x)
  refine ⟨by decide!, by decide!, g, g1, hrun, h1, ?_⟩
  intro i n hi
  obtain ⟨n1, hn1, _, _, _, _, _, _, hm⟩ := h i n hi
  exact ⟨n1, hn1, hm⟩

/-- C33: once the scanner has registered the path `r/y` as a File node (the update of
`ScanRoot` / `ParseIncludesForFile` for the path `r/y` in directory `r`), `ensure_directory`
called with the directory path `r/y` (also written `/r//y`) finds that node by its path,
creates nothing and returns its id: the node for the full path is a File, no Directory node
with the path `r/y` exists afterwards, and the file `r/y/z.cpp` scanned next becomes a child of
the File node. -/
theorem ensure_directory_takes_file :
    (scanFile 10 {} {} "r/y" "r").toOption = some (fileAsDirectoryGraph, 1) ∧
    (ensure_directory 10 fileAsDirectoryGraph "r/y").toOption = some (fileAsDirectoryGraph, 1) ∧
    (ensure_directory 10 fileAsDirectoryGraph "/r//y").toOption =
      some (fileAsDirectoryGraph, 1) ∧
    (fileAsDirectoryGraph.nodes[1]?).map (fun n => (n.kind, n.path)) =
      some (NodeKind.File, "r/y") ∧
    (fileAsDirectoryGraph.nodes.filter
      (fun n => decide (n.kind = NodeKind.Directory ∧ n.path = "r/y"))) = [] ∧
    (scanFile 10 {} fileAsDirectoryGraph "r/y/z.cpp" "r/y").toOption.map
      (fun r => r.1.nodes.map (fun n => (n.kind, n.path, n.parent_dir, n.children))) =
      some [(NodeKind.Directory, "r", -1, [1]), (NodeKind.File, "r/y", 0, [2]),
            (NodeKind.File, "r/y/z.cpp", 1, [])] := by
  refine ⟨by decide!, by decide!, by decide!, by decide!, by decide!, by decide!⟩

theorem pieces_cons (c : Char) (rest : List Char) :
    pieces (c :: rest) =
      if c = '/' then [] :: pieces rest
      else match pieces rest with
        | [] => [[c]]
        | p :: ps => (c :: p) :: ps := by
  rw [pieces]

theorem pieces_ne_nil (r : List Char) : pieces r ≠ [] := by
  cases r with
  | nil => simp [pieces]
  | cons c rest =>
    unfold pieces
    split
    · simp
    · split <;> simp

theorem pieces_no_slash (r : List Char) (h : ¬ r.indexOf '/' < r.length) : pieces r = [r] := by
  induction r with
  | nil => rfl
  | cons c rest ih =>
    have hc : c ≠ '/' := by
      intro hc
      apply h
      simp [hc]
    have h1 : ¬ rest.indexOf '/' < rest.length := by
      intro h1
      apply h
      rw [List.indexOf_cons_ne _ hc]
      simp only [List.length_cons]
      omega
    rw [pieces_cons, if_neg hc, ih h1]

theorem pieces_of_slash (r : List Char) (h : r.indexOf '/' < r.length) :
    pieces r = r.take (r.indexOf '/') :: pieces (r.drop (r.indexOf '/' + 1)) := by
  induction r with
  | nil => simp at h
  | cons c rest ih =>
    by_cases hc : c = '/'
    · subst hc
      rw [pieces_cons]
      simp
    · have h1 : rest.indexOf '/' < rest.length := by
        rw [List.indexOf_cons_ne _ hc] at h
        simp only [List.length_cons] at h
        omega
      rw [pieces_cons, if_neg hc, ih h1, List.indexOf_cons_ne _ hc]
      simp

theorem segments_of_slash (r : List Char) (h : r.indexOf '/' < r.length) :
    segments r = (if r.take (r.indexOf '/') = [] then [] else [r.take (r.indexOf '/')]) ++
      segments (r.drop (r.indexOf '/' + 1)) := by
  unfold segments
  rw [pieces_of_slash r h, List.filter_cons]
  by_cases he : r.take (r.indexOf '/') = []
  · simp [he]
  · simp [he]

theorem segments_no_slash (r : List Char) (h : ¬ r.indexOf '/' < r.length) :
    segments r = if r = [] then [] else [r] := by
  unfold segments
  rw [pieces_no_slash r h, List.filter_cons]
  by_cases he : r = []
  · simp [he]
  · simp [he]

theorem segments_ne_nil (r : List Char) : ∀ s ∈ segments r, s ≠ [] := by
  intro s hs
  unfold segments at hs
  simpa using (List.mem_filter.mp hs).2

theorem ensureLoop_none (fuel : Nat) (np : List Char) (steps : Nat) (g : Graph) (parent : Int)
    (acc : List Char) (c : Nat) (hc : c ≤ np.length) (hf : find_char np '/' c = none) :
    ensureLoop fuel np (steps + 1) g parent acc c =
      match (if substr np c = [] then Except.ok (g, parent, acc)
          else ensureSegment fuel g parent acc (substr np c)) with
      | Except.error e => Except.error e
      | Except.ok (g1, p1, _) => Except.ok (g1, p1) := by
  rw [ensureLoop, if_pos hc]
  simp only [hf]
  rfl

theorem ensureLoop_some (fuel : Nat) (np : List Char) (steps : Nat) (g : Graph) (parent : Int)
    (acc : List Char) (c pos : Nat) (hc : c ≤ np.length) (hf : find_char np '/' c = some pos) :
    ensureLoop fuel np (steps + 1) g parent acc c =
      match (if substrCount np c (pos - c) = [] then Except.ok (g, parent, acc)
          else ensureSegment fuel g parent acc (substrCount np c (pos - c))) with
      | Except.error e => Except.error e
      | Except.ok (g1, p1, a1) => ensureLoop fuel np steps g1 p1 a1 (pos + 1) := by
  rw [ensureLoop, if_pos hc]
  simp only [hf]
  rfl

theorem ensureLoop_eq_segments (fuel : Nat) (np : List Char) :
    ∀ (steps : Nat) (g : Graph) (parent : Int) (acc : List Char) (c : Nat),
      c ≤ np.length → np.length - c < steps →
      ensureLoop fuel np steps g parent acc c =
        ensureSegments fuel (segments (np.drop c)) g parent acc := by
  intro steps
  induction steps with
  | zero => intro g parent acc c _ h; omega
  | succ steps ih =>
    intro g parent acc c hc hs
    by_cases h : (np.drop c).indexOf '/' < (np.drop c).length
    · have hlen : (np.drop c).length = np.length - c := by simp
      have hf : find_char np '/' c = some (c + (np.drop c).indexOf '/') := by
        unfold find_char
        simp only [if_pos h]
      rw [ensureLoop_some fuel np steps g parent acc c _ hc hf, segments_of_slash _ h]
      have hseg : substrCount np c (c + (np.drop c).indexOf '/' - c) =
          (np.drop c).take ((np.drop c).indexOf '/') := by
        simp [substrCount]
      have hdrop : List.drop ((np.drop c).indexOf '/' + 1) (np.drop c) =
          np.drop (c + (np.drop c).indexOf '/' + 1) := by
        rw [List.drop_drop, Nat.add_assoc]
      rw [hseg, hdrop]
      by_cases he : (np.drop c).take ((np.drop c).indexOf '/') = []
      · rw [if_pos he, if_pos he]
        simp only [List.nil_append]
        exact ih g parent acc _ (by omega) (by omega)
      · rw [if_neg he, if_neg he]
        simp only [List.singleton_append, ensureSegments]
        cases hb : ensureSegment fuel g parent acc
            ((np.drop c).take ((np.drop c).indexOf '/')) with
        | error e => rfl
        | ok r =>
          obtain ⟨g1, p1, a1⟩ := r
          exact ih g1 p1 a1 _ (by omega) (by omega)
    · have hf : find_char np '/' c = none := by
        unfold find_char
        simp only [if_neg h]
      rw [ensureLoop_none fuel np steps g parent acc c hc hf, segments_no_slash _ h]
      simp only [substr]
      by_cases he : np.drop c = []
      · rw [if_pos he, if_pos he]
        rfl
      · rw [if_neg he, if_neg he]
        simp only [ensureSegments]

theorem ensure_directory_eq_segments (fuel : Nat) (g : Graph) (p : String) :
    ensure_directory fuel g p =
      ensureSegments fuel (segments (NormalizePath p.data)) g (-1) [] := by
  unfold ensure_directory
  by_cases he : NormalizePath p.data = []
  · simp only [he, if_true]
    rfl
  · simp only [he, if_false]
    rw [ensureLoop_eq_segments fuel _ _ g (-1) [] 0 (by omega) (by omega)]
    simp

theorem KeepsIdentity_refl (g : Graph) : KeepsIdentity g g := by
  intro i n h
  exact ⟨n, h, rfl, rfl, rfl, rfl, rfl⟩

theorem KeepsIdentity_trans {g1 g2 g3 : Graph} (h12 : KeepsIdentity g1 g2)
    (h23 : KeepsIdentity g2 g3) : KeepsIdentity g1 g3 := by
  intro i n h
  obtain ⟨n2, hn2, a1, a2, a3, a4, a5⟩ := h12 i n h
  obtain ⟨n3, hn3, b1, b2, b3, b4, b5⟩ := h23 i n2 hn2
  exact ⟨n3, hn3, b1.trans a1, b2.trans a2, b3.trans a3, b4.trans a4, b5.trans a5⟩

theorem mapFind_persist {g g1 : Graph} (hinv : GraphInv g) (hinv1 : GraphInv g1)
    (hk : KeepsIdentity g g1) (p : String) (i : Int) (h : mapFind g.pathToNode p = some i) :
    mapFind g1.pathToNode p = some i := by
  obtain ⟨h0, n, hn, hp⟩ := (hinv.index p i).mp h
  obtain ⟨n1, hn1, _, _, _, hpath, _⟩ := hk _ n hn
  exact (hinv1.index p i).mpr ⟨h0, n1, hn1, hpath.trans hp⟩

theorem joinSegment_length (acc s : List Char) (hs : s ≠ []) :
    acc.length < (joinSegment acc s).length := by
  unfold joinSegment
  have : 0 < s.length := List.length_pos.mpr hs
  by_cases h : acc = []
  · simp [h, this]
  · simp [h]

theorem ChainEnsured_nil (g g1 : Graph) (parent : Int) (acc : List Char) (id : Int) :
    ChainEnsured g g1 parent acc [] id ↔ id = parent := by
  rw [ChainEnsured]

theorem ChainEnsured_cons (g g1 : Graph) (parent : Int) (acc s : List Char)
    (rest : List (List Char)) (id : Int) :
    ChainEnsured g g1 parent acc (s :: rest) id ↔
    ∃ (idj : Int) (n : Node),
      mapFind g1.pathToNode (String.mk (joinSegment acc s)) = some idj ∧ 0 ≤ idj ∧
      g1.nodes[idj.toNat]? = some n ∧ n.path = String.mk (joinSegment acc s) ∧
      (∀ i, mapFind g.pathToNode (String.mk (joinSegment acc s)) = some i → idj = i) ∧
      (mapFind g.pathToNode (String.mk (joinSegment acc s)) = none →
        (g.nodes.length : Int) ≤ idj ∧ n.kind = NodeKind.Directory ∧ n.name = String.mk s ∧
          n.parent_dir = parent) ∧
      (n.kind = NodeKind.Directory ∨
        ∃ x ∈ g.nodes, x.kind = NodeKind.File ∧ x.path = String.mk (joinSegment acc s)) ∧
      ChainEnsured g g1 idj (joinSegment acc s) rest id := by
  rw [ChainEnsured]

theorem ChainEnsured_rebase (g g0 g1 : Graph) (L : Nat) (id : Int)
    (h1 : ∀ q : List Char, L < q.length →
      mapFind g0.pathToNode (String.mk q) = mapFind g.pathToNode (String.mk q))
    (h2 : g.nodes.length ≤ g0.nodes.length)
    (h3 : ∀ x ∈ g0.nodes, x.kind = NodeKind.File →
      ∃ y ∈ g.nodes, y.kind = NodeKind.File ∧ y.path = x.path) :
    ∀ (rest : List (List Char)) (parent : Int) (acc : List Char), L ≤ acc.length →
      (∀ s ∈ rest, s ≠ []) → ChainEnsured g0 g1 parent acc rest id →
      ChainEnsured g g1 parent acc rest id := by
  intro rest
  induction rest with
  | nil =>
    intro parent acc _ _ h
    rw [ChainEnsured_nil] at h ⊢
    exact h
  | cons s rest ih =>
    intro parent acc hL hne h
    rw [ChainEnsured_cons] at h ⊢
    obtain ⟨idj, n, hm, h0, hn, hpath, hreuse, hcreate, hkind, hrest⟩ := h
    have hs : s ≠ [] := hne s (List.mem_cons_self _ _)
    have hlen := joinSegment_length acc s hs
    have he := h1 (joinSegment acc s) (by omega)
    rw [he] at hreuse hcreate
    refine ⟨idj, n, hm, h0, hn, hpath, hreuse, ?_, ?_, ?_⟩
    · intro hnone
      obtain ⟨a, b, c, d⟩ := hcreate hnone
      exact ⟨by omega, b, c, d⟩
    · rcases hkind with hk | ⟨x, hx, hxk, hxp⟩
      · exact Or.inl hk
      · obtain ⟨y, hy, hyk, hyp⟩ := h3 x hx hxk
        exact Or.inr ⟨y, hy, hyk, hyp.trans hxp⟩
    · exact ih idj (joinSegment acc s) (by omega)
        (fun t ht => hne t (List.mem_cons_of_mem _ ht)) hrest

theorem validParent_of_range {g : Graph} (hids : IdsAreIndices g.nodes) (parent : Int)
    (hp : parent = -1 ∨ (0 ≤ parent ∧ parent < g.nodes.length)) :
    validParent g parent = true := by
  unfold validParent
  simp only [Bool.or_eq_true, beq_iff_eq, List.any_eq_true]
  rcases hp with h | ⟨h0, h1⟩
  · exact Or.inl h
  · right
    have hlt : parent.toNat < g.nodes.length := by omega
    refine ⟨g.nodes[parent.toNat], List.getElem_mem _, ?_⟩
    have := hids parent.toNat g.nodes[parent.toNat] (List.getElem?_eq_getElem hlt)
    rw [this]
    omega

theorem AddDirectory_chain_step (fuel : Nat) (g : Graph) (path name : String) (parent : Int)
    (hinv : GraphInv g) (hnew : mapFind g.pathToNode path = none)
    (hp : parent = -1 ∨ (0 ≤ parent ∧ parent < g.nodes.length))
    (hf : g.nodes.length ≤ fuel) :
    ∃ g1, AddDirectory fuel g path name parent = Except.ok (g1, (g.nodes.length : Int)) ∧
      GraphInv g1 ∧ KeepsIdentity g g1 ∧ g1.links = g.links ∧
      g1.nodes.length = g.nodes.length + 1 ∧
      g1.nodes[g.nodes.length]? =
        some (newDirectoryNode (g.nodes.length : Int) path name parent) ∧
      mapFind g1.pathToNode path = some (g.nodes.length : Int) ∧
      (∀ q, q ≠ path → mapFind g1.pathToNode q = mapFind g.pathToNode q) ∧
      (∀ x ∈ g1.nodes, x.kind = NodeKind.File →
        ∃ y ∈ g.nodes, y.kind = NodeKind.File ∧ y.path = x.path) := by
  have hv := validParent_of_range hinv.ids parent hp
  have hlt : parent < (g.nodes.length : Int) := by
    rcases hp with h | h
    · omega
    · exact h.2
  obtain ⟨g1, id, hrun, hinv1, _, _, hlinks⟩ := AddDirectory_inv fuel g path name parent hinv hv hf
  obtain ⟨nodes1, hrun2, hlen, hlast, hold⟩ :=
    AddDirectory_new_spec fuel g path name parent hinv.parents hnew hlt hf
  rw [hrun2] at hrun
  have hpair := Except.ok.inj hrun
  have hg : g1 = { g with nodes := nodes1,
                          pathToNode := (path, (g.nodes.length : Int)) :: g.pathToNode } :=
    (congrArg Prod.fst hpair).symm
  subst hg
  refine ⟨_, hrun2, hinv1, ?_, hlinks, hlen, hlast, ?_, ?_, ?_⟩
  · intro i n hn
    exact ⟨_, hold i n hn, rfl, rfl, rfl, rfl, rfl⟩
  · simp [mapFind]
  · intro q hq
    simp only [mapFind]
    rw [if_neg (fun h => hq h.symm)]
  · intro x hx hxk
    obtain ⟨i, hi, hxi⟩ := List.mem_iff_getElem.mp hx
    have hi1 : i < g.nodes.length + 1 := by
      have : i < nodes1.length := hi
      omega
    have hxq : nodes1[i]? = some x := by
      rw [← hxi]
      exact List.getElem?_eq_getElem hi
    by_cases hin : i < g.nodes.length
    · have hy := hold i g.nodes[i] (List.getElem?_eq_getElem hin)
      rw [hxq] at hy
      have hxe := Option.some.inj hy
      refine ⟨g.nodes[i], List.getElem_mem _, ?_, ?_⟩
      · rw [hxe] at hxk
        exact hxk
      · rw [hxe]
    · have hie : i = g.nodes.length := by omega
      subst hie
      rw [hlast] at hxq
      have hxe := Option.some.inj hxq
      rw [← hxe] at hxk
      simp [newDirectoryNode] at hxk

theorem segments_skips_empty :
    segments (NormalizePath "\\r//y/".data) = ["r".data, "y".data] ∧
    segments (NormalizePath "//".data) = [] := by
  decide

theorem ensureSegment_found (fuel : Nat) (g : Graph) (parent : Int) (acc s : List Char)
    (i : Int) (h0 : 0 ≤ i)
    (h : mapFind g.pathToNode (String.mk (joinSegment acc s)) = some i) :
    ensureSegment fuel g parent acc s = Except.ok (g, i, joinSegment acc s) := by
  unfold ensureSegment FindNodeByPath
  simp only [h]
  rw [if_neg (by omega)]

theorem ensureSegment_new (fuel : Nat) (g : Graph) (parent : Int) (acc s : List Char)
    (h : mapFind g.pathToNode (String.mk (joinSegment acc s)) = none) :
    ensureSegment fuel g parent acc s =
      match AddDirectory fuel g (String.mk (joinSegment acc s)) (String.mk s) parent with
      | Except.error e => Except.error e
      | Except.ok (g1, id1) => Except.ok (g1, id1, joinSegment acc s) := by
  unfold ensureSegment FindNodeByPath
  simp only [h]
  rw [if_pos (by omega)]

theorem ensureSegments_found (fuel : Nat) (g g1 : Graph) :
    ∀ (segs : List (List Char)) (parent : Int) (acc : List Char) (id : Int),
      ChainEnsured g g1 parent acc segs id →
      ensureSegments fuel segs g1 parent acc = Except.ok (g1, id) := by
  intro segs
  induction segs with
  | nil =>
    intro parent acc id h
    rw [ChainEnsured_nil] at h
    rw [h]
    rfl
  | cons s rest ih =>
    intro parent acc id h
    rw [ChainEnsured_cons] at h
    obtain ⟨idj, n, hm, h0, _, _, _, _, _, hrest⟩ := h
    rw [ensureSegments, ensureSegment_found fuel g1 parent acc s idj h0 hm]
    exact ih idj (joinSegment acc s) id hrest

theorem ensureSegments_chain (fuel : Nat) :
    ∀ (segs : List (List Char)) (g : Graph) (parent : Int) (acc : List Char),
      GraphInv g → (∀ s ∈ segs, s ≠ []) →
      (parent = -1 ∨ (0 ≤ parent ∧ parent < g.nodes.length)) →
      g.nodes.length + segs.length ≤ fuel →
      ∃ g1 id, ensureSegments fuel segs g parent acc = Except.ok (g1, id) ∧ GraphInv g1 ∧
        KeepsIdentity g g1 ∧ g1.links = g.links ∧ g.nodes.length ≤ g1.nodes.length ∧
        g1.nodes.length ≤ g.nodes.length + segs.length ∧
        (id = -1 ∨ (0 ≤ id ∧ id < g1.nodes.length)) ∧
        (∀ x ∈ g1.nodes, x.kind = NodeKind.File →
          ∃ y ∈ g.nodes, y.kind = NodeKind.File ∧ y.path = x.path) ∧
        ChainEnsured g g1 parent acc segs id := by
  intro segs
  induction segs with
  | nil =>
    intro g parent acc hinv _ hp _
    refine ⟨g, parent, rfl, hinv, KeepsIdentity_refl g, rfl, le_refl _, by simp, hp, ?_, ?_⟩
    · intro x hx hk
      exact ⟨x, hx, hk, rfl⟩
    · rw [ChainEnsured_nil]
  | cons s rest ih =>
    intro g parent acc hinv hne hp hf
    have hs : s ≠ [] := hne s (List.mem_cons_self _ _)
    have hne1 : ∀ t ∈ rest, t ≠ [] := fun t ht => hne t (List.mem_cons_of_mem _ ht)
    simp only [List.length_cons] at hf
    cases hfind : mapFind g.pathToNode (String.mk (joinSegment acc s)) with
    | some i =>
      obtain ⟨h0, n, hn, hpath⟩ := (hinv.index _ i).mp hfind
      have hlt : i.toNat < g.nodes.length := (List.getElem?_eq_some_iff.mp hn).1
      obtain ⟨g1, id, hrun, hinv1, hk, hlinks, hge, hle, hid, hfiles, hchain⟩ :=
        ih g i (joinSegment acc s) hinv hne1 (Or.inr ⟨h0, by omega⟩) (by omega)
      refine ⟨g1, id, ?_, hinv1, hk, hlinks, hge, ?_, hid, hfiles, ?_⟩
      · rw [ensureSegments, ensureSegment_found fuel g parent acc s i h0 hfind]
        exact hrun
      · simp only [List.length_cons]
        omega
      · rw [ChainEnsured_cons]
        obtain ⟨n1, hn1, _, hkind, _, hpath1, _⟩ := hk _ n hn
        refine ⟨i, n1, mapFind_persist hinv hinv1 hk _ i hfind, h0, hn1, hpath1.trans hpath,
          ?_, ?_, ?_, hchain⟩
        · intro j hj
          rw [hfind] at hj
          exact Option.some.inj hj
        · intro hnone
          rw [hfind] at hnone
          exact absurd hnone (by simp)
        · cases hnk : n.kind with
          | Directory => exact Or.inl (hkind.trans hnk)
          | File => exact Or.inr ⟨n, List.mem_iff_getElem?.mpr ⟨_, hn⟩, hnk, hpath⟩
    | none =>
      obtain ⟨g0, hadd, hinv0, hk0, hlinks0, hlen0, hlast0, hfind0, hother0, hfiles0⟩ :=
        AddDirectory_chain_step fuel g (String.mk (joinSegment acc s)) (String.mk s) parent
          hinv hfind hp (by omega)
      obtain ⟨g1, id, hrun, hinv1, hk, hlinks, hge, hle, hid, hfiles, hchain⟩ :=
        ih g0 (g.nodes.length : Int) (joinSegment acc s) hinv0 hne1
          (Or.inr ⟨by omega, by rw [hlen0]; push_cast; omega⟩) (by omega)
      refine ⟨g1, id, ?_, hinv1, KeepsIdentity_trans hk0 hk, hlinks.trans hlinks0, by omega,
        ?_, hid, ?_, ?_⟩
      · rw [ensureSegments, ensureSegment_new fuel g parent acc s hfind, hadd]
        exact hrun
      · simp only [List.length_cons]
        omega
      · intro x hx hxk
        obtain ⟨y, hy, hyk, hyp⟩ := hfiles x hx hxk
        obtain ⟨z, hz, hzk, hzp⟩ := hfiles0 y hy hyk
        exact ⟨z, hz, hzk, hzp.trans hyp⟩
      · rw [ChainEnsured_cons]
        obtain ⟨n1, hn1, _, hkind, hname, hpath1, hpar⟩ := hk _ _ hlast0
        refine ⟨(g.nodes.length : Int), n1,
          mapFind_persist hinv0 hinv1 hk _ _ hfind0, by omega, ?_, ?_, ?_, ?_, ?_, ?_⟩
        · rw [Int.toNat_ofNat]
          exact hn1
        · rw [hpath1]
          rfl
        · intro j hj
          rw [hfind] at hj
          exact absurd hj (by simp)
        · intro _
          refine ⟨le_refl _, ?_, ?_, ?_⟩
          · rw [hkind]; rfl
          · rw [hname]; rfl
          · rw [hpar]; rfl
        · left
          rw [hkind]; rfl
        · refine ChainEnsured_rebase g g0 g1 (joinSegment acc s).length id ?_ (by omega) hfiles0
            rest _ _ (le_refl _) hne1 hchain
          intro q hq
          apply hother0
          intro he
          have := congrArg String.data he
          simp only at this
          rw [this] at hq
          omega

/-- What `ensure_directory` does on a well-formed graph: it returns; the graph stays well
formed, its old nodes keep their index, `id`, `kind`, `name`, `path` and `parent_dir`, and the
links are unchanged; every prefix of the path is then in the path index, a prefix that was not
there belongs to a new Directory node named after its last segment whose `parent_dir` is the
node of the previous prefix (`-1` for the first), the node of a prefix is a Directory unless the
graph had a File node with that path, and the returned id is that of the last prefix (`-1` for
a path without segment); a second call with the same path changes nothing and returns the same
id. -/
theorem ensure_directory_chain (fuel : Nat) (g : Graph) (p : String) (hinv : GraphInv g)
    (hf : g.nodes.length + (segments (NormalizePath p.data)).length ≤ fuel) :
    ∃ g1 id, ensure_directory fuel g p = Except.ok (g1, id) ∧ GraphInv g1 ∧
      KeepsIdentity g g1 ∧ g1.links = g.links ∧
      g1.nodes.length ≤ g.nodes.length + (segments (NormalizePath p.data)).length ∧
      ChainEnsured g g1 (-1) [] (segments (NormalizePath p.data)) id ∧
      ensure_directory fuel g1 p = Except.ok (g1, id) := by
  obtain ⟨g1, id, hrun, hinv1, hk, hlinks, _, hle, _, _, hchain⟩ :=
    ensureSegments_chain fuel (segments (NormalizePath p.data)) g (-1) [] hinv
      (segments_ne_nil _) (Or.inl rfl) hf
  refine ⟨g1, id, ?_, hinv1, hk, hlinks, hle, hchain, ?_⟩
  · rw [ensure_directory_eq_segments]
    exact hrun
  · rw [ensure_directory_eq_segments]
    exact ensureSegments_found fuel g g1 _ _ _ _ hchain

theorem Node.MovedTo.category {n n1 : Node} (h : n.MovedTo n1) :
    n1.kind = n.kind ∧ n1.children = n.children ∧ n1.subtreeDirCount = n.subtreeDirCount := by
  have h1 := h.1
  refine ⟨?_, ?_, ?_⟩
  · rw [h1]
  · rw [h1]
  · rw [h1]

theorem NodesMoved.nodeAt_origin {nodes0 nodes : List Node} (h : NodesMoved nodes0 nodes)
    {i : Int} {n : Node} (hn : nodeAt nodes i = Except.ok n) :
    ∃ n0, nodeAt nodes0 i = Except.ok n0 ∧ n0.MovedTo n := by
  obtain ⟨h0, hget⟩ := nodeAt_ok hn
  have hlt : i.toNat < nodes.length := (List.getElem?_eq_some_iff.mp hget).1
  have hlt0 : i.toNat < nodes0.length := by rw [← h.1]; exact hlt
  obtain ⟨n1, hn1, hm⟩ := h.2 i.toNat nodes0[i.toNat] (List.getElem?_eq_getElem hlt0)
  rw [hget] at hn1
  cases hn1
  exact ⟨nodes0[i.toNat], nodeAt_of_getElem? h0 (List.getElem?_eq_getElem hlt0), hm⟩

theorem category_of_moved (cfg : Config) {nodes0 nodes : List Node} (h : NodesMoved nodes0 nodes)
    (link : Link) (A B : Node) (hA : nodeAt nodes link.a = Except.ok A)
    (hB : nodeAt nodes link.b = Except.ok B) :
    categoryEnabled cfg nodes0 link = linkEnabled cfg A B ∧
    categoryRestLength cfg nodes0 link = desiredRestLength cfg A B := by
  obtain ⟨A0, hA0, hmA⟩ := h.nodeAt_origin hA
  obtain ⟨B0, hB0, hmB⟩ := h.nodeAt_origin hB
  obtain ⟨ka, ca, sa⟩ := hmA.category
  obtain ⟨kb, cb, sb⟩ := hmB.category
  unfold categoryEnabled categoryRestLength linkEnabled desiredRestLength
  rw [hA0, hB0]
  simp only [← ka, ← kb, ← ca, ← cb, ← sa, ← sb]
  by_cases ha : A.kind = NodeKind.Directory <;> by_cases hb : B.kind = NodeKind.Directory <;>
    simp [ha, hb, dirDirRestLength, dirFileRestLength]

theorem satisfyLink_error_a (m : Libm) (cfg : Config) (nodes : List Node) (link : Link)
    (e : Fault) (hA : nodeAt nodes link.a = Except.error e) :
    satisfyLink m cfg nodes link = Except.error e := by
  unfold satisfyLink
  rw [hA]
  rfl

theorem satisfyLink_error_b (m : Libm) (cfg : Config) (nodes : List Node) (link : Link)
    (A : Node) (e : Fault) (hA : nodeAt nodes link.a = Except.ok A)
    (hB : nodeAt nodes link.b = Except.error e) :
    satisfyLink m cfg nodes link = Except.error e := by
  unfold satisfyLink
  rw [hA, hB]
  rfl

theorem satisfyLinks_eq_constrainLinks (m : Libm) (cfg : Config) (nodes0 : List Node) :
    ∀ (links : List Link) (nodes : List Node), NodesMoved nodes0 nodes →
      satisfyLinks m cfg nodes links = constrainLinks m cfg nodes0 nodes links := by
  intro links
  induction links with
  | nil => intro nodes _; rfl
  | cons link rest ih =>
    intro nodes hmv
    rw [satisfyLinks, constrainLinks]
    cases hA : nodeAt nodes link.a with
    | error e =>
      rw [satisfyLink_error_a m cfg nodes link e hA]
    | ok A =>
      cases hB : nodeAt nodes link.b with
      | error e =>
        rw [satisfyLink_error_b m cfg nodes link A e hA hB]
      | ok B =>
        obtain ⟨he, hr⟩ := category_of_moved cfg hmv link A B hA hB
        rw [satisfyLink_eq_enabled m cfg nodes link A B hA hB, he, hr]
        simp only
        by_cases hen : linkEnabled cfg A B = true
        · rw [if_pos hen, if_pos hen]
          cases hc : constrainPair m (desiredRestLength cfg A B) nodes link A B with
          | error e => rfl
          | ok nodes1 =>
            exact ih nodes1 (hmv.trans (constrainPair_moved m _ nodes nodes1 link A B hA hc))
        · rw [if_neg hen, if_neg hen]
          exact ih nodes hmv

theorem SatisfyConstraints_eq_constrainLinks (m : Libm) (cfg : Config) (g : Graph) :
    SatisfyConstraints m cfg g =
      withNodes g (constrainLinks m cfg g.nodes g.nodes g.links) := by
  have h := satisfyLinks_eq_constrainLinks m cfg g.nodes g.links g.nodes (NodesMoved.refl _)
  unfold SatisfyConstraints withNodes
  cases hc : constrainLinks m cfg g.nodes g.nodes g.links <;> simp only [h, hc]

theorem categoryRestLength_dirDir (cfg : Config) (nodes : List Node) (link : Link) (A B : Node)
    (hA : nodeAt nodes link.a = Except.ok A) (hB : nodeAt nodes link.b = Except.ok B)
    (hkA : A.kind = NodeKind.Directory) (hkB : B.kind = NodeKind.Directory) :
    categoryRestLength cfg nodes link =
      (40 + ((A.subtreeDirCount + 1) + (B.subtreeDirCount + 1)) * 2) *
        cfg.graph.dir_dir_length_coef ∧
    categoryEnabled cfg nodes link = cfg.graph.enable_directory_links := by
  unfold categoryRestLength categoryEnabled
  rw [hA, hB]
  simp [hkA, hkB, dirDirRestLength]

theorem categoryRestLength_dirFile (cfg : Config) (nodes : List Node) (link : Link) (A B : Node)
    (hA : nodeAt nodes link.a = Except.ok A) (hB : nodeAt nodes link.b = Except.ok B) :
    (A.kind = NodeKind.Directory → B.kind = NodeKind.File →
      categoryRestLength cfg nodes link =
        (30 + (A.children.length : ℚ)) * cfg.graph.dir_file_length_coef ∧
      categoryEnabled cfg nodes link = cfg.graph.enable_directory_links) ∧
    (A.kind = NodeKind.File → B.kind = NodeKind.Directory →
      categoryRestLength cfg nodes link =
        (30 + (B.children.length : ℚ)) * cfg.graph.dir_file_length_coef ∧
      categoryEnabled cfg nodes link = cfg.graph.enable_directory_links) := by
  unfold categoryRestLength categoryEnabled
  rw [hA, hB]
  constructor
  · intro hkA hkB
    simp [hkA, hkB, dirFileRestLength]
  · intro hkA hkB
    simp [hkA, hkB, dirFileRestLength]

/-- C16 (amended): the rest length that the scanner stores on every link of the directory
chain is `(40 + ((P + 1) + (C + 1)) * 2) * dir_dir_length_coef`, with `P` and `C` the
`subtreeDirCount` of the two ends when it is computed. `SatisfyConstraints` is the pass
`constrainLinks` that corrects every link of an enabled category against the rest length of its
category, read from the nodes at the start of the pass; for a link whose two ends are
directories that rest length is `(40 + ((P + 1) + (C + 1)) * 2) * dir_dir_length_coef` and the
category is enabled by `enable_directory_links`; the same length is used by the step of such a
link on any node sequence. -/
theorem dirDir_rest_length_used (m : Libm) (cfg : Config) (fuel : Nat) (g : Graph) (dir_id : Int)
    (hpb : ParentsBelow g.nodes) (h0 : 0 ≤ dir_id) (hlen : dir_id < g.nodes.length)
    (hfuel : dir_id < fuel) :
    (∃ added, linkChain cfg fuel g dir_id = Except.ok { g with links := g.links ++ added } ∧
      ∀ l ∈ added, l.stiffness = 1 / 2 ∧
        ∃ parent child, g.nodes[l.a.toNat]? = some parent ∧ g.nodes[l.b.toNat]? = some child ∧
          0 ≤ l.a ∧ 0 ≤ l.b ∧ child.parent_dir = l.a ∧
          l.restLength = dirDirRestLength parent.subtreeDirCount child.subtreeDirCount
            cfg.graph.dir_dir_length_coef) ∧
    (∀ g1 : Graph, SatisfyConstraints m cfg g1 =
      withNodes g1 (constrainLinks m cfg g1.nodes g1.nodes g1.links)) ∧
    (∀ (nodes : List Node) (link : Link) (nodeA nodeB : Node),
      nodeAt nodes link.a = Except.ok nodeA → nodeAt nodes link.b = Except.ok nodeB →
      nodeA.kind = NodeKind.Directory → nodeB.kind = NodeKind.Directory →
      categoryRestLength cfg nodes link =
        (40 + ((nodeA.subtreeDirCount + 1) + (nodeB.subtreeDirCount + 1)) * 2) *
          cfg.graph.dir_dir_length_coef ∧
      categoryEnabled cfg nodes link = cfg.graph.enable_directory_links) ∧
    (∀ (nodes : List Node) (link : Link) (nodeA nodeB : Node),
      nodeAt nodes link.a = Except.ok nodeA → nodeAt nodes link.b = Except.ok nodeB →
      nodeA.kind = NodeKind.Directory → nodeB.kind = NodeKind.Directory →
      cfg.graph.enable_directory_links = true →
      satisfyLink m cfg nodes link =
        constrainPair m
          (dirDirRestLength nodeA.subtreeDirCount nodeB.subtreeDirCount
            cfg.graph.dir_dir_length_coef) nodes link nodeA nodeB) ∧
    (∀ (P C : Int) (coef : ℚ), dirDirRestLength P C coef = (40 + ((P + 1) + (C + 1)) * 2) * coef) := by
  refine ⟨linkChain_spec cfg fuel g dir_id hpb h0 hlen hfuel,
    fun g1 => SatisfyConstraints_eq_constrainLinks m cfg g1, ?_, ?_, ?_⟩
  · intro nodes link nodeA nodeB hA hB hkA hkB
    exact categoryRestLength_dirDir cfg nodes link nodeA nodeB hA hB hkA hkB
  · intro nodes link nodeA nodeB hA hB hkA hkB hen
    rw [satisfyLink_eq_constrainPair m cfg nodes link nodeA nodeB hA hB]
    simp [hkA, hkB, hen]
  · intro P C coef
    simp [dirDirRestLength]

theorem dirDir_rest_length_used_witness :
    (∃ added, linkChain {} 2
        { nodes := [(newDirectoryNode 0 "src" "src" (-1)).incSubtreeDirCount,
                    newDirectoryNode 1 "src/a" "a" 0] } 1 =
        Except.ok { nodes := [(newDirectoryNode 0 "src" "src" (-1)).incSubtreeDirCount,
                              newDirectoryNode 1 "src/a" "a" 0],
                    links := [] ++ added }) ∧
    SatisfyConstraints libmQ {} { twoDirectoryGraph with links := [{ a := 2, b := 0 }] } =
      withNodes { twoDirectoryGraph with links := [{ a := 2, b := 0 }] }
        (constrainLinks libmQ {} twoDirectoryGraph.nodes twoDirectoryGraph.nodes
          [{ a := 2, b := 0 }]) ∧
    categoryRestLength {} twoDirectoryGraph.nodes { a := 2, b := 0 } = 44 ∧
    (withNodes { twoDirectoryGraph with links := [{ a := 2, b := 0 }] }
        (constrainLinks libmQ {} twoDirectoryGraph.nodes twoDirectoryGraph.nodes
          [{ a := 2, b := 0 }])).toOption =
      some { twoDirectoryGraph with
        links := [{ a := 2, b := 0 }],
        nodes := [lightDirectory.placeAt (-39 / 4) (-13), fileBetween,
                  heavyDirectory.placeAt (99 / 20) (33 / 5)] } := by
  have hw := dirDir_rest_length_used libmQ {} 2
    { nodes := [(newDirectoryNode 0 "src" "src" (-1)).incSubtreeDirCount,
                newDirectoryNode 1 "src/a" "a" 0] } 1
    (by
      intro i n hi
      match i with
      | 0 => simp at hi; subst hi; decide
      | 1 => simp at hi; subst hi; decide
      | k + 2 => simp at hi)
    (by decide) (by decide) (by decide)
  obtain ⟨⟨added, h, _⟩, hpass, hcat, _, _⟩ := hw
  refine ⟨⟨added, h⟩, hpass _, ?_, by decide!⟩
  rw [(hcat twoDirectoryGraph.nodes { a := 2, b := 0 } heavyDirectory lightDirectory rfl rfl
    rfl rfl).1]
  decide!

/-- C17: when directory links are enabled, the scanner block that registers a new file under
directory `dir_id` returns, and stores the link `(dir_id, file_id)` with stiffness 0.6 and rest
length `(30 + n) * dir_file_length_coef`, where `n` counts the children of the directory
with the file just registered; in general the stored rest length is `(30 + n) * coef` for the
number `n` of children at the moment of the link. `SatisfyConstraints` is the pass
`constrainLinks` that corrects every link of an enabled category against the rest length of its
category, read from the nodes at the start of the pass; for a link between a directory and a
file that rest length is `(30 + n) * dir_file_length_coef` for the current number `n` of
children of the directory end, whether that end is `a` or `b`, and the category is enabled by
`enable_directory_links`; the same length is used by the step of such a link on any node
sequence. -/
theorem dirFile_rest_length_used (m : Libm) (cfg : Config) (g : Graph) (file_path : String)
    (dir_id : Int) (dir : Node) (hen : cfg.graph.enable_directory_links = true)
    (hnew : mapFind g.pathToNode file_path = none) (h0 : 0 ≤ dir_id)
    (hdir : g.nodes[dir_id.toNat]? = some dir) :
    (∃ g1, registerFile cfg g file_path dir_id = Except.ok (g1, (g.nodes.length : Int)) ∧
      g1.nodes[dir_id.toNat]? = some (dir.pushChild (g.nodes.length : Int)) ∧
      g1.links = g.links ++
        [{ a := dir_id, b := (g.nodes.length : Int),
           restLength := (30 + ((dir.children.length + 1 : Nat) : ℚ)) *
             cfg.graph.dir_file_length_coef,
           stiffness := 3 / 5 }]) ∧
    (∀ (file_id : Int),
      linkFile cfg g dir_id file_id =
        Except.ok (AddLink g dir_id file_id
          ((30 + (dir.children.length : ℚ)) * cfg.graph.dir_file_length_coef) (3 / 5))) ∧
    (∀ g1 : Graph, SatisfyConstraints m cfg g1 =
      withNodes g1 (constrainLinks m cfg g1.nodes g1.nodes g1.links)) ∧
    (∀ (nodes : List Node) (link : Link) (nodeA nodeB : Node),
      nodeAt nodes link.a = Except.ok nodeA → nodeAt nodes link.b = Except.ok nodeB →
      (nodeA.kind = NodeKind.Directory → nodeB.kind = NodeKind.File →
        categoryRestLength cfg nodes link =
          (30 + (nodeA.children.length : ℚ)) * cfg.graph.dir_file_length_coef ∧
        categoryEnabled cfg nodes link = cfg.graph.enable_directory_links) ∧
      (nodeA.kind = NodeKind.File → nodeB.kind = NodeKind.Directory →
        categoryRestLength cfg nodes link =
          (30 + (nodeB.children.length : ℚ)) * cfg.graph.dir_file_length_coef ∧
        categoryEnabled cfg nodes link = cfg.graph.enable_directory_links)) ∧
    (∀ (nodes : List Node) (link : Link) (nodeA nodeB : Node),
      nodeAt nodes link.a = Except.ok nodeA → nodeAt nodes link.b = Except.ok nodeB →
      (nodeA.kind = NodeKind.Directory → nodeB.kind = NodeKind.File →
        satisfyLink m cfg nodes link =
          constrainPair m ((30 + (nodeA.children.length : ℚ)) * cfg.graph.dir_file_length_coef)
            nodes link nodeA nodeB) ∧
      (nodeA.kind = NodeKind.File → nodeB.kind = NodeKind.Directory →
        satisfyLink m cfg nodes link =
          constrainPair m ((30 + (nodeB.children.length : ℚ)) * cfg.graph.dir_file_length_coef)
            nodes link nodeA nodeB)) := by
  refine ⟨registerFile_new cfg g file_path dir_id dir hen hnew h0 hdir,
    fun file_id => linkFile_spec cfg g dir_id file_id dir hen h0 hdir,
    fun g1 => SatisfyConstraints_eq_constrainLinks m cfg g1, ?_, ?_⟩
  · intro nodes link nodeA nodeB hA hB
    exact categoryRestLength_dirFile cfg nodes link nodeA nodeB hA hB
  · intro nodes link nodeA nodeB hA hB
    rw [satisfyLink_eq_constrainPair m cfg nodes link nodeA nodeB hA hB]
    constructor
    · intro hkA hkB
      simp [hkA, hkB, hen, dirFileRestLength]
    · intro hkA hkB
      simp [hkA, hkB, hen, dirFileRestLength]

theorem dirFile_rest_length_used_witness :
    (∃ g1, registerFile {}
        { nodes := [newDirectoryNode 0 "src" "src" (-1)], pathToNode := [("src", 0)] }
        "src/x.h" 0 = Except.ok (g1, 1) ∧
      g1.links = [{ a := 0, b := 1, restLength := (30 + ((0 + 1 : Nat) : ℚ)) * 1,
                    stiffness := 3 / 5 }]) ∧
    SatisfyConstraints libmQ {} { twoDirectoryGraph with links := [{ a := 1, b := 0 }] } =
      withNodes { twoDirectoryGraph with links := [{ a := 1, b := 0 }] }
        (constrainLinks libmQ {} twoDirectoryGraph.nodes twoDirectoryGraph.nodes
          [{ a := 1, b := 0 }]) ∧
    categoryRestLength {} twoDirectoryGraph.nodes { a := 1, b := 0 } = 30 ∧
    (withNodes { twoDirectoryGraph with links := [{ a := 1, b := 0 }] }
        (constrainLinks libmQ {} twoDirectoryGraph.nodes twoDirectoryGraph.nodes
          [{ a := 1, b := 0 }])).toOption =
      some { twoDirectoryGraph with
        links := [{ a := 1, b := 0 }],
        nodes := [lightDirectory.placeAt (-29 / 4) 0, fileBetween.placeAt (33 / 4) 0,
                  heavyDirectory] } := by
  have hw := dirFile_rest_length_used libmQ {}
    { nodes := [newDirectoryNode 0 "src" "src" (-1)], pathToNode := [("src", 0)] }
    "src/x.h" 0 (newDirectoryNode 0 "src" "src" (-1)) rfl (by decide) (by decide) rfl
  obtain ⟨⟨g1, h1, _, h3⟩, _, hpass, hcat, _⟩ := hw
  refine ⟨⟨g1, h1, h3⟩, hpass _, ?_, by decide!⟩
  rw [((hcat twoDirectoryGraph.nodes { a := 1, b := 0 } fileBetween lightDirectory rfl rfl).2
    rfl rfl).1]
  decide!

theorem nodeAt_set_self (nodes : List Node) (c : Int) (n x : Node)
    (h : nodeAt nodes c = Except.ok n) : nodeAt (nodes.set c.toNat x) c = Except.ok x := by
  obtain ⟨h0, hg⟩ := nodeAt_ok h
  apply nodeAt_of_getElem? h0
  rw [List.getElem?_set_eq_of_lt _ (List.getElem?_eq_some_iff.mp hg).1]

theorem pow2_eq_zpow (k : Int) : pow2 k = (2 : ℚ) ^ k := by
  unfold pow2
  split_ifs with h
  · have hk : k = ((k.toNat : Nat) : Int) := (Int.toNat_of_nonneg h).symm
    conv_rhs => rw [hk]
    rw [zpow_natCast]
    push_cast
    rfl
  · have hk : k = -(((-k).toNat : Nat) : Int) := by
      rw [Int.toNat_of_nonneg (by omega)]
      ring
    conv_rhs => rw [hk]
    rw [zpow_neg, zpow_natCast]
    push_cast
    rw [one_div]

theorem pow2_pos (k : Int) : 0 < pow2 k := by
  rw [pow2_eq_zpow]
  positivity

theorem pow2_add (a b : Int) : pow2 (a + b) = pow2 a * pow2 b := by
  simp only [pow2_eq_zpow]
  exact zpow_add₀ (by norm_num) a b

theorem pow2_lt_iff (a b : Int) : pow2 a < pow2 b ↔ a < b := by
  simp only [pow2_eq_zpow]
  exact zpow_lt_zpow_iff_right₀ (by norm_num)

theorem pow2_le_iff (a b : Int) : pow2 a ≤ pow2 b ↔ a ≤ b := by
  simp only [pow2_eq_zpow]
  exact zpow_le_zpow_iff_right₀ (by norm_num)

theorem pow2_natCast (k : Nat) : pow2 (k : Int) = ((2 ^ k : Nat) : ℚ) := by
  rw [pow2_eq_zpow, zpow_natCast]
  push_cast
  rfl

theorem log2Floor_spec : ∀ (fuel n : Nat), 1 ≤ n → n ≤ fuel →
    2 ^ log2Floor fuel n ≤ n ∧ n < 2 ^ (log2Floor fuel n + 1) := by
  intro fuel
  induction fuel with
  | zero => intro n h1 h2; omega
  | succ fuel ih =>
    intro n h1 h2
    unfold log2Floor
    split_ifs with h
    · have : n = 1 := by omega
      subst this
      simp
    · have h3 : 1 ≤ n / 2 := by omega
      have h4 : n / 2 ≤ fuel := by omega
      obtain ⟨ha, hb⟩ := ih (n / 2) h3 h4
      constructor
      · rw [pow_succ]
        omega
      · rw [pow_succ]
        omega

theorem binaryExponent_spec (x : ℚ) (hx : 0 < x) :
    pow2 (binaryExponent x) ≤ x ∧ x < pow2 (binaryExponent x + 1) := by
  have hnum : 0 < x.num := Rat.num_pos.mpr hx
  have hden : 0 < x.den := x.den_pos
  obtain ⟨na, nb⟩ := log2Floor_spec x.num.natAbs x.num.natAbs (by omega) (le_refl _)
  obtain ⟨da, db⟩ := log2Floor_spec x.den x.den (by omega) (le_refl _)
  generalize hna : log2Floor x.num.natAbs x.num.natAbs = a at na nb
  generalize hb : log2Floor x.den x.den = b at da db
  have hxe : x = (x.num.natAbs : ℚ) / (x.den : ℚ) := by
    have h1 : ((x.num.natAbs : Nat) : Int) = x.num := Int.natAbs_of_nonneg hnum.le
    have h2 : ((x.num.natAbs : Nat) : ℚ) = (x.num : ℚ) := by
      have h3 : (((x.num.natAbs : Nat) : Int) : ℚ) = (x.num : ℚ) := congrArg (Int.cast) h1
      rw [← h3]
      exact (Int.cast_natCast _).symm
    rw [h2]
    exact (Rat.num_div_den x).symm
  have hdq : (0 : ℚ) < (x.den : ℚ) := by exact_mod_cast hden
  have na' : ((2 : ℚ) ^ a) ≤ (x.num.natAbs : ℚ) := by exact_mod_cast na
  have nb' : (x.num.natAbs : ℚ) < (2 : ℚ) ^ (a + 1) := by exact_mod_cast nb
  have da' : ((2 : ℚ) ^ b) ≤ (x.den : ℚ) := by exact_mod_cast da
  have db' : (x.den : ℚ) < (2 : ℚ) ^ (b + 1) := by exact_mod_cast db
  -- x < 2 ^ (a - b + 1) and 2 ^ (a - b - 1) < x
  have hup : x < pow2 ((a : Int) - (b : Int) + 1) := by
    rw [pow2_eq_zpow]
    have e : ((a : Int) - (b : Int) + 1) = ((a + 1 : Nat) : Int) - ((b : Nat) : Int) := by
      push_cast; ring
    rw [e, zpow_sub₀ (by norm_num), zpow_natCast, zpow_natCast, hxe]
    rw [div_lt_div_iff₀ hdq (by positivity)]
    calc (x.num.natAbs : ℚ) * 2 ^ b ≤ (x.num.natAbs : ℚ) * (x.den : ℚ) :=
          mul_le_mul_of_nonneg_left da' (by positivity)
      _ < 2 ^ (a + 1) * (x.den : ℚ) := mul_lt_mul_of_pos_right nb' hdq
  have hlo : pow2 ((a : Int) - (b : Int) - 1) < x := by
    rw [pow2_eq_zpow]
    have e : ((a : Int) - (b : Int) - 1) = ((a : Nat) : Int) - ((b + 1 : Nat) : Int) := by
      push_cast; ring
    rw [e, zpow_sub₀ (by norm_num), zpow_natCast, zpow_natCast]
    conv_rhs => rw [hxe]
    rw [div_lt_div_iff₀ (by positivity) hdq]
    calc (2 : ℚ) ^ a * (x.den : ℚ) < 2 ^ a * 2 ^ (b + 1) :=
          mul_lt_mul_of_pos_left db' (by positivity)
      _ ≤ (x.num.natAbs : ℚ) * 2 ^ (b + 1) := mul_le_mul_of_nonneg_right na' (by positivity)
  unfold binaryExponent
  simp only [hb, hna]
  split_ifs with h
  · exact ⟨h, hup⟩
  · constructor
    · exact hlo.le
    · have : (a : Int) - (b : Int) - 1 + 1 = (a : Int) - (b : Int) := by ring
      rw [this]
      exact not_le.mp h

theorem binaryExponent_unique (x : ℚ) (e : Int) (h1 : pow2 e ≤ x) (h2 : x < pow2 (e + 1)) :
    binaryExponent x = e := by
  have hx : 0 < x := lt_of_lt_of_le (pow2_pos e) h1
  obtain ⟨s1, s2⟩ := binaryExponent_spec x hx
  have a1 : e < binaryExponent x + 1 := (pow2_lt_iff _ _).mp (lt_of_le_of_lt h1 s2)
  have a2 : binaryExponent x < e + 1 := (pow2_lt_iff _ _).mp (lt_of_le_of_lt s1 h2)
  omega

theorem roundHalfEven_intCast (n : Int) : roundHalfEven (n : ℚ) = n := by
  unfold roundHalfEven
  have hf : Rat.floor (n : ℚ) = n := by
    apply le_antisymm
    · have := Rat.le_floor.mp (le_refl (Rat.floor (n : ℚ)))
      exact_mod_cast this
    · exact Rat.le_floor.mpr (le_refl _)
  simp only [hf, sub_self]
  norm_num

theorem floor_bounds (t : ℚ) : (Rat.floor t : ℚ) ≤ t ∧ t < (Rat.floor t : ℚ) + 1 := by
  constructor
  · exact Rat.le_floor.mp (le_refl _)
  · by_contra hc
    have h1 : ((Rat.floor t + 1 : Int) : ℚ) ≤ t := by
      push_cast
      exact not_lt.mp hc
    have := Rat.le_floor.mpr h1
    omega

theorem roundHalfEven_nonneg (t : ℚ) (ht : 0 ≤ t) : 0 ≤ roundHalfEven t := by
  have h0 : (0 : Int) ≤ Rat.floor t := Rat.le_floor.mpr (by exact_mod_cast ht)
  unfold roundHalfEven
  simp only
  split_ifs <;> omega

theorem roundHalfEven_le (t : ℚ) (b : Int) (hb : t ≤ (b : ℚ)) : roundHalfEven t ≤ b := by
  obtain ⟨f1, f2⟩ := floor_bounds t
  have hfb : Rat.floor t ≤ b := by
    have : (Rat.floor t : ℚ) ≤ (b : ℚ) := le_trans f1 hb
    exact_mod_cast this
  by_cases hlt : Rat.floor t < b
  · unfold roundHalfEven
    simp only
    split_ifs <;> omega
  · have heq : Rat.floor t = b := by omega
    have ht : t = (b : ℚ) := by
      apply le_antisymm hb
      rw [← heq]
      exact f1
    rw [ht, roundHalfEven_intCast]

theorem roundMagnitude_zero (p : Nat) (emin : Int) : roundMagnitude p emin 0 = 0 := by
  unfold roundMagnitude
  simp

theorem roundMagnitude_nonneg (p : Nat) (emin : Int) (a : ℚ) (ha : 0 ≤ a) :
    0 ≤ roundMagnitude p emin a := by
  unfold roundMagnitude
  split_ifs with h
  · exact le_refl _
  · simp only
    apply mul_nonneg
    · have := roundHalfEven_nonneg (a / pow2 (max (binaryExponent a) emin - (p : Int) + 1))
        (div_nonneg ha (pow2_pos _).le)
      exact_mod_cast this
    · exact (pow2_pos _).le

theorem roundMagnitude_of_multiple (p : Nat) (emin : Int) (y : ℚ) (M : Int)
    (h : y = (M : ℚ) * pow2 (max (binaryExponent y) emin - (p : Int) + 1)) :
    roundMagnitude p emin y = y := by
  unfold roundMagnitude
  split_ifs with h0
  · exact h0.symm
  · simp only
    have hq := pow2_pos (max (binaryExponent y) emin - (p : Int) + 1)
    have hdiv : y / pow2 (max (binaryExponent y) emin - (p : Int) + 1) = (M : ℚ) := by
      rw [div_eq_iff hq.ne']
      exact h
    rw [hdiv, roundHalfEven_intCast]
    exact h.symm

theorem roundMagnitude_idem (p : Nat) (emin : Int) (hp : 1 ≤ p) (a : ℚ) (ha : 0 ≤ a) :
    roundMagnitude p emin (roundMagnitude p emin a) = roundMagnitude p emin a := by
  by_cases h0 : a = 0
  · subst h0
    rw [roundMagnitude_zero, roundMagnitude_zero]
  · have hpos : 0 < a := lt_of_le_of_ne ha (Ne.symm h0)
    have hval : roundMagnitude p emin a =
        (roundHalfEven (a / pow2 (max (binaryExponent a) emin - (p : Int) + 1)) : ℚ) *
          pow2 (max (binaryExponent a) emin - (p : Int) + 1) := by
      unfold roundMagnitude
      rw [if_neg h0]
    generalize he : max (binaryExponent a) emin = e at hval
    have hee : binaryExponent a ≤ e := by rw [← he]; exact le_max_left _ _
    have hemin : emin ≤ e := by rw [← he]; exact le_max_right _ _
    have hq := pow2_pos (e - (p : Int) + 1)
    generalize hN : roundHalfEven (a / pow2 (e - (p : Int) + 1)) = N at hval
    have hN0 : 0 ≤ N := by
      rw [← hN]
      exact roundHalfEven_nonneg _ (div_nonneg ha hq.le)
    -- the quotient is below 2 ^ p
    have hlt : a < pow2 (e + 1) :=
      lt_of_lt_of_le (binaryExponent_spec a hpos).2 ((pow2_le_iff _ _).mpr (by omega))
    have hsplit : pow2 (e + 1) = pow2 (p : Int) * pow2 (e - (p : Int) + 1) := by
      rw [← pow2_add]
      congr 1
      ring
    have htp : a / pow2 (e - (p : Int) + 1) ≤ (((2 ^ p : Nat) : Int) : ℚ) := by
      rw [div_le_iff₀ hq]
      have : ((((2 ^ p : Nat) : Int) : ℚ)) = pow2 (p : Int) := by
        rw [pow2_natCast]
        push_cast
        rfl
      rw [this, ← hsplit]
      exact hlt.le
    have hNle : N ≤ ((2 ^ p : Nat) : Int) := by
      rw [← hN]
      exact roundHalfEven_le _ _ htp
    rw [hval]
    by_cases hNz : N = 0
    · subst hNz
      simp only [Int.cast_zero, zero_mul]
      exact roundMagnitude_zero p emin
    have hNpos : 0 < N := by omega
    have hypos : 0 < (N : ℚ) * pow2 (e - (p : Int) + 1) := by
      apply mul_pos
      · exact_mod_cast hNpos
      · exact hq
    by_cases hNtop : N = ((2 ^ p : Nat) : Int)
    · -- the value is 2 ^ (e + 1)
      have hy : (N : ℚ) * pow2 (e - (p : Int) + 1) = pow2 (e + 1) := by
        rw [hsplit, hNtop, pow2_natCast]
        push_cast
        rfl
      have hbe : binaryExponent ((N : ℚ) * pow2 (e - (p : Int) + 1)) = e + 1 := by
        apply binaryExponent_unique
        · rw [hy]
        · rw [hy]
          exact (pow2_lt_iff _ _).mpr (by omega)
      apply roundMagnitude_of_multiple p emin _ ((2 ^ (p - 1) : Nat) : Int)
      rw [hbe, max_eq_left (by omega), hy]
      have e1 : e + 1 = ((p - 1 : Nat) : Int) + (e + 1 - (p : Int) + 1) := by
        have : ((p - 1 : Nat) : Int) = (p : Int) - 1 := by omega
        rw [this]
        ring
      conv_lhs => rw [e1, pow2_add, pow2_natCast]
      push_cast
      rfl
    · have hNlt : N < ((2 ^ p : Nat) : Int) := by omega
      have hylt : (N : ℚ) * pow2 (e - (p : Int) + 1) < pow2 (e + 1) := by
        rw [hsplit]
        apply mul_lt_mul_of_pos_right _ hq
        rw [pow2_natCast]
        exact_mod_cast hNlt
      have hbe : binaryExponent ((N : ℚ) * pow2 (e - (p : Int) + 1)) ≤ e := by
        have s1 := (binaryExponent_spec _ hypos).1
        have := (pow2_lt_iff _ _).mp (lt_of_le_of_lt s1 hylt)
        omega
      generalize hE : max (binaryExponent ((N : ℚ) * pow2 (e - (p : Int) + 1))) emin = e1
      have hE1 : e1 ≤ e := by
        rw [← hE]
        exact max_le hbe hemin
      apply roundMagnitude_of_multiple p emin _ (N * ((2 ^ (e - e1).toNat : Nat) : Int))
      rw [hE]
      have e2 : e - (p : Int) + 1 = (((e - e1).toNat : Nat) : Int) + (e1 - (p : Int) + 1) := by
        rw [Int.toNat_of_nonneg (by omega)]
        ring
      conv_lhs => rw [e2, pow2_add, pow2_natCast]
      push_cast
      ring

theorem roundBinary_zero (p : Nat) (emin : Int) : roundBinary p emin 0 = 0 := by
  unfold roundBinary
  simp [roundMagnitude_zero]

theorem roundBinary_neg (p : Nat) (emin : Int) (x : ℚ) :
    roundBinary p emin (-x) = -(roundBinary p emin x) := by
  unfold roundBinary
  rcases lt_trichotomy x 0 with h | h | h
  · rw [if_neg (by linarith), if_pos h, neg_neg]
  · subst h
    simp [roundMagnitude_zero]
  · rw [if_pos (by linarith), if_neg (by linarith), neg_neg]

theorem roundBinary_idem (p : Nat) (emin : Int) (hp : 1 ≤ p) (x : ℚ) :
    roundBinary p emin (roundBinary p emin x) = roundBinary p emin x := by
  have key : ∀ a : ℚ, 0 ≤ a →
      roundBinary p emin (roundMagnitude p emin a) = roundMagnitude p emin a := by
    intro a ha
    have h0 := roundMagnitude_nonneg p emin a ha
    unfold roundBinary
    rw [if_neg (by linarith)]
    exact roundMagnitude_idem p emin hp a ha
  by_cases h : x < 0
  · have hx : roundBinary p emin x = -(roundMagnitude p emin (-x)) := by
      unfold roundBinary
      rw [if_pos h]
    rw [hx, roundBinary_neg, key (-x) (by linarith)]
  · have hx : roundBinary p emin x = roundMagnitude p emin x := by
      unfold roundBinary
      rw [if_neg h]
    rw [hx, key x (by linarith)]

theorem Rounding.exact_lawful : Rounding.exact.Lawful :=
  { zero := rfl, idem := fun _ => rfl, neg := fun _ => rfl }

theorem Rounding.ieee_lawful : Rounding.ieee.Lawful :=
  { zero := roundBinary_zero 24 (-126),
    idem := roundBinary_idem 24 (-126) (by norm_num),
    neg := roundBinary_neg 24 (-126) }

theorem IntegrateR_exact (cfg : Config) (g : Graph) :
    IntegrateR Rounding.exact cfg g = Integrate cfg g := rfl

theorem integrateNodeR_eq (r : Rounding) (cfg : Config)
    (hM : 0 ≤ r.single cfg.physics.max_displacement) (n : Node) :
    integrateNodeR r cfg n =
      if n.fixed then n
      else
        { n with
          ppx := n.px, ppy := n.py,
          px := r.single (n.px +
            clamp (-(r.single cfg.physics.max_displacement)) (r.single cfg.physics.max_displacement)
              (r.single (r.single (n.px - n.ppx) *
                r.single (r.double (1 - r.single cfg.physics.damping))))),
          py := r.single (n.py +
            clamp (-(r.single cfg.physics.max_displacement)) (r.single cfg.physics.max_displacement)
              (r.single (r.single (n.py - n.ppy) *
                r.single (r.double (1 - r.single cfg.physics.damping))))) } := by
  unfold integrateNodeR
  by_cases hf : n.fixed
  · simp [hf]
  · simp only [hf, if_false]
    rw [clamp_code_eq _ _ hM, clamp_code_eq _ _ hM]

/-- C10 (counterexample): with binary32 rounding, `max_displacement = 50` and no damping,
`Integrate` maps the node at `px = 2^29 + 64` with previous position `ppx = 2^29` (both are
`float` values) to `ppx = 2^29 + 64` and `px = 2^29 + 128`: the velocity `64` is clamped to
`50`, and the sum `2^29 + 114` is rounded to the nearest `float`, `2^29 + 128`, the spacing of
the `float` values there being `64`. After the pass `|px - ppx| = 64 > 50`. In exact arithmetic
the new position is `2^29 + 114`. -/
theorem rounded_sum_exceeds_max_displacement :
    roundF32 farNode.px = farNode.px ∧ roundF32 farNode.ppx = farNode.ppx ∧
    farNode.fixed = false ∧
    roundF32 noDampingConfig.physics.max_displacement = 50 ∧
    (IntegrateR Rounding.ieee noDampingConfig { nodes := [farNode] }).nodes =
      [{ farNode with ppx := 536870976, px := 536871040 }] ∧
    |(536871040 : ℚ) - 536870976| = 64 ∧
    (Integrate noDampingConfig { nodes := [farNode] }).nodes =
      [{ farNode with ppx := 536870976, px := 536871026 }] := by
  refine ⟨by decide!, by decide!, rfl, by decide!, by decide!, by decide!, by decide!⟩

/-- C10 (amended): for every rounding `r` of the `float` operations (none in exact
arithmetic, `Rounding.ieee` for the compiled code) and a configuration with
`max_displacement >= 0`, `Integrate` leaves a fixed node as it is and maps every other node to
previous position `p` and position `r (p + v)` per coordinate, with the velocity
`v = clamp (r (r (p - q) * r (1 - damping)), -max_displacement, max_displacement)`
(`p` the position, `q` the previous position before the pass), touching no other field, link
or index entry. The velocity that is added satisfies `|v| <= max_displacement`; after the pass
`|px - ppx| <= max_displacement` holds for a node whose sum `p + v` is not changed by the
rounding, so for every node in exact arithmetic. -/
theorem Integrate_rounded_spec (r : Rounding) (cfg : Config) (g : Graph)
    (hM : 0 ≤ r.single cfg.physics.max_displacement) :
    (IntegrateR r cfg g).nodes = g.nodes.map (fun n =>
      if n.fixed then n
      else
        { n with
          ppx := n.px, ppy := n.py,
          px := r.single (n.px +
            clamp (-(r.single cfg.physics.max_displacement)) (r.single cfg.physics.max_displacement)
              (r.single (r.single (n.px - n.ppx) *
                r.single (r.double (1 - r.single cfg.physics.damping))))),
          py := r.single (n.py +
            clamp (-(r.single cfg.physics.max_displacement)) (r.single cfg.physics.max_displacement)
              (r.single (r.single (n.py - n.ppy) *
                r.single (r.double (1 - r.single cfg.physics.damping))))) }) ∧
    (IntegrateR r cfg g).links = g.links ∧
    (IntegrateR r cfg g).pathToNode = g.pathToNode ∧
    (∀ v : ℚ, |clamp (-(r.single cfg.physics.max_displacement))
      (r.single cfg.physics.max_displacement) v| ≤ r.single cfg.physics.max_displacement) ∧
    (∀ n ∈ g.nodes, n.fixed = false →
      (r.single (n.px +
          clamp (-(r.single cfg.physics.max_displacement)) (r.single cfg.physics.max_displacement)
            (r.single (r.single (n.px - n.ppx) *
              r.single (r.double (1 - r.single cfg.physics.damping))))) =
        n.px +
          clamp (-(r.single cfg.physics.max_displacement)) (r.single cfg.physics.max_displacement)
            (r.single (r.single (n.px - n.ppx) *
              r.single (r.double (1 - r.single cfg.physics.damping)))) →
        |(integrateNodeR r cfg n).px - (integrateNodeR r cfg n).ppx| ≤
          r.single cfg.physics.max_displacement) ∧
      (r.single (n.py +
          clamp (-(r.single cfg.physics.max_displacement)) (r.single cfg.physics.max_displacement)
            (r.single (r.single (n.py - n.ppy) *
              r.single (r.double (1 - r.single cfg.physics.damping))))) =
        n.py +
          clamp (-(r.single cfg.physics.max_displacement)) (r.single cfg.physics.max_displacement)
            (r.single (r.single (n.py - n.ppy) *
              r.single (r.double (1 - r.single cfg.physics.damping)))) →
        |(integrateNodeR r cfg n).py - (integrateNodeR r cfg n).ppy| ≤
          r.single cfg.physics.max_displacement)) ∧
    IntegrateR Rounding.exact cfg g = Integrate cfg g ∧
    (0 ≤ cfg.physics.max_displacement → ∀ n ∈ (Integrate cfg g).nodes, n.fixed = false →
      |n.px - n.ppx| ≤ cfg.physics.max_displacement ∧
      |n.py - n.ppy| ≤ cfg.physics.max_displacement) := by
  refine ⟨?_, rfl, rfl, fun v => abs_clamp_le _ v hM, ?_, rfl, ?_⟩
  · unfold IntegrateR
    simp only
    apply List.map_congr_left
    intro n _
    exact integrateNodeR_eq r cfg hM n
  · intro n _ hf
    rw [integrateNodeR_eq r cfg hM n]
    simp only [hf, Bool.false_eq_true, if_false]
    constructor
    · intro he
      rw [he, add_sub_cancel_left]
      exact abs_clamp_le _ _ hM
    · intro he
      rw [he, add_sub_cancel_left]
      exact abs_clamp_le _ _ hM
  · intro hM0
    exact (Integrate_spec cfg g hM0).2.2.2

theorem Integrate_rounded_spec_witness :
    (IntegrateR Rounding.ieee noDampingConfig { nodes := [farNode] }).nodes =
      [{ farNode with
          ppx := 536870976,
          px := roundF32 (536870976 + clamp (-(roundF32 50)) (roundF32 50)
            (roundF32 (roundF32 (536870976 - 536870912) * roundF32 (roundF64 (1 - roundF32 0))))),
          py := roundF32 (0 + clamp (-(roundF32 50)) (roundF32 50)
            (roundF32 (roundF32 (0 - 0) * roundF32 (roundF64 (1 - roundF32 0))))) }] ∧
    |clamp (-(roundF32 50)) (roundF32 50)
      (roundF32 (roundF32 (536870976 - 536870912) * roundF32 (roundF64 (1 - roundF32 0))))| ≤
      roundF32 50 := by
  have h := Integrate_rounded_spec Rounding.ieee noDampingConfig { nodes := [farNode] }
    (by decide!)
  exact ⟨h.1, h.2.2.2.1 _⟩

theorem get_cell_indexR_eq (r : Rounding) (minX minY cs : ℚ) (gx gy : Int) (x y : ℚ) :
    get_cell_indexR r minX minY cs gx gy x y =
      get_cell_index 0 0 1 gx gy (r.single (r.single (x - minX) / cs))
        (r.single (r.single (y - minY) / cs)) := by
  unfold get_cell_indexR get_cell_index
  simp only [sub_zero, div_one]

theorem cellCoordR_eq (r : Rounding) (lo cs : ℚ) (g : Int) (x : ℚ) :
    cellCoordR r lo cs g x = cellCoord 0 1 g (r.single (r.single (x - lo) / cs)) := by
  unfold cellCoordR cellCoord
  simp only [sub_zero, div_one]

theorem fillGridR_eq (r : Rounding) (minX minY cs : ℚ) (gx gy : Int) :
    ∀ (nodes : List Node) (k : Int) (grid : List (List Int)),
      fillGridR r minX minY cs gx gy nodes k grid =
        fillGrid 0 0 1 gx gy (nodes.map (Node.toCellScale r minX minY cs)) k grid := by
  intro nodes
  induction nodes with
  | nil => intro k grid; rfl
  | cons node rest ih =>
    intro k grid
    have hk : (Node.toCellScale r minX minY cs node).kind = node.kind := rfl
    have hx : (Node.toCellScale r minX minY cs node).px =
        r.single (r.single (node.px - minX) / cs) := rfl
    have hy : (Node.toCellScale r minX minY cs node).py =
        r.single (r.single (node.py - minY) / cs) := rfl
    simp only [List.map_cons, fillGridR, fillGrid, hk, hx, hy, get_cell_indexR_eq]
    by_cases hd : node.kind ≠ NodeKind.Directory
    · simp only [if_pos hd]
      exact ih _ _
    · simp only [if_neg hd]
      split_ifs with hi
      · rfl
      · cases hc : grid[(get_cell_index 0 0 1 gx gy (r.single (r.single (node.px - minX) / cs))
            (r.single (r.single (node.py - minY) / cs))).toNat]? with
        | none => rfl
        | some cell => exact ih _ _

theorem fillGridR_exact (minX minY cs : ℚ) (gx gy : Int) :
    ∀ (nodes : List Node) (k : Int) (grid : List (List Int)),
      fillGridR Rounding.exact minX minY cs gx gy nodes k grid =
        fillGrid minX minY cs gx gy nodes k grid := by
  intro nodes
  induction nodes with
  | nil => intro k grid; rfl
  | cons node rest ih =>
    intro k grid
    have hi : get_cell_indexR Rounding.exact minX minY cs gx gy node.px node.py =
        get_cell_index minX minY cs gx gy node.px node.py := rfl
    simp only [fillGridR, fillGrid, hi]
    by_cases hd : node.kind ≠ NodeKind.Directory
    · simp only [if_pos hd]
      exact ih _ _
    · simp only [if_neg hd]
      split_ifs with hi
      · rfl
      · cases hc : grid[(get_cell_index minX minY cs gx gy node.px node.py).toNat]? with
        | none => rfl
        | some cell => exact ih _ _

theorem process_pairR_exact (m : Libm) (cfg : Config) (nodes : List Node) (a b : Int) :
    process_pairR Rounding.exact m cfg nodes a b = process_pair m cfg nodes a b := rfl

theorem processPairsR_exact (m : Libm) (cfg : Config) :
    ∀ (pairs : List (Int × Int)) (nodes : List Node),
      processPairsR Rounding.exact m cfg nodes pairs = processPairs m cfg nodes pairs := by
  intro pairs
  induction pairs with
  | nil => intro nodes; rfl
  | cons p rest ih =>
    intro nodes
    obtain ⟨a, b⟩ := p
    simp only [processPairsR, processPairs, process_pairR_exact]
    cases hc : process_pair m cfg nodes a b with
    | error e => rfl
    | ok nodes1 => exact ih _

theorem repulsionCallsR_exact (cfg : Config) (g : Graph) :
    repulsionCallsR Rounding.exact cfg g = repulsionCalls cfg g := by
  unfold repulsionCallsR repulsionCalls
  simp only [fillGridR_exact]
  rfl

theorem repulsionCallsR_few (r : Rounding) (cfg : Config) (g : Graph)
    (h : g.nodes.countP (fun n => decide (n.kind = NodeKind.Directory)) < 2) :
    repulsionCallsR r cfg g = [] := by
  unfold repulsionCallsR
  simp only
  have hc := dirBounds_count g.nodes (1000000000, 1000000000, -1000000000, -1000000000, 0)
  simp only [zero_add] at hc
  rw [if_pos (by rw [hc]; omega)]

theorem repulsionCallsR_grid (r : Rounding) (cfg : Config) (g : Graph)
    (h : 2 ≤ g.nodes.countP (fun n => decide (n.kind = NodeKind.Directory))) :
    ∃ (minX minY : ℚ) (gx gy : Int) (grid : List (List Int)), 1 ≤ gx ∧ 1 ≤ gy ∧
      gridOfR r cfg g = (minX, minY, gx, gy) ∧
      repulsionCallsR r cfg g = repulsionPairs grid gx gy ∧
      ∀ X Y : Int, 0 ≤ X → X < gx → 0 ≤ Y → Y < gy →
        gridCell grid (Y * gx + X) =
          cellMembers (fun node => get_cell_index 0 0 1 gx gy node.px node.py)
            (g.nodes.map (Node.toCellScale r minX minY (r.single cfg.physics.repulsion_radius)))
            0 (Y * gx + X) := by
  unfold repulsionCallsR gridOfR
  rcases hdb : dirBounds g.nodes (1000000000, 1000000000, -1000000000, -1000000000, 0) with
    ⟨minX, minY, maxX, maxY, num⟩
  simp only
  have hnum : ¬ num ≤ 1 := by
    have hc := dirBounds_count g.nodes (1000000000, 1000000000, -1000000000, -1000000000, 0)
    rw [hdb] at hc
    simp only [zero_add] at hc
    omega
  rw [if_neg hnum]
  generalize hgx : max 1 (truncToInt (r.single (r.single (maxX - minX) /
    r.single cfg.physics.repulsion_radius)) + 1) = gx
  generalize hgy : max 1 (truncToInt (r.single (r.single (maxY - minY) /
    r.single cfg.physics.repulsion_radius)) + 1) = gy
  have hx1 : 1 ≤ gx := by rw [← hgx]; exact le_max_left _ _
  have hy1 : 1 ≤ gy := by rw [← hgy]; exact le_max_left _ _
  obtain ⟨grid, hrun, hlen, hspec⟩ :=
    fillGrid_fresh 0 0 1 gx gy
      (g.nodes.map (Node.toCellScale r minX minY (r.single cfg.physics.repulsion_radius)))
      hx1 hy1
  rw [fillGridR_eq, hrun]
  refine ⟨minX, minY, gx, gy, grid, hx1, hy1, rfl, rfl, ?_⟩
  intro X Y hX0 hX hY0 hY
  have hlt : Y * gx + X < gx * gy := by nlinarith
  have h0 : 0 ≤ Y * gx + X := by nlinarith
  have hk : (Y * gx + X).toNat < gx.toNat * gy.toNat := by
    zify
    rw [Int.toNat_of_nonneg h0, Int.toNat_of_nonneg (by omega), Int.toNat_of_nonneg (by omega)]
    exact hlt
  have hcellk := hspec _ hk
  rw [Int.toNat_of_nonneg h0] at hcellk
  exact gridCell_of_getElem? grid _ _ h0 hcellk

theorem ApplyRepulsionR_eq_calls (r : Rounding) (m : Libm) (cfg : Config) (g : Graph) :
    ApplyRepulsionR r m cfg g =
      withNodes g (processPairsR r m cfg g.nodes (repulsionCallsR r cfg g)) := by
  unfold ApplyRepulsionR repulsionCallsR withNodes
  rcases hdb : dirBounds g.nodes (1000000000, 1000000000, -1000000000, -1000000000, 0) with
    ⟨minX, minY, maxX, maxY, num⟩
  simp only
  split
  · simp only [processPairsR]
  · generalize hgx : max 1 (truncToInt (r.single (r.single (maxX - minX) /
      r.single cfg.physics.repulsion_radius)) + 1) = gx
    generalize hgy : max 1 (truncToInt (r.single (r.single (maxY - minY) /
      r.single cfg.physics.repulsion_radius)) + 1) = gy
    have hx1 : 1 ≤ gx := by rw [← hgx]; exact le_max_left _ _
    have hy1 : 1 ≤ gy := by rw [← hgy]; exact le_max_left _ _
    obtain ⟨grid, hrun, _, _⟩ :=
      fillGrid_fresh 0 0 1 gx gy
        (g.nodes.map (Node.toCellScale r minX minY (r.single cfg.physics.repulsion_radius)))
        hx1 hy1
    simp only [fillGridR_eq, hrun]

theorem ApplyRepulsionR_exact (m : Libm) (cfg : Config) (g : Graph) :
    ApplyRepulsionR Rounding.exact m cfg g = ApplyRepulsion m cfg g := by
  rw [ApplyRepulsionR_eq_calls, ApplyRepulsion_eq_calls, repulsionCallsR_exact,
    processPairsR_exact]
  unfold withNodes
  all_goals (cases processPairs m cfg g.nodes (repulsionCalls cfg g) <;> rfl)

theorem repulsionCallsR_nodup (r : Rounding) (cfg : Config) (g : Graph) :
    (repulsionCallsR r cfg g).Nodup := by
  by_cases h : g.nodes.countP (fun n => decide (n.kind = NodeKind.Directory)) < 2
  · rw [repulsionCallsR_few r cfg g h]
    exact List.nodup_nil
  · obtain ⟨minX, minY, gx, gy, grid, hx1, hy1, _, hcalls, hcell⟩ :=
      repulsionCallsR_grid r cfg g (by omega)
    obtain ⟨hS, hD⟩ := cells_sorted_disjoint 0 0 1 gx gy _ grid hcell
    rw [hcalls]
    exact repulsionPairs_nodup grid gx gy hS hD

theorem cellMembers_scaled (r : Rounding) (cfg : Config) (g : Graph) (minX minY : ℚ)
    (gx gy : Int) (hgrid : gridOfR r cfg g = (minX, minY, gx, gy)) (k x : Int) :
    x ∈ cellMembers (fun node => get_cell_index 0 0 1 gx gy node.px node.py)
        (g.nodes.map (Node.toCellScale r minX minY (r.single cfg.physics.repulsion_radius)))
        0 k ↔
      0 ≤ x ∧ ∃ n, g.nodes[x.toNat]? = some n ∧ n.kind = NodeKind.Directory ∧
        cellYOfR r cfg g n * gx + cellXOfR r cfg g n = k := by
  rw [cellMembers_mem_iff]
  simp only [sub_zero, List.getElem?_map, Option.map_eq_some']
  have hX : ∀ n : Node, cellXOfR r cfg g n =
      cellCoord 0 1 gx (r.single (r.single (n.px - minX) /
        r.single cfg.physics.repulsion_radius)) := by
    intro n
    unfold cellXOfR
    rw [hgrid]
    exact cellCoordR_eq _ _ _ _ _
  have hY : ∀ n : Node, cellYOfR r cfg g n =
      cellCoord 0 1 gy (r.single (r.single (n.py - minY) /
        r.single cfg.physics.repulsion_radius)) := by
    intro n
    unfold cellYOfR
    rw [hgrid]
    exact cellCoordR_eq _ _ _ _ _
  constructor
  · rintro ⟨h0, n1, ⟨n, hn, rfl⟩, hk, hc⟩
    refine ⟨h0, n, hn, hk, ?_⟩
    rw [hX, hY, ← hc, get_cell_index_eq]
    rfl
  · rintro ⟨h0, n, hn, hk, hc⟩
    refine ⟨h0, _, ⟨n, hn, rfl⟩, hk, ?_⟩
    rw [hX, hY] at hc
    rw [← hc, get_cell_index_eq]
    rfl

theorem cellOfR_range (r : Rounding) (cfg : Config) (g : Graph) (minX minY : ℚ)
    (gx gy : Int) (hgrid : gridOfR r cfg g = (minX, minY, gx, gy)) (hx1 : 1 ≤ gx)
    (hy1 : 1 ≤ gy) (n : Node) :
    0 ≤ cellXOfR r cfg g n ∧ cellXOfR r cfg g n < gx ∧
    0 ≤ cellYOfR r cfg g n ∧ cellYOfR r cfg g n < gy := by
  have hX : cellXOfR r cfg g n =
      cellCoord 0 1 gx (r.single (r.single (n.px - minX) /
        r.single cfg.physics.repulsion_radius)) := by
    unfold cellXOfR
    rw [hgrid]
    exact cellCoordR_eq _ _ _ _ _
  have hY : cellYOfR r cfg g n =
      cellCoord 0 1 gy (r.single (r.single (n.py - minY) /
        r.single cfg.physics.repulsion_radius)) := by
    unfold cellYOfR
    rw [hgrid]
    exact cellCoordR_eq _ _ _ _ _
  rw [hX, hY]
  exact ⟨(cellCoord_range _ _ _ _ hx1).1, (cellCoord_range _ _ _ _ hx1).2,
    (cellCoord_range _ _ _ _ hy1).1, (cellCoord_range _ _ _ _ hy1).2⟩

theorem repulsionCallsR_mem_iff (r : Rounding) (cfg : Config) (g : Graph) (p : Int × Int) :
    p ∈ repulsionCallsR r cfg g ↔
      p.1 < p.2 ∧ 0 ≤ p.1 ∧ ∃ A B : Node, g.nodes[p.1.toNat]? = some A ∧
        g.nodes[p.2.toNat]? = some B ∧ A.kind = NodeKind.Directory ∧
        B.kind = NodeKind.Directory ∧
        |cellXOfR r cfg g B - cellXOfR r cfg g A| ≤ 1 ∧
        |cellYOfR r cfg g B - cellYOfR r cfg g A| ≤ 1 := by
  by_cases h : g.nodes.countP (fun n => decide (n.kind = NodeKind.Directory)) < 2
  · rw [repulsionCallsR_few r cfg g h]
    constructor
    · intro hp
      cases hp
    · rintro ⟨hlt, h0, A, B, hA, hB, hkA, hkB, _, _⟩
      exfalso
      have := countP_le_one_unique (fun n => decide (n.kind = NodeKind.Directory)) g.nodes
        (by omega) p.1.toNat p.2.toNat A B hA hB (by simp [hkA]) (by simp [hkB])
      omega
  · obtain ⟨minX, minY, gx, gy, grid, hx1, hy1, hgrid, hcalls, hcell⟩ :=
      repulsionCallsR_grid r cfg g (by omega)
    obtain ⟨hS, hD⟩ := cells_sorted_disjoint 0 0 1 gx gy _ grid hcell
    rw [hcalls, repulsionPairs_mem_iff]
    constructor
    · rintro ⟨X, Y, hX0, hX, hY0, hY, hp⟩
      rw [pairsAtCell_mem_iff grid gx gy X Y (hS X Y hX0 hX hY0 hY)] at hp
      obtain ⟨h1, hlt, ox, oy, hox, hoy, hin, h2⟩ := hp
      rw [hcell X Y hX0 hX hY0 hY, cellMembers_scaled r cfg g minX minY gx gy hgrid] at h1
      have hin' : 0 ≤ X + ox ∧ 0 ≤ Y + oy ∧ X + ox < gx ∧ Y + oy < gy := by
        rcases hin with ⟨rfl, rfl⟩ | hin
        · omega
        · exact hin
      rw [hcell _ _ hin'.1 hin'.2.2.1 hin'.2.1 hin'.2.2.2,
        cellMembers_scaled r cfg g minX minY gx gy hgrid] at h2
      obtain ⟨ha0, A, hA, hkA, hcA⟩ := h1
      obtain ⟨hb0, B, hB, hkB, hcB⟩ := h2
      have rA := cellOfR_range r cfg g minX minY gx gy hgrid hx1 hy1 A
      have rB := cellOfR_range r cfg g minX minY gx gy hgrid hx1 hy1 B
      have eA := cell_index_inj gx _ _ _ _ rA.1 rA.2.1 hX0 hX hcA
      have eB := cell_index_inj gx _ _ _ _ rB.1 rB.2.1 hin'.1 hin'.2.2.1 hcB
      refine ⟨hlt, ha0, A, B, hA, hB, hkA, hkB, ?_, ?_⟩
      · rw [eA.1, eB.1, abs_le]
        constructor <;> omega
      · rw [eA.2, eB.2, abs_le]
        constructor <;> omega
    · rintro ⟨hlt, h0, A, B, hA, hB, hkA, hkB, hcx, hcy⟩
      have rA := cellOfR_range r cfg g minX minY gx gy hgrid hx1 hy1 A
      have rB := cellOfR_range r cfg g minX minY gx gy hgrid hx1 hy1 B
      rw [abs_le] at hcx hcy
      refine ⟨cellXOfR r cfg g A, cellYOfR r cfg g A, rA.1, rA.2.1, rA.2.2.1, rA.2.2.2, ?_⟩
      rw [pairsAtCell_mem_iff grid gx gy _ _ (hS _ _ rA.1 rA.2.1 rA.2.2.1 rA.2.2.2)]
      refine ⟨?_, hlt, ?_⟩
      · rw [hcell _ _ rA.1 rA.2.1 rA.2.2.1 rA.2.2.2,
          cellMembers_scaled r cfg g minX minY gx gy hgrid]
        exact ⟨h0, A, hA, hkA, rfl⟩
      · refine ⟨cellXOfR r cfg g B - cellXOfR r cfg g A,
          cellYOfR r cfg g B - cellYOfR r cfg g A, by omega, by omega, Or.inr (by omega), ?_⟩
        have e1 : cellXOfR r cfg g A + (cellXOfR r cfg g B - cellXOfR r cfg g A) =
            cellXOfR r cfg g B := by ring
        have e2 : cellYOfR r cfg g A + (cellYOfR r cfg g B - cellYOfR r cfg g A) =
            cellYOfR r cfg g B := by ring
        rw [e1, e2, hcell _ _ rB.1 rB.2.1 rB.2.2.1 rB.2.2.2,
          cellMembers_scaled r cfg g minX minY gx gy hgrid]
        exact ⟨by omega, B, hB, hkB, rfl⟩

/-- C29 (counterexample): three directories on the x axis at `-510`, `-9 / 2^19` and
`30 - 15 / 2^19`, all `float` values, with `repulsion_radius = 30`. The last two are
`30 - 6 / 2^19 < 30` apart, and the rounded `distanceSquared` of `process_pair` for them is
below the rounded `repulsionRadiusSquared`. With binary32 rounding the quotients
`(x - minX) / cellSize` of the two are rounded to `17 - 2^-19` and `18`, so the nodes are put
into the cells 16 and 18, which are not neighbours: `process_pair` is called for no pair and
the pass returns the graph unchanged. In exact arithmetic the cells are 16 and 17 and the pair
`(1, 2)` is handed to `process_pair`. -/
theorem rounded_quotient_skips_cell :
    (rowGraph.nodes.all
      (fun n => decide (roundF32 n.px = n.px ∧ roundF32 n.py = n.py ∧
        n.kind = NodeKind.Directory))) = true ∧
    roundF32 ({} : Config).physics.repulsion_radius = 30 ∧
    (rowGraph.nodes.map (cellXOfR Rounding.ieee {} rowGraph)) = [0, 16, 18] ∧
    (rowGraph.nodes.map (cellYOfR Rounding.ieee {} rowGraph)) = [0, 0, 0] ∧
    |(rowDirectory 2 "s" (15728625 / 524288)).px - (rowDirectory 1 "q" (-9 / 524288)).px| < 30 ∧
    distanceSquaredR Rounding.ieee (rowDirectory 1 "q" (-9 / 524288))
      (rowDirectory 2 "s" (15728625 / 524288)) < roundF32 (roundF32 30 * roundF32 30) ∧
    repulsionCallsR Rounding.ieee {} rowGraph = [] ∧
    (∀ m : Libm, ApplyRepulsionR Rounding.ieee m {} rowGraph = Except.ok rowGraph) ∧
    repulsionCalls {} rowGraph = [(1, 2)] := by
  have hcalls : repulsionCallsR Rounding.ieee {} rowGraph = [] := by decide!
  refine ⟨by decide!, by decide!, by decide!, by decide!, by decide!, by decide!, hcalls, ?_,
    by decide!⟩
  intro m
  rw [ApplyRepulsionR_eq_calls, hcalls]
  rfl

/-- C29 (amended): for every rounding `r` of the `float` operations (none in exact
arithmetic, `Rounding.ieee` for the compiled code) and `repulsion_radius > 0`, the pass
`ApplyRepulsion` is the sequence of `process_pair` calls `repulsionCallsR r cfg g`. That
sequence has no pair twice and never both `(a, b)` and `(b, a)`; a pair `(a, b)` is in it
exactly when `a < b`, both are indices of Directory nodes, and the grid cells computed for
the two positions at the start of the pass differ by at most 1 in column and in row. In exact
arithmetic the sequence is `repulsionCalls cfg g` and contains the pair of every two Directory
nodes within Euclidean distance `repulsion_radius`. -/
theorem broad_phase_cells (r : Rounding) (cfg : Config) (g : Graph)
    (hr : 0 < r.single cfg.physics.repulsion_radius) :
    (∀ m : Libm, ApplyRepulsionR r m cfg g =
      withNodes g (processPairsR r m cfg g.nodes (repulsionCallsR r cfg g))) ∧
    (repulsionCallsR r cfg g).Nodup ∧
    (∀ p ∈ repulsionCallsR r cfg g, p.1 < p.2 ∧ (p.2, p.1) ∉ repulsionCallsR r cfg g) ∧
    (∀ p : Int × Int, p ∈ repulsionCallsR r cfg g ↔
      p.1 < p.2 ∧ 0 ≤ p.1 ∧ ∃ A B : Node, g.nodes[p.1.toNat]? = some A ∧
        g.nodes[p.2.toNat]? = some B ∧ A.kind = NodeKind.Directory ∧
        B.kind = NodeKind.Directory ∧
        |cellXOfR r cfg g B - cellXOfR r cfg g A| ≤ 1 ∧
        |cellYOfR r cfg g B - cellYOfR r cfg g A| ≤ 1) ∧
    (∀ n : Node, 0 ≤ cellXOfR r cfg g n ∧ 0 ≤ cellYOfR r cfg g n ∧
      cellXOfR r cfg g n =
        cellCoordR r (gridOfR r cfg g).1 (r.single cfg.physics.repulsion_radius)
          (gridOfR r cfg g).2.2.1 n.px ∧
      cellYOfR r cfg g n =
        cellCoordR r (gridOfR r cfg g).2.1 (r.single cfg.physics.repulsion_radius)
          (gridOfR r cfg g).2.2.2 n.py) ∧
    (∀ m : Libm, ApplyRepulsionR Rounding.exact m cfg g = ApplyRepulsion m cfg g) ∧
    repulsionCallsR Rounding.exact cfg g = repulsionCalls cfg g ∧
    (0 < cfg.physics.repulsion_radius →
      ∀ (i j : Nat) (A B : Node), i < j → g.nodes[i]? = some A → g.nodes[j]? = some B →
        A.kind = NodeKind.Directory → B.kind = NodeKind.Directory →
        (B.px - A.px) * (B.px - A.px) + (B.py - A.py) * (B.py - A.py) ≤
          cfg.physics.repulsion_radius * cfg.physics.repulsion_radius →
        ((i : Int), (j : Int)) ∈ repulsionCalls cfg g) := by
  have hpos := hr
  refine ⟨fun m => ApplyRepulsionR_eq_calls r m cfg g, repulsionCallsR_nodup r cfg g, ?_,
    repulsionCallsR_mem_iff r cfg g, ?_, fun m => ApplyRepulsionR_exact m cfg g,
    repulsionCallsR_exact cfg g, ?_⟩
  · intro p hp
    have h1 := ((repulsionCallsR_mem_iff r cfg g p).mp hp).1
    refine ⟨h1, ?_⟩
    intro hq
    have h2 := ((repulsionCallsR_mem_iff r cfg g (p.2, p.1)).mp hq).1
    simp only at h2
    omega
  · intro n
    have hx1 : 1 ≤ (gridOfR r cfg g).2.2.1 := by
      unfold gridOfR
      exact le_max_left _ _
    have hy1 : 1 ≤ (gridOfR r cfg g).2.2.2 := by
      unfold gridOfR
      exact le_max_left _ _
    have hrange := cellOfR_range r cfg g _ _ _ _ rfl hx1 hy1 n
    exact ⟨hrange.1, hrange.2.2.1, rfl, rfl⟩
  · intro hr0 i j A B hij hA hB hkA hkB hd
    apply repulsionCalls_complete cfg g hr0 i j A B hij hA hB hkA hkB
    · exact near_coordinate (B.px - A.px) (B.py - A.py) 0 _ hr0 (by linarith) (le_refl _)
    · exact near_coordinate (B.py - A.py) (B.px - A.px) 0 _ hr0 (by linarith) (le_refl _)

theorem broad_phase_cells_witness :
    (repulsionCallsR Rounding.ieee {} twoDirectoryGraph).Nodup ∧
    ((0 : Int), (2 : Int)) ∈ repulsionCallsR Rounding.ieee {} twoDirectoryGraph ∧
    ((1 : Int), (2 : Int)) ∉ repulsionCallsR Rounding.ieee {} rowGraph :=
  ⟨(broad_phase_cells Rounding.ieee {} twoDirectoryGraph (by decide!)).2.1,
   ((broad_phase_cells Rounding.ieee {} twoDirectoryGraph (by decide!)).2.2.2.1 (0, 2)).mpr
     ⟨by decide, by decide, lightDirectory, heavyDirectory, rfl, rfl, rfl, rfl, by decide!,
       by decide!⟩,
   fun h => absurd
     (((broad_phase_cells Rounding.ieee {} rowGraph (by decide!)).2.2.2.1 (1, 2)).mp h)
     (by
       rintro ⟨_, _, A, B, hA, hB, _, _, hx, _⟩
       have eA : A = rowDirectory 1 "q" (-9 / 524288) := by
         have : rowGraph.nodes[1]? = some A := hA
         exact (Option.some.inj this).symm
       have eB : B = rowDirectory 2 "s" (15728625 / 524288) := by
         have : rowGraph.nodes[2]? = some B := hB
         exact (Option.some.inj this).symm
       subst eA eB
       revert hx
       decide!)⟩

theorem collectDirChildrenR_mem (r : Rounding) (m : Libm) (nodes : List Node) (parent : Node) :
    ∀ (l : List Int) (dc : List ChildData),
      collectDirChildrenR r m nodes parent l = Except.ok dc →
      ∀ cd ∈ dc, cd.index ∈ l ∧ ∃ child, nodeAt nodes cd.index = Except.ok child ∧
        child.kind = NodeKind.Directory := by
  intro l
  induction l with
  | nil =>
    intro dc h cd hcd
    simp only [collectDirChildrenR, Except.ok.injEq] at h
    subst h
    cases hcd
  | cons c rest ih =>
    intro dc h cd hcd
    unfold collectDirChildrenR at h
    cases hn : nodeAt nodes c with
    | error e => simp [hn] at h
    | ok node =>
      cases ht : collectDirChildrenR r m nodes parent rest with
      | error e => simp [hn, ht] at h
      | ok tail =>
        simp only [hn, ht] at h
        have htail : ∀ cd ∈ tail, cd.index ∈ c :: rest ∧
            ∃ child, nodeAt nodes cd.index = Except.ok child ∧
              child.kind = NodeKind.Directory := by
          intro cd1 h1
          obtain ⟨a1, a2⟩ := ih tail ht cd1 h1
          exact ⟨List.mem_cons_of_mem _ a1, a2⟩
        by_cases hk : node.kind ≠ NodeKind.Directory
        · rw [if_pos hk] at h
          cases h
          exact htail cd hcd
        · rw [if_neg hk] at h
          split_ifs at h
          · cases h
            exact htail cd hcd
          · cases h
            rcases List.mem_cons.mp hcd with rfl | hmem
            · exact ⟨List.mem_cons_self _ _, node, hn, not_not.mp hk⟩
            · exact htail cd hmem

theorem getD_map_range (f : Nat → ℚ) (n i : Nat) (hi : i < n) :
    ((List.range n).map f).getD i 0 = f i := by
  rw [List.getD_eq_getElem?_getD, List.getElem?_map, List.getElem?_range hi]
  rfl

theorem set_map_range (f : Nat → ℚ) (n i : Nat) (v : ℚ) :
    ((List.range n).map f).set i v = (List.range n).map (Function.update f i v) := by
  apply List.ext_getElem?
  intro t
  rw [List.getElem?_set, List.getElem?_map, List.getElem?_map]
  by_cases ht : t < n
  · rw [List.getElem?_range ht]
    by_cases hit : i = t
    · subst hit
      simp [ht]
    · rw [if_neg hit]
      simp only [Option.map_some', Function.update_apply]
      rw [if_neg (Ne.symm hit)]
  · rw [List.getElem?_eq_none (by simpa using ht)]
    by_cases hit : i = t
    · subst hit
      simp [ht]
    · rw [if_neg hit]
      rfl

theorem replicate_zero_eq_map (n : Nat) :
    List.replicate n (0 : ℚ) = (List.range n).map (fun _ => 0) := by
  apply List.ext_getElem?
  intro t
  by_cases ht : t < n
  · rw [List.getElem?_map, List.getElem?_range ht, List.getElem?_replicate]
    simp [ht]
  · rw [List.getElem?_eq_none (by simpa using ht), List.getElem?_eq_none (by simpa using ht)]

/-- One iteration of the accumulation loop on an `angleDelta` given by a function. -/
theorem accumulateAngleDeltaR_step (r : Rounding) (fuel : Nat) (strength targetGap : ℚ)
    (sorted : List ChildData) (n i : Nat) (rest : List Nat) (f : Nat → ℚ) (gap : ℚ)
    (hi : i < n)
    (hgap : wrapDiffPosR r fuel (r.single ((sorted.getD ((i + 1) % n) default).angle -
      (sorted.getD i default).angle)) = Except.ok gap) :
    accumulateAngleDeltaR r fuel strength targetGap sorted n (i :: rest)
        ((List.range n).map f) =
      accumulateAngleDeltaR r fuel strength targetGap sorted n rest
        ((List.range n).map
          (Function.update
            (Function.update f i
              (r.single (f i + r.single (r.single ((1 / 2) * r.single (gap - targetGap)) *
                strength))))
            ((i + 1) % n)
            (r.single (Function.update f i
              (r.single (f i + r.single (r.single ((1 / 2) * r.single (gap - targetGap)) *
                strength))) ((i + 1) % n) -
              r.single (r.single ((1 / 2) * r.single (gap - targetGap)) * strength))))) := by
  have hj : (i + 1) % n < n := Nat.mod_lt _ (by omega)
  rw [accumulateAngleDeltaR]
  simp only [hgap]
  rw [getD_map_range f n i hi, set_map_range, getD_map_range _ n _ hj, set_map_range]

/-- The state of `angleDelta` after the iterations `0 .. k - 1` when every adjustment is
`c`: `c` at index 0 and `-c` at index `k`. -/
theorem accumulateAngleDeltaR_tail (r : Rounding) (hr : r.Lawful) (fuel : Nat)
    (strength targetGap : ℚ) (sorted : List ChildData) (n : Nat) (gap : ℚ)
    (hgap : ∀ i, i < n →
      wrapDiffPosR r fuel (r.single ((sorted.getD ((i + 1) % n) default).angle -
        (sorted.getD i default).angle)) = Except.ok gap) :
    ∀ (d k : Nat), 1 ≤ k → k + d + 1 = n →
      accumulateAngleDeltaR r fuel strength targetGap sorted n (List.range' k (d + 1))
          ((List.range n).map (fun t =>
            if t = 0 then r.single (r.single ((1 / 2) * r.single (gap - targetGap)) * strength)
            else if t = k then
              -(r.single (r.single ((1 / 2) * r.single (gap - targetGap)) * strength))
            else 0)) =
        Except.ok (List.replicate n 0) := by
  generalize hc : r.single (r.single ((1 / 2) * r.single (gap - targetGap)) * strength) = c
  have hrc : r.single c = c := by
    rw [← hc]
    exact hr.idem _
  have hrn : r.single (-c) = -c := by rw [hr.neg, hrc]
  intro d
  induction d with
  | zero =>
    intro k hk hkn
    have hkn' : k + 1 = n := by omega
    have hmod : (k + 1) % n = 0 := by rw [hkn']; exact Nat.mod_self n
    have e : List.range' k (0 + 1) = [k] := rfl
    rw [e, accumulateAngleDeltaR_step r fuel strength targetGap sorted n k [] _ gap (by omega)
      (hgap k (by omega)), hc, hmod]
    simp only [accumulateAngleDeltaR]
    rw [replicate_zero_eq_map]
    congr 1
    apply List.map_congr_left
    intro t _
    have hk0 : k ≠ 0 := by omega
    simp only [Function.update_apply, if_neg hk0, if_true]
    by_cases ht0 : t = 0
    · subst ht0
      simp only [if_true, if_neg (Ne.symm hk0)]
      rw [sub_self, hr.zero]
    · simp only [if_neg ht0]
      by_cases htk : t = k
      · subst htk
        simp only [if_true]
        rw [neg_add_cancel, hr.zero]
      · simp only [if_neg htk]
  | succ d ih =>
    intro k hk hkn
    have hlt : k + 1 < n := by omega
    have hmod : (k + 1) % n = k + 1 := Nat.mod_eq_of_lt hlt
    have e : List.range' k (d + 1 + 1) = k :: List.range' (k + 1) (d + 1) := rfl
    rw [e, accumulateAngleDeltaR_step r fuel strength targetGap sorted n k _ _ gap (by omega)
      (hgap k (by omega)), hc, hmod]
    have := ih (k + 1) (by omega) (by omega)
    rw [← this]
    congr 1
    apply List.map_congr_left
    intro t _
    have hk0 : k ≠ 0 := by omega
    simp only [Function.update_apply, if_neg hk0, if_true]
    by_cases ht0 : t = 0
    · subst ht0
      have h1 : (0 : Nat) ≠ k + 1 := by omega
      simp only [if_true, if_neg h1, if_neg (Ne.symm hk0)]
    · simp only [if_neg ht0]
      by_cases htk1 : t = k + 1
      · subst htk1
        have h2 : k + 1 ≠ k := by omega
        simp only [if_true, if_neg h2, if_neg ht0, if_neg (Nat.succ_ne_zero k)]
        rw [zero_sub, hrn]
      · simp only [if_neg htk1]
        by_cases htk : t = k
        · subst htk
          simp only [if_true]
          rw [neg_add_cancel, hr.zero]
        · simp only [if_neg htk]

theorem accumulateAngleDeltaR_equal_gaps (r : Rounding) (hr : r.Lawful) (fuel : Nat)
    (strength targetGap : ℚ) (sorted : List ChildData) (n : Nat) (gap : ℚ) (hn : 2 ≤ n)
    (hgap : ∀ i, i < n →
      wrapDiffPosR r fuel (r.single ((sorted.getD ((i + 1) % n) default).angle -
        (sorted.getD i default).angle)) = Except.ok gap) :
    accumulateAngleDeltaR r fuel strength targetGap sorted n (List.range n)
        (List.replicate n 0) = Except.ok (List.replicate n 0) := by
  have hrange : List.range n = 0 :: List.range' 1 ((n - 2) + 1) := by
    rw [List.range_eq_range']
    have : n = (n - 2) + 1 + 1 := by omega
    conv_lhs => rw [this]
    rfl
  have hmod : (0 + 1) % n = 1 := Nat.mod_eq_of_lt (by omega)
  have hzero : r.single (r.single ((1 / 2) * r.single (gap - targetGap)) * strength) =
      r.single (r.single (r.single ((1 / 2) * r.single (gap - targetGap)) * strength)) :=
    (hr.idem _).symm
  rw [hrange]
  conv_lhs => rw [replicate_zero_eq_map]
  rw [accumulateAngleDeltaR_step r fuel strength targetGap sorted n 0 _ _ gap (by omega)
    (hgap 0 (by omega)), hmod]
  have := accumulateAngleDeltaR_tail r hr fuel strength targetGap sorted n gap hgap (n - 2) 1
    (le_refl _) (by omega)
  rw [← this]
  congr 1
  apply List.map_congr_left
  intro t _
  simp only [Function.update_apply]
  by_cases ht1 : t = 1
  · subst ht1
    simp only [if_true, if_neg (Nat.succ_ne_zero 0)]
    rw [zero_sub, hr.neg, hr.idem]
  · simp only [if_neg ht1]
    by_cases ht0 : t = 0
    · subst ht0
      simp only [if_true]
      rw [zero_add, hr.idem]
    · simp only [if_neg ht0]

theorem moveChildrenR_zero (r : Rounding) (hr : r.Lawful) (m : Libm) :
    ∀ (pairs : List (ChildData × ℚ)) (nodes : List Node),
      (∀ p ∈ pairs, p.2 = 0 ∧ ∃ child, nodeAt nodes p.1.index = Except.ok child ∧
        r.single child.px = child.px ∧ r.single child.py = child.py) →
      moveChildrenR r m nodes pairs = Except.ok nodes := by
  intro pairs
  induction pairs with
  | nil => intro nodes _; rfl
  | cons p rest ih =>
    intro nodes h
    obtain ⟨cd, delta⟩ := p
    obtain ⟨hz, child, hchild, hx, hy⟩ := h (cd, delta) (List.mem_cons_self _ _)
    simp only at hz hchild
    subst hz
    simp only [moveChildrenR, hchild, mul_zero, add_zero, hr.zero, hx, hy]
    have hsame : ({ child with px := child.px, py := child.py } : Node) = child := rfl
    rw [hsame, set_self_of_getElem? nodes _ child (nodeAt_ok hchild).2]
    simp only [ite_self]
    exact ih nodes (fun q hq => h q (List.mem_cons_of_mem _ hq))

theorem equalizeParentR_many (r : Rounding) (m : Libm) (fuel : Nat) (strength : ℚ)
    (nodes : List Node) (parentIndex : Nat) (parent : Node) (dc : List ChildData)
    (hparent : nodes[parentIndex]? = some parent) (hpk : parent.kind = NodeKind.Directory)
    (hdc : collectDirChildrenR r m nodes parent parent.children = Except.ok dc)
    (hn : 2 ≤ dc.length) (angleDelta : List ℚ)
    (hacc : accumulateAngleDeltaR r fuel strength
      (r.single (r.single twoPi / r.single (dc.length : ℚ))) (sortByAngle dc) dc.length
      (List.range dc.length) (List.replicate dc.length 0) = Except.ok angleDelta) :
    equalizeParentR r m fuel strength nodes parentIndex =
      moveChildrenR r m nodes ((sortByAngle dc).zip angleDelta) := by
  unfold equalizeParentR
  simp only [hparent]
  rw [if_neg (by simp [hpk]), hdc]
  simp only
  cases dc with
  | nil => simp at hn
  | cons a t =>
    cases t with
    | nil => simp at hn
    | cons b t2 =>
      simp only
      unfold sortByAngle at hacc
      rw [hacc]
      rfl

theorem equalizeParentR_no_children (r : Rounding) (m : Libm) (fuel : Nat) (strength : ℚ)
    (nodes : List Node) (j : Nat) (n : Node) (hj : nodes[j]? = some n)
    (hc : n.children = []) :
    equalizeParentR r m fuel strength nodes j = Except.ok nodes := by
  unfold equalizeParentR
  simp only [hj, hc, collectDirChildrenR]
  split <;> rfl

theorem equalizeParentsR_fixed (r : Rounding) (m : Libm) (fuel : Nat) (strength : ℚ)
    (nodes : List Node) :
    ∀ l : List Nat, (∀ j ∈ l, equalizeParentR r m fuel strength nodes j = Except.ok nodes) →
      equalizeParentsR r m fuel strength nodes l = Except.ok nodes := by
  intro l
  induction l with
  | nil => intro _; rfl
  | cons j rest ih =>
    intro h
    simp only [equalizeParentsR, h j (List.mem_cons_self _ _)]
    exact ih (fun k hk => h k (List.mem_cons_of_mem _ hk))

theorem star_passR_fixed (r : Rounding) (m : Libm) (fuel : Nat) (cfg : Config) (g : Graph)
    (parentIndex : Nat)
    (hstep : equalizeParentR r m fuel (r.single cfg.physics.dir_children_angle_strength)
      g.nodes parentIndex = Except.ok g.nodes)
    (hleaf : ∀ (j : Nat) (n : Node), g.nodes[j]? = some n → j ≠ parentIndex → n.children = []) :
    EqualizeChildAnglesR r m fuel cfg g = Except.ok g := by
  unfold EqualizeChildAnglesR
  simp only
  split
  · rfl
  · split
    · rfl
    · rw [equalizeParentsR_fixed r m fuel _ g.nodes (List.range g.nodes.length)]
      intro j hj
      by_cases hjp : j = parentIndex
      · rw [hjp]
        exact hstep
      · have hlt : j < g.nodes.length := List.mem_range.mp hj
        exact equalizeParentR_no_children r m fuel _ g.nodes j _ (List.getElem?_eq_getElem hlt)
          (hleaf j _ (List.getElem?_eq_getElem hlt) hjp)

/-- C31 (counterexample): in `crossGraph` a directory at the origin has four Directory
children on the axes, at `(100, 0)`, `(0, 50)`, `(-100, 0)` and `(0, -200)`, a quarter turn
apart. With binary32 rounding `atan2` returns `-p/2`, `0`, `p/2` and `p` for them in sorted
order, `p = onePiF` being the `float` nearest to `pi`; the first three computed gaps are `p/2`,
which is also the computed `targetGap`, but the gap from the last child round to the first is
`float (-p/2 - p) + float (6.28318530718) = p/2 + 2^-23`. The pass therefore moves the child
at `(-100, 0)` to `(-100, -5 / 2^23)` and the child at `(0, -200)` to `(-5 / 2^22, -200)`.
In exact arithmetic the pass returns the graph unchanged. -/
theorem rounded_gaps_move_cross :
    (crossGraph.nodes.all
      (fun n => decide (roundF32 n.px = n.px ∧ roundF32 n.py = n.py))) = true ∧
    collectDirChildrenR Rounding.ieee libmF32 crossGraph.nodes (hubDirectory [1, 2, 3, 4])
        [1, 2, 3, 4] =
      Except.ok
        [{ index := 1, angle := 0, radius := 100 },
         { index := 2, angle := onePiF / 2, radius := 50 },
         { index := 3, angle := onePiF, radius := 100 },
         { index := 4, angle := -(onePiF / 2), radius := 200 }] ∧
    (sortByAngle
        [{ index := 1, angle := 0, radius := 100 },
         { index := 2, angle := onePiF / 2, radius := 50 },
         { index := 3, angle := onePiF, radius := 100 },
         { index := 4, angle := -(onePiF / 2), radius := 200 }]).map ChildData.index =
      [4, 1, 2, 3] ∧
    [wrapDiffPosR Rounding.ieee 4 (roundF32 (0 - -(onePiF / 2))),
     wrapDiffPosR Rounding.ieee 4 (roundF32 (onePiF / 2 - 0)),
     wrapDiffPosR Rounding.ieee 4 (roundF32 (onePiF - onePiF / 2)),
     wrapDiffPosR Rounding.ieee 4 (roundF32 (-(onePiF / 2) - onePiF))].map Except.toOption =
      [some (onePiF / 2), some (onePiF / 2), some (onePiF / 2),
       some (onePiF / 2 + 1 / 8388608)] ∧
    roundF32 (roundF32 twoPi / roundF32 4) = onePiF / 2 ∧
    EqualizeChildAnglesR Rounding.ieee libmF32 4 {} crossGraph =
      Except.ok { crossGraph with
        nodes := [hubDirectory [1, 2, 3, 4], leafDirectory 1 "a" 100 0, leafDirectory 2 "b" 0 50,
                  (leafDirectory 3 "c" (-100) 0).placeAt (-100) (-5 / 8388608),
                  (leafDirectory 4 "d" 0 (-200)).placeAt (-5 / 4194304) (-200)] } ∧
    EqualizeChildAngles libmQ {} crossGraph = Except.ok crossGraph := by
  refine ⟨by decide!, eq_ok_of_toOption (by decide!), by decide!, by decide!, by decide!,
    eq_ok_of_toOption (by decide!), eq_ok_of_toOption (by decide!)⟩

/-- C31 (amended): for every lawful rounding `r` of the `float` operations (none in exact
arithmetic, `Rounding.ieee` for the compiled code) and a directory whose collected directory
children (the Directory children at a computed distance of at least `0.00001` from it,
`n >= 2` of them, at `float` positions), taken in the sorted order of `EqualizeChildAngles`,
have the same computed gap `wrapDiffPos (angle[(i + 1) % n] - angle[i])` for every `i`: the
adjustments cancel, `angleDelta` is zero for every child after the accumulation loop, and the
step of this directory returns the node sequence unchanged, whatever the strength and
whatever the common gap. When no other node has children (the directory and its children are
the whole tree), one whole `EqualizeChildAngles` pass returns the graph unchanged, so the gaps
and their variance are what they were. -/
theorem equal_computed_gaps_fixed (r : Rounding) (hr : r.Lawful) (m : Libm) (fuel : Nat)
    (cfg : Config) (g : Graph) (parentIndex : Nat) (parent : Node) (dc : List ChildData)
    (gap : ℚ)
    (hparent : g.nodes[parentIndex]? = some parent) (hpk : parent.kind = NodeKind.Directory)
    (hdc : collectDirChildrenR r m g.nodes parent parent.children = Except.ok dc)
    (hn : 2 ≤ dc.length)
    (hgap : ∀ i, i < dc.length →
      wrapDiffPosR r fuel
        (r.single (((sortByAngle dc).getD ((i + 1) % dc.length) default).angle -
          ((sortByAngle dc).getD i default).angle)) = Except.ok gap)
    (hfloat : ∀ cd ∈ dc, ∀ child, nodeAt g.nodes cd.index = Except.ok child →
      r.single child.px = child.px ∧ r.single child.py = child.py) :
    accumulateAngleDeltaR r fuel (r.single cfg.physics.dir_children_angle_strength)
        (r.single (r.single twoPi / r.single (dc.length : ℚ))) (sortByAngle dc) dc.length
        (List.range dc.length) (List.replicate dc.length 0) =
      Except.ok (List.replicate dc.length 0) ∧
    equalizeParentR r m fuel (r.single cfg.physics.dir_children_angle_strength) g.nodes
      parentIndex = Except.ok g.nodes ∧
    ((∀ (j : Nat) (n : Node), g.nodes[j]? = some n → j ≠ parentIndex → n.children = []) →
      EqualizeChildAnglesR r m fuel cfg g = Except.ok g) := by
  have hacc := accumulateAngleDeltaR_equal_gaps r hr fuel
    (r.single cfg.physics.dir_children_angle_strength)
    (r.single (r.single twoPi / r.single (dc.length : ℚ))) (sortByAngle dc) dc.length gap hn hgap
  have hstep : equalizeParentR r m fuel (r.single cfg.physics.dir_children_angle_strength)
      g.nodes parentIndex = Except.ok g.nodes := by
    rw [equalizeParentR_many r m fuel _ g.nodes parentIndex parent dc hparent hpk hdc hn _ hacc]
    apply moveChildrenR_zero r hr
    intro p hp
    obtain ⟨hp1, hp2⟩ := List.of_mem_zip hp
    have hmem := collectDirChildrenR_mem r m g.nodes parent parent.children dc hdc p.1
      ((sortByAngle_perm dc).mem_iff.mp hp1)
    obtain ⟨_, child, hchild, _⟩ := hmem
    have hfl := hfloat p.1 ((sortByAngle_perm dc).mem_iff.mp hp1) child hchild
    exact ⟨(List.mem_replicate.mp hp2).2, child, hchild, hfl.1, hfl.2⟩
  exact ⟨hacc, hstep, fun hleaf => star_passR_fixed r m fuel cfg g parentIndex hstep hleaf⟩

theorem equal_computed_gaps_fixed_witness :
    EqualizeChildAnglesR Rounding.ieee libmF32 4 {} oppositeGraph = Except.ok oppositeGraph := by
  have hdc : collectDirChildrenR Rounding.ieee libmF32 oppositeGraph.nodes (hubDirectory [1, 2])
      (hubDirectory [1, 2]).children =
      Except.ok [{ index := 1, angle := 0, radius := 100 },
                 { index := 2, angle := onePiF, radius := 100 }] :=
    eq_ok_of_toOption (by decide!)
  have h := equal_computed_gaps_fixed Rounding.ieee Rounding.ieee_lawful libmF32 4 {}
    oppositeGraph 0 (hubDirectory [1, 2])
    [{ index := 1, angle := 0, radius := 100 }, { index := 2, angle := onePiF, radius := 100 }]
    onePiF rfl rfl hdc (by decide)
    (by
      intro i hi
      have hi2 : i < 2 := hi
      interval_cases i
      · exact eq_ok_of_toOption (by decide!)
      · exact eq_ok_of_toOption (by decide!))
    (by
      intro cd hcd child hchild
      simp only [List.mem_cons, List.mem_singleton, List.not_mem_nil] at hcd
      rcases hcd with rfl | rfl | h
      · have : child = leafDirectory 1 "a" 100 0 := by
          have h1 := (nodeAt_ok hchild).2
          exact (Option.some.inj h1).symm
        subst this
        exact ⟨by decide!, by decide!⟩
      · have : child = leafDirectory 2 "b" (-100) 0 := by
          have h1 := (nodeAt_ok hchild).2
          exact (Option.some.inj h1).symm
        subst this
        exact ⟨by decide!, by decide!⟩
      · exact absurd h (by simp))
  exact h.2.2 (by
    intro j n hj hjp
    match j, hj, hjp with
    | 0, _, hjp => exact absurd rfl hjp
    | 1, hj, _ =>
      have : n = leafDirectory 1 "a" 100 0 := (Option.some.inj hj).symm
      subst this
      rfl
    | 2, hj, _ =>
      have : n = leafDirectory 2 "b" (-100) 0 := (Option.some.inj hj).symm
      subst this
      rfl
    | k + 3, hj, _ => exact absurd hj (by simp [oppositeGraph]))

end cg
